import Mathlib

/-!
# libtensor block-sparse index spaces

A shallow embedding of `libtensor/block_sparse/sparse_bispace.h`.

* `size_t` values are natural numbers below `2 ^ 64`; subtraction, multiplication and
  addition of element counts wrap as the unsigned machine operations do.
* A C++ exception is a value of `Exn`; an access the C++ standard leaves undefined
  (reading a vector out of range, `back()` of an empty vector) is `Exn.undefined`.
* A mutating member function returns the state of the object after the call together
  with the exception it raised, if any.
-/

namespace libtensor

/-! ## Machine arithmetic and exceptions -/

/-- The modulus of `size_t` arithmetic. -/
def SIZE_T_MOD : Nat := 2 ^ 64

/-- Unsigned `a - b` on `size_t` operands: the difference when `b ≤ a`, and the
wrapped value `a + 2 ^ 64 - b` otherwise. -/
def size_t_sub (a b : Nat) : Nat :=
  if b ≤ a then a - b else a + SIZE_T_MOD - b

/-- Unsigned `a * b` on `size_t` operands. -/
def size_t_mul (a b : Nat) : Nat := (a * b) % SIZE_T_MOD

/-- Unsigned `a + b` on `size_t` operands. -/
def size_t_add (a b : Nat) : Nat := (a + b) % SIZE_T_MOD

/-- The exceptions of the library, and `undefined` for an access whose behaviour the
language does not define. -/
inductive Exn
  | out_of_bounds
  | bad_parameter
  | undefined
deriving DecidableEq, Repr

deriving instance DecidableEq for Except

/-- A counted loop `for (i = start; i < start + count; ++i) out.push_back(f(i))`
whose body may throw: the first exception ends the loop. -/
def for_each_index {α : Type} (f : Nat → Except Exn α) : Nat → Nat → Except Exn (List α)
  | _, 0 => .ok []
  | i, n + 1 =>
    match f i with
    | .error e => .error e
    | .ok x =>
      match for_each_index f (i + 1) n with
      | .error e => .error e
      | .ok xs => .ok (x :: xs)

/-- A counted loop `for (i = start; i < start + count; ++i) body(i)` that updates a
state and may throw: the first exception ends the loop. -/
def for_each_state {σ : Type} (body : σ → Nat → Except Exn σ) : Nat → Nat → σ → Except Exn σ
  | _, 0, st => .ok st
  | i, n + 1, st =>
    match body st i with
    | .error e => .error e
    | .ok st1 => for_each_state body (i + 1) n st1

/-- Unchecked `v[i]` on a `std::vector`: undefined when `i` is out of range. -/
def vector_at {α : Type} (v : List α) (i : Nat) : Except Exn α :=
  match v[i]? with
  | some x => .ok x
  | none => .error .undefined

/-! ## One-dimensional block index space: `sparse_bispace<1>` -/

/-- The data members of `sparse_bispace<1>`. -/
structure sparse_bispace_1 where
  m_dim : Nat
  m_abs_indices : List Nat
deriving DecidableEq, Repr

namespace sparse_bispace_1

/-- The constructor `sparse_bispace<1>::sparse_bispace(size_t dim)`. -/
def ctor (dim : Nat) : sparse_bispace_1 :=
  { m_dim := dim, m_abs_indices := [0] }

/-- The member `get_dim()`. -/
def get_dim (s : sparse_bispace_1) : Nat := s.m_dim

/-- The member `get_n_blocks()`. -/
def get_n_blocks (s : sparse_bispace_1) : Nat := s.m_abs_indices.length

/-- The `for` loop of `split`: the vector `m_abs_indices` when the loop ends and the
exception that ended it, if any. Points pushed before a throw stay in the vector. -/
def split_loop (m_dim : Nat) : List Nat → List Nat → List Nat × Option Exn
  | abs, [] => (abs, none)
  | abs, split_point :: rest =>
    if split_point > size_t_sub m_dim 1 then (abs, some .out_of_bounds)
    else
      match abs.getLast? with
      | none => (abs, some .undefined)
      | some back =>
        if split_point ≤ back then (abs, some .out_of_bounds)
        else split_loop m_dim (abs ++ [split_point]) rest

/-- The member `split(split_points)`: the object after the call and the exception
thrown, if any. -/
def split (s : sparse_bispace_1) (split_points : List Nat) : sparse_bispace_1 × Option Exn :=
  if split_points.length < 1 ∨ split_points.length > size_t_sub s.m_dim 1 then
    (s, some .out_of_bounds)
  else
    let r := split_loop s.m_dim s.m_abs_indices split_points
    ({ s with m_abs_indices := r.1 }, r.2)

/-- The member `get_block_size(block_idx)`. -/
def get_block_size (s : sparse_bispace_1) (block_idx : Nat) : Except Exn Nat :=
  if block_idx > size_t_sub s.m_abs_indices.length 1 then .error .out_of_bounds
  else if block_idx = size_t_sub s.m_abs_indices.length 1 then
    match s.m_abs_indices.getLast? with
    | none => .error .undefined
    | some back => .ok (size_t_sub s.m_dim back)
  else
    match s.m_abs_indices[block_idx + 1]?, s.m_abs_indices[block_idx]? with
    | some next, some cur => .ok (size_t_sub next cur)
    | _, _ => .error .undefined

/-- The member `get_block_abs_index(block_idx)`. -/
def get_block_abs_index (s : sparse_bispace_1) (block_idx : Nat) : Except Exn Nat :=
  if block_idx > size_t_sub s.m_abs_indices.length 1 then .error .out_of_bounds
  else vector_at s.m_abs_indices block_idx

/-- The member `operator[](idx)` of the one-dimensional space. -/
def operator_index (s : sparse_bispace_1) (idx : Nat) : Except Exn sparse_bispace_1 :=
  if idx ≠ 0 then .error .out_of_bounds else .ok s

/-- The member `operator==`. -/
def operator_eq (s rhs : sparse_bispace_1) : Bool :=
  decide (s.m_dim = rhs.m_dim) && decide (s.m_abs_indices = rhs.m_abs_indices)

/-- The member `operator!=`. -/
def operator_ne (s rhs : sparse_bispace_1) : Bool := !(operator_eq s rhs)

/-- The expression `sum(get_block_size(i) for i in blocks)`: the block sizes are read
for `i = 0 .. get_n_blocks() - 1` and added. -/
def sum_block_sizes (s : sparse_bispace_1) : Except Exn Nat :=
  match for_each_index (get_block_size s) 0 (get_n_blocks s) with
  | .error e => .error e
  | .ok sizes => .ok sizes.sum

/-- A valid boundary list for a space of dimension `dim`: non-empty, strictly
increasing, every element in `[1, dim - 1]`. -/
def valid_split (dim : Nat) (L : List Nat) : Prop :=
  L ≠ [] ∧ L.Pairwise (· < ·) ∧ ∀ x ∈ L, 1 ≤ x ∧ x + 1 ≤ dim

instance (dim : Nat) (L : List Nat) : Decidable (valid_split dim L) := by
  unfold valid_split; infer_instance

/-- The start of block `i` after splitting at `L`: `0` for `i = 0` and `L[i-1]`
otherwise. -/
def block_start (L : List Nat) (i : Nat) : Nat :=
  if i = 0 then 0 else L.getD (i - 1) 0

/-- The start of the block after block `i`, or `dim` when `i` is the last block. -/
def block_end (dim : Nat) (L : List Nat) (i : Nat) : Nat :=
  if i = L.length then dim else block_start L (i + 1)

/-- The condition under which `split(L)` is required to fail: `L` is empty, or contains
`0`, or is not strictly increasing, or has an element above `dim - 1`, or has more than
`dim - 1` elements (the comparisons with `dim - 1` are those of the integers). -/
def split_must_fail (dim : Nat) (L : List Nat) : Prop :=
  L = [] ∨ 0 ∈ L ∨ ¬ L.Pairwise (· < ·) ∨ (∃ x ∈ L, dim < x + 1) ∨ dim < L.length + 1

/-- The block sizes that a vector of block starts determines, in order. -/
def sizes_of (dim : Nat) : List Nat → List Nat
  | [] => []
  | [a] => [size_t_sub dim a]
  | a :: b :: rest => size_t_sub b a :: sizes_of dim (b :: rest)

end sparse_bispace_1

/-! ## Sparsity trees -/

/-- Modelled from the spec: `impl::sparse_block_tree_any_order`, whose header
`sparse_block_tree.h` is not among the sources. The record keeps what `sparse_bispace`
reads from a tree: the number of coupled subspaces (`get_order()`), the count stored
by the tree (`get_nnz()`), and the significant block tuples that make two trees equal
or different. The operations that build one tree from another (`contract`, `fuse`,
`permute`) are parameters of the functions that call them. -/
structure sparse_block_tree_any_order where
  m_order : Nat
  m_nnz : Nat
  m_sig_blocks : List (List Nat)
deriving DecidableEq, Repr

namespace sparse_block_tree_any_order

/-- The member `get_order()`. -/
def get_order (t : sparse_block_tree_any_order) : Nat := t.m_order

/-- The member `get_nnz()`. -/
def get_nnz (t : sparse_block_tree_any_order) : Nat := t.m_nnz

end sparse_block_tree_any_order

/-! ## N-dimensional block index space: `sparse_bispace<N>` -/

/-- The template parameter `N` and the data members of the general `sparse_bispace<N>`. -/
structure sparse_bispace where
  N : Nat
  m_subspaces : List sparse_bispace_1
  m_sparse_indices_sets_offsets : List Nat
  m_sparse_block_trees : List sparse_block_tree_any_order
  m_sparse_block_tree_dimensions : List Nat
  m_dimensions : List Nat
  m_inner_sizes : List Nat
  m_sparse_key_vecs : List (List Nat)
deriving DecidableEq, Repr

/-- An argument of type `sparse_bispace<L>`: the one-dimensional specialisation for
`L = 1`, the general class otherwise. -/
inductive bispace_operand
  | order_1 (s : sparse_bispace_1)
  | order_n (s : sparse_bispace)
deriving DecidableEq, Repr

namespace sparse_bispace

/-- An object of `sparse_bispace<N>` at the start of a constructor body: every vector
is empty. -/
def blank (N : Nat) : sparse_bispace :=
  { N := N, m_subspaces := [], m_sparse_indices_sets_offsets := [],
    m_sparse_block_trees := [], m_sparse_block_tree_dimensions := [],
    m_dimensions := [], m_inner_sizes := [], m_sparse_key_vecs := [] }

/-- The `while (subspace_idx < N)` loop of `init()`, which fills `m_dimensions`. Every
pass advances `subspace_idx` or `cur_group_idx`, so `N + #groups + 1` passes always
suffice; `none` is returned when `fuel` passes were not enough. -/
def init_dims_loop (self : sparse_bispace) :
    Nat → Nat → Nat → List Nat → Option (Except Exn (List Nat))
  | 0, _, _, _ => none
  | fuel + 1, subspace_idx, cur_group_idx, dims =>
    if subspace_idx < self.N then
      let treat_as_sparse :=
        match self.m_sparse_indices_sets_offsets[cur_group_idx]? with
        | some off => decide (subspace_idx = off)
        | none => false
      if treat_as_sparse then
        match vector_at self.m_sparse_block_tree_dimensions cur_group_idx,
            vector_at self.m_sparse_block_trees cur_group_idx with
        | .ok d, .ok tree =>
          init_dims_loop self fuel (subspace_idx + tree.get_order) (cur_group_idx + 1)
            (dims ++ [d])
        | .error e, _ => some (.error e)
        | _, .error e => some (.error e)
      else
        match vector_at self.m_subspaces subspace_idx with
        | .ok sub => init_dims_loop self fuel (subspace_idx + 1) cur_group_idx
            (dims ++ [sub.get_dim])
        | .error e => some (.error e)
    else some (.ok dims)

/-- The inner size of slot `inner_size_idx`: the `size_t` product of the dimensions of
the later slots. -/
def inner_size_of (dims : List Nat) (inner_size_idx : Nat) : Nat :=
  (dims.drop (inner_size_idx + 1)).foldl size_t_mul 1

/-- The member `init()`: the object with `m_dimensions`, `m_sparse_key_vecs` and
`m_inner_sizes` filled in. -/
def init (self : sparse_bispace) : Option (Except Exn sparse_bispace) :=
  if self.m_dimensions.length > 0 then some (.error .bad_parameter)
  else
    match init_dims_loop self (self.N + self.m_sparse_indices_sets_offsets.length + 1) 0 0
        self.m_dimensions with
    | none => none
    | some (.error e) => some (.error e)
    | some (.ok dims) =>
      some (.ok { self with
        m_dimensions := dims
        m_sparse_key_vecs := self.m_sparse_key_vecs ++
          self.m_sparse_block_trees.map (fun sbt => List.replicate sbt.get_order 0)
        m_inner_sizes := (List.range dims.length).map (inner_size_of dims) })

/-- The member `get_nnz()`. -/
def get_nnz (self : sparse_bispace) : Nat :=
  self.m_dimensions.foldl size_t_mul 1

/-- The member `get_n_sparse_groups()`. -/
def get_n_sparse_groups (self : sparse_bispace) : Nat := self.m_sparse_block_trees.length

/-- The member `operator[](idx)`. -/
def operator_index (self : sparse_bispace) (idx : Nat) : Except Exn sparse_bispace_1 :=
  if idx > size_t_sub self.m_subspaces.length 1 then .error .out_of_bounds
  else vector_at self.m_subspaces idx

end sparse_bispace

namespace bispace_operand

/-- The template argument `L` of an argument of type `sparse_bispace<L>`. -/
def order : bispace_operand → Nat
  | order_1 _ => 1
  | order_n s => s.N

/-- The member `operator[](idx)` of the argument. -/
def operator_index : bispace_operand → Nat → Except Exn sparse_bispace_1
  | order_1 s, idx => s.operator_index idx
  | order_n s, idx => s.operator_index idx

/-- The member `get_n_sparse_groups()` of the argument. -/
def get_n_sparse_groups : bispace_operand → Nat
  | order_1 _ => 0
  | order_n s => s.get_n_sparse_groups

end bispace_operand

namespace sparse_bispace

/-- The two overloads of `absorb_sparsity(rhs, offset)`: nothing for a one-dimensional
`rhs`; otherwise the offsets (shifted by `offset`), trees and tree dimensions of `rhs`
are appended, group by group. -/
def absorb_sparsity (self : sparse_bispace) (rhs : bispace_operand) (offset : Nat) :
    Except Exn sparse_bispace :=
  match rhs with
  | .order_1 _ => .ok self
  | .order_n r =>
    match for_each_index (fun i =>
        match vector_at r.m_sparse_indices_sets_offsets i, vector_at r.m_sparse_block_trees i,
            vector_at r.m_sparse_block_tree_dimensions i with
        | .ok off, .ok tree, .ok d => .ok (off + offset, tree, d)
        | .error e, _, _ => .error e
        | _, .error e, _ => .error e
        | _, _, .error e => .error e) 0 r.m_sparse_indices_sets_offsets.length with
    | .error e => .error e
    | .ok groups =>
      .ok { self with
        m_sparse_indices_sets_offsets :=
          self.m_sparse_indices_sets_offsets ++ groups.map (fun g => g.1)
        m_sparse_block_trees := self.m_sparse_block_trees ++ groups.map (fun g => g.2.1)
        m_sparse_block_tree_dimensions :=
          self.m_sparse_block_tree_dimensions ++ groups.map (fun g => g.2.2) }

/-- The constructor `sparse_bispace<N>(const sparse_bispace<N-L>& lhs,
const sparse_bispace<L>& rhs)` behind `operator|`. -/
def ctor_compose (lhs rhs : bispace_operand) : Option (Except Exn sparse_bispace) :=
  match for_each_index lhs.operator_index 0 lhs.order,
      for_each_index rhs.operator_index 0 rhs.order with
  | .ok from_lhs, .ok from_rhs =>
    let self := { blank (lhs.order + rhs.order) with m_subspaces := from_lhs ++ from_rhs }
    match absorb_sparsity self lhs 0 with
    | .error e => some (.error e)
    | .ok self =>
      match absorb_sparsity self rhs lhs.order with
      | .error e => some (.error e)
      | .ok self => init self
  | .error e, _ => some (.error e)
  | _, .error e => some (.error e)

/-- The inner loop of `get_block_offset_canonical`: the `size_t` product of `get_dim()`
of the subspaces `i + 1 .. N - 1`, read without a range check. -/
def canonical_inner_size (self : sparse_bispace) (i : Nat) : Except Exn Nat :=
  match for_each_index (vector_at self.m_subspaces) (i + 1) (self.N - (i + 1)) with
  | .error e => .error e
  | .ok later => .ok (later.foldl (fun inner_size sub => size_t_mul inner_size sub.get_dim) 1)

/-- The outer loop of `get_block_offset_canonical` from position `i` on, with the block
indices still to be read and the offset accumulated so far. -/
def canonical_loop (self : sparse_bispace) : List Nat → Nat → Nat → Except Exn Nat
  | [], _, offset => .ok offset
  | block_idx :: rest, i, offset =>
    match canonical_inner_size self i, vector_at self.m_subspaces i with
    | .ok inner_size, .ok sub =>
      match sub.get_block_abs_index block_idx with
      | .ok abs_index =>
        canonical_loop self rest (i + 1) (size_t_add offset (size_t_mul abs_index inner_size))
      | .error e => .error e
    | .error e, _ => .error e
    | _, .error e => .error e

/-- The member `get_block_offset_canonical(block_indices)`. -/
def get_block_offset_canonical (self : sparse_bispace) (block_indices : List Nat) :
    Except Exn Nat :=
  canonical_loop self block_indices 0 0

/-- The private constructor `sparse_bispace<1>(const sparse_bispace<2>& parent,
size_t contract_idx)`. It reserves room in `m_abs_indices` without resizing it and
then assigns `m_abs_indices[i]` for every block start of the kept subspace: each
assignment is an access beyond `size()`. The constructor is private and
`sparse_bispace<1>` declares no friend, so the one call of it, in `contract` of a space
of order 2, is not accepted by the compiler; the body is given as it is written. -/
def ctor_contract_1 (parent : sparse_bispace) (contract_idx : Nat) :
    Except Exn sparse_bispace_1 :=
  match vector_at parent.m_subspaces (if contract_idx ≠ 0 then 1 else 0) with
  | .error e => .error e
  | .ok target =>
    if target.m_abs_indices.length > 0 then .error .undefined
    else .ok { m_dim := target.get_dim, m_abs_indices := [] }

/-- The first loop of the contracting constructor: `parent.m_subspaces[i]` is copied
for `i = start .. start + count - 1`, except `i = contract_idx`. -/
def contract_subspaces (parent_subspaces : List sparse_bispace_1) (contract_idx : Nat) :
    Nat → Nat → Except Exn (List sparse_bispace_1)
  | _, 0 => .ok []
  | i, n + 1 =>
    if i = contract_idx then contract_subspaces parent_subspaces contract_idx (i + 1) n
    else
      match vector_at parent_subspaces i with
      | .error e => .error e
      | .ok sub =>
        match contract_subspaces parent_subspaces contract_idx (i + 1) n with
        | .error e => .error e
        | .ok rest => .ok (sub :: rest)

/-- One pass of the second loop of the contracting constructor, for the group
`group_idx` of the parent. `tree_contract` is the member `contract(rel_idx,
tree_subspaces)` of the tree. -/
def contract_group
    (tree_contract : sparse_block_tree_any_order → Nat → List sparse_bispace_1 →
      sparse_block_tree_any_order)
    (parent : sparse_bispace) (contract_idx : Nat) (self : sparse_bispace) (group_idx : Nat) :
    Except Exn sparse_bispace :=
  match vector_at parent.m_sparse_block_trees group_idx,
      vector_at parent.m_sparse_indices_sets_offsets group_idx with
  | .ok cur_tree, .ok offset =>
    let order := cur_tree.get_order
    let new_group_offset := if offset > contract_idx then size_t_sub offset 1 else offset
    if offset ≤ contract_idx ∧ contract_idx < offset + order then
      if order = 2 then .ok self
      else
        match for_each_index (vector_at self.m_subspaces) new_group_offset
            (size_t_sub (new_group_offset + order) 1 - new_group_offset) with
        | .error e => .error e
        | .ok tree_subspaces =>
          let rel_idx := size_t_sub contract_idx offset
          let new_tree := tree_contract cur_tree rel_idx tree_subspaces
          .ok { self with
            m_sparse_block_tree_dimensions :=
              self.m_sparse_block_tree_dimensions ++ [new_tree.get_nnz]
            m_sparse_block_trees := self.m_sparse_block_trees ++ [new_tree]
            m_sparse_indices_sets_offsets :=
              self.m_sparse_indices_sets_offsets ++ [new_group_offset] }
    else
      match vector_at parent.m_sparse_block_tree_dimensions group_idx with
      | .error e => .error e
      | .ok d =>
        .ok { self with
          m_sparse_indices_sets_offsets :=
            self.m_sparse_indices_sets_offsets ++ [new_group_offset]
          m_sparse_block_trees := self.m_sparse_block_trees ++ [cur_tree]
          m_sparse_block_tree_dimensions := self.m_sparse_block_tree_dimensions ++ [d] }
  | .error e, _ => .error e
  | _, .error e => .error e

/-- The constructor `sparse_bispace<N>(const sparse_bispace<N+1>& parent,
size_t contract_idx)` of the general class. -/
def ctor_contract
    (tree_contract : sparse_block_tree_any_order → Nat → List sparse_bispace_1 →
      sparse_block_tree_any_order)
    (N : Nat) (parent : sparse_bispace) (contract_idx : Nat) :
    Option (Except Exn sparse_bispace) :=
  match contract_subspaces parent.m_subspaces contract_idx 0 (N + 1) with
  | .error e => some (.error e)
  | .ok subspaces =>
    match for_each_state (contract_group tree_contract parent contract_idx) 0
        parent.m_sparse_block_trees.length { blank N with m_subspaces := subspaces } with
    | .error e => some (.error e)
    | .ok self => init self

/-- The member `contract(contract_idx)` of `sparse_bispace<N>`. Its result has type
`sparse_bispace<N-1>`: the one-dimensional specialisation when `N = 2`, the general
class otherwise. -/
def contract
    (tree_contract : sparse_block_tree_any_order → Nat → List sparse_bispace_1 →
      sparse_block_tree_any_order)
    (self : sparse_bispace) (contract_idx : Nat) : Option (Except Exn bispace_operand) :=
  if contract_idx > size_t_sub self.N 1 then some (.error .bad_parameter)
  else if self.N - 1 = 1 then
    match ctor_contract_1 self contract_idx with
    | .error e => some (.error e)
    | .ok r => some (.ok (.order_1 r))
  else
    match ctor_contract tree_contract (self.N - 1) self contract_idx with
    | none => none
    | some (.error e) => some (.error e)
    | some (.ok r) => some (.ok (.order_n r))

/-- A stand-in for the tree member `contract`, used to evaluate examples: it removes
the coordinate `rel_idx` from every significant block. -/
def sample_tree_contract (tree : sparse_block_tree_any_order) (rel_idx : Nat)
    (_tree_subspaces : List sparse_bispace_1) : sparse_block_tree_any_order :=
  { m_order := tree.m_order - 1, m_nnz := tree.m_nnz,
    m_sig_blocks := tree.m_sig_blocks.map (fun key => key.eraseIdx rel_idx) }

end sparse_bispace

/-- The operator `lhs | rhs` in each of its overloads. -/
def operator_bar (lhs rhs : bispace_operand) : Option (Except Exn sparse_bispace) :=
  sparse_bispace.ctor_compose lhs rhs

/-- An expression that builds a space from one-dimensional spaces with `|` alone. -/
inductive bispace_expr
  | space (s : sparse_bispace_1)
  | bar (lhs rhs : bispace_expr)

namespace bispace_expr

/-- The one-dimensional spaces of the expression, left to right. -/
def spaces : bispace_expr → List sparse_bispace_1
  | space s => [s]
  | bar lhs rhs => spaces lhs ++ spaces rhs

/-- The value of the expression. -/
def eval : bispace_expr → Option (Except Exn bispace_operand)
  | space s => some (.ok (.order_1 s))
  | bar lhs rhs =>
    match eval lhs, eval rhs with
    | some (.ok a), some (.ok b) =>
      match operator_bar a b with
      | some (.ok c) => some (.ok (.order_n c))
      | some (.error e) => some (.error e)
      | none => none
    | some (.error e), _ => some (.error e)
    | none, _ => none
    | _, some (.error e) => some (.error e)
    | _, none => none

end bispace_expr

/-! ## Class invariants and specification-side expressions -/

namespace sparse_bispace

/-- The vector sizes that every constructor of `sparse_bispace<N>` establishes: `N`
subspaces, and one offset and one stored dimension per tree. -/
def well_formed (s : sparse_bispace) : Prop :=
  s.m_subspaces.length = s.N ∧
    s.m_sparse_indices_sets_offsets.length = s.m_sparse_block_trees.length ∧
    s.m_sparse_block_tree_dimensions.length = s.m_sparse_block_trees.length

instance (s : sparse_bispace) : Decidable (well_formed s) := by
  unfold well_formed; infer_instance

/-- The object a constructor has assembled when it calls `init()`: subspaces and
sparse groups are in place, the derived vectors are still empty. -/
def before_init (N : Nat) (subspaces : List sparse_bispace_1) (offsets : List Nat)
    (trees : List sparse_block_tree_any_order) (tree_dimensions : List Nat) : sparse_bispace :=
  { N := N, m_subspaces := subspaces, m_sparse_indices_sets_offsets := offsets,
    m_sparse_block_trees := trees, m_sparse_block_tree_dimensions := tree_dimensions,
    m_dimensions := [], m_inner_sizes := [], m_sparse_key_vecs := [] }

/-- The row-major start offset of a block tuple, from the subspaces alone: the sum over
`i` of the absolute start of block `b_i` in subspace `i` times the product of the
dimensions of all subspaces after `i`. -/
def row_major_offset : List sparse_bispace_1 → List Nat → Nat
  | sub :: later, b :: bs =>
    sub.m_abs_indices.getD b 0 * (later.map sparse_bispace_1.get_dim).prod +
      row_major_offset later bs
  | _, _ => 0

/-- Every component of the block tuple is a block of the subspace at its position. -/
def valid_block_tuple (subspaces : List sparse_bispace_1) (block_indices : List Nat) : Prop :=
  block_indices.length = subspaces.length ∧
    ∀ p ∈ List.zip subspaces block_indices, p.2 < p.1.get_n_blocks

instance (subspaces : List sparse_bispace_1) (block_indices : List Nat) :
    Decidable (valid_block_tuple subspaces block_indices) := by
  unfold valid_block_tuple; infer_instance

/-- A space of order 2 whose two subspaces are coupled by one sparse group. -/
def sample_sparse_space : sparse_bispace :=
  { N := 2
    m_subspaces := [(sparse_bispace_1.split (sparse_bispace_1.ctor 10) [3, 7]).1,
      (sparse_bispace_1.split (sparse_bispace_1.ctor 6) [2]).1]
    m_sparse_indices_sets_offsets := [0]
    m_sparse_block_trees := [{ m_order := 2, m_nnz := 14, m_sig_blocks := [[0, 0], [1, 1]] }]
    m_sparse_block_tree_dimensions := [14]
    m_dimensions := [14]
    m_inner_sizes := [1]
    m_sparse_key_vecs := [[0, 0]] }

/-- A space of order 3: a sparse group over subspaces 0 and 1, then a dense subspace. -/
def sample_order_3 : sparse_bispace :=
  { N := 3
    m_subspaces := [(sparse_bispace_1.split (sparse_bispace_1.ctor 10) [3, 7]).1,
      (sparse_bispace_1.split (sparse_bispace_1.ctor 6) [2]).1, sparse_bispace_1.ctor 4]
    m_sparse_indices_sets_offsets := [0]
    m_sparse_block_trees := [{ m_order := 2, m_nnz := 14, m_sig_blocks := [[0, 0], [1, 1]] }]
    m_sparse_block_tree_dimensions := [14]
    m_dimensions := [14, 4]
    m_inner_sizes := [4, 1]
    m_sparse_key_vecs := [[0, 0]] }

/-- Every sparse group lies inside the space: its footprint `[offset, offset + order)`
ends at or before `N`. -/
def groups_in_range (s : sparse_bispace) : Prop :=
  ∀ g ∈ List.zip s.m_sparse_indices_sets_offsets s.m_sparse_block_trees,
    g.1 + g.2.get_order ≤ s.N

instance (s : sparse_bispace) : Decidable (groups_in_range s) := by
  unfold groups_in_range; infer_instance

end sparse_bispace

namespace bispace_operand

/-- The invariant `sparse_bispace.well_formed` for an argument of either kind. -/
def well_formed : bispace_operand → Prop
  | order_1 _ => True
  | order_n s => s.well_formed

instance (a : bispace_operand) : Decidable (well_formed a) := by
  cases a <;> unfold well_formed <;> infer_instance

/-- The subspaces of the argument, in order. -/
def subspaces : bispace_operand → List sparse_bispace_1
  | order_1 s => [s]
  | order_n s => s.m_subspaces

/-- The offsets of the sparse groups of the argument, in order. -/
def sparse_offsets : bispace_operand → List Nat
  | order_1 _ => []
  | order_n s => s.m_sparse_indices_sets_offsets

/-- The trees of the sparse groups of the argument, in order. -/
def sparse_trees : bispace_operand → List sparse_block_tree_any_order
  | order_1 _ => []
  | order_n s => s.m_sparse_block_trees

/-- The stored tree dimensions of the argument, in order. -/
def sparse_tree_dimensions : bispace_operand → List Nat
  | order_1 _ => []
  | order_n s => s.m_sparse_block_tree_dimensions

end bispace_operand

/-! ## Equality, fusion -/

namespace sparse_bispace

/-- A loop `for (i = start; i < start + count; ++i) if (!p(i)) return false;` followed
by `return true`, whose test may throw. -/
def all_index (p : Nat → Except Exn Bool) : Nat → Nat → Except Exn Bool
  | _, 0 => .ok true
  | i, n + 1 =>
    match p i with
    | .error e => .error e
    | .ok false => .ok false
    | .ok true => all_index p (i + 1) n

/-- The test `!(v[i] != w[i])` of a loop that compares two vectors element by element;
`same a b` is `!(a != b)`. Both elements are read without a range check. -/
def compare_at {α : Type} (same : α → α → Bool) (v w : List α) (i : Nat) : Except Exn Bool :=
  match vector_at v i, vector_at w i with
  | .ok a, .ok b => .ok (same a b)
  | .error e, _ => .error e
  | _, .error e => .error e

/-- The member `operator==` of the general class; `tree_ne` is `operator!=` of the
trees. -/
def operator_eq (tree_ne : sparse_block_tree_any_order → sparse_block_tree_any_order → Bool)
    (self rhs : sparse_bispace) : Except Exn Bool :=
  match all_index (compare_at (fun a b => !(sparse_bispace_1.operator_ne a b))
      self.m_subspaces rhs.m_subspaces) 0 self.N with
  | .error e => .error e
  | .ok false => .ok false
  | .ok true =>
    if self.m_sparse_indices_sets_offsets.length ≠ rhs.m_sparse_indices_sets_offsets.length then
      .ok false
    else
      match all_index (compare_at (fun a b => !(decide (a ≠ b)))
          self.m_sparse_indices_sets_offsets rhs.m_sparse_indices_sets_offsets) 0
          self.m_sparse_indices_sets_offsets.length with
      | .error e => .error e
      | .ok false => .ok false
      | .ok true =>
        all_index (compare_at (fun a b => !(tree_ne a b))
          self.m_sparse_block_trees rhs.m_sparse_block_trees) 0
          self.m_sparse_block_trees.length

/-- The member `operator!=` of the general class. -/
def operator_ne (tree_ne : sparse_block_tree_any_order → sparse_block_tree_any_order → Bool)
    (self rhs : sparse_bispace) : Except Exn Bool :=
  match operator_eq tree_ne self rhs with
  | .error e => .error e
  | .ok b => .ok (!b)

/-- The test of the fusing constructor that decides whether the last tree of `lhs` and
the first tree of `rhs` are merged. `rhs.m_sparse_indices_sets_offsets[0]` is read
without a range check as soon as the last group of `lhs` ends at the seam. -/
def fuse_sparsity_test (lhs rhs : sparse_bispace) : Except Exn Bool :=
  if lhs.m_sparse_indices_sets_offsets.length > 0 then
    match lhs.m_sparse_indices_sets_offsets.getLast?, lhs.m_sparse_block_trees.getLast? with
    | some last_lhs_group_offset, some last_tree =>
      if last_lhs_group_offset + last_tree.get_order = lhs.N then
        match vector_at rhs.m_sparse_indices_sets_offsets 0 with
        | .ok first_rhs_offset => .ok (decide (first_rhs_offset = 0))
        | .error e => .error e
      else .ok false
    | _, _ => .error .undefined
  else .ok false

/-- Erasing `v.begin() + idx` from a vector: undefined unless `idx < v.size()`. -/
def vector_erase {α : Type} (v : List α) (idx : Nat) : Except Exn (List α) :=
  if idx < v.length then .ok (v.eraseIdx idx) else .error .undefined

/-- The block of the fusing constructor that merges the last tree of `lhs` with the
first tree of `rhs` and erases the entries of the latter. `tree_fuse` and
`set_offsets_sizes_nnz` are the members of the tree with these names. The stored
dimension of the merged group is left as it was. -/
def fuse_patch
    (tree_fuse : sparse_block_tree_any_order → sparse_block_tree_any_order →
      sparse_block_tree_any_order)
    (set_offsets_sizes_nnz : sparse_block_tree_any_order → List sparse_bispace_1 →
      sparse_block_tree_any_order)
    (lhs : sparse_bispace) (self : sparse_bispace) : Except Exn sparse_bispace :=
  let last_lhs_tree_idx := size_t_sub lhs.m_sparse_block_trees.length 1
  let first_rhs_tree_idx := last_lhs_tree_idx + 1
  match vector_at self.m_sparse_block_trees last_lhs_tree_idx,
      vector_at self.m_sparse_block_trees first_rhs_tree_idx with
  | .ok last_tree, .ok first_tree =>
    let trees := self.m_sparse_block_trees.set last_lhs_tree_idx
      (set_offsets_sizes_nnz (tree_fuse last_tree first_tree) self.m_subspaces)
    match vector_erase self.m_sparse_indices_sets_offsets first_rhs_tree_idx,
        vector_erase trees first_rhs_tree_idx,
        vector_erase self.m_sparse_block_tree_dimensions first_rhs_tree_idx with
    | .ok offsets, .ok trees, .ok dimensions =>
      .ok { self with
        m_sparse_indices_sets_offsets := offsets
        m_sparse_block_trees := trees
        m_sparse_block_tree_dimensions := dimensions }
    | .error e, _, _ => .error e
    | _, .error e, _ => .error e
    | _, _, .error e => .error e
  | .error e, _ => .error e
  | _, .error e => .error e

/-- The constructor `sparse_bispace<N>(const sparse_bispace<N-L+1>& lhs,
const sparse_bispace<L>& rhs)` used by `fuse`: `N - L + 1` is the order of `lhs` and
`N - L` is that order minus one. -/
def ctor_fuse
    (tree_fuse : sparse_block_tree_any_order → sparse_block_tree_any_order →
      sparse_block_tree_any_order)
    (set_offsets_sizes_nnz : sparse_block_tree_any_order → List sparse_bispace_1 →
      sparse_block_tree_any_order)
    (lhs rhs : sparse_bispace) : Option (Except Exn sparse_bispace) :=
  match for_each_index (vector_at lhs.m_subspaces) 0 lhs.N,
      for_each_index (vector_at rhs.m_subspaces) 1 (rhs.N - 1) with
  | .ok from_lhs, .ok from_rhs =>
    let self := { blank (size_t_sub (lhs.N + rhs.N) 1) with m_subspaces := from_lhs ++ from_rhs }
    match fuse_sparsity_test lhs rhs with
    | .error e => some (.error e)
    | .ok fuse_sparsity =>
      match absorb_sparsity self (.order_n lhs) 0 with
      | .error e => some (.error e)
      | .ok self =>
        match absorb_sparsity self (.order_n rhs) (size_t_sub lhs.N 1) with
        | .error e => some (.error e)
        | .ok self =>
          if fuse_sparsity then
            match fuse_patch tree_fuse set_offsets_sizes_nnz lhs self with
            | .error e => some (.error e)
            | .ok self => init self
          else init self
  | .error e, _ => some (.error e)
  | _, .error e => some (.error e)

/-- The member `fuse(rhs)` of `sparse_bispace<N>`. -/
def fuse
    (tree_fuse : sparse_block_tree_any_order → sparse_block_tree_any_order →
      sparse_block_tree_any_order)
    (set_offsets_sizes_nnz : sparse_block_tree_any_order → List sparse_bispace_1 →
      sparse_block_tree_any_order)
    (self rhs : sparse_bispace) : Option (Except Exn sparse_bispace) :=
  match vector_at self.m_subspaces (size_t_sub self.N 1), operator_index rhs 0 with
  | .ok last, .ok first =>
    if last.operator_ne first then some (.error .bad_parameter)
    else ctor_fuse tree_fuse set_offsets_sizes_nnz self rhs
  | .error e, _ => some (.error e)
  | _, .error e => some (.error e)

/-- A stand-in for the tree member `fuse`, used to evaluate examples: the blocks of the
two trees that agree on the shared coordinate are joined. -/
def sample_tree_fuse (a b : sparse_block_tree_any_order) : sparse_block_tree_any_order :=
  { m_order := a.m_order + b.m_order - 1, m_nnz := a.m_nnz,
    m_sig_blocks := a.m_sig_blocks.flatMap (fun x =>
      (b.m_sig_blocks.filter (fun y => x.getLast? == y.head?)).map (fun y => x ++ y.tail)) }

/-- A stand-in for the tree member `set_offsets_sizes_nnz`, used to evaluate examples:
the count becomes the number of elements of the significant blocks. -/
def sample_set_offsets_sizes_nnz (t : sparse_block_tree_any_order)
    (subspaces : List sparse_bispace_1) : sparse_block_tree_any_order :=
  { t with m_nnz := (t.m_sig_blocks.map (fun key =>
      ((List.zip subspaces key).map (fun p =>
        match p.1.get_block_size p.2 with
        | .ok n => n
        | .error _ => 0)).prod)).sum }

/-- The dense space `i | j` with `i` of dimension 10 split at `[3, 7]` and `j` of
dimension 6 split at `[2]`. -/
def sample_matrix_space : sparse_bispace :=
  { N := 2
    m_subspaces := [(sparse_bispace_1.split (sparse_bispace_1.ctor 10) [3, 7]).1,
      (sparse_bispace_1.split (sparse_bispace_1.ctor 6) [2]).1]
    m_sparse_indices_sets_offsets := []
    m_sparse_block_trees := []
    m_sparse_block_tree_dimensions := []
    m_dimensions := [10, 6]
    m_inner_sizes := [6, 1]
    m_sparse_key_vecs := [] }

/-- The dense space `j | l` with `j` of dimension 6 split at `[2]` and `l` of
dimension 4. -/
def sample_dense_rhs : sparse_bispace :=
  { N := 2
    m_subspaces := [(sparse_bispace_1.split (sparse_bispace_1.ctor 6) [2]).1,
      sparse_bispace_1.ctor 4]
    m_sparse_indices_sets_offsets := []
    m_sparse_block_trees := []
    m_sparse_block_tree_dimensions := []
    m_dimensions := [6, 4]
    m_inner_sizes := [4, 1]
    m_sparse_key_vecs := [] }

end sparse_bispace

namespace sparse_bispace

/-- The dense space `i | j | k` with dimensions 10, 6 and 4. -/
def sample_order_3_dense : sparse_bispace :=
  { N := 3
    m_subspaces := [(sparse_bispace_1.split (sparse_bispace_1.ctor 10) [3, 7]).1,
      (sparse_bispace_1.split (sparse_bispace_1.ctor 6) [2]).1, sparse_bispace_1.ctor 4]
    m_sparse_indices_sets_offsets := []
    m_sparse_block_trees := []
    m_sparse_block_tree_dimensions := []
    m_dimensions := [10, 6, 4]
    m_inner_sizes := [24, 4, 1]
    m_sparse_key_vecs := [] }

/-- The dense space `k | l | m` with dimensions 4, 5 and 3, whose first subspace is the
last subspace of `sample_order_3_dense`. -/
def sample_order_3_seam : sparse_bispace :=
  { N := 3
    m_subspaces := [sparse_bispace_1.ctor 4, sparse_bispace_1.ctor 5, sparse_bispace_1.ctor 3]
    m_sparse_indices_sets_offsets := []
    m_sparse_block_trees := []
    m_sparse_block_tree_dimensions := []
    m_dimensions := [4, 5, 3]
    m_inner_sizes := [15, 3, 1]
    m_sparse_key_vecs := [] }

end sparse_bispace

/-! ## Permutation -/

namespace sparse_bispace

/-- One pass of the first loop of `permute`: `copy.m_subspaces[i] =
m_subspaces[perm[i]]`. A `permutation<N>` is the list of its entries, and `perm[i]` is
read as a vector element. -/
def permute_subspace_step (self : sparse_bispace) (perm : List Nat) (copy : sparse_bispace)
    (i : Nat) : Except Exn sparse_bispace :=
  match vector_at perm i with
  | .error e => .error e
  | .ok src_idx =>
    match vector_at self.m_subspaces src_idx with
    | .error e => .error e
    | .ok sub =>
      if i < copy.m_subspaces.length then
        .ok { copy with m_subspaces := copy.m_subspaces.set i sub }
      else .error .undefined

/-- One pass of the innermost loop of `permute`, for position `order_idx` of the group
that starts at `sparse_set_offset`: the tree-relative source index and the subspace at
the source position, or `bad_parameter` when the source lies outside the group. -/
def permute_tree_entry (self : sparse_bispace) (perm : List Nat)
    (sparse_set_offset order order_idx : Nat) : Except Exn (Nat × sparse_bispace_1) :=
  match vector_at perm (sparse_set_offset + order_idx) with
  | .error e => .error e
  | .ok src_idx =>
    if src_idx < sparse_set_offset ∨ src_idx > size_t_sub (sparse_set_offset + order) 1 then
      .error .bad_parameter
    else
      match vector_at self.m_subspaces src_idx with
      | .error e => .error e
      | .ok sub => .ok (size_t_sub src_idx sparse_set_offset, sub)

/-- One pass of the loop of `permute` over the sparse groups. `tree_permute` and
`set_offsets_sizes_nnz` are the members of the tree with these names; a
`runtime_permutation` is the list of its entries and the identity of order `k` is
`0, 1, .., k-1`. -/
def permute_group_step
    (tree_permute : sparse_block_tree_any_order → List Nat → sparse_block_tree_any_order)
    (set_offsets_sizes_nnz : sparse_block_tree_any_order → List sparse_bispace_1 →
      sparse_block_tree_any_order)
    (self : sparse_bispace) (perm : List Nat) (copy : sparse_bispace) (i : Nat) :
    Except Exn sparse_bispace :=
  match vector_at self.m_sparse_indices_sets_offsets i, vector_at self.m_sparse_block_trees i with
  | .ok sparse_set_offset, .ok tree =>
    match for_each_index (permute_tree_entry self perm sparse_set_offset tree.get_order) 0
        tree.get_order with
    | .error e => .error e
    | .ok entries =>
      if entries.map (fun p => p.1) ≠ List.range tree.get_order then
        if i < copy.m_sparse_block_trees.length then
          .ok { copy with
            m_sparse_block_trees := copy.m_sparse_block_trees.set i
              (set_offsets_sizes_nnz (tree_permute tree (entries.map (fun p => p.1)))
                (entries.map (fun p => p.2))) }
        else .error .undefined
      else .ok copy
  | .error e, _ => .error e
  | _, .error e => .error e

/-- The member `permute(perm)`: it works on a copy of the object, which it returns. -/
def permute
    (tree_permute : sparse_block_tree_any_order → List Nat → sparse_block_tree_any_order)
    (set_offsets_sizes_nnz : sparse_block_tree_any_order → List sparse_bispace_1 →
      sparse_block_tree_any_order)
    (self : sparse_bispace) (perm : List Nat) : Except Exn sparse_bispace :=
  match for_each_state (permute_subspace_step self perm) 0 self.N self with
  | .error e => .error e
  | .ok copy =>
    for_each_state (permute_group_step tree_permute set_offsets_sizes_nnz self perm) 0
      self.m_sparse_indices_sets_offsets.length copy

/-- Some destination position `d` inside the footprint `[offset, offset + order)` of a
sparse group has its source `perm[d]` outside that footprint. -/
def breaks_group (s : sparse_bispace) (perm : List Nat) : Prop :=
  ∃ (i offset : Nat) (tree : sparse_block_tree_any_order) (d src : Nat),
    s.m_sparse_indices_sets_offsets[i]? = some offset ∧
    s.m_sparse_block_trees[i]? = some tree ∧
    offset ≤ d ∧ d < offset + tree.get_order ∧ perm[d]? = some src ∧
    (src < offset ∨ offset + tree.get_order ≤ src)

/-- A stand-in for the tree member `permute`, used to evaluate examples: every
significant block is reordered by the permutation. -/
def sample_tree_permute (tree : sparse_block_tree_any_order) (perm : List Nat) :
    sparse_block_tree_any_order :=
  { tree with m_sig_blocks := tree.m_sig_blocks.map (fun key =>
      perm.map (fun src => key.getD src 0)) }

end sparse_bispace

/-! ## The contraction batch provider: `contract.h` -/

/-- Modelled from the spec: a labeled tensor (`gen_labeled_btensor.h` is not among the
sources) exposes its block index space (`get_bispace()`), its ordered index letters
(`get_letter_expr()`; a letter is identified by a number) and its data pointer
(`get_data_ptr()`, `none` for the null pointer). -/
structure gen_labeled_btensor where
  m_bispace : bispace_operand
  m_letter_expr : List Nat
  m_data_ptr : Option Nat
deriving DecidableEq, Repr

/-- Modelled from the spec: a block loop (`block_loop.h` is not among the sources) holds
the list of spaces it was built from and says, for every tensor position, that the
tensor is ignored (`none`) or which subspace of it the loop advances over. -/
structure block_loop where
  m_bispaces : List bispace_operand
  m_subspaces_looped : List (Option Nat)
deriving DecidableEq, Repr

namespace block_loop

/-- The constructor `block_loop(bispaces)`: every tensor is ignored. -/
def ctor (bispaces : List bispace_operand) : block_loop :=
  { m_bispaces := bispaces, m_subspaces_looped := List.replicate bispaces.length none }

/-- The member `set_subspace_looped(bispace_idx, subspace_idx)`. -/
def set_subspace_looped (bl : block_loop) (bispace_idx subspace_idx : Nat) : block_loop :=
  { bl with m_subspaces_looped := bl.m_subspaces_looped.set bispace_idx (some subspace_idx) }

/-- The member `is_bispace_ignored(bispace_idx)`; an index that names no tensor is out
of bounds. -/
def is_bispace_ignored (bl : block_loop) (bispace_idx : Nat) : Except Exn Bool :=
  match bl.m_subspaces_looped[bispace_idx]? with
  | none => .error .out_of_bounds
  | some none => .ok true
  | some (some _) => .ok false

/-- The member `get_subspace_looped(bispace_idx)`. -/
def get_subspace_looped (bl : block_loop) (bispace_idx : Nat) : Except Exn Nat :=
  match bl.m_subspaces_looped[bispace_idx]? with
  | some (some subspace_idx) => .ok subspace_idx
  | _ => .error .out_of_bounds

end block_loop

/-- Modelled from the spec: the sparse loop list (`sparse_loop_list.h` is not among the
sources) owns its block loops, the spaces they refer to, and the list of tensors that
are direct. -/
structure sparse_loop_list where
  m_loops : List block_loop
  m_bispaces : List bispace_operand
  m_direct_tensors : List Nat
deriving DecidableEq, Repr

namespace sparse_loop_list

/-- The constructor `sparse_loop_list(loops, direct_tensors)`: the spaces are those the
loops were built from. -/
def ctor (loops : List block_loop) (direct_tensors : List Nat) : sparse_loop_list :=
  { m_loops := loops,
    m_bispaces := match loops with
      | [] => []
      | loop :: _ => loop.m_bispaces,
    m_direct_tensors := direct_tensors }

/-- The member `get_bispaces()`. -/
def get_bispaces (sll : sparse_loop_list) : List bispace_operand := sll.m_bispaces

end sparse_loop_list

/-- Modelled from the spec: the contraction kernel (`block_contract2_kernel.h` is not
among the sources) is the leaf operation that the run of the sparse loop list invokes. The
model keeps the sparse loop list that the constructor was handed and, as `m_state`,
whatever else the kernel holds; the provider reads neither. -/
structure block_contract2_kernel where
  m_sll : sparse_loop_list
  m_state : List Nat
deriving DecidableEq, Repr

namespace block_contract2_kernel

/-- The constructor `block_contract2_kernel(sll)`. -/
def ctor (sll : sparse_loop_list) : block_contract2_kernel := { m_sll := sll, m_state := [] }

end block_contract2_kernel

/-- The data members of `contract2_batch_provider<T>`. -/
structure contract2_batch_provider where
  m_loops : List block_loop
  m_sll : sparse_loop_list
  m_ptrs : List (Option Nat)
  m_bc2k : block_contract2_kernel
deriving DecidableEq, Repr

/-- The data members of `contract2_batch_provider_factory<K,M,N,T>`. The template
parameters are the lengths of the three letter lists. -/
structure contract2_batch_provider_factory where
  m_le : List Nat
  m_A_letter_expr : List Nat
  m_B_letter_expr : List Nat
  m_A_bispace : bispace_operand
  m_B_bispace : bispace_operand
  m_A_data_ptr : Option Nat
  m_B_data_ptr : Option Nat
deriving DecidableEq, Repr

namespace contract2_batch_provider

/-- The constructor `contract2_batch_provider(loops, direct_tensors, ptrs)`. -/
def ctor (loops : List block_loop) (direct_tensors : List Nat) (ptrs : List (Option Nat)) :
    contract2_batch_provider :=
  { m_loops := loops, m_sll := sparse_loop_list.ctor loops direct_tensors, m_ptrs := ptrs,
    m_bc2k := block_contract2_kernel.ctor (sparse_loop_list.ctor loops direct_tensors) }

end contract2_batch_provider

namespace contract2_batch_provider_factory

/-- The constructor `contract2_batch_provider_factory(le, A, B)`. -/
def ctor (le : List Nat) (A B : gen_labeled_btensor) : contract2_batch_provider_factory :=
  { m_le := le, m_A_letter_expr := A.m_letter_expr, m_B_letter_expr := B.m_letter_expr,
    m_A_bispace := A.m_bispace, m_B_bispace := B.m_bispace,
    m_A_data_ptr := A.m_data_ptr, m_B_data_ptr := B.m_data_ptr }

/-- The body of the first loop of `get_batch_provider` for the output position `i`,
whose letter is `a`. -/
def uncontracted_loop (f : contract2_batch_provider_factory) (bispaces : List bispace_operand)
    (i a : Nat) : Except Exn block_loop :=
  if f.m_le.contains a then .error .bad_parameter
  else if f.m_A_letter_expr.contains a && f.m_B_letter_expr.contains a then
    .error .bad_parameter
  else
    let bl := (block_loop.ctor bispaces).set_subspace_looped 0 i
    if f.m_A_letter_expr.contains a then
      .ok (bl.set_subspace_looped 1 (f.m_A_letter_expr.indexOf a))
    else if f.m_B_letter_expr.contains a then
      .ok (bl.set_subspace_looped 2 (f.m_B_letter_expr.indexOf a))
    else .error .bad_parameter

/-- The first loop of `get_batch_provider`, from output position `i` on, over the
letters of the output that are still to be read. -/
def uncontracted_loops (f : contract2_batch_provider_factory)
    (bispaces : List bispace_operand) : Nat → List Nat → Except Exn (List block_loop)
  | _, [] => .ok []
  | i, a :: rest =>
    match uncontracted_loop f bispaces i a with
    | .error e => .error e
    | .ok bl =>
      match uncontracted_loops f bispaces (i + 1) rest with
      | .error e => .error e
      | .ok loops => .ok (bl :: loops)

/-- The body of the second loop of `get_batch_provider` for the contracted letter `a`. -/
def contracted_loop (f : contract2_batch_provider_factory) (bispaces : List bispace_operand)
    (a : Nat) : Except Exn block_loop :=
  if (!f.m_A_letter_expr.contains a) || (!f.m_B_letter_expr.contains a) then
    .error .bad_parameter
  else
    .ok (((block_loop.ctor bispaces).set_subspace_looped 1 (f.m_A_letter_expr.indexOf a)
      ).set_subspace_looped 2 (f.m_B_letter_expr.indexOf a))

/-- The second loop of `get_batch_provider`, over the contracted letters. -/
def contracted_loops (f : contract2_batch_provider_factory)
    (bispaces : List bispace_operand) : List Nat → Except Exn (List block_loop)
  | [] => .ok []
  | a :: rest =>
    match contracted_loop f bispaces a with
    | .error e => .error e
    | .ok bl =>
      match contracted_loops f bispaces rest with
      | .error e => .error e
      | .ok loops => .ok (bl :: loops)

/-- One pass of the inner loop that estimates a loop volume: the dimension of the
subspace that `loop` advances over in tensor `bispace_idx` is multiplied in, unless the
tensor is ignored. -/
def loop_dim_step (bispaces : List bispace_operand) (loop : block_loop) (dim bispace_idx : Nat) :
    Except Exn Nat :=
  match loop.is_bispace_ignored bispace_idx with
  | .error e => .error e
  | .ok true => .ok dim
  | .ok false =>
    match loop.get_subspace_looped bispace_idx with
    | .error e => .error e
    | .ok subspace_idx =>
      match vector_at bispaces bispace_idx with
      | .error e => .error e
      | .ok bispace =>
        match bispace.operator_index subspace_idx with
        | .error e => .error e
        | .ok sub => .ok (size_t_mul dim sub.get_dim)

/-- The loops that compute `uncontracted_dim` and `contracted_dim`: over the given block
loops, and for each over all tensors. -/
def loops_dim (bispaces : List bispace_operand) : List block_loop → Nat → Except Exn Nat
  | [], dim => .ok dim
  | loop :: rest, dim =>
    match for_each_state (loop_dim_step bispaces loop) 0 bispaces.length dim with
    | .error e => .error e
    | .ok dim1 => loops_dim bispaces rest dim1

/-- The member `get_batch_provider(C)`. -/
def get_batch_provider (f : contract2_batch_provider_factory) (C : gen_labeled_btensor) :
    Except Exn contract2_batch_provider :=
  let bispaces := [C.m_bispace, f.m_A_bispace, f.m_B_bispace]
  match uncontracted_loops f bispaces 0 C.m_letter_expr with
  | .error e => .error e
  | .ok uncontracted =>
    match contracted_loops f bispaces f.m_le with
    | .error e => .error e
    | .ok contracted =>
      match loops_dim bispaces uncontracted 1 with
      | .error e => .error e
      | .ok uncontracted_dim =>
        match loops_dim bispaces contracted 1 with
        | .error e => .error e
        | .ok contracted_dim =>
          let loops :=
            if contracted_dim > size_t_mul uncontracted_dim 2 then contracted ++ uncontracted
            else uncontracted ++ contracted
          let direct_tensors := if C.m_data_ptr = none then [0] else []
          .ok (contract2_batch_provider.ctor loops direct_tensors
            [none, f.m_A_data_ptr, f.m_B_data_ptr])

/-- The condition under which `get_batch_provider` is required to fail: an output letter
is contracted, or occurs in both inputs, or in neither, or a contracted letter is
missing from an input. -/
def must_fail (f : contract2_batch_provider_factory) (C : gen_labeled_btensor) : Prop :=
  (∃ a ∈ C.m_letter_expr, a ∈ f.m_le) ∨
    (∃ a ∈ C.m_letter_expr, a ∈ f.m_A_letter_expr ∧ a ∈ f.m_B_letter_expr) ∨
    (∃ a ∈ C.m_letter_expr, a ∉ f.m_A_letter_expr ∧ a ∉ f.m_B_letter_expr) ∨
    (∃ a ∈ f.m_le, a ∉ f.m_A_letter_expr ∨ a ∉ f.m_B_letter_expr)

instance (f : contract2_batch_provider_factory) (C : gen_labeled_btensor) :
    Decidable (must_fail f C) := by
  unfold must_fail; infer_instance

/-- The typing of a call: every space satisfies its class invariant and has as many
subspaces as its tensor has letters. -/
def well_typed (f : contract2_batch_provider_factory) (C : gen_labeled_btensor) : Prop :=
  C.m_bispace.well_formed ∧ f.m_A_bispace.well_formed ∧ f.m_B_bispace.well_formed ∧
    C.m_bispace.order = C.m_letter_expr.length ∧
    f.m_A_bispace.order = f.m_A_letter_expr.length ∧
    f.m_B_bispace.order = f.m_B_letter_expr.length

instance (f : contract2_batch_provider_factory) (C : gen_labeled_btensor) :
    Decidable (well_typed f C) := by
  unfold well_typed; infer_instance

end contract2_batch_provider_factory

/-- The matrix `A(i,k)` with `i` of dimension 10 split at `[3, 7]` and `k` of dimension
6 split at `[2]`; letters `i = 0`, `j = 1`, `k = 2`. -/
def sample_A : gen_labeled_btensor :=
  { m_bispace := .order_n sparse_bispace.sample_matrix_space, m_letter_expr := [0, 2],
    m_data_ptr := some 1000 }

/-- The matrix `B(k,j)` with `k` of dimension 6 split at `[2]` and `j` of dimension 4. -/
def sample_B : gen_labeled_btensor :=
  { m_bispace := .order_n sparse_bispace.sample_dense_rhs, m_letter_expr := [2, 1],
    m_data_ptr := some 2000 }

/-- The space `i | j` with `i` of dimension 10 split at `[3, 7]` and `j` of dimension 4. -/
def sample_output_space : sparse_bispace :=
  { N := 2
    m_subspaces := [(sparse_bispace_1.split (sparse_bispace_1.ctor 10) [3, 7]).1,
      sparse_bispace_1.ctor 4]
    m_sparse_indices_sets_offsets := []
    m_sparse_block_trees := []
    m_sparse_block_tree_dimensions := []
    m_dimensions := [10, 4]
    m_inner_sizes := [4, 1]
    m_sparse_key_vecs := [] }

/-- The output `C(i,j)` of the contraction of `sample_A` with `sample_B` over `k`, with
no backing store. -/
def sample_C : gen_labeled_btensor :=
  { m_bispace := .order_n sample_output_space, m_letter_expr := [0, 1], m_data_ptr := none }

/-- The factory `contract(k, A, B)` for `sample_A` and `sample_B`. -/
def sample_factory : contract2_batch_provider_factory :=
  contract2_batch_provider_factory.ctor [2] sample_A sample_B

namespace bispace_operand

/-- The value of `bispace[subspace_idx].get_dim()`, and 0 where `operator[]` throws. -/
def dim_at (b : bispace_operand) (subspace_idx : Nat) : Nat :=
  match b.operator_index subspace_idx with
  | .ok sub => sub.get_dim
  | .error _ => 0

end bispace_operand

namespace contract2_batch_provider_factory

/-- An output letter on which the first loop of `get_batch_provider` throws. -/
def bad_output_letter (f : contract2_batch_provider_factory) (a : Nat) : Prop :=
  a ∈ f.m_le ∨ (a ∈ f.m_A_letter_expr ∧ a ∈ f.m_B_letter_expr) ∨
    (a ∉ f.m_A_letter_expr ∧ a ∉ f.m_B_letter_expr)

/-- A contracted letter on which the second loop of `get_batch_provider` throws. -/
def bad_contracted_letter (f : contract2_batch_provider_factory) (a : Nat) : Prop :=
  a ∉ f.m_A_letter_expr ∨ a ∉ f.m_B_letter_expr

/-- What the block loop of output position `i` with letter `a` advances over: the
position `i` of the output and the position of `a` in the one input that carries it. -/
def uncontracted_looped (f : contract2_batch_provider_factory) (i a : Nat) : List (Option Nat) :=
  if f.m_A_letter_expr.contains a then [some i, some (f.m_A_letter_expr.indexOf a), none]
  else [some i, none, some (f.m_B_letter_expr.indexOf a)]

/-- The block loops that the first loop of `get_batch_provider` has pushed when it ends:
one for each output position from `i` on, in order. -/
def uncontracted_built (f : contract2_batch_provider_factory) (bispaces : List bispace_operand) :
    Nat → List Nat → List block_loop
  | _, [] => []
  | i, a :: rest =>
    { m_bispaces := bispaces, m_subspaces_looped := uncontracted_looped f i a } ::
      uncontracted_built f bispaces (i + 1) rest

/-- The block loops that the second loop of `get_batch_provider` has pushed when it
ends: one for each contracted letter, in order, over the positions of the letter in the
two inputs. -/
def contracted_built (f : contract2_batch_provider_factory) (bispaces : List bispace_operand)
    (letters : List Nat) : List block_loop :=
  letters.map (fun a =>
    { m_bispaces := bispaces,
      m_subspaces_looped :=
        [none, some (f.m_A_letter_expr.indexOf a), some (f.m_B_letter_expr.indexOf a)] })

/-- The dimension of the input subspace that carries the output letter `a`. -/
def bound_input_dim (f : contract2_batch_provider_factory) (a : Nat) : Nat :=
  if f.m_A_letter_expr.contains a then f.m_A_bispace.dim_at (f.m_A_letter_expr.indexOf a)
  else f.m_B_bispace.dim_at (f.m_B_letter_expr.indexOf a)

/-- The exact product that `uncontracted_dim` accumulates: for every output position,
from `i` on, the dimension of the output subspace times that of the input subspace bound
to the same loop. -/
def uncontracted_estimate (f : contract2_batch_provider_factory) (C : bispace_operand)
    (i : Nat) (letters : List Nat) : Nat :=
  ((letters.enumFrom i).map (fun p => C.dim_at p.1 * bound_input_dim f p.2)).prod

/-- The exact product that `contracted_dim` accumulates: for every contracted letter the
dimension of its subspace in `A` times that of its subspace in `B`. -/
def contracted_estimate (f : contract2_batch_provider_factory) (letters : List Nat) : Nat :=
  (letters.map (fun a => f.m_A_bispace.dim_at (f.m_A_letter_expr.indexOf a) *
    f.m_B_bispace.dim_at (f.m_B_letter_expr.indexOf a))).prod

/-- The volume `U` of the uncontracted loops: the product over the output positions of
the dimension of the output subspace. -/
def uncontracted_volume (C : gen_labeled_btensor) : Nat :=
  ((C.m_letter_expr.enumFrom 0).map (fun p => C.m_bispace.dim_at p.1)).prod

/-- The volume `K` of the contracted loops: the product over the contracted letters of
the dimension of the letter's subspace in `A`. -/
def contracted_volume (f : contract2_batch_provider_factory) : Nat :=
  (f.m_le.map (fun a => f.m_A_bispace.dim_at (f.m_A_letter_expr.indexOf a))).prod

/-- Each output subspace has the dimension of the input subspace bound to the same loop,
and the two input subspaces of a contracted loop have the same dimension. -/
def dims_agree (f : contract2_batch_provider_factory) (C : gen_labeled_btensor) : Prop :=
  (∀ p ∈ C.m_letter_expr.enumFrom 0, C.m_bispace.dim_at p.1 = bound_input_dim f p.2) ∧
    ∀ a ∈ f.m_le, f.m_A_bispace.dim_at (f.m_A_letter_expr.indexOf a) =
      f.m_B_bispace.dim_at (f.m_B_letter_expr.indexOf a)

instance (f : contract2_batch_provider_factory) (C : gen_labeled_btensor) :
    Decidable (dims_agree f C) := by
  unfold dims_agree; infer_instance

/-- Every subspace that a loop advances over has a positive dimension. -/
def dims_positive (f : contract2_batch_provider_factory) (C : gen_labeled_btensor) : Prop :=
  (∀ p ∈ C.m_letter_expr.enumFrom 0, 0 < C.m_bispace.dim_at p.1) ∧
    ∀ a ∈ f.m_le, 0 < f.m_A_bispace.dim_at (f.m_A_letter_expr.indexOf a)

instance (f : contract2_batch_provider_factory) (C : gen_labeled_btensor) :
    Decidable (dims_positive f C) := by
  unfold dims_positive; infer_instance

/-- One factor of a loop volume: the running product `dim` times the dimension of the
subspace `x` of `b`, or `dim` when the tensor is ignored. -/
def mul_looped (dim : Nat) (b : bispace_operand) (x : Option Nat) : Nat :=
  match x with
  | none => dim
  | some s => size_t_mul dim (b.dim_at s)

end contract2_batch_provider_factory

/-- The space `i | k` with `i` of dimension 1 and `k` of dimension `2 ^ 32`. -/
def sample_wide_A_space : sparse_bispace :=
  { N := 2
    m_subspaces := [sparse_bispace_1.ctor 1, sparse_bispace_1.ctor 4294967296]
    m_sparse_indices_sets_offsets := []
    m_sparse_block_trees := []
    m_sparse_block_tree_dimensions := []
    m_dimensions := [1, 4294967296]
    m_inner_sizes := [4294967296, 1]
    m_sparse_key_vecs := [] }

/-- The space `k | j` with `k` of dimension `2 ^ 32` and `j` of dimension 1. -/
def sample_wide_B_space : sparse_bispace :=
  { N := 2
    m_subspaces := [sparse_bispace_1.ctor 4294967296, sparse_bispace_1.ctor 1]
    m_sparse_indices_sets_offsets := []
    m_sparse_block_trees := []
    m_sparse_block_tree_dimensions := []
    m_dimensions := [4294967296, 1]
    m_inner_sizes := [1, 1]
    m_sparse_key_vecs := [] }

/-- The space `i | j` with `i` and `j` of dimension 1. -/
def sample_wide_C_space : sparse_bispace :=
  { N := 2
    m_subspaces := [sparse_bispace_1.ctor 1, sparse_bispace_1.ctor 1]
    m_sparse_indices_sets_offsets := []
    m_sparse_block_trees := []
    m_sparse_block_tree_dimensions := []
    m_dimensions := [1, 1]
    m_inner_sizes := [1, 1]
    m_sparse_key_vecs := [] }

/-- The factory `contract(k, A(i,k), B(k,j))` over the wide spaces; letters `i = 0`,
`j = 1`, `k = 2`. -/
def sample_wide_factory : contract2_batch_provider_factory :=
  contract2_batch_provider_factory.ctor [2]
    { m_bispace := .order_n sample_wide_A_space, m_letter_expr := [0, 2],
      m_data_ptr := some 1000 }
    { m_bispace := .order_n sample_wide_B_space, m_letter_expr := [2, 1],
      m_data_ptr := some 2000 }

/-- The output `C(i,j)` of the wide contraction. -/
def sample_wide_C : gen_labeled_btensor :=
  { m_bispace := .order_n sample_wide_C_space, m_letter_expr := [0, 1],
    m_data_ptr := some 3000 }

/-! ### `contract2_batch_provider::get_batch` -/

/-- The assignment `m[key] = value` on a `std::map<size_t, idx_pair>`, kept as a list of
entries in increasing key order. -/
def map_assign (m : List (Nat × (Nat × Nat))) (key : Nat) (value : Nat × Nat) :
    List (Nat × (Nat × Nat)) :=
  match m with
  | [] => [(key, value)]
  | (k, v) :: rest =>
    if key < k then (key, value) :: (k, v) :: rest
    else if key = k then (key, value) :: rest
    else (k, v) :: map_assign rest key value

/-- The locals `loop_batches` and `bispaces` of `get_batch`. -/
structure batch_state where
  loop_batches : List (Nat × (Nat × Nat))
  bispaces : List bispace_operand
deriving DecidableEq, Repr

/-- What the call `m_sll.run(m_bc2k, m_ptrs, loop_batches)` leaves behind: the sparse
loop list it was called on, the kernel and the pointer vector it was handed, each as it
is after the call, and the exception that the call threw, if any. -/
structure run_outcome where
  m_sll : sparse_loop_list
  m_bc2k : block_contract2_kernel
  m_ptrs : List (Option Nat)
  thrown : Option Exn
deriving DecidableEq, Repr

/-- What one call of `get_batch` does: `batch_size` bytes are zero-filled at
`batch_ptr`, then `m_sll.run` is handed `m_bc2k`, `run_ptrs` and `loop_batches`;
`provider` is the object after the call and `thrown` the exception that the run threw,
if any. -/
structure get_batch_result where
  batch_size : Nat
  provider : contract2_batch_provider
  run_ptrs : List (Option Nat)
  loop_batches : List (Nat × (Nat × Nat))
  thrown : Option Exn
deriving DecidableEq, Repr

namespace contract2_batch_provider

/-- The body of the inner loop of `get_batch` for the block loop `loop` at `loop_idx`
and the range `bounds` keyed on `(bispace_idx, subspace_idx)`. The mutating member
`truncate_subspace` of `sparse_bispace_any_order` is not among the sources and is
taken as a function from the space before to the space after. -/
def get_batch_loop_step
    (truncate_subspace : bispace_operand → Nat → Nat × Nat → bispace_operand)
    (bispace_idx subspace_idx : Nat) (bounds : Nat × Nat) (loop_idx : Nat)
    (loop : block_loop) (st : batch_state) : Except Exn batch_state :=
  match loop.is_bispace_ignored bispace_idx with
  | .error e => .error e
  | .ok true => .ok st
  | .ok false =>
    match loop.get_subspace_looped bispace_idx with
    | .error e => .error e
    | .ok looped =>
      if subspace_idx = looped then
        match vector_at st.bispaces bispace_idx with
        | .error e => .error e
        | .ok bispace =>
          .ok { loop_batches := map_assign st.loop_batches loop_idx bounds,
                bispaces := st.bispaces.set bispace_idx
                  (truncate_subspace bispace subspace_idx bounds) }
      else .ok st

/-- The inner loop of `get_batch` over `m_loops`, from `loop_idx` on. -/
def get_batch_loops
    (truncate_subspace : bispace_operand → Nat → Nat × Nat → bispace_operand)
    (bispace_idx subspace_idx : Nat) (bounds : Nat × Nat) :
    Nat → List block_loop → batch_state → Except Exn batch_state
  | _, [], st => .ok st
  | loop_idx, loop :: rest, st =>
    match get_batch_loop_step truncate_subspace bispace_idx subspace_idx bounds loop_idx
        loop st with
    | .error e => .error e
    | .ok st1 =>
      get_batch_loops truncate_subspace bispace_idx subspace_idx bounds (loop_idx + 1) rest st1

/-- The outer loop of `get_batch` over the entries of `batches`, given in the iteration
order of the map. -/
def get_batch_entries
    (truncate_subspace : bispace_operand → Nat → Nat × Nat → bispace_operand)
    (m_loops : List block_loop) :
    List ((Nat × Nat) × (Nat × Nat)) → batch_state → Except Exn batch_state
  | [], st => .ok st
  | (key, bounds) :: rest, st =>
    match get_batch_loops truncate_subspace key.1 key.2 bounds 0 m_loops st with
    | .error e => .error e
    | .ok st1 => get_batch_entries truncate_subspace m_loops rest st1

/-- The member `get_batch(batch_ptr, batches)`. The member `run` of the sparse loop list
(`sparse_loop_list.h` is not among the sources) is taken as a function from what it is
called on and handed to what it leaves behind; the member `get_nnz` of
`sparse_bispace_any_order` is not among the sources either and is taken as a function;
`sizeof_T` is `sizeof(T)`. -/
def get_batch
    (run : sparse_loop_list → block_contract2_kernel → List (Option Nat) →
      List (Nat × (Nat × Nat)) → run_outcome)
    (truncate_subspace : bispace_operand → Nat → Nat × Nat → bispace_operand)
    (get_nnz : bispace_operand → Nat) (sizeof_T : Nat) (self : contract2_batch_provider)
    (batch_ptr : Option Nat) (batches : List ((Nat × Nat) × (Nat × Nat))) :
    Except Exn get_batch_result :=
  match get_batch_entries truncate_subspace self.m_loops batches
      { loop_batches := [], bispaces := self.m_sll.get_bispaces } with
  | .error e => .error e
  | .ok st =>
    match vector_at st.bispaces 0 with
    | .error e => .error e
    | .ok output =>
      let batch_size := size_t_mul (get_nnz output) sizeof_T
      if self.m_ptrs.length = 0 then .error .undefined
      else
        let after := run self.m_sll self.m_bc2k (self.m_ptrs.set 0 batch_ptr) st.loop_batches
        .ok { batch_size := batch_size,
              provider := { m_loops := self.m_loops, m_sll := after.m_sll,
                            m_ptrs := after.m_ptrs, m_bc2k := after.m_bc2k },
              run_ptrs := self.m_ptrs.set 0 batch_ptr,
              loop_batches := st.loop_batches,
              thrown := after.thrown }

/-- The block loop advances over subspace `subspace_idx` of tensor `bispace_idx`. -/
def iterates (bispace_idx subspace_idx : Nat) (loop : block_loop) : Bool :=
  loop.m_subspaces_looped[bispace_idx]? == some (some subspace_idx)

/-- The output space truncated by the ranges of `batches` that are keyed on tensor 0,
in the order of the map. -/
def truncated_output (truncate_subspace : bispace_operand → Nat → Nat × Nat → bispace_operand)
    (output : bispace_operand) (batches : List ((Nat × Nat) × (Nat × Nat))) : bispace_operand :=
  (batches.filter (fun e => e.1.1 == 0)).foldl (fun b e => truncate_subspace b e.1.2 e.2)
    output

/-- The conditions under which `get_batch` is called: every block loop speaks of every
tensor, there is an output tensor and a pointer slot for it, every range names a
tensor, and a range keyed on the output names a subspace that exactly one block loop
advances over. -/
def batch_call_ok (self : contract2_batch_provider)
    (batches : List ((Nat × Nat) × (Nat × Nat))) : Prop :=
  (∀ loop ∈ self.m_loops, loop.m_subspaces_looped.length = self.m_sll.m_bispaces.length) ∧
    0 < self.m_sll.m_bispaces.length ∧ 0 < self.m_ptrs.length ∧
    (∀ e ∈ batches, e.1.1 < self.m_sll.m_bispaces.length) ∧
    ∀ e ∈ batches, e.1.1 = 0 → self.m_loops.countP (iterates 0 e.1.2) = 1

instance (self : contract2_batch_provider) (batches : List ((Nat × Nat) × (Nat × Nat))) :
    Decidable (batch_call_ok self batches) := by
  unfold batch_call_ok; infer_instance

end contract2_batch_provider

/-- A stand-in for `truncate_subspace` on one-dimensional spaces, used to evaluate
`get_batch` on examples: the blocks `[bounds.1, bounds.2)` are kept. -/
def sample_truncate_1 (s : sparse_bispace_1) (bounds : Nat × Nat) : sparse_bispace_1 :=
  let first := s.m_abs_indices.getD bounds.1 s.m_dim
  let last := s.m_abs_indices.getD bounds.2 s.m_dim
  { m_dim := last - first,
    m_abs_indices := ((s.m_abs_indices.take bounds.2).drop bounds.1).map (fun x => x - first) }

/-- A stand-in for `truncate_subspace` on spaces without sparse groups. -/
def sample_truncate_subspace (b : bispace_operand) (subspace_idx : Nat) (bounds : Nat × Nat) :
    bispace_operand :=
  match b with
  | .order_1 s => .order_1 (sample_truncate_1 s bounds)
  | .order_n s =>
    match s.m_subspaces[subspace_idx]? with
    | none => .order_n s
    | some sub =>
      .order_n { s with
        m_subspaces := s.m_subspaces.set subspace_idx (sample_truncate_1 sub bounds)
        m_dimensions := s.m_dimensions.set subspace_idx (sample_truncate_1 sub bounds).m_dim }

/-- A stand-in for `get_nnz` of `sparse_bispace_any_order`: the `get_nnz()` of the space
it wraps. -/
def sample_get_nnz : bispace_operand → Nat
  | .order_1 s => s.get_dim
  | .order_n s => s.get_nnz

/-- A stand-in for the member `run` of the sparse loop list, used to evaluate `get_batch`
on examples: it returns with everything as it was handed. -/
def sample_run (sll : sparse_loop_list) (kernel : block_contract2_kernel)
    (ptrs : List (Option Nat)) (_loop_batches : List (Nat × (Nat × Nat))) : run_outcome :=
  { m_sll := sll, m_bc2k := kernel, m_ptrs := ptrs, thrown := none }

/-- A stand-in for a member `run` that keeps state, used to show what `get_batch` passes
on: it records in the kernel how often it ran and hands back the pointers reversed. -/
def sample_run_stateful (sll : sparse_loop_list) (kernel : block_contract2_kernel)
    (ptrs : List (Option Nat)) (_loop_batches : List (Nat × (Nat × Nat))) : run_outcome :=
  { m_sll := sll, m_bc2k := { kernel with m_state := 1 :: kernel.m_state },
    m_ptrs := ptrs.reverse, thrown := none }

/-- The provider that `sample_factory` builds for `sample_C`. -/
def sample_provider : contract2_batch_provider :=
  match contract2_batch_provider_factory.get_batch_provider sample_factory sample_C with
  | .ok p => p
  | .error _ => contract2_batch_provider.ctor [] [] []

/-! ## Reachable one-dimensional spaces and the data-model invariant -/

namespace sparse_bispace_1

/-- The one-dimensional spaces that the public interface produces for the dimension
`dim`: the result of the constructor, and the result of a `split` call that returned
normally on such a space. -/
inductive reachable (dim : Nat) : sparse_bispace_1 → Prop
  | ctor : reachable dim (ctor dim)
  | split (s : sparse_bispace_1) (split_points : List Nat) :
      reachable dim s → (split s split_points).2 = none →
      reachable dim (split s split_points).1

/-- The data-model invariant of a one-dimensional space, read through its public members:
block 0 starts at 0, block starts are strictly increasing, every start lies below
`get_dim()`, there are at most `get_dim()` blocks, and every block has size at least 1. -/
def data_model_invariant (s : sparse_bispace_1) : Prop :=
  get_block_abs_index s 0 = .ok 0 ∧
    (∀ i j, i < j → j < get_n_blocks s →
      ∃ a b, get_block_abs_index s i = .ok a ∧ get_block_abs_index s j = .ok b ∧ a < b) ∧
    (∀ i, i < get_n_blocks s → ∃ a, get_block_abs_index s i = .ok a ∧ a < get_dim s) ∧
    get_n_blocks s ≤ get_dim s ∧
    ∀ i, i < get_n_blocks s → ∃ n, get_block_size s i = .ok n ∧ 1 ≤ n

end sparse_bispace_1

namespace contract2_batch_provider

/-- The conditions under which every access of `get_batch` is defined: every block loop
speaks of every tensor, there is an output tensor and a pointer slot for it, and every
range names a tensor. -/
def batch_call_defined (self : contract2_batch_provider)
    (batches : List ((Nat × Nat) × (Nat × Nat))) : Prop :=
  (∀ loop ∈ self.m_loops, loop.m_subspaces_looped.length = self.m_sll.m_bispaces.length) ∧
    0 < self.m_sll.m_bispaces.length ∧ 0 < self.m_ptrs.length ∧
    ∀ e ∈ batches, e.1.1 < self.m_sll.m_bispaces.length

instance (self : contract2_batch_provider) (batches : List ((Nat × Nat) × (Nat × Nat))) :
    Decidable (batch_call_defined self batches) := by
  unfold batch_call_defined; infer_instance

end contract2_batch_provider

namespace sparse_bispace

/-- What contracting subspace `contract_idx` makes of one sparse group `(offset, tree)`
of the parent, in the words of the specification: a group whose footprint
`[offset, offset + order)` does not contain `contract_idx` is kept with its tree, its
offset lowered by 1 exactly when `offset > contract_idx`; a group of order 2 that
contains `contract_idx` is dropped; any other group that contains it keeps its offset
and gets the tree that the tree's `contract` returns for the relative position
`contract_idx - offset`, called with the `order - 1` subspaces of the result from
`offset` on. -/
def contracted_group
    (tree_contract : sparse_block_tree_any_order → Nat → List sparse_bispace_1 →
      sparse_block_tree_any_order)
    (subspaces : List sparse_bispace_1) (contract_idx : Nat)
    (g : Nat × sparse_block_tree_any_order) : Option (Nat × sparse_block_tree_any_order) :=
  if g.1 ≤ contract_idx ∧ contract_idx < g.1 + g.2.get_order then
    if g.2.get_order = 2 then none
    else
      some (g.1, tree_contract g.2 (contract_idx - g.1)
        ((subspaces.drop g.1).take (g.2.get_order - 1)))
  else some (if g.1 > contract_idx then g.1 - 1 else g.1, g.2)

end sparse_bispace

namespace sparse_bispace

/-- A space of order 3: a dense subspace of dimension 4, then a sparse group over
subspaces 1 and 2, which ends at the last position. -/
def sample_order_3_tail_group : sparse_bispace :=
  { N := 3
    m_subspaces := [sparse_bispace_1.ctor 4,
      (sparse_bispace_1.split (sparse_bispace_1.ctor 10) [3, 7]).1,
      (sparse_bispace_1.split (sparse_bispace_1.ctor 6) [2]).1]
    m_sparse_indices_sets_offsets := [1]
    m_sparse_block_trees := [{ m_order := 2, m_nnz := 22, m_sig_blocks := [[0, 0], [1, 1]] }]
    m_sparse_block_tree_dimensions := [22]
    m_dimensions := [4, 22]
    m_inner_sizes := [22, 1]
    m_sparse_key_vecs := [[0, 0]] }

/-- The space `i % j` with `i` of dimension 10 split at `[3, 7]` and `j` of dimension 6
split at `[2]`, coupled by a tree with the blocks `(0,0)` and `(1,1)`, of
`3 * 2 + 4 * 4 = 22` elements. -/
def sample_fuse_lhs : sparse_bispace :=
  { N := 2
    m_subspaces := [(sparse_bispace_1.split (sparse_bispace_1.ctor 10) [3, 7]).1,
      (sparse_bispace_1.split (sparse_bispace_1.ctor 6) [2]).1]
    m_sparse_indices_sets_offsets := [0]
    m_sparse_block_trees := [{ m_order := 2, m_nnz := 22, m_sig_blocks := [[0, 0], [1, 1]] }]
    m_sparse_block_tree_dimensions := [22]
    m_dimensions := [22]
    m_inner_sizes := [1]
    m_sparse_key_vecs := [[0, 0]] }

/-- The space `j % k` with `j` of dimension 6 split at `[2]` and `k` of dimension 4,
coupled by a tree with the blocks `(0,0)` and `(1,0)`, of `2 * 4 + 4 * 4 = 24` elements. -/
def sample_fuse_rhs : sparse_bispace :=
  { N := 2
    m_subspaces := [(sparse_bispace_1.split (sparse_bispace_1.ctor 6) [2]).1,
      sparse_bispace_1.ctor 4]
    m_sparse_indices_sets_offsets := [0]
    m_sparse_block_trees := [{ m_order := 2, m_nnz := 24, m_sig_blocks := [[0, 0], [1, 0]] }]
    m_sparse_block_tree_dimensions := [24]
    m_dimensions := [24]
    m_inner_sizes := [1]
    m_sparse_key_vecs := [[0, 0]] }

end sparse_bispace

/-! ## Block offsets: `get_block_offset` -/

namespace sparse_bispace

/-- The loop of `get_block_offset` that copies the block indices of a sparse group into
its key vector: `cur_key[key_idx] = block_indices[subspace_idx + key_idx]`, both read
and written without a range check. -/
def copy_key_step (block_indices : List Nat) (subspace_idx : Nat) (cur_key : List Nat)
    (key_idx : Nat) : Except Exn (List Nat) :=
  match vector_at block_indices (subspace_idx + key_idx) with
  | .error e => .error e
  | .ok block_idx =>
    if key_idx < cur_key.length then .ok (cur_key.set key_idx block_idx)
    else .error .undefined

/-- The loop of `get_block_offset` that multiplies the sizes of the blocks of a sparse
group into `outer_size_scale_fac`. -/
def scale_fac_step (self : sparse_bispace) (subspace_idx : Nat) (cur_key : List Nat)
    (outer_size_scale_fac outer_size_idx : Nat) : Except Exn Nat :=
  match vector_at self.m_subspaces (subspace_idx + outer_size_idx),
      vector_at cur_key outer_size_idx with
  | .ok sub, .ok block_idx =>
    match sub.get_block_size block_idx with
    | .ok n => .ok (size_t_mul outer_size_scale_fac n)
    | .error e => .error e
  | .error e, _ => .error e
  | _, .error e => .error e

/-- The `while (subspace_idx < block_indices.size())` loop of `get_block_offset`, with
the key vectors it writes to. `tree_search sbt key` is `(*sbt.search(key))[0].first`, a
member of the tree. Every pass advances `subspace_idx` or `cur_sparse_indices_set_idx`,
so `block_indices.size() + #groups + 1` passes always suffice; `none` is returned when
`fuel` passes were not enough. -/
def block_offset_loop
    (tree_search : sparse_block_tree_any_order → List Nat → Except Exn Nat)
    (self : sparse_bispace) (block_indices : List Nat) :
    Nat → Nat → Nat → Nat → Nat → Nat → List (List Nat) →
      Option (Except Exn (Nat × List (List Nat)))
  | 0, _, _, _, _, _, _ => none
  | fuel + 1, subspace_idx, cur_group_idx, cur_sparse_indices_set_idx, offset, outer_size,
      key_vecs =>
    if subspace_idx < block_indices.length then
      let treat_as_sparse :=
        match self.m_sparse_indices_sets_offsets[cur_sparse_indices_set_idx]? with
        | some off => decide (subspace_idx = off)
        | none => false
      if treat_as_sparse then
        match vector_at self.m_sparse_block_trees cur_sparse_indices_set_idx,
            vector_at key_vecs cur_sparse_indices_set_idx with
        | .ok sbt, .ok key =>
          match for_each_state (copy_key_step block_indices subspace_idx) 0 sbt.get_order
              key with
          | .error e => some (.error e)
          | .ok cur_key =>
            match for_each_state (scale_fac_step self subspace_idx cur_key) 0 sbt.get_order
                1 with
            | .error e => some (.error e)
            | .ok outer_size_scale_fac =>
              match tree_search sbt cur_key, vector_at self.m_inner_sizes cur_group_idx with
              | .ok abs_index, .ok inner_size =>
                block_offset_loop tree_search self block_indices fuel
                  (subspace_idx + sbt.get_order) (cur_group_idx + 1)
                  (cur_sparse_indices_set_idx + 1)
                  (size_t_add offset (size_t_mul (size_t_mul outer_size abs_index) inner_size))
                  (size_t_mul outer_size outer_size_scale_fac)
                  (key_vecs.set cur_sparse_indices_set_idx cur_key)
              | .error e, _ => some (.error e)
              | _, .error e => some (.error e)
        | .error e, _ => some (.error e)
        | _, .error e => some (.error e)
      else
        match vector_at block_indices subspace_idx, vector_at self.m_subspaces subspace_idx with
        | .ok block_idx, .ok sub =>
          match sub.get_block_abs_index block_idx with
          | .error e => some (.error e)
          | .ok abs_index =>
            match sub.get_block_size block_idx with
            | .error e => some (.error e)
            | .ok outer_size_scale_fac =>
              match vector_at self.m_inner_sizes cur_group_idx with
              | .error e => some (.error e)
              | .ok inner_size =>
                block_offset_loop tree_search self block_indices fuel (subspace_idx + 1)
                  (cur_group_idx + 1) cur_sparse_indices_set_idx
                  (size_t_add offset (size_t_mul (size_t_mul outer_size abs_index) inner_size))
                  (size_t_mul outer_size outer_size_scale_fac) key_vecs
        | .error e, _ => some (.error e)
        | _, .error e => some (.error e)
    else some (.ok (offset, key_vecs))

/-- The member `get_block_offset(block_indices)`: the offset it returns and the object
after the call, whose key vectors the call has written to. -/
def get_block_offset
    (tree_search : sparse_block_tree_any_order → List Nat → Except Exn Nat)
    (self : sparse_bispace) (block_indices : List Nat) :
    Option (Except Exn (Nat × sparse_bispace)) :=
  match block_offset_loop tree_search self block_indices
      (block_indices.length + self.m_sparse_indices_sets_offsets.length + 1) 0 0 0 0 1
      self.m_sparse_key_vecs with
  | none => none
  | some (.error e) => some (.error e)
  | some (.ok r) => some (.ok (r.1, { self with m_sparse_key_vecs := r.2 }))

/-- The value of `sub.get_block_size(block_idx)`, and 0 where the member throws. -/
def block_size_at (sub : sparse_bispace_1) (block_idx : Nat) : Nat :=
  match sub.get_block_size block_idx with
  | .ok n => n
  | .error _ => 0

/-- The value of `sub.get_block_abs_index(block_idx)`, and 0 where the member throws. -/
def block_abs_index_at (sub : sparse_bispace_1) (block_idx : Nat) : Nat :=
  match sub.get_block_abs_index block_idx with
  | .ok n => n
  | .error _ => 0

/-- The term of slot `k` in the offset of a block tuple of a dense space: the product of
the sizes of the blocks of the slots before `k`, times the absolute start of block
`b_k` in subspace `k`, times the product of the dimensions of the subspaces after `k`. -/
def slot_term (subspaces : List sparse_bispace_1) (block_indices : List Nat) (k : Nat) : Nat :=
  (List.zipWith block_size_at (subspaces.take k) (block_indices.take k)).prod *
    (List.zipWith block_abs_index_at (subspaces.drop k) (block_indices.drop k)).headD 0 *
    ((subspaces.drop (k + 1)).map sparse_bispace_1.get_dim).prod

/-- The offset of a block tuple of a dense space in the words of the specification: the
sum of `slot_term` over all slots. -/
def dense_block_offset (subspaces : List sparse_bispace_1) (block_indices : List Nat) : Nat :=
  ((List.range subspaces.length).map (slot_term subspaces block_indices)).sum

/-- A stand-in for the tree member `search`, used to evaluate examples: the number of
elements of the significant blocks that precede the key. -/
def sample_tree_search (subspaces : List sparse_bispace_1)
    (tree : sparse_block_tree_any_order) (key : List Nat) : Except Exn Nat :=
  match tree.m_sig_blocks.indexOf? key with
  | none => .error .undefined
  | some pos =>
    .ok ((tree.m_sig_blocks.take pos).map (fun blk =>
      (List.zipWith block_size_at subspaces blk).prod)).sum

end sparse_bispace

namespace sparse_bispace

/-- What `permute` returns for `sample_matrix_space` and the permutation `(1, 0)`: the
two subspaces are exchanged, the slot dimensions and inner sizes are those of the
original order. -/
def sample_permuted_space : sparse_bispace :=
  { N := 2
    m_subspaces := [(sparse_bispace_1.split (sparse_bispace_1.ctor 6) [2]).1,
      (sparse_bispace_1.split (sparse_bispace_1.ctor 10) [3, 7]).1]
    m_sparse_indices_sets_offsets := []
    m_sparse_block_trees := []
    m_sparse_block_tree_dimensions := []
    m_dimensions := [10, 6]
    m_inner_sizes := [6, 1]
    m_sparse_key_vecs := [] }

/-- The dense space `j | i` composed directly: `j` of dimension 6 split at `[2]`, then
`i` of dimension 10 split at `[3, 7]`. -/
def sample_transposed_space : sparse_bispace :=
  { N := 2
    m_subspaces := [(sparse_bispace_1.split (sparse_bispace_1.ctor 6) [2]).1,
      (sparse_bispace_1.split (sparse_bispace_1.ctor 10) [3, 7]).1]
    m_sparse_indices_sets_offsets := []
    m_sparse_block_trees := []
    m_sparse_block_tree_dimensions := []
    m_dimensions := [6, 10]
    m_inner_sizes := [10, 1]
    m_sparse_key_vecs := [] }

end sparse_bispace

/-! ## Group accessors and the sparsity-expression constructor -/

namespace sparse_bispace

/-- The member `get_sparse_group_tree(group_idx)`. -/
def get_sparse_group_tree (self : sparse_bispace) (group_idx : Nat) :
    Except Exn sparse_block_tree_any_order :=
  if group_idx > size_t_sub self.m_sparse_block_trees.length 1 then .error .bad_parameter
  else vector_at self.m_sparse_block_trees group_idx

/-- The member `get_sparse_group_offset(group_idx)`. -/
def get_sparse_group_offset (self : sparse_bispace) (group_idx : Nat) : Except Exn Nat :=
  if group_idx > size_t_sub self.m_sparse_block_trees.length 1 then .error .bad_parameter
  else vector_at self.m_sparse_indices_sets_offsets group_idx

/-- The constructor `sparse_bispace<N>(const sparse_bispace<N-L+1>& lhs,
const std::vector< sparse_bispace<1> >& rhs_subspaces,
const std::vector< sequence<L,size_t> >& sig_blocks)` behind the sparsity expressions.
`tree_ctor sig_blocks subspaces` is the constructor
`sparse_block_tree<L>(sig_blocks, m_subspaces)`, whose header is not among the sources.
`rhs_subspaces[i]` is read without a range check. -/
def ctor_sparsity
    (tree_ctor : List (List Nat) → List sparse_bispace_1 → sparse_block_tree_any_order)
    (N L : Nat) (lhs : bispace_operand) (rhs_subspaces : List sparse_bispace_1)
    (sig_blocks : List (List Nat)) : Option (Except Exn sparse_bispace) :=
  match for_each_index lhs.operator_index 0 (size_t_sub N L + 1),
      for_each_index (vector_at rhs_subspaces) 0 (size_t_sub L 1) with
  | .ok from_lhs, .ok from_rhs =>
    let sbt := tree_ctor sig_blocks (from_lhs ++ from_rhs)
    init { blank N with
      m_subspaces := from_lhs ++ from_rhs
      m_sparse_block_tree_dimensions := [sbt.get_nnz]
      m_sparse_block_trees := [sbt]
      m_sparse_indices_sets_offsets := [size_t_sub N L] }
  | .error e, _ => some (.error e)
  | _, .error e => some (.error e)

/-- A stand-in for the constructor of a tree, used to evaluate examples: the order is the
length of the block tuples and the count is the number of elements of the blocks, taken
over the last subspaces. -/
def sample_tree_ctor (sig_blocks : List (List Nat)) (subspaces : List sparse_bispace_1) :
    sparse_block_tree_any_order :=
  let order := (sig_blocks.head?.map List.length).getD 0
  { m_order := order,
    m_nnz := (sig_blocks.map (fun key =>
      ((List.zip (subspaces.drop (subspaces.length - order)) key).map (fun p =>
        match p.1.get_block_size p.2 with
        | .ok n => n
        | .error _ => 0)).prod)).sum,
    m_sig_blocks := sig_blocks }

end sparse_bispace

/-! ## Global timings: `global_timings.h` -/

/-- The exception that the macro `throw_exc` raises. -/
inductive timings_exception
  | exception
deriving DecidableEq, Repr

/-- The nested struct `timing_t`. A `time_diff_t` (declared in `timer.h`, which is not
among the sources) is a value of the type `D`; of its operations only `+=` is used. -/
structure timing_t (D : Type) where
  m_total : D
  m_calls : Nat
deriving DecidableEq, Repr

namespace timing_t

/-- The constructor `timing_t(time_diff_t time)`. -/
def ctor {D : Type} (time : D) : timing_t D := { m_total := time, m_calls := 1 }

/-- The operator `+=`: `m_calls++; m_total += time`. -/
def add_assign {D : Type} (add : D → D → D) (t : timing_t D) (time : D) : timing_t D :=
  { m_total := add t.m_total time, m_calls := size_t_add t.m_calls 1 }

end timing_t

/-- The data member `m_times` of `global_timings`: the entries of the map, one per key.
The order in which the map iterates them is not modelled; the lock taken under OpenMP
has no effect on a single thread. -/
structure global_timings (D : Type) where
  m_times : List (String × timing_t D)

namespace global_timings

/-- The constructor: an empty map. -/
def ctor {D : Type} : global_timings D := { m_times := [] }

/-- The call `m_times.find(id)`: the entry with the key `id`, or `none` for `end()`. -/
def find {D : Type} : List (String × timing_t D) → String → Option (timing_t D)
  | [], _ => none
  | (key, value) :: rest, id => if key = id then some value else find rest id

/-- The member `add_to_timer(id, t)`, where `duration` is `t.duration()`. -/
def add_to_timer {D : Type} (add : D → D → D) (self : global_timings D) (id : String)
    (duration : D) : global_timings D :=
  match find self.m_times id with
  | none => { m_times := self.m_times ++ [(id, timing_t.ctor duration)] }
  | some _ =>
    { m_times := self.m_times.map (fun e =>
        if e.1 = id then (e.1, e.2.add_assign add duration) else e) }

/-- The member `reset()`. -/
def reset {D : Type} (_self : global_timings D) : global_timings D := { m_times := [] }

/-- The member `get_time(id)`. -/
def get_time {D : Type} (self : global_timings D) (id : String) : Except timings_exception D :=
  match find self.m_times id with
  | none => .error .exception
  | some t => .ok t.m_total

/-- The member `ntimings()`. -/
def ntimings {D : Type} (self : global_timings D) : Nat := self.m_times.length

/-- A call of one of the two mutating members. -/
inductive call (D : Type)
  | add_to_timer (id : String) (duration : D)
  | reset

/-- The object after one call. -/
def step {D : Type} (add : D → D → D) (self : global_timings D) : call D → global_timings D
  | .add_to_timer id duration => add_to_timer add self id duration
  | .reset => reset self

/-- The object after a sequence of calls on a fresh object. -/
def run {D : Type} (add : D → D → D) (calls : List (call D)) : global_timings D :=
  calls.foldl (step add) ctor

/-- The timings added since the last `reset`, oldest first. -/
def added_since_reset {D : Type} (calls : List (call D)) : List (String × D) :=
  calls.foldl (fun h c =>
    match c with
    | .add_to_timer id duration => h ++ [(id, duration)]
    | .reset => []) []

/-- The durations added under `id`, oldest first. -/
def durations_under {D : Type} (h : List (String × D)) (id : String) : List D :=
  (h.filter (fun e => e.1 = id)).map (fun e => e.2)

/-- The sum of a list of durations, added in order with `+=`; `none` for no duration. -/
def total {D : Type} (add : D → D → D) : List D → Option D
  | [] => none
  | first :: later => some (later.foldl add first)

/-- The invariant of the map against the timings added since the last `reset`: the keys
are distinct, and the entry of each id holds the sum of the durations added under it. -/
def consistent {D : Type} (add : D → D → D) (m : List (String × timing_t D))
    (h : List (String × D)) : Prop :=
  (m.map Prod.fst).Nodup ∧
    ∀ id, (find m id).map (fun t => t.m_total) = total add (durations_under h id)

end global_timings

/-! ## Symmetrizing stream: `bto_aux_symmetrize_impl.h` -/

/-- A call that `bto_aux_symmetrize` makes on its output stream `m_out`. -/
inductive stream_call
  | open
  | close
deriving DecidableEq, Repr

/-- The data members `m_trlst` and `m_open` of `bto_aux_symmetrize`, where a
transformation is a value of the type `T`, and the calls made on `m_out` so far, oldest
first. -/
structure bto_aux_symmetrize (T : Type) where
  m_trlst : List T
  m_open : Bool
  m_out : List stream_call
deriving DecidableEq, Repr

namespace bto_aux_symmetrize

/-- The constructor: `m_open(false)`, an empty list, no call made on the stream. -/
def ctor {T : Type} : bto_aux_symmetrize T := { m_trlst := [], m_open := false, m_out := [] }

/-- The member `add_transf(tr)`. -/
def add_transf {T : Type} (self : bto_aux_symmetrize T) (tr : T) : bto_aux_symmetrize T :=
  { self with m_trlst := self.m_trlst ++ [tr] }

/-- The member `open()`. -/
def «open» {T : Type} (self : bto_aux_symmetrize T) : bto_aux_symmetrize T :=
  if !self.m_open then { self with m_out := self.m_out ++ [.open], m_open := true }
  else self

/-- The member `close()`. -/
def close {T : Type} (self : bto_aux_symmetrize T) : bto_aux_symmetrize T :=
  if self.m_open then
    { m_out := self.m_out ++ [.close], m_trlst := [], m_open := false }
  else self

/-- A call of `open()`, `close()` or `add_transf(tr)`. -/
inductive call (T : Type)
  | open
  | close
  | add_transf (tr : T)

/-- The object after one call. -/
def step {T : Type} (self : bto_aux_symmetrize T) : call T → bto_aux_symmetrize T
  | .open => self.open
  | .close => self.close
  | .add_transf tr => self.add_transf tr

/-- The object after a sequence of calls on a fresh object. -/
def run {T : Type} (calls : List (call T)) : bto_aux_symmetrize T :=
  calls.foldl step ctor

/-- The calls on the stream alternate, beginning with `open` when `expect_open` holds and
with `close` otherwise. -/
def alternates : Bool → List stream_call → Prop
  | _, [] => True
  | true, .open :: rest => alternates false rest
  | false, .close :: rest => alternates true rest
  | _, _ => False

end bto_aux_symmetrize

/-! ## Absent keys in `get_block_offset` -/

namespace sparse_bispace

/-- Modelled from the spec: the tree member `search(key)` (`sparse_block_tree.h` is not
among the sources) returns the position of the key when the tree holds it and nothing
otherwise. `get_block_offset` uses the result without a test, in
`(*sbt.search(cur_key))[0].first`; for an absent key this reads through a result that
refers to no element, which the language does not define. -/
def deref_search (search : sparse_block_tree_any_order → List Nat → Option Nat)
    (sbt : sparse_block_tree_any_order) (cur_key : List Nat) : Except Exn Nat :=
  match search sbt cur_key with
  | some abs_index => .ok abs_index
  | none => .error .undefined

/-- A stand-in for the tree member `search`, used to evaluate examples: the position of
the key in the list of significant blocks, and nothing for a key that is not there. -/
def sample_tree_find (sbt : sparse_block_tree_any_order) (key : List Nat) : Option Nat :=
  sbt.m_sig_blocks.indexOf? key

/-- The call fails loudly: it ends in one of the exceptions of the library. -/
def signals_error {α : Type} (r : Option (Except Exn α)) : Prop :=
  r = some (.error .out_of_bounds) ∨ r = some (.error .bad_parameter)

/-- What `sample_sparse_space | sample_sparse_space` evaluates to: a space of order 4 with
two sparse groups, over the subspaces 0, 1 and 2, 3. -/
def sample_two_groups : sparse_bispace :=
  { N := 4
    m_subspaces := [(sparse_bispace_1.split (sparse_bispace_1.ctor 10) [3, 7]).1,
      (sparse_bispace_1.split (sparse_bispace_1.ctor 6) [2]).1,
      (sparse_bispace_1.split (sparse_bispace_1.ctor 10) [3, 7]).1,
      (sparse_bispace_1.split (sparse_bispace_1.ctor 6) [2]).1]
    m_sparse_indices_sets_offsets := [0, 2]
    m_sparse_block_trees := [{ m_order := 2, m_nnz := 14, m_sig_blocks := [[0, 0], [1, 1]] },
      { m_order := 2, m_nnz := 14, m_sig_blocks := [[0, 0], [1, 1]] }]
    m_sparse_block_tree_dimensions := [14, 14]
    m_dimensions := [14, 14]
    m_inner_sizes := [14, 1]
    m_sparse_key_vecs := [[0, 0], [0, 0]] }

end sparse_bispace

/-! ## The per-slot dimensions of a composed space -/

namespace sparse_bispace

/-- The sparse groups are disjoint, contiguous and in increasing offset order: every
group covers at least one subspace and ends at or before the start of every later
group. -/
def groups_ordered (s : sparse_bispace) : Prop :=
  (List.zip s.m_sparse_indices_sets_offsets s.m_sparse_block_trees).Pairwise
      (fun g h => g.1 + g.2.get_order ≤ h.1) ∧
    ∀ tree ∈ s.m_sparse_block_trees, 1 ≤ tree.get_order

instance (s : sparse_bispace) : Decidable (groups_ordered s) := by
  unfold groups_ordered; infer_instance

/-- The per-slot dimension list that the loop of `init()` computes from the subspaces
and the sparse groups of the object. -/
def slot_dimensions (s : sparse_bispace) : Option (Except Exn (List Nat)) :=
  init_dims_loop s (s.N + s.m_sparse_indices_sets_offsets.length + 1) 0 0 []

end sparse_bispace

/-! ## The block-major layout as a tiling -/

namespace sparse_bispace

/-- The number of elements of the block that a block tuple names: the product of the
sizes of its member blocks. -/
def block_volume (subspaces : List sparse_bispace_1) (block_indices : List Nat) : Nat :=
  (List.zipWith block_size_at subspaces block_indices).prod

/-- All block tuples with one block of each subspace, in lexicographic order. -/
def block_tuples : List sparse_bispace_1 → List (List Nat)
  | [] => [[]]
  | sub :: later =>
    (List.range sub.get_n_blocks).flatMap (fun b => (block_tuples later).map (fun bs => b :: bs))

/-- The first tuple comes strictly before the second in lexicographic order. -/
def lex_below : List Nat → List Nat → Bool
  | a :: as, b :: bs => decide (a < b) || (decide (a = b) && lex_below as bs)
  | _, _ => false

/-- The offset of a block in a gap-free tiling in lexicographic block order: the sum of
the volumes of all block tuples that come before it. -/
def tiling_offset (subspaces : List sparse_bispace_1) (block_indices : List Nat) : Nat :=
  (((block_tuples subspaces).filter (fun b => lex_below b block_indices)).map
    (block_volume subspaces)).sum

/-- The number of elements of the blocks of a one-dimensional space before block `b`. -/
def elements_before (sub : sparse_bispace_1) (b : Nat) : Nat :=
  ((List.range b).map (block_size_at sub)).sum

/-- The last block tuple: the last block of every subspace. -/
def last_block_tuple (subspaces : List sparse_bispace_1) : List Nat :=
  subspaces.map (fun sub => sub.get_n_blocks - 1)

end sparse_bispace

namespace sparse_bispace_1

/-- The blocks of a one-dimensional space tile `[0, get_dim())`: there is a block, every
block starts where the blocks before it end, and the blocks together have `get_dim()`
elements. -/
def tiles (sub : sparse_bispace_1) : Prop :=
  1 ≤ sub.get_n_blocks ∧
    (∀ b, b < sub.get_n_blocks →
      sparse_bispace.elements_before sub b = sparse_bispace.block_abs_index_at sub b) ∧
    sparse_bispace.elements_before sub sub.get_n_blocks = sub.get_dim

end sparse_bispace_1

/-! ## Theorems -/

/-! ### `size_t` arithmetic -/

theorem size_t_sub_of_le {a b : Nat} (h : b ≤ a) : size_t_sub a b = a - b := by
  simp [size_t_sub, h]

theorem size_t_sub_eq_mod {a b : Nat} (ha : a < 2 ^ 64) (hb : b < 2 ^ 64) :
    size_t_sub a b = (a + 2 ^ 64 - b) % 2 ^ 64 := by
  unfold size_t_sub SIZE_T_MOD
  split
  · rw [show a + 2 ^ 64 - b = (a - b) + 2 ^ 64 by omega, Nat.add_mod_right,
      Nat.mod_eq_of_lt (by omega)]
  · rw [Nat.mod_eq_of_lt (by omega)]

/-! ### Counted loops -/

theorem for_each_index_eq {α : Type} (f : Nat → Except Exn α) :
    ∀ (n i : Nat) (l : List α), l.length = n →
      (∀ k, k < n → f (i + k) = vector_at l k) → for_each_index f i n = .ok l
  | 0, _, l, hl, _ => by
    have : l = [] := List.length_eq_zero.mp hl
    simp [for_each_index, this]
  | n + 1, i, [], hl, _ => by simp at hl
  | n + 1, i, x :: xs, hl, hf => by
    have h0 : f i = .ok x := by simpa [vector_at] using hf 0 (by omega)
    have hrec : for_each_index f (i + 1) n = .ok xs := by
      apply for_each_index_eq f n (i + 1) xs (by simpa using hl)
      intro k hk
      have := hf (k + 1) (by omega)
      rw [show i + 1 + k = i + (k + 1) by omega, this]
      simp [vector_at]
    simp [for_each_index, h0, hrec]

namespace sparse_bispace_1

/-! ### `split` -/

theorem split_loop_ok (dim : Nat) : ∀ (L abs : List Nat) (back : Nat),
    abs.getLast? = some back → (∀ x ∈ L, x ≤ size_t_sub dim 1) → L.Pairwise (· < ·) →
    (∀ x ∈ L, back < x) → split_loop dim abs L = (abs ++ L, none)
  | [], abs, _, _, _, _, _ => by simp [split_loop]
  | p :: ps, abs, back, hb, hle, hpw, hgt => by
    have h1 : ¬ p > size_t_sub dim 1 := by
      have := hle p (by simp)
      omega
    have h2 : ¬ p ≤ back := by
      have := hgt p (by simp)
      omega
    have hps : ∀ x ∈ ps, p < x := (List.pairwise_cons.mp hpw).1
    have hrec := split_loop_ok dim ps (abs ++ [p]) p (by simp)
      (fun x hx => hle x (by simp [hx])) (List.pairwise_cons.mp hpw).2 hps
    simp [split_loop, h1, hb, h2, hrec]

theorem valid_split_length {dim : Nat} : ∀ (L : List Nat) (lo : Nat),
    L ≠ [] → L.Pairwise (· < ·) → (∀ x ∈ L, lo ≤ x ∧ x + 1 ≤ dim) → L.length + lo ≤ dim
  | [], _, hne, _, _ => absurd rfl hne
  | [x], lo, _, _, hb => by
    have := hb x (by simp)
    simp
    omega
  | x :: y :: ys, lo, _, hpw, hb => by
    have hx := hb x (by simp)
    have hlt : ∀ z ∈ y :: ys, x < z := (List.pairwise_cons.mp hpw).1
    have := valid_split_length (y :: ys) (lo + 1) (by simp) (List.pairwise_cons.mp hpw).2
      (fun z hz => ⟨by have := hlt z hz; omega, (hb z (by simp [hz])).2⟩)
    simp only [List.length_cons] at this ⊢
    omega

theorem split_valid {dim : Nat} {L : List Nat} (h : valid_split dim L) :
    split (ctor dim) L = ({ m_dim := dim, m_abs_indices := 0 :: L }, none) := by
  obtain ⟨hne, hpw, hb⟩ := h
  have hlen := valid_split_length L 1 hne hpw hb
  have hpos : 0 < L.length := List.length_pos.mpr hne
  have hsub : size_t_sub dim 1 = dim - 1 := size_t_sub_of_le (by omega)
  have hloop := split_loop_ok dim L [0] 0 (by simp)
    (fun x hx => by have := hb x hx; omega) hpw (fun x hx => by have := hb x hx; omega)
  have hc : ¬ (L.length < 1 ∨ L.length > size_t_sub dim 1) := by omega
  simp only [split, ctor]
  rw [if_neg hc, hloop]
  rfl

/-! ### Block sizes -/

theorem get_block_size_succ (dim a b : Nat) (rest : List Nat) (i : Nat) :
    get_block_size ⟨dim, a :: b :: rest⟩ (i + 1) = get_block_size ⟨dim, b :: rest⟩ i := by
  have h1 : size_t_sub (rest.length + 1 + 1) 1 = rest.length + 1 := by
    rw [size_t_sub_of_le (by omega)]; omega
  have h2 : size_t_sub (rest.length + 1) 1 = rest.length := by
    rw [size_t_sub_of_le (by omega)]; omega
  simp only [get_block_size, List.length_cons, h1, h2, List.getLast?_cons_cons,
    List.getElem?_cons_succ, Nat.add_lt_add_iff_right, Nat.add_right_cancel_iff, gt_iff_lt]

theorem get_block_size_eq_sizes_of (dim : Nat) : ∀ (abs : List Nat) (i : Nat),
    i < abs.length → get_block_size ⟨dim, abs⟩ i = vector_at (sizes_of dim abs) i
  | [], i, h => by simp at h
  | [a], i, h => by
    have hi : i = 0 := by simpa using h
    subst hi
    simp [get_block_size, sizes_of, vector_at, size_t_sub]
  | a :: b :: rest, 0, _ => by
    have h1 : size_t_sub (rest.length + 1 + 1) 1 = rest.length + 1 := by
      rw [size_t_sub_of_le (by omega)]; omega
    simp [get_block_size, sizes_of, vector_at, h1]
  | a :: b :: rest, i + 1, h => by
    rw [get_block_size_succ, get_block_size_eq_sizes_of dim (b :: rest) i (by simpa using h)]
    simp [sizes_of, vector_at]

theorem sizes_of_length (dim : Nat) : ∀ abs : List Nat, (sizes_of dim abs).length = abs.length
  | [] => rfl
  | [_] => rfl
  | _ :: b :: rest => by simp [sizes_of, sizes_of_length dim (b :: rest)]

theorem sizes_of_sum (dim : Nat) : ∀ (abs : List Nat) (a : Nat),
    (a :: abs).Pairwise (· < ·) → (∀ x ∈ a :: abs, x ≤ dim) →
      (sizes_of dim (a :: abs)).sum = dim - a
  | [], a, _, hb => by
    have := hb a (by simp)
    simp [sizes_of, size_t_sub_of_le this]
  | b :: rest, a, hpw, hb => by
    have hab : a < b := (List.pairwise_cons.mp hpw).1 b (by simp)
    have hbd : b ≤ dim := hb b (by simp)
    have := sizes_of_sum dim rest b (List.pairwise_cons.mp hpw).2
      (fun x hx => hb x (by simp [List.mem_cons.mp hx]))
    simp only [sizes_of, List.sum_cons, this, size_t_sub_of_le (Nat.le_of_lt hab)]
    omega

theorem sum_block_sizes_eq (dim : Nat) (abs : List Nat) :
    sum_block_sizes ⟨dim, abs⟩ = .ok (sizes_of dim abs).sum := by
  have := for_each_index_eq (get_block_size ⟨dim, abs⟩) abs.length 0 (sizes_of dim abs)
    (sizes_of_length dim abs)
    (fun k hk => by rw [Nat.zero_add]; exact get_block_size_eq_sizes_of dim abs k hk)
  simp [sum_block_sizes, get_n_blocks, this]

theorem starts_pairwise {dim : Nat} {L : List Nat} (h : valid_split dim L) :
    (0 :: L).Pairwise (· < ·) ∧ ∀ x ∈ 0 :: L, x ≤ dim := by
  obtain ⟨_, hpw, hb⟩ := h
  refine ⟨List.pairwise_cons.mpr ⟨fun x hx => by have := hb x hx; omega, hpw⟩, ?_⟩
  intro x hx
  rcases List.mem_cons.mp hx with rfl | hx
  · omega
  · have := hb x hx; omega

/-- Claim C1: on a freshly created space of dimension `dim`, `split(L)` with a valid
boundary list `L` (non-empty, strictly increasing, all in `[1, dim-1]`) succeeds and
afterwards `get_n_blocks()` is `L.size() + 1`. -/
theorem split_n_blocks (dim : Nat) (L : List Nat) (h : valid_split dim L) :
    (split (ctor dim) L).2 = none ∧ get_n_blocks (split (ctor dim) L).1 = L.length + 1 := by
  rw [split_valid h]
  simp [get_n_blocks]

theorem split_n_blocks_witness :
    valid_split 10 [3, 7] ∧ (split (ctor 10) [3, 7]).2 = none ∧
      get_n_blocks (split (ctor 10) [3, 7]).1 = [3, 7].length + 1 :=
  ⟨by decide, split_n_blocks 10 [3, 7] (by decide)⟩

/-- Claim C2: after `split(L)` with a valid boundary list on a fresh space of dimension
`dim`, every `get_block_size(i)` for `i < get_n_blocks()` returns and the sizes add up
to `dim`. -/
theorem split_sum_block_sizes (dim : Nat) (L : List Nat) (h : valid_split dim L) :
    sum_block_sizes (split (ctor dim) L).1 = .ok dim := by
  rw [split_valid h, sum_block_sizes_eq, sizes_of_sum dim L 0 (starts_pairwise h).1
    (starts_pairwise h).2]
  rfl

theorem split_sum_block_sizes_witness :
    valid_split 10 [3, 7] ∧ sum_block_sizes (split (ctor 10) [3, 7]).1 = .ok 10 :=
  ⟨by decide, split_sum_block_sizes 10 [3, 7] (by decide)⟩

theorem sizes_of_getElem? (dim : Nat) : ∀ (abs : List Nat) (a i : Nat),
    (a :: abs).Pairwise (· < ·) → (∀ x ∈ a :: abs, x ≤ dim) → i < abs.length + 1 →
      (sizes_of dim (a :: abs))[i]? =
        some ((if i = abs.length then dim else abs.getD i 0) - (a :: abs).getD i 0)
  | [], a, i, _, hb, hi => by
    have hi0 : i = 0 := by simpa using hi
    subst hi0
    have := hb a (by simp)
    simp [sizes_of, size_t_sub_of_le this]
  | b :: rest, a, 0, hpw, _, _ => by
    have hab : a < b := (List.pairwise_cons.mp hpw).1 b (by simp)
    simp [sizes_of, size_t_sub_of_le (Nat.le_of_lt hab)]
  | b :: rest, a, i + 1, hpw, hb, hi => by
    have := sizes_of_getElem? dim rest b i (List.pairwise_cons.mp hpw).2
      (fun x hx => hb x (by simp [List.mem_cons.mp hx])) (by simpa using hi)
    simp only [sizes_of, List.getElem?_cons_succ, this, List.length_cons,
      Nat.add_right_cancel_iff, List.getD_cons_succ]

/-- Claim C3: after a valid `split(L)` on a fresh space of dimension `dim`, for every
block `i < get_n_blocks()`: `get_block_abs_index(i)` is `0` for `i = 0` and `L[i-1]`
otherwise, and `get_block_size(i)` is the start of the next block (or `dim` for the last
block) minus the start of block `i`. -/
theorem split_block_layout (dim : Nat) (L : List Nat) (h : valid_split dim L) (i : Nat)
    (hi : i < get_n_blocks (split (ctor dim) L).1) :
    get_block_abs_index (split (ctor dim) L).1 i = .ok (block_start L i) ∧
      get_block_size (split (ctor dim) L).1 i =
        .ok (block_end dim L i - block_start L i) := by
  rw [split_valid h] at hi ⊢
  have hi1 : i < L.length + 1 := by simpa [get_n_blocks] using hi
  have hsub : size_t_sub (L.length + 1) 1 = L.length := by
    rw [size_t_sub_of_le (by omega)]; omega
  have hstart : (0 :: L).getD i 0 = block_start L i := by
    cases i with
    | zero => simp [block_start]
    | succ j => simp [block_start]
  constructor
  · have hc : ¬ i > L.length := by omega
    simp only [get_block_abs_index, List.length_cons, hsub, if_neg hc, vector_at]
    rw [List.getElem?_eq_getElem (by simpa using hi1)]
    simp only [← hstart]
    rw [List.getD_eq_getElem _ _ (by simpa using hi1)]
  · rw [get_block_size_eq_sizes_of dim (0 :: L) i (by simpa using hi1), vector_at,
      sizes_of_getElem? dim L 0 i (starts_pairwise h).1 (starts_pairwise h).2 hi1, hstart]
    simp only [block_end, block_start, Nat.add_one_ne_zero, if_false, Nat.add_sub_cancel]

theorem split_block_layout_witness :
    valid_split 10 [3, 7] ∧ 1 < get_n_blocks (split (ctor 10) [3, 7]).1 ∧
      get_block_abs_index (split (ctor 10) [3, 7]).1 1 = .ok 3 ∧
      get_block_size (split (ctor 10) [3, 7]).1 0 = .ok 3 ∧
      get_block_size (split (ctor 10) [3, 7]).1 1 = .ok 4 ∧
      get_block_size (split (ctor 10) [3, 7]).1 2 = .ok 3 :=
  ⟨by decide, by decide,
    (split_block_layout 10 [3, 7] (by decide) 1 (by decide)).1,
    (split_block_layout 10 [3, 7] (by decide) 0 (by decide)).2,
    (split_block_layout 10 [3, 7] (by decide) 1 (by decide)).2,
    (split_block_layout 10 [3, 7] (by decide) 2 (by decide)).2⟩

/-! ### Which boundary lists `split` rejects -/

theorem split_loop_result (dim : Nat) : ∀ (L abs : List Nat) (back : Nat),
    abs.getLast? = some back →
      ((split_loop dim abs L).2 = none ∨ (split_loop dim abs L).2 = some .out_of_bounds) ∧
      ((split_loop dim abs L).2 = none ↔
        (∀ x ∈ L, x ≤ size_t_sub dim 1) ∧ L.Pairwise (· < ·) ∧ ∀ x ∈ L, back < x)
  | [], abs, _, _ => by simp [split_loop]
  | p :: ps, abs, back, hb => by
    by_cases h1 : p > size_t_sub dim 1
    · simp only [split_loop, if_pos h1]
      refine ⟨Or.inr trivial, ?_⟩
      constructor
      · intro h; cases h
      · intro h
        have := h.1 p (by simp)
        omega
    · by_cases h2 : p ≤ back
      · simp only [split_loop, if_neg h1, hb, if_pos h2]
        refine ⟨Or.inr trivial, ?_⟩
        constructor
        · intro h; cases h
        · intro h
          have := h.2.2 p (by simp)
          omega
      · have ih := split_loop_result dim ps (abs ++ [p]) p (by simp)
        simp only [split_loop, if_neg h1, hb, if_neg h2]
        refine ⟨ih.1, ih.2.trans ?_⟩
        simp only [List.pairwise_cons, List.forall_mem_cons]
        constructor
        · rintro ⟨ha, hpw, hgt⟩
          exact ⟨⟨by omega, ha⟩, ⟨hgt, hpw⟩, by omega, fun x hx => by have := hgt x hx; omega⟩
        · rintro ⟨⟨_, ha⟩, ⟨hgt, hpw⟩, _, _⟩
          exact ⟨ha, hpw, hgt⟩

/-- For every dimension `dim ≥ 1` the member `split` on a fresh space rejects exactly the
lists described by `split_must_fail`, with `out_of_bounds`, and accepts every other
list. -/
theorem split_fails_iff_of_pos_dim (dim : Nat) (hdim : 1 ≤ dim) (L : List Nat) :
    ((split (ctor dim) L).2 = some .out_of_bounds ↔ split_must_fail dim L) ∧
      ((split (ctor dim) L).2 = none ↔ ¬ split_must_fail dim L) := by
  have hsub : size_t_sub dim 1 = dim - 1 := size_t_sub_of_le hdim
  have hloop := split_loop_result dim L [0] 0 (by simp)
  have hnone : (split (ctor dim) L).2 = none ↔ ¬ split_must_fail dim L := by
    by_cases hc : L.length < 1 ∨ L.length > size_t_sub dim 1
    · simp only [split, ctor, if_pos hc]
      constructor
      · intro h; cases h
      · intro h
        exfalso
        apply h
        rw [hsub] at hc
        rcases hc with hc | hc
        · exact Or.inl (List.length_eq_zero.mp (by omega))
        · exact Or.inr (Or.inr (Or.inr (Or.inr (by omega))))
    · simp only [split, ctor, if_neg hc]
      rw [hloop.2, hsub]
      rw [hsub] at hc
      unfold split_must_fail
      constructor
      · rintro ⟨hle, hpw, hgt⟩ hfail
        rcases hfail with h | h | h | ⟨x, hx, h⟩ | h
        · subst h; simp at hc
        · exact absurd (hgt 0 h) (by omega)
        · exact h hpw
        · have := hle x hx; omega
        · omega
      · intro h
        refine ⟨fun x hx => ?_, ?_, fun x hx => ?_⟩
        · by_contra hx2
          exact h (Or.inr (Or.inr (Or.inr (Or.inl ⟨x, hx, by omega⟩))))
        · by_contra hpw
          exact h (Or.inr (Or.inr (Or.inl hpw)))
        · by_contra hx2
          have hx0 : x = 0 := by omega
          subst hx0
          exact h (Or.inr (Or.inl hx))
  refine ⟨?_, hnone⟩
  constructor
  · intro h
    by_contra hn
    rw [hnone.mpr hn] at h
    cases h
  · intro h
    by_cases hc : L.length < 1 ∨ L.length > size_t_sub dim 1
    · simp only [split, ctor, if_pos hc]
    · have h2 : (split (ctor dim) L).2 ≠ none := fun hn => hnone.mp hn h
      simp only [split, ctor, if_neg hc] at h2 ⊢
      rcases hloop.1 with h3 | h3
      · exact absurd h3 h2
      · exact h3

/-- Claim C4: at `dim = 0` the claim requires `split([5])` to fail, since `5` exceeds
`dim - 1`; the code evaluates `m_dim - 1` in `size_t`, where it wraps to `2 ^ 64 - 1`,
so both range checks pass and the boundary `5` is installed. -/
theorem split_accepts_on_zero_dim :
    split_must_fail 0 [5] ∧
      split (ctor 0) [5] = ({ m_dim := 0, m_abs_indices := [0, 5] }, none) := by
  constructor
  · exact Or.inr (Or.inr (Or.inr (Or.inl ⟨5, by simp, by omega⟩)))
  · decide

/-! ### Block queries -/

theorem get_n_blocks_ctor (dim : Nat) : 0 < get_n_blocks (ctor dim) := by
  simp [get_n_blocks, ctor]

theorem split_loop_length (dim : Nat) : ∀ (L abs : List Nat),
    abs.length ≤ (split_loop dim abs L).1.length
  | [], abs => by simp [split_loop]
  | p :: ps, abs => by
    have := split_loop_length dim ps (abs ++ [p])
    simp only [List.length_append, List.length_singleton] at this
    unfold split_loop
    split
    · exact Nat.le_refl _
    · split
      · exact Nat.le_refl _
      · split
        · exact Nat.le_refl _
        · omega

/-- The member `split` never removes a block, whether it returns or throws. -/
theorem get_n_blocks_split (s : sparse_bispace_1) (L : List Nat) :
    get_n_blocks s ≤ get_n_blocks (split s L).1 := by
  unfold split
  split
  · exact Nat.le_refl _
  · exact split_loop_length s.m_dim L s.m_abs_indices

/-- Claim C5: on a block space with at least one block (which the constructor
establishes and `split` preserves), `get_block_size(i)` and `get_block_abs_index(i)`
each throw `out_of_bounds` exactly when `i >= get_n_blocks()`, and return a value for
every `i < get_n_blocks()`. -/
theorem block_query_bounds (s : sparse_bispace_1) (i : Nat) (h : 0 < get_n_blocks s) :
    (get_block_size s i = .error .out_of_bounds ↔ get_n_blocks s ≤ i) ∧
      (get_block_abs_index s i = .error .out_of_bounds ↔ get_n_blocks s ≤ i) ∧
      (i < get_n_blocks s → ∃ v, get_block_size s i = .ok v) ∧
      (i < get_n_blocks s → ∃ v, get_block_abs_index s i = .ok v) := by
  obtain ⟨dim, abs⟩ := s
  simp only [get_n_blocks] at h ⊢
  have hsub : size_t_sub abs.length 1 = abs.length - 1 := size_t_sub_of_le h
  have hsize : ∀ j, j < abs.length → ∃ v, get_block_size ⟨dim, abs⟩ j = .ok v := by
    intro j hj
    rw [get_block_size_eq_sizes_of dim abs j hj, vector_at,
      List.getElem?_eq_getElem (by rw [sizes_of_length]; exact hj)]
    exact ⟨_, rfl⟩
  have habs : ∀ j, j < abs.length → ∃ v, get_block_abs_index ⟨dim, abs⟩ j = .ok v := by
    intro j hj
    have hc : ¬ j > abs.length - 1 := by omega
    simp only [get_block_abs_index, hsub, if_neg hc, vector_at, List.getElem?_eq_getElem hj]
    exact ⟨_, rfl⟩
  refine ⟨⟨fun he => ?_, fun hge => ?_⟩, ⟨fun he => ?_, fun hge => ?_⟩, hsize i, habs i⟩
  · by_contra hlt
    obtain ⟨v, hv⟩ := hsize i (by omega)
    rw [hv] at he
    cases he
  · have hc : i > abs.length - 1 := by omega
    simp only [get_block_size, hsub, if_pos hc]
  · by_contra hlt
    obtain ⟨v, hv⟩ := habs i (by omega)
    rw [hv] at he
    cases he
  · have hc : i > abs.length - 1 := by omega
    simp only [get_block_abs_index, hsub, if_pos hc]

theorem block_query_bounds_witness :
    0 < get_n_blocks (split (ctor 10) [3, 7]).1 ∧
      (get_block_size (split (ctor 10) [3, 7]).1 3 = .error .out_of_bounds ↔
        get_n_blocks (split (ctor 10) [3, 7]).1 ≤ 3) ∧
      (get_block_abs_index (split (ctor 10) [3, 7]).1 3 = .error .out_of_bounds ↔
        get_n_blocks (split (ctor 10) [3, 7]).1 ≤ 3) :=
  ⟨by decide, (block_query_bounds (split (ctor 10) [3, 7]).1 3 (by decide)).1,
    (block_query_bounds (split (ctor 10) [3, 7]).1 3 (by decide)).2.1⟩

end sparse_bispace_1

/-! ### Composition -/

namespace bispace_operand

theorem subspaces_length {a : bispace_operand} (h : a.well_formed) :
    a.subspaces.length = a.order := by
  cases a with
  | order_1 s => rfl
  | order_n s => exact h.1

theorem copy_subspaces {a : bispace_operand} (h : a.well_formed) :
    for_each_index a.operator_index 0 a.order = .ok a.subspaces := by
  apply for_each_index_eq _ _ _ _ (subspaces_length h)
  intro k hk
  rw [Nat.zero_add]
  cases a with
  | order_1 s =>
    have hk0 : k = 0 := by simpa [order] using hk
    subst hk0
    simp [operator_index, sparse_bispace_1.operator_index, subspaces, vector_at]
  | order_n s =>
    have hlen : s.m_subspaces.length = s.N := h.1
    have hk2 : k < s.m_subspaces.length := by rw [hlen]; exact hk
    have hc : ¬ k > size_t_sub s.m_subspaces.length 1 := by
      rw [size_t_sub_of_le (by omega)]; omega
    simp only [operator_index, sparse_bispace.operator_index, if_neg hc, subspaces]

end bispace_operand

namespace sparse_bispace

theorem absorb_sparsity_eq (self : sparse_bispace) {rhs : bispace_operand}
    (h : rhs.well_formed) (offset : Nat) :
    absorb_sparsity self rhs offset = .ok { self with
      m_sparse_indices_sets_offsets :=
        self.m_sparse_indices_sets_offsets ++ rhs.sparse_offsets.map (· + offset)
      m_sparse_block_trees := self.m_sparse_block_trees ++ rhs.sparse_trees
      m_sparse_block_tree_dimensions :=
        self.m_sparse_block_tree_dimensions ++ rhs.sparse_tree_dimensions } := by
  cases rhs with
  | order_1 s =>
    simp [absorb_sparsity, bispace_operand.sparse_offsets, bispace_operand.sparse_trees,
      bispace_operand.sparse_tree_dimensions]
  | order_n r =>
    obtain ⟨_, h1, h2⟩ := h
    have hloop := for_each_index_eq (fun i =>
        match vector_at r.m_sparse_indices_sets_offsets i, vector_at r.m_sparse_block_trees i,
            vector_at r.m_sparse_block_tree_dimensions i with
        | .ok off, .ok tree, .ok d => (.ok (off + offset, tree, d) : Except Exn _)
        | .error e, _, _ => .error e
        | _, .error e, _ => .error e
        | _, _, .error e => .error e) r.m_sparse_indices_sets_offsets.length 0
      (List.zip (r.m_sparse_indices_sets_offsets.map (· + offset))
        (List.zip r.m_sparse_block_trees r.m_sparse_block_tree_dimensions))
      (by simp [h1, h2])
      (fun k hk => by
        have hk1 : k < r.m_sparse_block_trees.length := by omega
        have hk2 : k < r.m_sparse_block_tree_dimensions.length := by omega
        simp [vector_at, List.getElem?_eq_getElem, hk, hk1, hk2])
    simp only [absorb_sparsity, hloop, bispace_operand.sparse_offsets,
      bispace_operand.sparse_trees, bispace_operand.sparse_tree_dimensions]
    have e1 : (List.zip (r.m_sparse_indices_sets_offsets.map (· + offset))
        (List.zip r.m_sparse_block_trees r.m_sparse_block_tree_dimensions)).map
          (fun g => g.1) = r.m_sparse_indices_sets_offsets.map (· + offset) :=
      List.map_fst_zip _ _ (by simp [h1, h2])
    have e2 : (List.zip (r.m_sparse_indices_sets_offsets.map (· + offset))
        (List.zip r.m_sparse_block_trees r.m_sparse_block_tree_dimensions)).map
          (fun g => g.2.1) = r.m_sparse_block_trees := by
      rw [show (fun g : Nat × sparse_block_tree_any_order × Nat => g.2.1) =
        Prod.fst ∘ Prod.snd from rfl, ← List.map_map, List.map_snd_zip _ _ (by simp [h1, h2]),
        List.map_fst_zip _ _ (by simp [h2])]
    have e3 : (List.zip (r.m_sparse_indices_sets_offsets.map (· + offset))
        (List.zip r.m_sparse_block_trees r.m_sparse_block_tree_dimensions)).map
          (fun g => g.2.2) = r.m_sparse_block_tree_dimensions := by
      rw [show (fun g : Nat × sparse_block_tree_any_order × Nat => g.2.2) =
        Prod.snd ∘ Prod.snd from rfl, ← List.map_map, List.map_snd_zip _ _ (by simp [h1, h2]),
        List.map_snd_zip _ _ (by simp [h2])]
    rw [e1, e2, e3]

end sparse_bispace

/-! ### `init` -/

namespace sparse_bispace

theorem init_dims_loop_ok (self : sparse_bispace) (hwf : self.well_formed) :
    ∀ (fuel subspace_idx cur_group_idx : Nat) (acc : List Nat),
      (self.N - subspace_idx) + (self.m_sparse_indices_sets_offsets.length - cur_group_idx)
        < fuel →
      ∃ dims, init_dims_loop self fuel subspace_idx cur_group_idx acc = some (.ok dims)
  | 0, _, _, _, h => by omega
  | fuel + 1, sidx, g, acc, h => by
    obtain ⟨hs, h1, h2⟩ := hwf
    unfold init_dims_loop
    by_cases hlt : sidx < self.N
    · rw [if_pos hlt]
      cases hoff : self.m_sparse_indices_sets_offsets[g]? with
      | none =>
        have hsub : vector_at self.m_subspaces sidx = .ok (self.m_subspaces[sidx]) := by
          simp [vector_at, List.getElem?_eq_getElem (show sidx < self.m_subspaces.length by omega)]
        simp only [hsub, Bool.false_eq_true, if_false]
        exact init_dims_loop_ok self ⟨hs, h1, h2⟩ fuel (sidx + 1) g _ (by omega)
      | some off =>
        have hg : g < self.m_sparse_indices_sets_offsets.length := by
          by_contra hn
          rw [List.getElem?_eq_none (by omega)] at hoff
          cases hoff
        by_cases heq : sidx = off
        · have hd : vector_at self.m_sparse_block_tree_dimensions g =
              .ok (self.m_sparse_block_tree_dimensions[g]) := by
            simp [vector_at, List.getElem?_eq_getElem
              (show g < self.m_sparse_block_tree_dimensions.length by omega)]
          have ht : vector_at self.m_sparse_block_trees g = .ok (self.m_sparse_block_trees[g]) := by
            simp [vector_at, List.getElem?_eq_getElem
              (show g < self.m_sparse_block_trees.length by omega)]
          simp only [heq, decide_True, if_true, hd, ht]
          exact init_dims_loop_ok self ⟨hs, h1, h2⟩ fuel _ (g + 1) _ (by omega)
        · have hsub : vector_at self.m_subspaces sidx = .ok (self.m_subspaces[sidx]) := by
            simp [vector_at, List.getElem?_eq_getElem
              (show sidx < self.m_subspaces.length by omega)]
          simp only [heq, decide_False, Bool.false_eq_true, if_false, hsub]
          exact init_dims_loop_ok self ⟨hs, h1, h2⟩ fuel (sidx + 1) g _ (by omega)
    · rw [if_neg hlt]
      exact ⟨acc, rfl⟩

/-- The loop of `init()` never needs more than `N + #groups + 1` passes, whatever the
object holds: `none` is not returned with that much fuel. -/
theorem init_dims_loop_fuel (self : sparse_bispace) :
    ∀ (fuel subspace_idx cur_group_idx : Nat) (acc : List Nat),
      (self.N - subspace_idx) + (self.m_sparse_indices_sets_offsets.length - cur_group_idx)
        < fuel →
      init_dims_loop self fuel subspace_idx cur_group_idx acc ≠ none
  | 0, _, _, _, h => by omega
  | fuel + 1, sidx, g, acc, h => by
    unfold init_dims_loop
    by_cases hlt : sidx < self.N
    · rw [if_pos hlt]
      cases hoff : self.m_sparse_indices_sets_offsets[g]? with
      | none =>
        simp only [Bool.false_eq_true, if_false]
        cases hs : vector_at self.m_subspaces sidx with
        | error e => simp
        | ok sub => exact init_dims_loop_fuel self fuel (sidx + 1) g _ (by omega)
      | some off =>
        have hg : g < self.m_sparse_indices_sets_offsets.length := by
          by_contra hn
          rw [List.getElem?_eq_none (by omega)] at hoff
          cases hoff
        by_cases heq : sidx = off
        · simp only [heq, decide_True, if_true]
          cases hd : vector_at self.m_sparse_block_tree_dimensions g with
          | error e => simp
          | ok d =>
            cases ht : vector_at self.m_sparse_block_trees g with
            | error e => simp
            | ok tree => exact init_dims_loop_fuel self fuel _ (g + 1) _ (by omega)
        · simp only [heq, decide_False, Bool.false_eq_true, if_false]
          cases hs : vector_at self.m_subspaces sidx with
          | error e => simp
          | ok sub => exact init_dims_loop_fuel self fuel (sidx + 1) g _ (by omega)
    · rw [if_neg hlt]
      simp

theorem init_dims_loop_dense (self : sparse_bispace) (hs : self.m_subspaces.length = self.N)
    (ho : self.m_sparse_indices_sets_offsets = []) :
    ∀ (fuel subspace_idx cur_group_idx : Nat) (acc : List Nat),
      self.N - subspace_idx < fuel →
      init_dims_loop self fuel subspace_idx cur_group_idx acc =
        some (.ok (acc ++ (self.m_subspaces.drop subspace_idx).map sparse_bispace_1.get_dim))
  | 0, _, _, _, h => by omega
  | fuel + 1, sidx, g, acc, h => by
    unfold init_dims_loop
    by_cases hlt : sidx < self.N
    · have hsub : vector_at self.m_subspaces sidx = .ok (self.m_subspaces[sidx]) := by
        simp [vector_at, List.getElem?_eq_getElem (show sidx < self.m_subspaces.length by omega)]
      rw [if_pos hlt]
      simp only [ho, List.getElem?_nil, Bool.false_eq_true, if_false, hsub]
      rw [init_dims_loop_dense self hs ho fuel (sidx + 1) g _ (by omega),
        List.drop_eq_getElem_cons (show sidx < self.m_subspaces.length by omega)]
      simp only [List.map_cons, List.append_assoc, List.cons_append, List.nil_append]
    · rw [if_neg hlt, List.drop_eq_nil_of_le (by omega)]
      simp

theorem init_fields (self : sparse_bispace) (hd : self.m_dimensions = [])
    (hwf : self.well_formed) :
    ∃ r, init self = some (.ok r) ∧ r.N = self.N ∧ r.m_subspaces = self.m_subspaces ∧
      r.m_sparse_indices_sets_offsets = self.m_sparse_indices_sets_offsets ∧
      r.m_sparse_block_trees = self.m_sparse_block_trees ∧
      r.m_sparse_block_tree_dimensions = self.m_sparse_block_tree_dimensions ∧
      init_dims_loop self (self.N + self.m_sparse_indices_sets_offsets.length + 1) 0 0 [] =
        some (.ok r.m_dimensions) := by
  obtain ⟨dims, hdims⟩ := init_dims_loop_ok self hwf
    (self.N + self.m_sparse_indices_sets_offsets.length + 1) 0 0 [] (by omega)
  refine ⟨{
      N := self.N
      m_subspaces := self.m_subspaces,
      m_sparse_indices_sets_offsets := self.m_sparse_indices_sets_offsets,
      m_sparse_block_trees := self.m_sparse_block_trees,
      m_sparse_block_tree_dimensions := self.m_sparse_block_tree_dimensions,
      m_dimensions := dims,
      m_inner_sizes := (List.range dims.length).map (inner_size_of dims),
      m_sparse_key_vecs := self.m_sparse_key_vecs ++
        self.m_sparse_block_trees.map (fun sbt => List.replicate sbt.get_order 0) },
    ?_, rfl, rfl, rfl, rfl, rfl, hdims⟩
  unfold init
  rw [hd] at *
  simp only [List.length_nil, gt_iff_lt, Nat.lt_irrefl, if_false, hdims]

theorem ctor_compose_eq_init {lhs rhs : bispace_operand} (hl : lhs.well_formed)
    (hr : rhs.well_formed) :
    ctor_compose lhs rhs = init (before_init (lhs.order + rhs.order)
      (lhs.subspaces ++ rhs.subspaces)
      (lhs.sparse_offsets ++ rhs.sparse_offsets.map (· + lhs.order))
      (lhs.sparse_trees ++ rhs.sparse_trees)
      (lhs.sparse_tree_dimensions ++ rhs.sparse_tree_dimensions)) := by
  unfold ctor_compose
  rw [bispace_operand.copy_subspaces hl, bispace_operand.copy_subspaces hr]
  simp only [absorb_sparsity_eq _ hl, absorb_sparsity_eq _ hr, blank, before_init,
    List.nil_append, Nat.add_zero, List.map_id']

theorem ctor_compose_fields {lhs rhs : bispace_operand} (hl : lhs.well_formed)
    (hr : rhs.well_formed) :
    ∃ C, ctor_compose lhs rhs = some (.ok C) ∧ C.N = lhs.order + rhs.order ∧
      C.m_subspaces = lhs.subspaces ++ rhs.subspaces ∧
      C.m_sparse_indices_sets_offsets =
        lhs.sparse_offsets ++ rhs.sparse_offsets.map (· + lhs.order) ∧
      C.m_sparse_block_trees = lhs.sparse_trees ++ rhs.sparse_trees ∧
      C.m_sparse_block_tree_dimensions =
        lhs.sparse_tree_dimensions ++ rhs.sparse_tree_dimensions ∧
      (lhs.sparse_offsets = [] → rhs.sparse_offsets = [] →
        C.m_dimensions = (lhs.subspaces ++ rhs.subspaces).map sparse_bispace_1.get_dim) := by
  have hlen : (lhs.subspaces ++ rhs.subspaces).length = lhs.order + rhs.order := by
    rw [List.length_append, bispace_operand.subspaces_length hl,
      bispace_operand.subspaces_length hr]
  have hgl : lhs.sparse_offsets.length = lhs.sparse_trees.length ∧
      lhs.sparse_tree_dimensions.length = lhs.sparse_trees.length := by
    cases lhs with
    | order_1 s => exact ⟨rfl, rfl⟩
    | order_n s => exact hl.2
  have hgr : rhs.sparse_offsets.length = rhs.sparse_trees.length ∧
      rhs.sparse_tree_dimensions.length = rhs.sparse_trees.length := by
    cases rhs with
    | order_1 s => exact ⟨rfl, rfl⟩
    | order_n s => exact hr.2
  obtain ⟨C, hC, h1, h2, h3, h4, h5, h6⟩ := init_fields (before_init (lhs.order + rhs.order)
      (lhs.subspaces ++ rhs.subspaces)
      (lhs.sparse_offsets ++ rhs.sparse_offsets.map (· + lhs.order))
      (lhs.sparse_trees ++ rhs.sparse_trees)
      (lhs.sparse_tree_dimensions ++ rhs.sparse_tree_dimensions)) rfl
    ⟨hlen, by simp [before_init, hgl.1, hgr.1], by simp [before_init, hgl.2, hgr.2]⟩
  refine ⟨C, by rw [ctor_compose_eq_init hl hr, hC], h1, h2, h3, h4, h5, fun hlo hro => ?_⟩
  have hdense := init_dims_loop_dense (before_init (lhs.order + rhs.order)
      (lhs.subspaces ++ rhs.subspaces)
      (lhs.sparse_offsets ++ rhs.sparse_offsets.map (· + lhs.order))
      (lhs.sparse_trees ++ rhs.sparse_trees)
      (lhs.sparse_tree_dimensions ++ rhs.sparse_tree_dimensions)) hlen
      (by simp [before_init, hlo, hro])
      (lhs.order + rhs.order +
        (lhs.sparse_offsets ++ rhs.sparse_offsets.map (· + lhs.order)).length + 1) 0 0 []
      (by simp only [before_init]; omega)
  simp only [before_init] at h6 hdense
  rw [hdense] at h6
  simp only [List.nil_append, List.drop_zero, Option.some.injEq, Except.ok.injEq] at h6
  exact h6.symm

/-- The member `init()` always returns or throws: its loop is given enough passes. -/
theorem init_total (self : sparse_bispace) : init self ≠ none := by
  unfold init
  split
  · simp
  · have := init_dims_loop_fuel self
      (self.N + self.m_sparse_indices_sets_offsets.length + 1) 0 0 self.m_dimensions (by omega)
    split
    · next h => exact absurd h this
    · simp
    · simp

/-- The composition of operands that satisfy the class invariant satisfies it too. -/
theorem ctor_compose_well_formed {lhs rhs : bispace_operand} (hl : lhs.well_formed)
    (hr : rhs.well_formed) (C : sparse_bispace) (hC : ctor_compose lhs rhs = some (.ok C)) :
    C.well_formed := by
  obtain ⟨C1, hC1, hN, hsubs, hoffs, htrees, htd, _⟩ := ctor_compose_fields hl hr
  rw [hC] at hC1
  simp only [Option.some.injEq, Except.ok.injEq] at hC1
  subst hC1
  have hgl : lhs.sparse_offsets.length = lhs.sparse_trees.length ∧
      lhs.sparse_tree_dimensions.length = lhs.sparse_trees.length := by
    cases lhs with
    | order_1 s => exact ⟨rfl, rfl⟩
    | order_n s => exact hl.2
  have hgr : rhs.sparse_offsets.length = rhs.sparse_trees.length ∧
      rhs.sparse_tree_dimensions.length = rhs.sparse_trees.length := by
    cases rhs with
    | order_1 s => exact ⟨rfl, rfl⟩
    | order_n s => exact hr.2
  refine ⟨?_, ?_, ?_⟩
  · rw [hsubs, hN, List.length_append, bispace_operand.subspaces_length hl,
      bispace_operand.subspaces_length hr]
  · simp [hoffs, htrees, hgl.1, hgr.1]
  · simp [htd, htrees, hgl.2, hgr.2]

end sparse_bispace

/-! ### Dense spaces built with `|` -/

theorem foldl_size_t_mul : ∀ (dims : List Nat) (acc : Nat), acc < SIZE_T_MOD →
    dims.foldl size_t_mul acc = (acc * dims.prod) % SIZE_T_MOD
  | [], acc, h => by simp [Nat.mod_eq_of_lt h]
  | d :: ds, acc, _ => by
    have hlt : size_t_mul acc d < SIZE_T_MOD := Nat.mod_lt _ (by decide)
    rw [List.foldl_cons, foldl_size_t_mul ds _ hlt, size_t_mul, List.prod_cons,
      Nat.mod_mul_mod, Nat.mul_assoc]

theorem foldl_size_t_mul_one (dims : List Nat) :
    dims.foldl size_t_mul 1 = dims.prod % SIZE_T_MOD := by
  rw [foldl_size_t_mul dims 1 (by decide), Nat.one_mul]

namespace bispace_expr

theorem spaces_length_pos : ∀ e : bispace_expr, 0 < e.spaces.length
  | space _ => by simp [spaces]
  | bar lhs rhs => by
    have := spaces_length_pos lhs
    simp only [spaces, List.length_append]
    omega

theorem eval_dense : ∀ e : bispace_expr, ∃ a, e.eval = some (.ok a) ∧ a.well_formed ∧
    a.subspaces = e.spaces ∧ a.order = e.spaces.length ∧ a.sparse_offsets = [] ∧
    a.sparse_trees = [] ∧ a.sparse_tree_dimensions = [] ∧
    ∀ s, a = .order_n s → s.m_dimensions = e.spaces.map sparse_bispace_1.get_dim
  | space s => ⟨.order_1 s, rfl, trivial, rfl, rfl, rfl, rfl, rfl, fun _ h => by cases h⟩
  | bar lhs rhs => by
    obtain ⟨a, ha, hawf, has, hao, ha1, ha2, ha3, _⟩ := eval_dense lhs
    obtain ⟨b, hb, hbwf, hbs, hbo, hb1, hb2, hb3, _⟩ := eval_dense rhs
    obtain ⟨C, hC, hN, hsubs, hoffs, htrees, htd, hdims⟩ :=
      sparse_bispace.ctor_compose_fields hawf hbwf
    rw [has, hbs] at hsubs
    rw [ha1, hb1] at hoffs
    rw [ha2, hb2] at htrees
    rw [ha3, hb3] at htd
    refine ⟨.order_n C, ?_, ⟨?_, ?_, ?_⟩, ?_, ?_, ?_, ?_, ?_, ?_⟩
    · simp only [eval, ha, hb, operator_bar, hC]
    · rw [hsubs, hN, hao, hbo, List.length_append]
    · simp [hoffs, htrees]
    · simp [htd, htrees]
    · simpa [bispace_operand.subspaces, spaces] using hsubs
    · show C.N = (spaces lhs ++ spaces rhs).length
      rw [hN, hao, hbo, List.length_append]
    · simpa [bispace_operand.sparse_offsets] using hoffs
    · simpa [bispace_operand.sparse_trees] using htrees
    · simpa [bispace_operand.sparse_tree_dimensions] using htd
    · intro s hs
      cases hs
      rw [hdims ha1 hb1, has, hbs]
      rfl

/-- Claim C6: a space of order `N ≥ 2` built from one-dimensional spaces with `|` alone
exists, has those spaces as its subspaces and no sparse group, and its `get_nnz()` is
the product of the `get_dim()` of its `N` subspaces, as `size_t` computes it: the
product reduced modulo `2 ^ 64`, hence the product itself whenever that is
representable. -/
theorem dense_get_nnz (e : bispace_expr) (h : 2 ≤ e.spaces.length) :
    ∃ s, e.eval = some (.ok (.order_n s)) ∧ s.N = e.spaces.length ∧
      s.m_subspaces = e.spaces ∧ s.get_n_sparse_groups = 0 ∧
      s.get_nnz = (e.spaces.map sparse_bispace_1.get_dim).prod % 2 ^ 64 ∧
      ((e.spaces.map sparse_bispace_1.get_dim).prod < 2 ^ 64 →
        s.get_nnz = (e.spaces.map sparse_bispace_1.get_dim).prod) := by
  obtain ⟨a, ha, _, has, hao, _, hat, _, hdims⟩ := eval_dense e
  cases a with
  | order_1 s1 =>
    simp only [bispace_operand.order] at hao
    omega
  | order_n s =>
    have hnnz : s.get_nnz = (e.spaces.map sparse_bispace_1.get_dim).prod % 2 ^ 64 := by
      rw [sparse_bispace.get_nnz, hdims s rfl, foldl_size_t_mul_one]
      rfl
    refine ⟨s, ha, hao, has, ?_, hnnz, fun hlt => ?_⟩
    · simpa [sparse_bispace.get_n_sparse_groups, bispace_operand.sparse_trees] using hat
    · rw [hnnz, Nat.mod_eq_of_lt hlt]

theorem dense_get_nnz_witness :
    2 ≤ (bar (space (sparse_bispace_1.ctor 3)) (space (sparse_bispace_1.ctor 4))).spaces.length ∧
      ∃ s, (bar (space (sparse_bispace_1.ctor 3)) (space (sparse_bispace_1.ctor 4))).eval =
          some (.ok (.order_n s)) ∧ s.get_nnz = 3 * 4 := by
  refine ⟨by decide, ?_⟩
  obtain ⟨s, hs, _, _, _, _, hnnz⟩ :=
    dense_get_nnz (bar (space (sparse_bispace_1.ctor 3)) (space (sparse_bispace_1.ctor 4)))
      (by decide)
  exact ⟨s, hs, hnnz (by decide)⟩

end bispace_expr

/-- The order-2 space `i | j` (the output of contracting dense `A(i,k)` with `B(k,j)`)
exists and its `get_nnz()` is `dim(i) * dim(j)` in `size_t` arithmetic. -/
theorem dense_matrix_get_nnz (si sj : sparse_bispace_1) :
    ∃ c, operator_bar (.order_1 si) (.order_1 sj) = some (.ok c) ∧ c.N = 2 ∧
      c.get_nnz = (si.get_dim * sj.get_dim) % 2 ^ 64 := by
  obtain ⟨C, hC, hN, _, _, _, _, hdims⟩ :=
    @sparse_bispace.ctor_compose_fields (.order_1 si) (.order_1 sj) trivial trivial
  refine ⟨C, hC, hN, ?_⟩
  rw [sparse_bispace.get_nnz, hdims rfl rfl, foldl_size_t_mul_one]
  simp [bispace_operand.subspaces, SIZE_T_MOD]

/-- Claim C7: for operands `A` of order `N` and `B` of order `M` the composition
`A | B` exists and has order `N + M`; subspace `i` is `A[i]` for `i < N` and `B[i - N]`
for `i ≥ N`; its sparse groups are those of `A`, offsets and trees unchanged, followed
by those of `B` with the same trees and every offset increased by `N`; so
`get_n_sparse_groups()` is the sum of the two counts. -/
theorem compose_layout (A B : bispace_operand) (hA : A.well_formed) (hB : B.well_formed) :
    ∃ C, operator_bar A B = some (.ok C) ∧ C.N = A.order + B.order ∧
      (∀ i, i < A.order → ∃ x, A.operator_index i = .ok x ∧ C.operator_index i = .ok x) ∧
      (∀ i, A.order ≤ i → i < A.order + B.order →
        ∃ x, B.operator_index (i - A.order) = .ok x ∧ C.operator_index i = .ok x) ∧
      C.m_sparse_indices_sets_offsets =
        A.sparse_offsets ++ B.sparse_offsets.map (· + A.order) ∧
      C.m_sparse_block_trees = A.sparse_trees ++ B.sparse_trees ∧
      C.get_n_sparse_groups = A.get_n_sparse_groups + B.get_n_sparse_groups := by
  obtain ⟨C, hC, hN, hsubs, hoffs, htrees, _, _⟩ := sparse_bispace.ctor_compose_fields hA hB
  have hlenA := bispace_operand.subspaces_length hA
  have hlenB := bispace_operand.subspaces_length hB
  have hCidx : ∀ i, i < A.order + B.order →
      C.operator_index i = vector_at (A.subspaces ++ B.subspaces) i := by
    intro i hi
    have hc : ¬ i > size_t_sub (A.subspaces ++ B.subspaces).length 1 := by
      rw [List.length_append, hlenA, hlenB, size_t_sub_of_le (by omega)]
      omega
    simp only [sparse_bispace.operator_index, hsubs, if_neg hc]
  have hAidx : ∀ (X : bispace_operand), X.well_formed → ∀ i, i < X.order →
      X.operator_index i = vector_at X.subspaces i := by
    intro X hX i hi
    cases X with
    | order_1 s =>
      have hi0 : i = 0 := by simpa [bispace_operand.order] using hi
      subst hi0
      simp [bispace_operand.operator_index, sparse_bispace_1.operator_index,
        bispace_operand.subspaces, vector_at]
    | order_n s =>
      have hlen : s.m_subspaces.length = s.N := hX.1
      have hc : ¬ i > size_t_sub s.m_subspaces.length 1 := by
        have : i < s.N := hi
        rw [size_t_sub_of_le (by omega)]; omega
      simp only [bispace_operand.operator_index, sparse_bispace.operator_index, if_neg hc,
        bispace_operand.subspaces]
  refine ⟨C, hC, hN, ?_, ?_, hoffs, htrees, ?_⟩
  · intro i hi
    refine ⟨A.subspaces[i], ?_, ?_⟩
    · rw [hAidx A hA i hi, vector_at, List.getElem?_eq_getElem (by omega)]
    · rw [hCidx i (by omega), vector_at, List.getElem?_append_left (by omega),
        List.getElem?_eq_getElem (by omega)]
  · intro i hge hi
    refine ⟨B.subspaces[i - A.order], ?_, ?_⟩
    · rw [hAidx B hB (i - A.order) (by omega), vector_at, List.getElem?_eq_getElem (by omega)]
    · rw [hCidx i hi, vector_at, List.getElem?_append_right (by omega)]
      simp only [hlenA]
      rw [List.getElem?_eq_getElem (by omega)]
  · rw [sparse_bispace.get_n_sparse_groups, htrees, List.length_append]
    cases A <;> cases B <;> rfl

theorem compose_layout_witness :
    (bispace_operand.order_n sparse_bispace.sample_sparse_space).well_formed ∧
      ∃ C, operator_bar (.order_n sparse_bispace.sample_sparse_space)
          (.order_n sparse_bispace.sample_sparse_space) = some (.ok C) ∧ C.N = 4 ∧
        C.m_sparse_indices_sets_offsets = [0, 2] ∧ C.get_n_sparse_groups = 2 := by
  refine ⟨by decide, ?_⟩
  obtain ⟨C, hC, hN, _, _, hoffs, _, hn⟩ :=
    compose_layout (.order_n sparse_bispace.sample_sparse_space)
      (.order_n sparse_bispace.sample_sparse_space) (by decide) (by decide)
  exact ⟨C, hC, hN, hoffs, hn⟩

/-! ### Canonical block offsets -/

theorem add_mul_mod_step (x a P R M : Nat) :
    ((x + (a * (P % M)) % M) % M + R) % M = (x + (a * P + R)) % M := by
  have h1 : (a * (P % M)) % M = (a * P) % M := by
    rw [Nat.mul_mod, Nat.mod_mod, ← Nat.mul_mod]
  rw [h1, Nat.add_mod_mod, Nat.mod_add_mod, Nat.add_assoc]

namespace sparse_bispace

theorem canonical_inner_size_eq (self : sparse_bispace) (hs : self.m_subspaces.length = self.N)
    (i : Nat) :
    canonical_inner_size self i =
      .ok (((self.m_subspaces.drop (i + 1)).map sparse_bispace_1.get_dim).prod % SIZE_T_MOD) := by
  have hloop := for_each_index_eq (vector_at self.m_subspaces) (self.N - (i + 1)) (i + 1)
    (self.m_subspaces.drop (i + 1)) (by rw [List.length_drop, hs])
    (fun k _ => by simp only [vector_at, List.getElem?_drop])
  rw [canonical_inner_size, hloop]
  simp only [← foldl_size_t_mul_one, List.foldl_map]

theorem canonical_loop_eq (self : sparse_bispace) (hs : self.m_subspaces.length = self.N) :
    ∀ (bs : List Nat) (suffix : List sparse_bispace_1) (i offset : Nat),
      self.m_subspaces.drop i = suffix → valid_block_tuple suffix bs → offset < SIZE_T_MOD →
      canonical_loop self bs i offset = .ok ((offset + row_major_offset suffix bs) % SIZE_T_MOD)
  | [], suffix, i, offset, _, hv, ho => by
    have : suffix = [] := List.length_eq_zero.mp hv.1.symm
    subst this
    simp [canonical_loop, row_major_offset, Nat.mod_eq_of_lt ho]
  | b :: bs, [], i, offset, _, hv, _ => by
    have := hv.1
    simp at this
  | b :: bs, sub :: later, i, offset, hdrop, hv, _ => by
    have hi : i < self.m_subspaces.length := by
      by_contra hn
      rw [List.drop_eq_nil_of_le (by omega)] at hdrop
      cases hdrop
    have hcons := List.drop_eq_getElem_cons hi
    rw [hdrop] at hcons
    have hsub : self.m_subspaces[i] = sub := (List.cons.inj hcons).1.symm
    have hlater : self.m_subspaces.drop (i + 1) = later := (List.cons.inj hcons).2.symm
    have hb : b < sub.m_abs_indices.length := hv.2 (sub, b) (by simp)
    have hvs : vector_at self.m_subspaces i = .ok sub := by
      simp [vector_at, List.getElem?_eq_getElem hi, hsub]
    have habs : sub.get_block_abs_index b = .ok (sub.m_abs_indices.getD b 0) := by
      have hc : ¬ b > size_t_sub sub.m_abs_indices.length 1 := by
        rw [size_t_sub_of_le (by omega)]; omega
      simp only [sparse_bispace_1.get_block_abs_index, if_neg hc, vector_at,
        List.getElem?_eq_getElem hb, List.getD_eq_getElem _ _ hb]
    have hv2 : valid_block_tuple later bs := by
      refine ⟨by simpa using hv.1, fun p hp => hv.2 p ?_⟩
      simp [hp]
    have hlt : size_t_add offset (size_t_mul (sub.m_abs_indices.getD b 0)
        ((later.map sparse_bispace_1.get_dim).prod % SIZE_T_MOD)) < SIZE_T_MOD :=
      Nat.mod_lt _ (by decide)
    rw [canonical_loop, canonical_inner_size_eq self hs, hvs, hlater]
    simp only [habs]
    rw [canonical_loop_eq self hs bs later (i + 1) _ hlater hv2 hlt, row_major_offset]
    simp only [size_t_add, size_t_mul, add_mul_mod_step]

/-- Claim C8: for a space of order `N` and a block tuple with one valid block index per
subspace, `get_block_offset_canonical` returns the row-major start offset, the sum over
`i` of `get_block_abs_index_i(b_i)` times the product of `get_dim()` of the subspaces
after `i`, as `size_t` computes it: reduced modulo `2 ^ 64`, hence the sum itself
whenever that is representable. -/
theorem canonical_offset_row_major (s : sparse_bispace) (b : List Nat)
    (hs : s.m_subspaces.length = s.N) (hb : valid_block_tuple s.m_subspaces b) :
    s.get_block_offset_canonical b = .ok (row_major_offset s.m_subspaces b % 2 ^ 64) ∧
      (row_major_offset s.m_subspaces b < 2 ^ 64 →
        s.get_block_offset_canonical b = .ok (row_major_offset s.m_subspaces b)) := by
  have h := canonical_loop_eq s hs b s.m_subspaces 0 0 rfl hb (by decide)
  rw [Nat.zero_add] at h
  refine ⟨h, fun hlt => ?_⟩
  rw [get_block_offset_canonical, h, SIZE_T_MOD, Nat.mod_eq_of_lt hlt]

theorem canonical_offset_row_major_witness :
    sample_sparse_space.m_subspaces.length = sample_sparse_space.N ∧
      valid_block_tuple sample_sparse_space.m_subspaces [1, 1] ∧
      sample_sparse_space.get_block_offset_canonical [1, 1] = .ok (3 * 6 + 2) :=
  ⟨by decide, by decide,
    (canonical_offset_row_major sample_sparse_space [1, 1] (by decide) (by decide)).2
      (by decide)⟩

end sparse_bispace

/-! ### Contraction: which calls are rejected -/

theorem vector_at_error {α : Type} {v : List α} {i : Nat} {e : Exn}
    (h : vector_at v i = .error e) : e = .undefined := by
  unfold vector_at at h
  split at h
  · cases h
  · cases h; rfl

theorem for_each_index_error {α : Type} {f : Nat → Except Exn α}
    (hf : ∀ i e, f i = .error e → e = .undefined) :
    ∀ (n i : Nat) (e : Exn), for_each_index f i n = .error e → e = .undefined
  | 0, _, _, h => by simp [for_each_index] at h
  | n + 1, i, e, h => by
    unfold for_each_index at h
    split at h
    · next e1 h1 => cases h; exact hf i _ h1
    · split at h
      · next e2 h2 => cases h; exact for_each_index_error hf n (i + 1) _ h2
      · cases h

theorem for_each_state_invariant {σ : Type} {body : σ → Nat → Except Exn σ} (P : σ → Prop)
    (hbody : ∀ st i, P st → (∀ e, body st i = .error e → e = .undefined) ∧
      ∀ st1, body st i = .ok st1 → P st1) :
    ∀ (n i : Nat) (st : σ), P st →
      (∀ e, for_each_state body i n st = .error e → e = .undefined) ∧
      ∀ st1, for_each_state body i n st = .ok st1 → P st1
  | 0, _, st, hst => by
    constructor
    · intro e h; simp [for_each_state] at h
    · intro st1 h
      simp only [for_each_state, Except.ok.injEq] at h
      exact h ▸ hst
  | n + 1, i, st, hst => by
    unfold for_each_state
    cases hb : body st i with
    | error e1 =>
      refine ⟨fun e h => ?_, fun st1 h => by cases h⟩
      cases h
      exact (hbody st i hst).1 _ hb
    | ok st2 => exact for_each_state_invariant P hbody n (i + 1) st2 ((hbody st i hst).2 _ hb)

namespace sparse_bispace

theorem contract_subspaces_error (subs : List sparse_bispace_1) (idx : Nat) :
    ∀ (n i : Nat) (e : Exn), contract_subspaces subs idx i n = .error e → e = .undefined
  | 0, _, _, h => by simp [contract_subspaces] at h
  | n + 1, i, e, h => by
    unfold contract_subspaces at h
    split at h
    · exact contract_subspaces_error subs idx n (i + 1) e h
    · split at h
      · next e1 h1 => cases h; exact vector_at_error h1
      · split at h
        · next e2 h2 => cases h; exact contract_subspaces_error subs idx n (i + 1) _ h2
        · cases h

theorem contract_group_step
    (tc : sparse_block_tree_any_order → Nat → List sparse_bispace_1 →
      sparse_block_tree_any_order)
    (parent : sparse_bispace) (idx : Nat) (self : sparse_bispace) (g : Nat) :
    (∀ e, contract_group tc parent idx self g = .error e → e = .undefined) ∧
      ∀ r, contract_group tc parent idx self g = .ok r →
        r.N = self.N ∧ r.m_subspaces = self.m_subspaces ∧ r.m_dimensions = self.m_dimensions ∧
        r.m_sparse_key_vecs = self.m_sparse_key_vecs ∧
        (self.m_sparse_indices_sets_offsets.length = self.m_sparse_block_trees.length →
          r.m_sparse_indices_sets_offsets.length = r.m_sparse_block_trees.length) ∧
        (self.m_sparse_block_tree_dimensions.length = self.m_sparse_block_trees.length →
          r.m_sparse_block_tree_dimensions.length = r.m_sparse_block_trees.length) := by
  unfold contract_group
  cases ht : vector_at parent.m_sparse_block_trees g with
  | error e1 =>
    refine ⟨fun e h => ?_, fun r h => by simp at h⟩
    simp only [Except.error.injEq] at h
    exact h ▸ vector_at_error ht
  | ok cur_tree =>
    cases ho : vector_at parent.m_sparse_indices_sets_offsets g with
    | error e1 =>
      refine ⟨fun e h => ?_, fun r h => by simp at h⟩
      simp only [Except.error.injEq] at h
      exact h ▸ vector_at_error ho
    | ok offset =>
      simp only
      by_cases hin : offset ≤ idx ∧ idx < offset + cur_tree.get_order
      · rw [if_pos hin]
        by_cases h2 : cur_tree.get_order = 2
        · rw [if_pos h2]
          refine ⟨fun e h => (by cases h), fun r h => ?_⟩
          cases h
          exact ⟨rfl, rfl, rfl, rfl, id, id⟩
        · rw [if_neg h2]
          cases hs : for_each_index (vector_at self.m_subspaces)
              (if offset > idx then size_t_sub offset 1 else offset)
              (size_t_sub ((if offset > idx then size_t_sub offset 1 else offset) +
                cur_tree.get_order) 1 - (if offset > idx then size_t_sub offset 1 else offset)) with
          | error e1 =>
            refine ⟨fun e h => ?_, fun r h => by simp at h⟩
            simp only [Except.error.injEq] at h
            exact h ▸ for_each_index_error (fun _ _ => vector_at_error) _ _ _ hs
          | ok tree_subspaces =>
            refine ⟨fun e h => by simp at h, fun r h => ?_⟩
            simp only [Except.ok.injEq] at h
            subst h
            refine ⟨rfl, rfl, rfl, rfl, fun h => ?_, fun h => ?_⟩ <;> simp [h]
      · rw [if_neg hin]
        cases hd : vector_at parent.m_sparse_block_tree_dimensions g with
        | error e1 =>
          refine ⟨fun e h => ?_, fun r h => by simp at h⟩
          simp only [Except.error.injEq] at h
          exact h ▸ vector_at_error hd
        | ok d =>
          refine ⟨fun e h => by simp at h, fun r h => ?_⟩
          simp only [Except.ok.injEq] at h
          subst h
          refine ⟨rfl, rfl, rfl, rfl, fun h => ?_, fun h => ?_⟩ <;> simp [h]

theorem init_dims_loop_error (self : sparse_bispace) :
    ∀ (fuel sidx g : Nat) (acc : List Nat) (e : Exn),
      init_dims_loop self fuel sidx g acc = some (.error e) → e = .undefined
  | 0, _, _, _, _, h => by simp [init_dims_loop] at h
  | fuel + 1, sidx, g, acc, e, h => by
    unfold init_dims_loop at h
    by_cases hlt : sidx < self.N
    · rw [if_pos hlt] at h
      simp only at h
      by_cases hsp : (match self.m_sparse_indices_sets_offsets[g]? with
          | some off => decide (sidx = off)
          | none => false) = true
      · rw [if_pos hsp] at h
        cases hd : vector_at self.m_sparse_block_tree_dimensions g with
        | error e1 =>
          simp only [hd, Option.some.injEq, Except.error.injEq] at h
          exact h ▸ vector_at_error hd
        | ok d =>
          cases ht : vector_at self.m_sparse_block_trees g with
          | error e1 =>
            simp only [hd, ht, Option.some.injEq, Except.error.injEq] at h
            exact h ▸ vector_at_error ht
          | ok tree =>
            simp only [hd, ht] at h
            exact init_dims_loop_error self fuel _ _ _ e h
      · rw [if_neg hsp] at h
        cases hs : vector_at self.m_subspaces sidx with
        | error e1 =>
          simp only [hs, Option.some.injEq, Except.error.injEq] at h
          exact h ▸ vector_at_error hs
        | ok sub =>
          simp only [hs] at h
          exact init_dims_loop_error self fuel _ _ _ e h
    · rw [if_neg hlt] at h
      cases h

theorem init_error (self : sparse_bispace) (hd : self.m_dimensions = []) (e : Exn)
    (h : init self = some (.error e)) : e = .undefined := by
  unfold init at h
  rw [hd] at h
  simp only [List.length_nil, gt_iff_lt, Nat.lt_irrefl, if_false] at h
  split at h
  · cases h
  · next e1 h1 =>
    simp only [Option.some.injEq, Except.error.injEq] at h
    exact h ▸ init_dims_loop_error self _ _ _ _ _ h1
  · cases h

theorem ctor_contract_error
    (tc : sparse_block_tree_any_order → Nat → List sparse_bispace_1 →
      sparse_block_tree_any_order)
    (N : Nat) (parent : sparse_bispace) (idx : Nat) (e : Exn)
    (h : ctor_contract tc N parent idx = some (.error e)) : e = .undefined := by
  unfold ctor_contract at h
  split at h
  · next e1 h1 =>
    simp only [Option.some.injEq, Except.error.injEq] at h
    exact h ▸ contract_subspaces_error _ _ _ _ _ h1
  · next subs _ =>
    have hinv := @for_each_state_invariant _ (contract_group tc parent idx)
      (fun st : sparse_bispace => st.m_dimensions = [])
      (fun st i hst => ⟨(contract_group_step tc parent idx st i).1,
        fun st1 h1 => ((contract_group_step tc parent idx st i).2 st1 h1).2.2.1.trans hst⟩)
      parent.m_sparse_block_trees.length 0 { blank N with m_subspaces := subs } rfl
    split at h
    · next e2 h2 =>
      simp only [Option.some.injEq, Except.error.injEq] at h
      exact h ▸ hinv.1 _ h2
    · next st h2 => exact init_error st (hinv.2 st h2) e h

/-- Claim C9: for a space of order `N` (the general class, `N ≥ 2`), the member
`contract(idx)` throws `bad_parameter` exactly when `idx ≥ N`. -/
theorem contract_bad_parameter_iff
    (tc : sparse_block_tree_any_order → Nat → List sparse_bispace_1 →
      sparse_block_tree_any_order)
    (s : sparse_bispace) (idx : Nat) (hN : 2 ≤ s.N) :
    contract tc s idx = some (.error .bad_parameter) ↔ s.N ≤ idx := by
  have hsub : size_t_sub s.N 1 = s.N - 1 := size_t_sub_of_le (by omega)
  unfold contract
  rw [hsub]
  constructor
  · intro h
    by_contra hlt
    have hc : ¬ idx > s.N - 1 := by omega
    rw [if_neg hc] at h
    by_cases h1 : s.N - 1 = 1
    · rw [if_pos h1] at h
      unfold ctor_contract_1 at h
      cases hv : vector_at s.m_subspaces (if idx ≠ 0 then 1 else 0) with
      | error e1 =>
        simp only [hv, Option.some.injEq, Except.error.injEq] at h
        have := vector_at_error hv
        rw [h] at this
        cases this
      | ok target =>
        simp only [hv] at h
        by_cases hlen : target.m_abs_indices.length > 0
        · simp [if_pos hlen] at h
        · simp [if_neg hlen] at h
    · rw [if_neg h1] at h
      cases hcc : ctor_contract tc (s.N - 1) s idx with
      | none => simp [hcc] at h
      | some r =>
        cases r with
        | error e1 =>
          simp only [hcc, Option.some.injEq, Except.error.injEq] at h
          have := ctor_contract_error tc _ _ _ _ hcc
          rw [h] at this
          cases this
        | ok r => simp [hcc] at h
  · intro h
    have hc : idx > s.N - 1 := by omega
    rw [if_pos hc]

theorem contract_bad_parameter_iff_witness :
    2 ≤ sample_order_3.N ∧
      (contract sample_tree_contract sample_order_3 3 = some (.error .bad_parameter) ↔
        sample_order_3.N ≤ 3) ∧
      (contract sample_tree_contract sample_order_3 2 = some (.error .bad_parameter) ↔
        sample_order_3.N ≤ 2) :=
  ⟨by decide, contract_bad_parameter_iff sample_tree_contract sample_order_3 3 (by decide),
    contract_bad_parameter_iff sample_tree_contract sample_order_3 2 (by decide)⟩

end sparse_bispace

/-! ### Contraction: the subspaces of the result -/

theorem for_each_index_ok {α : Type} {f : Nat → Except Exn α} :
    ∀ (n i : Nat), (∀ k, k < n → ∃ x, f (i + k) = .ok x) → ∃ l, for_each_index f i n = .ok l
  | 0, _, _ => ⟨[], rfl⟩
  | n + 1, i, hf => by
    obtain ⟨x, hx⟩ := hf 0 (by omega)
    obtain ⟨l, hl⟩ := for_each_index_ok (f := f) n (i + 1) (fun k hk => by
      obtain ⟨y, hy⟩ := hf (k + 1) (by omega)
      exact ⟨y, by rw [show i + 1 + k = i + (k + 1) by omega, hy]⟩)
    rw [Nat.add_zero] at hx
    exact ⟨x :: l, by simp [for_each_index, hx, hl]⟩

theorem for_each_state_ok {σ : Type} {body : σ → Nat → Except Exn σ} (P : σ → Prop)
    (bound : Nat)
    (hbody : ∀ st i, i < bound → P st → ∃ st1, body st i = .ok st1 ∧ P st1) :
    ∀ (n i : Nat) (st : σ), i + n ≤ bound → P st →
      ∃ st1, for_each_state body i n st = .ok st1 ∧ P st1
  | 0, _, st, _, hst => ⟨st, rfl, hst⟩
  | n + 1, i, st, hb, hst => by
    obtain ⟨st1, h1, hP1⟩ := hbody st i (by omega) hst
    obtain ⟨st2, h2, hP2⟩ := for_each_state_ok P bound hbody n (i + 1) st1 (by omega) hP1
    exact ⟨st2, by simp [for_each_state, h1, h2], hP2⟩

namespace sparse_bispace

theorem operator_index_eq (t : sparse_bispace) (i : Nat) (h : i < t.m_subspaces.length) :
    t.operator_index i = .ok t.m_subspaces[i] := by
  have hc : ¬ i > size_t_sub t.m_subspaces.length 1 := by
    rw [size_t_sub_of_le (by omega)]; omega
  simp only [operator_index, if_neg hc, vector_at, List.getElem?_eq_getElem h]

theorem contract_subspaces_eq (subs : List sparse_bispace_1) (idx : Nat) :
    ∀ (n i : Nat), subs.length = i + n →
      contract_subspaces subs idx i n =
        .ok (if idx < i then subs.drop i else (subs.drop i).eraseIdx (idx - i))
  | 0, i, h => by
    rw [List.drop_eq_nil_of_le (by omega)]
    simp [contract_subspaces]
  | n + 1, i, h => by
    have hi : i < subs.length := by omega
    have ih := contract_subspaces_eq subs idx n (i + 1) (by omega)
    have hcons := List.drop_eq_getElem_cons hi
    unfold contract_subspaces
    by_cases heq : i = idx
    · rw [if_pos heq, ih, if_pos (by omega), if_neg (by omega), hcons,
        show idx - i = 0 by omega, List.eraseIdx_cons_zero]
    · rw [if_neg heq, vector_at, List.getElem?_eq_getElem hi]
      simp only [ih]
      by_cases hlt : idx < i
      · rw [if_pos hlt, if_pos (by omega), hcons]
      · rw [if_neg hlt, if_neg (by omega), hcons, show idx - i = (idx - (i + 1)) + 1 by omega,
          List.eraseIdx_cons_succ]

theorem contract_group_ok
    (tc : sparse_block_tree_any_order → Nat → List sparse_bispace_1 →
      sparse_block_tree_any_order)
    (parent : sparse_bispace) (idx : Nat) (self : sparse_bispace) (g : Nat)
    (hwf : parent.well_formed) (hgr : parent.groups_in_range)
    (hself : self.m_subspaces.length + 1 = parent.N)
    (hg : g < parent.m_sparse_block_trees.length) :
    ∃ r, contract_group tc parent idx self g = .ok r := by
  obtain ⟨_, h1, h2⟩ := hwf
  have hgo : g < parent.m_sparse_indices_sets_offsets.length := by omega
  have hgd : g < parent.m_sparse_block_tree_dimensions.length := by omega
  have ht : vector_at parent.m_sparse_block_trees g = .ok parent.m_sparse_block_trees[g] := by
    simp [vector_at, List.getElem?_eq_getElem hg]
  have ho : vector_at parent.m_sparse_indices_sets_offsets g =
      .ok parent.m_sparse_indices_sets_offsets[g] := by
    simp [vector_at, List.getElem?_eq_getElem hgo]
  have hd : vector_at parent.m_sparse_block_tree_dimensions g =
      .ok parent.m_sparse_block_tree_dimensions[g] := by
    simp [vector_at, List.getElem?_eq_getElem hgd]
  have hrange : parent.m_sparse_indices_sets_offsets[g] +
      parent.m_sparse_block_trees[g].get_order ≤ parent.N := by
    apply hgr (parent.m_sparse_indices_sets_offsets[g], parent.m_sparse_block_trees[g])
    rw [List.mem_iff_getElem?]
    exact ⟨g, List.getElem?_zip_eq_some.mpr
      ⟨List.getElem?_eq_getElem hgo, List.getElem?_eq_getElem hg⟩⟩
  unfold contract_group
  simp only [ht, ho, hd]
  by_cases hin : parent.m_sparse_indices_sets_offsets[g] ≤ idx ∧
      idx < parent.m_sparse_indices_sets_offsets[g] + parent.m_sparse_block_trees[g].get_order
  · rw [if_pos hin]
    by_cases h2 : parent.m_sparse_block_trees[g].get_order = 2
    · rw [if_pos h2]
      exact ⟨_, rfl⟩
    · rw [if_neg h2, if_neg (show ¬ parent.m_sparse_indices_sets_offsets[g] > idx by omega)]
      have hcount : size_t_sub (parent.m_sparse_indices_sets_offsets[g] +
          parent.m_sparse_block_trees[g].get_order) 1 =
          parent.m_sparse_indices_sets_offsets[g] +
            parent.m_sparse_block_trees[g].get_order - 1 := size_t_sub_of_le (by omega)
      obtain ⟨l, hl⟩ := for_each_index_ok (f := vector_at self.m_subspaces)
        (size_t_sub (parent.m_sparse_indices_sets_offsets[g] +
          parent.m_sparse_block_trees[g].get_order) 1 - parent.m_sparse_indices_sets_offsets[g])
        parent.m_sparse_indices_sets_offsets[g]
        (fun k hk => by
          rw [hcount] at hk
          exact ⟨_, by rw [vector_at, List.getElem?_eq_getElem (by omega)]⟩)
      rw [hl]
      exact ⟨_, rfl⟩
  · rw [if_neg hin]
    exact ⟨_, rfl⟩

/-- For a space of order `N ≥ 3` that satisfies the class invariant, with every group
inside `[0, N)`, and `idx < N`, the member `contract(idx)` returns; the result has order
`N - 1`, the subspaces of the parent without position `idx`, and satisfies the class
invariant. -/
theorem contract_fields
    (tc : sparse_block_tree_any_order → Nat → List sparse_bispace_1 →
      sparse_block_tree_any_order)
    (s : sparse_bispace) (idx : Nat) (hN : 3 ≤ s.N) (hidx : idx < s.N)
    (hwf : s.well_formed) (hgr : s.groups_in_range) :
    ∃ r, contract tc s idx = some (.ok (.order_n r)) ∧ r.N = s.N - 1 ∧
      r.m_subspaces = s.m_subspaces.eraseIdx idx ∧ r.well_formed := by
  have hlen : s.m_subspaces.length = s.N := hwf.1
  have hsubs : contract_subspaces s.m_subspaces idx 0 (s.N - 1 + 1) =
      .ok (s.m_subspaces.eraseIdx idx) := by
    rw [contract_subspaces_eq s.m_subspaces idx (s.N - 1 + 1) 0 (by omega)]
    simp
  have hElen : (s.m_subspaces.eraseIdx idx).length = s.N - 1 := by
    rw [List.length_eraseIdx_of_lt (by omega), hlen]
  obtain ⟨st, hst, hstN, hstS, hstD, hst1, hst2⟩ := @for_each_state_ok _
    (contract_group tc s idx)
    (fun st : sparse_bispace => st.N = s.N - 1 ∧ st.m_subspaces = s.m_subspaces.eraseIdx idx ∧
      st.m_dimensions = [] ∧
      st.m_sparse_indices_sets_offsets.length = st.m_sparse_block_trees.length ∧
      st.m_sparse_block_tree_dimensions.length = st.m_sparse_block_trees.length)
    s.m_sparse_block_trees.length
    (fun st i hi hP => by
      obtain ⟨r, hr⟩ := contract_group_ok tc s idx st i hwf hgr
        (by rw [hP.2.1, hElen]; omega) hi
      obtain ⟨e1, e2, e3, _, e5, e6⟩ := (contract_group_step tc s idx st i).2 r hr
      exact ⟨r, hr, e1.trans hP.1, e2.trans hP.2.1, e3.trans hP.2.2.1, e5 hP.2.2.2.1,
        e6 hP.2.2.2.2⟩)
    s.m_sparse_block_trees.length 0
    { blank (s.N - 1) with m_subspaces := s.m_subspaces.eraseIdx idx } (by omega)
    ⟨rfl, rfl, rfl, rfl, rfl⟩
  obtain ⟨r, hr, hrN, hrS, hrO, hrT, hrD, _⟩ :=
    init_fields st hstD ⟨by rw [hstS, hElen, hstN], hst1, hst2⟩
  have hrS2 : r.m_subspaces = s.m_subspaces.eraseIdx idx := hrS.trans hstS
  refine ⟨r, ?_, hrN.trans hstN, hrS2, ?_, ?_, ?_⟩
  · have hc : ¬ idx > size_t_sub s.N 1 := by
      rw [size_t_sub_of_le (by omega)]; omega
    have h1 : ¬ s.N - 1 = 1 := by omega
    simp only [contract, if_neg hc, if_neg h1, ctor_contract, hsubs, hst, hr]
  · rw [hrS2, hElen, hrN, hstN]
  · rw [hrO, hrT, hst1]
  · rw [hrD, hrT, hst2]

/-- Claim C10: for a space of order `N ≥ 3` and `idx < N`, `contract(idx)` returns a
space of order `N - 1` whose subspaces are the original ones, in order, with the one at
position `idx` removed: `result[i] = this[i]` for `i < idx` and `this[i + 1]` for
`i ≥ idx`. -/
theorem contract_subspaces_layout
    (tc : sparse_block_tree_any_order → Nat → List sparse_bispace_1 →
      sparse_block_tree_any_order)
    (s : sparse_bispace) (idx : Nat) (hN : 3 ≤ s.N) (hidx : idx < s.N)
    (hwf : s.well_formed) (hgr : s.groups_in_range) :
    ∃ r, contract tc s idx = some (.ok (.order_n r)) ∧ r.N = s.N - 1 ∧
      r.m_subspaces = s.m_subspaces.eraseIdx idx ∧
      (∀ i, i < idx → ∃ x, s.operator_index i = .ok x ∧ r.operator_index i = .ok x) ∧
      (∀ i, idx ≤ i → i < s.N - 1 →
        ∃ x, s.operator_index (i + 1) = .ok x ∧ r.operator_index i = .ok x) := by
  have hlen : s.m_subspaces.length = s.N := hwf.1
  obtain ⟨r, hr, hrN, hrS2, hrwf⟩ := contract_fields tc s idx hN hidx hwf hgr
  have hrlen : r.m_subspaces.length = s.N - 1 := by rw [hrwf.1, hrN]
  refine ⟨r, hr, hrN, hrS2, ?_, ?_⟩
  · intro i hi
    refine ⟨s.m_subspaces[i], operator_index_eq s i (by omega), ?_⟩
    rw [operator_index_eq r i (by omega)]
    have h1 : r.m_subspaces[i]? = s.m_subspaces[i]? := by
      rw [hrS2, List.getElem?_eraseIdx_of_lt _ _ _ hi]
    rw [List.getElem?_eq_getElem (by omega), List.getElem?_eq_getElem (by omega)] at h1
    exact congrArg Except.ok (Option.some.inj h1)
  · intro i hge hi
    refine ⟨s.m_subspaces[i + 1], operator_index_eq s (i + 1) (by omega), ?_⟩
    rw [operator_index_eq r i (by omega)]
    have h1 : r.m_subspaces[i]? = s.m_subspaces[i + 1]? := by
      rw [hrS2, List.getElem?_eraseIdx_of_ge _ _ _ hge]
    rw [List.getElem?_eq_getElem (by omega), List.getElem?_eq_getElem (by omega)] at h1
    exact congrArg Except.ok (Option.some.inj h1)

theorem contract_subspaces_layout_witness :
    3 ≤ sample_order_3.N ∧ 0 < sample_order_3.N ∧ sample_order_3.well_formed ∧
      sample_order_3.groups_in_range ∧
      ∃ r, contract sample_tree_contract sample_order_3 0 = some (.ok (.order_n r)) ∧
        r.N = 2 ∧ r.m_subspaces = sample_order_3.m_subspaces.eraseIdx 0 := by
  refine ⟨by decide, by decide, by decide, by decide, ?_⟩
  obtain ⟨r, hr, hN, hS, _⟩ := contract_subspaces_layout sample_tree_contract sample_order_3 0
    (by decide) (by decide) (by decide) (by decide)
  exact ⟨r, hr, hN, hS⟩

end sparse_bispace

namespace sparse_bispace

/-! ### Equality -/

theorem all_index_compare {α : Type} (same : α → α → Bool) (v w : List α) :
    ∀ (n i : Nat), i + n ≤ v.length → i + n ≤ w.length →
      (∃ b, all_index (compare_at same v w) i n = .ok b) ∧
      (all_index (compare_at same v w) i n = .ok true ↔
        ∀ k a b, i ≤ k → k < i + n → v[k]? = some a → w[k]? = some b → same a b = true)
  | 0, i, _, _ => by
    refine ⟨⟨true, rfl⟩, ?_⟩
    simp only [all_index, true_iff]
    intro k a b h1 h2
    omega
  | n + 1, i, hv, hw => by
    have hiv : i < v.length := by omega
    have hiw : i < w.length := by omega
    have hp : compare_at same v w i = .ok (same v[i] w[i]) := by
      simp [compare_at, vector_at, List.getElem?_eq_getElem hiv, List.getElem?_eq_getElem hiw]
    obtain ⟨hex, hiff⟩ := all_index_compare same v w n (i + 1) (by omega) (by omega)
    unfold all_index
    rw [hp]
    cases hs : same v[i] w[i] with
    | false =>
      refine ⟨⟨false, rfl⟩, fun h => (by cases h), fun h => ?_⟩
      have := h i v[i] w[i] (Nat.le_refl _) (by omega) (List.getElem?_eq_getElem hiv)
        (List.getElem?_eq_getElem hiw)
      rw [hs] at this
      cases this
    | true =>
      refine ⟨hex, hiff.trans ⟨fun h k a b h1 h2 ha hb => ?_, fun h k a b h1 h2 ha hb =>
        h k a b (by omega) (by omega) ha hb⟩⟩
      by_cases hk : k = i
      · subst hk
        rw [List.getElem?_eq_getElem hiv] at ha
        rw [List.getElem?_eq_getElem hiw] at hb
        cases ha
        cases hb
        exact hs
      · exact h k a b (by omega) (by omega) ha hb

theorem forall₂_iff_getElem? {α : Type} (R : α → α → Prop) :
    ∀ (v w : List α), List.Forall₂ R v w ↔
      v.length = w.length ∧ ∀ (k : Nat) (a b : α), v[k]? = some a → w[k]? = some b → R a b
  | [], [] => by simp
  | [], y :: ys => by simp
  | x :: xs, [] => by simp
  | x :: xs, y :: ys => by
    rw [List.forall₂_cons, forall₂_iff_getElem? R xs ys]
    constructor
    · rintro ⟨hxy, hlen, h⟩
      refine ⟨by simp [hlen], fun k a b ha hb => ?_⟩
      cases k with
      | zero =>
        simp only [List.getElem?_cons_zero, Option.some.injEq] at ha hb
        subst ha
        subst hb
        exact hxy
      | succ k =>
        simp only [List.getElem?_cons_succ] at ha hb
        exact h k a b ha hb
    · rintro ⟨hlen, h⟩
      refine ⟨h 0 x y (by simp) (by simp), by simpa using hlen, fun k a b ha hb => ?_⟩
      exact h (k + 1) a b (by simpa using ha) (by simpa using hb)

theorem eq_of_getElem?_eq {v w : List Nat} (hlen : v.length = w.length)
    (h : ∀ (k : Nat) (a b : Nat), 0 ≤ k → k < 0 + v.length → v[k]? = some a → w[k]? = some b →
      (!(decide (a ≠ b))) = true) : v = w := by
  apply List.ext_getElem hlen
  intro k h1 h2
  have := h k v[k] w[k] (Nat.zero_le _) (by omega) (List.getElem?_eq_getElem h1)
    (List.getElem?_eq_getElem h2)
  simpa using this

/-- Claim C15: for two spaces `X`, `Y` of the same order `N`, `X == Y` returns, and it
is true exactly when `X[i] == Y[i]` for every `i < N`, the lists of sparse-group offsets
are identical, and the sparse-group trees are equal pair by pair, in order; `X != Y`
returns the negation. -/
theorem operator_eq_iff
    (tree_ne : sparse_block_tree_any_order → sparse_block_tree_any_order → Bool)
    (X Y : sparse_bispace) (hX : X.well_formed) (hY : Y.well_formed) (hN : X.N = Y.N) :
    (∃ b, operator_eq tree_ne X Y = .ok b ∧ operator_ne tree_ne X Y = .ok (!b)) ∧
      (operator_eq tree_ne X Y = .ok true ↔
        (∀ i, i < X.N → ∃ a b, X.operator_index i = .ok a ∧ Y.operator_index i = .ok b ∧
          sparse_bispace_1.operator_eq a b = true) ∧
        X.m_sparse_indices_sets_offsets = Y.m_sparse_indices_sets_offsets ∧
        List.Forall₂ (fun a b => tree_ne a b = false)
          X.m_sparse_block_trees Y.m_sparse_block_trees) := by
  obtain ⟨hXs, hXo, _⟩ := hX
  obtain ⟨hYs, hYo, _⟩ := hY
  obtain ⟨⟨b1, h1⟩, hiff1⟩ := all_index_compare
    (fun a b => !(sparse_bispace_1.operator_ne a b)) X.m_subspaces Y.m_subspaces X.N 0
    (by omega) (by omega)
  have hc1 : (∀ (k : Nat) (a b : sparse_bispace_1), 0 ≤ k → k < 0 + X.N →
        X.m_subspaces[k]? = some a → Y.m_subspaces[k]? = some b →
        (!(sparse_bispace_1.operator_ne a b)) = true) ↔
      ∀ i, i < X.N → ∃ a b, X.operator_index i = .ok a ∧ Y.operator_index i = .ok b ∧
        sparse_bispace_1.operator_eq a b = true := by
    constructor
    · intro h i hi
      refine ⟨X.m_subspaces[i], Y.m_subspaces[i], operator_index_eq X i (by omega),
        operator_index_eq Y i (by omega), ?_⟩
      have := h i _ _ (Nat.zero_le _) (by omega) (List.getElem?_eq_getElem (by omega))
        (List.getElem?_eq_getElem (by omega))
      simpa [sparse_bispace_1.operator_ne] using this
    · intro h k a b _ hk ha hb
      obtain ⟨a1, b1, ha1, hb1, hab⟩ := h k (by omega)
      rw [operator_index_eq X k (by omega)] at ha1
      rw [operator_index_eq Y k (by omega)] at hb1
      rw [List.getElem?_eq_getElem (by omega)] at ha hb
      cases ha
      cases hb
      cases ha1
      cases hb1
      simpa [sparse_bispace_1.operator_ne] using hab
  have hresult : ∃ b, operator_eq tree_ne X Y = .ok b ∧
      (b = true ↔
        (∀ i, i < X.N → ∃ a b, X.operator_index i = .ok a ∧ Y.operator_index i = .ok b ∧
          sparse_bispace_1.operator_eq a b = true) ∧
        X.m_sparse_indices_sets_offsets = Y.m_sparse_indices_sets_offsets ∧
        List.Forall₂ (fun a b => tree_ne a b = false)
          X.m_sparse_block_trees Y.m_sparse_block_trees) := by
    cases b1 with
    | false =>
      refine ⟨false, by simp only [operator_eq, h1], fun h => (by cases h), fun h => ?_⟩
      have := (hiff1.trans hc1).mpr h.1
      rw [h1] at this
      cases this
    | true =>
      have hsub := (hiff1.trans hc1).mp h1
      by_cases hlen : X.m_sparse_indices_sets_offsets.length =
          Y.m_sparse_indices_sets_offsets.length
      · obtain ⟨⟨b2, h2⟩, hiff2⟩ := all_index_compare (fun a b => !(decide (a ≠ b)))
          X.m_sparse_indices_sets_offsets Y.m_sparse_indices_sets_offsets
          X.m_sparse_indices_sets_offsets.length 0 (by omega) (by omega)
        cases b2 with
        | false =>
          refine ⟨false, ?_, fun h => (by cases h), fun h => ?_⟩
          · unfold operator_eq
            rw [h1]
            dsimp only
            rw [if_neg (not_not.mpr hlen), h2]
          · have : all_index (compare_at (fun a b => !(decide (a ≠ b)))
                X.m_sparse_indices_sets_offsets Y.m_sparse_indices_sets_offsets) 0
                X.m_sparse_indices_sets_offsets.length = .ok true := by
              apply hiff2.mpr
              intro k a b _ _ ha hb
              rw [h.2.1] at ha
              rw [ha] at hb
              cases hb
              simp
            rw [h2] at this
            cases this
        | true =>
          have hoffs := eq_of_getElem?_eq hlen (hiff2.mp h2)
          obtain ⟨⟨b3, h3⟩, hiff3⟩ := all_index_compare (fun a b => !(tree_ne a b))
            X.m_sparse_block_trees Y.m_sparse_block_trees X.m_sparse_block_trees.length 0
            (by omega) (by omega)
          have hc3 : (all_index (compare_at (fun a b => !(tree_ne a b))
                X.m_sparse_block_trees Y.m_sparse_block_trees) 0
                X.m_sparse_block_trees.length = .ok true) ↔
              List.Forall₂ (fun a b => tree_ne a b = false)
                X.m_sparse_block_trees Y.m_sparse_block_trees := by
            rw [hiff3, forall₂_iff_getElem?]
            constructor
            · intro h
              refine ⟨by omega, fun k a b ha hb => ?_⟩
              have hk : k < X.m_sparse_block_trees.length := by
                by_contra hn
                rw [List.getElem?_eq_none (by omega)] at ha
                cases ha
              simpa using h k a b (Nat.zero_le _) (by omega) ha hb
            · intro h k a b _ _ ha hb
              simpa using h.2 k a b ha hb
          refine ⟨b3, ?_, ?_⟩
          · unfold operator_eq
            rw [h1]
            dsimp only
            rw [if_neg (not_not.mpr hlen), h2]
            dsimp only
            rw [h3]
          · constructor
            · intro hb
              subst hb
              exact ⟨hsub, hoffs, hc3.mp h3⟩
            · intro h
              have := hc3.mpr h.2.2
              rw [h3] at this
              cases this
              rfl
      · refine ⟨false, ?_, fun h => (by cases h), fun h => ?_⟩
        · unfold operator_eq
          rw [h1]
          dsimp only
          rw [if_pos hlen]
        · exact absurd (by rw [h.2.1]) hlen
  obtain ⟨b, hb, hiff⟩ := hresult
  refine ⟨⟨b, hb, by simp only [operator_ne, hb]⟩, ?_⟩
  rw [hb]
  constructor
  · intro h
    cases h
    exact hiff.mp rfl
  · intro h
    rw [hiff.mpr h]

theorem operator_eq_iff_witness :
    sample_sparse_space.well_formed ∧ sample_matrix_space.well_formed ∧
      sample_sparse_space.N = sample_matrix_space.N ∧
      ((∃ b, operator_eq (fun a b => decide (a ≠ b)) sample_sparse_space sample_matrix_space =
          .ok b ∧
        operator_ne (fun a b => decide (a ≠ b)) sample_sparse_space sample_matrix_space =
          .ok (!b)) ∧
      (operator_eq (fun a b => decide (a ≠ b)) sample_sparse_space sample_matrix_space =
          .ok true ↔
        (∀ i, i < sample_sparse_space.N → ∃ a b, sample_sparse_space.operator_index i = .ok a ∧
          sample_matrix_space.operator_index i = .ok b ∧
          sparse_bispace_1.operator_eq a b = true) ∧
        sample_sparse_space.m_sparse_indices_sets_offsets =
          sample_matrix_space.m_sparse_indices_sets_offsets ∧
        List.Forall₂ (fun a b => decide (a ≠ b) = false)
          sample_sparse_space.m_sparse_block_trees sample_matrix_space.m_sparse_block_trees)) :=
  ⟨by decide, by decide, by decide,
    operator_eq_iff (fun a b => decide (a ≠ b)) sample_sparse_space sample_matrix_space
      (by decide) (by decide) (by decide)⟩

end sparse_bispace

/-! ### Fusion: which calls are rejected -/

namespace sparse_bispace

theorem absorb_sparsity_step (self : sparse_bispace) (rhs : bispace_operand) (offset : Nat) :
    (∀ e, absorb_sparsity self rhs offset = .error e → e = .undefined) ∧
      ∀ r, absorb_sparsity self rhs offset = .ok r → r.m_dimensions = self.m_dimensions := by
  cases rhs with
  | order_1 s =>
    refine ⟨fun e h => (by cases h), fun r h => ?_⟩
    simp only [absorb_sparsity, Except.ok.injEq] at h
    rw [← h]
  | order_n r0 =>
    unfold absorb_sparsity
    simp only
    split
    · next e1 h1 =>
      refine ⟨fun e h => ?_, fun r h => (by cases h)⟩
      simp only [Except.error.injEq] at h
      subst h
      refine for_each_index_error (fun i e hi => ?_) _ _ _ h1
      cases ho : vector_at r0.m_sparse_indices_sets_offsets i with
      | error e2 =>
        simp only [ho, Except.error.injEq] at hi
        exact hi ▸ vector_at_error ho
      | ok off =>
        cases ht : vector_at r0.m_sparse_block_trees i with
        | error e2 =>
          simp only [ho, ht, Except.error.injEq] at hi
          exact hi ▸ vector_at_error ht
        | ok tree =>
          cases hd : vector_at r0.m_sparse_block_tree_dimensions i with
          | error e2 =>
            simp only [ho, ht, hd, Except.error.injEq] at hi
            exact hi ▸ vector_at_error hd
          | ok d => simp [ho, ht, hd] at hi
    · refine ⟨fun e h => (by cases h), fun r h => ?_⟩
      simp only [Except.ok.injEq] at h
      rw [← h]

theorem fuse_patch_step
    (tf : sparse_block_tree_any_order → sparse_block_tree_any_order →
      sparse_block_tree_any_order)
    (so : sparse_block_tree_any_order → List sparse_bispace_1 → sparse_block_tree_any_order)
    (lhs self : sparse_bispace) :
    (∀ e, fuse_patch tf so lhs self = .error e → e = .undefined) ∧
      ∀ r, fuse_patch tf so lhs self = .ok r → r.m_dimensions = self.m_dimensions := by
  have herase : ∀ {α : Type} (v : List α) (i : Nat) (e : Exn),
      vector_erase v i = .error e → e = .undefined := by
    intro α v i e h
    unfold vector_erase at h
    split at h
    · cases h
    · cases h; rfl
  unfold fuse_patch
  simp only
  cases h1 : vector_at self.m_sparse_block_trees
      (size_t_sub lhs.m_sparse_block_trees.length 1) with
  | error e1 =>
    refine ⟨fun e h => ?_, fun r h => (by simp at h)⟩
    simp only [Except.error.injEq] at h
    exact h ▸ vector_at_error h1
  | ok t1 =>
    cases h2 : vector_at self.m_sparse_block_trees
        (size_t_sub lhs.m_sparse_block_trees.length 1 + 1) with
    | error e1 =>
      refine ⟨fun e h => ?_, fun r h => (by simp at h)⟩
      simp only [Except.error.injEq] at h
      exact h ▸ vector_at_error h2
    | ok t2 =>
      simp only
      cases h3 : vector_erase self.m_sparse_indices_sets_offsets
          (size_t_sub lhs.m_sparse_block_trees.length 1 + 1) with
      | error e1 =>
        refine ⟨fun e h => ?_, fun r h => (by simp at h)⟩
        simp only [Except.error.injEq] at h
        exact h ▸ herase _ _ _ h3
      | ok offs =>
        cases h4 : vector_erase (self.m_sparse_block_trees.set
            (size_t_sub lhs.m_sparse_block_trees.length 1) (so (tf t1 t2) self.m_subspaces))
            (size_t_sub lhs.m_sparse_block_trees.length 1 + 1) with
        | error e1 =>
          refine ⟨fun e h => ?_, fun r h => (by simp at h)⟩
          simp only [Except.error.injEq] at h
          exact h ▸ herase _ _ _ h4
        | ok trees =>
          cases h5 : vector_erase self.m_sparse_block_tree_dimensions
              (size_t_sub lhs.m_sparse_block_trees.length 1 + 1) with
          | error e1 =>
            refine ⟨fun e h => ?_, fun r h => (by simp at h)⟩
            simp only [Except.error.injEq] at h
            exact h ▸ herase _ _ _ h5
          | ok dims =>
            refine ⟨fun e h => (by simp at h), fun r h => ?_⟩
            simp only [Except.ok.injEq] at h
            rw [← h]

theorem fuse_sparsity_test_error (lhs rhs : sparse_bispace) (e : Exn)
    (h : fuse_sparsity_test lhs rhs = .error e) : e = .undefined := by
  unfold fuse_sparsity_test at h
  split at h
  · split at h
    · split at h
      · split at h
        · cases h
        · next e1 h1 =>
          simp only [Except.error.injEq] at h
          exact h ▸ vector_at_error h1
      · cases h
    · cases h; rfl
  · cases h

theorem ctor_fuse_error
    (tf : sparse_block_tree_any_order → sparse_block_tree_any_order →
      sparse_block_tree_any_order)
    (so : sparse_block_tree_any_order → List sparse_bispace_1 → sparse_block_tree_any_order)
    (lhs rhs : sparse_bispace) (e : Exn)
    (h : ctor_fuse tf so lhs rhs = some (.error e)) : e = .undefined := by
  unfold ctor_fuse at h
  cases h1 : for_each_index (vector_at lhs.m_subspaces) 0 lhs.N with
  | error e1 =>
    simp only [h1, Option.some.injEq, Except.error.injEq] at h
    exact h ▸ for_each_index_error (fun _ _ => vector_at_error) _ _ _ h1
  | ok from_lhs =>
    cases h2 : for_each_index (vector_at rhs.m_subspaces) 1 (rhs.N - 1) with
    | error e1 =>
      simp only [h1, h2, Option.some.injEq, Except.error.injEq] at h
      exact h ▸ for_each_index_error (fun _ _ => vector_at_error) _ _ _ h2
    | ok from_rhs =>
      simp only [h1, h2] at h
      cases h3 : fuse_sparsity_test lhs rhs with
      | error e1 =>
        simp only [h3, Option.some.injEq, Except.error.injEq] at h
        exact h ▸ fuse_sparsity_test_error _ _ _ h3
      | ok b =>
        simp only [h3] at h
        cases h4 : absorb_sparsity { blank (size_t_sub (lhs.N + rhs.N) 1) with
            m_subspaces := from_lhs ++ from_rhs } (.order_n lhs) 0 with
        | error e1 =>
          simp only [h4, Option.some.injEq, Except.error.injEq] at h
          exact h ▸ (absorb_sparsity_step _ _ _).1 _ h4
        | ok s1 =>
          have hd1 : s1.m_dimensions = [] := (absorb_sparsity_step _ _ _).2 _ h4
          simp only [h4] at h
          cases h5 : absorb_sparsity s1 (.order_n rhs) (size_t_sub lhs.N 1) with
          | error e1 =>
            simp only [h5, Option.some.injEq, Except.error.injEq] at h
            exact h ▸ (absorb_sparsity_step _ _ _).1 _ h5
          | ok s2 =>
            have hd2 : s2.m_dimensions = [] :=
              ((absorb_sparsity_step _ _ _).2 _ h5).trans hd1
            simp only [h5] at h
            cases b with
            | false =>
              simp only [Bool.false_eq_true, if_false] at h
              exact init_error s2 hd2 e h
            | true =>
              simp only [if_true] at h
              cases h6 : fuse_patch tf so lhs s2 with
              | error e1 =>
                simp only [h6, Option.some.injEq, Except.error.injEq] at h
                exact h ▸ (fuse_patch_step tf so lhs s2).1 _ h6
              | ok s3 =>
                simp only [h6] at h
                exact init_error s3 (((fuse_patch_step tf so lhs s2).2 _ h6).trans hd2) e h

/-- Claim C12: `fuse(other)` throws `bad_parameter` exactly when the last subspace of
`this` differs from the first subspace of `other`, in its dimension or in its list of
block starts. -/
theorem fuse_bad_parameter_iff
    (tf : sparse_block_tree_any_order → sparse_block_tree_any_order →
      sparse_block_tree_any_order)
    (so : sparse_block_tree_any_order → List sparse_bispace_1 → sparse_block_tree_any_order)
    (self other : sparse_bispace) (hs : self.m_subspaces.length = self.N) (hN : 1 ≤ self.N)
    (ho : 0 < other.m_subspaces.length) :
    ∃ last first, self.operator_index (self.N - 1) = .ok last ∧
      other.operator_index 0 = .ok first ∧
      (fuse tf so self other = some (.error .bad_parameter) ↔
        (last.get_dim ≠ first.get_dim ∨ last.m_abs_indices ≠ first.m_abs_indices)) := by
  have hl : self.N - 1 < self.m_subspaces.length := by omega
  have hlast := operator_index_eq self (self.N - 1) hl
  have hfirst := operator_index_eq other 0 ho
  refine ⟨_, _, hlast, hfirst, ?_⟩
  have hv : vector_at self.m_subspaces (size_t_sub self.N 1) =
      .ok self.m_subspaces[self.N - 1] := by
    rw [size_t_sub_of_le hN, vector_at, List.getElem?_eq_getElem hl]
  have hne : sparse_bispace_1.operator_ne self.m_subspaces[self.N - 1] other.m_subspaces[0] =
      true ↔ (self.m_subspaces[self.N - 1].get_dim ≠ other.m_subspaces[0].get_dim ∨
        self.m_subspaces[self.N - 1].m_abs_indices ≠ other.m_subspaces[0].m_abs_indices) := by
    simp only [sparse_bispace_1.operator_ne, sparse_bispace_1.operator_eq,
      sparse_bispace_1.get_dim, Bool.not_eq_true', Bool.and_eq_false_iff,
      decide_eq_false_iff_not, ne_eq]
  unfold fuse
  rw [hv, hfirst]
  simp only
  by_cases hb : sparse_bispace_1.operator_ne self.m_subspaces[self.N - 1]
      other.m_subspaces[0] = true
  · rw [if_pos hb]
    exact ⟨fun _ => hne.mp hb, fun _ => rfl⟩
  · rw [if_neg hb]
    constructor
    · intro h
      have := ctor_fuse_error tf so self other _ h
      cases this
    · intro h
      exact absurd (hne.mpr h) hb

theorem fuse_bad_parameter_iff_witness :
    sample_sparse_space.m_subspaces.length = sample_sparse_space.N ∧
      1 ≤ sample_sparse_space.N ∧ 0 < sample_sparse_space.m_subspaces.length ∧
      ∃ last first, sample_sparse_space.operator_index (sample_sparse_space.N - 1) = .ok last ∧
        sample_sparse_space.operator_index 0 = .ok first ∧
        (fuse sample_tree_fuse sample_set_offsets_sizes_nnz sample_sparse_space
            sample_sparse_space = some (.error .bad_parameter) ↔
          (last.get_dim ≠ first.get_dim ∨ last.m_abs_indices ≠ first.m_abs_indices)) :=
  ⟨by decide, by decide, by decide,
    fuse_bad_parameter_iff sample_tree_fuse sample_set_offsets_sizes_nnz sample_sparse_space
      sample_sparse_space (by decide) (by decide) (by decide)⟩

end sparse_bispace

/-! ### Fusion: the result -/

namespace sparse_bispace

theorem ctor_fuse_eq
    (tf : sparse_block_tree_any_order → sparse_block_tree_any_order →
      sparse_block_tree_any_order)
    (so : sparse_block_tree_any_order → List sparse_bispace_1 → sparse_block_tree_any_order)
    (lhs rhs : sparse_bispace) (hl : lhs.well_formed) (hr : rhs.well_formed) :
    ctor_fuse tf so lhs rhs =
      match fuse_sparsity_test lhs rhs with
      | .error e => some (.error e)
      | .ok fuse_sparsity =>
        if fuse_sparsity then
          match fuse_patch tf so lhs (before_init (size_t_sub (lhs.N + rhs.N) 1)
              (lhs.m_subspaces ++ rhs.m_subspaces.drop 1)
              (lhs.m_sparse_indices_sets_offsets ++
                rhs.m_sparse_indices_sets_offsets.map (· + size_t_sub lhs.N 1))
              (lhs.m_sparse_block_trees ++ rhs.m_sparse_block_trees)
              (lhs.m_sparse_block_tree_dimensions ++ rhs.m_sparse_block_tree_dimensions)) with
          | .error e => some (.error e)
          | .ok self => init self
        else init (before_init (size_t_sub (lhs.N + rhs.N) 1)
          (lhs.m_subspaces ++ rhs.m_subspaces.drop 1)
          (lhs.m_sparse_indices_sets_offsets ++
            rhs.m_sparse_indices_sets_offsets.map (· + size_t_sub lhs.N 1))
          (lhs.m_sparse_block_trees ++ rhs.m_sparse_block_trees)
          (lhs.m_sparse_block_tree_dimensions ++ rhs.m_sparse_block_tree_dimensions)) := by
  have h1 : for_each_index (vector_at lhs.m_subspaces) 0 lhs.N = .ok lhs.m_subspaces :=
    for_each_index_eq _ _ _ _ hl.1 (fun k _ => by rw [Nat.zero_add])
  have h2 : for_each_index (vector_at rhs.m_subspaces) 1 (rhs.N - 1) =
      .ok (rhs.m_subspaces.drop 1) :=
    for_each_index_eq _ _ _ _ (by rw [List.length_drop, hr.1])
      (fun k _ => by simp only [vector_at, List.getElem?_drop])
  have hl2 : (bispace_operand.order_n lhs).well_formed := hl
  have hr2 : (bispace_operand.order_n rhs).well_formed := hr
  unfold ctor_fuse
  rw [h1, h2]
  simp only [absorb_sparsity_eq _ hl2, absorb_sparsity_eq _ hr2, blank, before_init,
    List.nil_append, Nat.add_zero, List.map_id', bispace_operand.sparse_offsets,
    bispace_operand.sparse_trees, bispace_operand.sparse_tree_dimensions]

theorem vector_at_ok {α : Type} {v : List α} {i : Nat} (h : i < v.length) :
    vector_at v i = .ok v[i] := by
  rw [vector_at, List.getElem?_eq_getElem h]

theorem vector_erase_ok {α : Type} {v : List α} {i : Nat} (h : i < v.length) :
    vector_erase v i = .ok (v.eraseIdx i) := by
  rw [vector_erase, if_pos h]

theorem fuse_patch_ok
    (tf : sparse_block_tree_any_order → sparse_block_tree_any_order →
      sparse_block_tree_any_order)
    (so : sparse_block_tree_any_order → List sparse_bispace_1 → sparse_block_tree_any_order)
    (lhs self : sparse_bispace) (hpos : 0 < lhs.m_sparse_block_trees.length)
    (h1 : lhs.m_sparse_block_trees.length < self.m_sparse_block_trees.length)
    (h2 : self.m_sparse_indices_sets_offsets.length = self.m_sparse_block_trees.length)
    (h3 : self.m_sparse_block_tree_dimensions.length = self.m_sparse_block_trees.length) :
    ∃ r, fuse_patch tf so lhs self = .ok r ∧ r.N = self.N ∧
      r.m_subspaces = self.m_subspaces ∧ r.m_dimensions = self.m_dimensions ∧
      r.m_sparse_indices_sets_offsets.length = r.m_sparse_block_trees.length ∧
      r.m_sparse_block_tree_dimensions.length = r.m_sparse_block_trees.length := by
  have hidx : size_t_sub lhs.m_sparse_block_trees.length 1 =
      lhs.m_sparse_block_trees.length - 1 := size_t_sub_of_le hpos
  have hi1 : lhs.m_sparse_block_trees.length - 1 + 1 = lhs.m_sparse_block_trees.length := by
    omega
  unfold fuse_patch
  simp only [hidx, hi1]
  rw [vector_at_ok (show lhs.m_sparse_block_trees.length - 1 <
      self.m_sparse_block_trees.length by omega), vector_at_ok h1]
  simp only
  rw [vector_erase_ok (show lhs.m_sparse_block_trees.length <
      self.m_sparse_indices_sets_offsets.length by omega),
    vector_erase_ok (show lhs.m_sparse_block_trees.length <
      (self.m_sparse_block_trees.set (lhs.m_sparse_block_trees.length - 1) _).length by
        rw [List.length_set]; exact h1),
    vector_erase_ok (show lhs.m_sparse_block_trees.length <
      self.m_sparse_block_tree_dimensions.length by omega)]
  refine ⟨_, rfl, rfl, rfl, rfl, ?_, ?_⟩
  · simp only [List.length_eraseIdx, List.length_set]
    rw [if_pos (by omega), if_pos h1, h2]
  · simp only [List.length_eraseIdx, List.length_set]
    rw [if_pos (by omega), if_pos h1, h3]

theorem fuse_sparsity_test_true {lhs rhs : sparse_bispace}
    (h : fuse_sparsity_test lhs rhs = .ok true) :
    0 < lhs.m_sparse_indices_sets_offsets.length ∧
      0 < rhs.m_sparse_indices_sets_offsets.length := by
  unfold fuse_sparsity_test at h
  split at h
  · next hpos =>
    refine ⟨hpos, ?_⟩
    split at h
    · split at h
      · split at h
        · next o ho =>
          by_contra hn
          rw [vector_at, List.getElem?_eq_none (by omega)] at ho
          cases ho
        · cases h
      · cases h
    · cases h
  · cases h

/-- When the seam subspaces agree and the test for merging trees is defined, `fuse`
returns: the result has order `N + L - 1`, the subspaces of `this` followed by the
subspaces `1 .. L-1` of `other`, and satisfies the class invariant. When no trees are
merged, its groups are those of `this` followed by those of `other` shifted by `N - 1`.
-/
theorem fuse_fields
    (tf : sparse_block_tree_any_order → sparse_block_tree_any_order →
      sparse_block_tree_any_order)
    (so : sparse_block_tree_any_order → List sparse_bispace_1 → sparse_block_tree_any_order)
    (lhs rhs : sparse_bispace) (hl : lhs.well_formed) (hr : rhs.well_formed)
    (hN : 1 ≤ lhs.N) (hL : 1 ≤ rhs.N)
    (hseam : lhs.m_subspaces[lhs.N - 1]? = rhs.m_subspaces[0]?)
    (b : Bool) (htest : fuse_sparsity_test lhs rhs = .ok b) :
    ∃ F, fuse tf so lhs rhs = some (.ok F) ∧ F.N = lhs.N + rhs.N - 1 ∧
      F.m_subspaces = lhs.m_subspaces ++ rhs.m_subspaces.drop 1 ∧ F.well_formed ∧
      (b = false →
        F.m_sparse_indices_sets_offsets = lhs.m_sparse_indices_sets_offsets ++
          rhs.m_sparse_indices_sets_offsets.map (· + (lhs.N - 1)) ∧
        F.m_sparse_block_trees = lhs.m_sparse_block_trees ++ rhs.m_sparse_block_trees ∧
        F.m_sparse_block_tree_dimensions =
          lhs.m_sparse_block_tree_dimensions ++ rhs.m_sparse_block_tree_dimensions) ∧
      (lhs.m_sparse_indices_sets_offsets = [] → rhs.m_sparse_indices_sets_offsets = [] →
        F.m_dimensions =
          (lhs.m_subspaces ++ rhs.m_subspaces.drop 1).map sparse_bispace_1.get_dim) := by
  have hl1 : lhs.N - 1 < lhs.m_subspaces.length := by rw [hl.1]; omega
  have hr0 : 0 < rhs.m_subspaces.length := by rw [hr.1]; omega
  have hv : vector_at lhs.m_subspaces (size_t_sub lhs.N 1) =
      .ok lhs.m_subspaces[lhs.N - 1] := by
    rw [size_t_sub_of_le hN, vector_at_ok hl1]
  have hsame : lhs.m_subspaces[lhs.N - 1] = rhs.m_subspaces[0] := by
    rw [List.getElem?_eq_getElem hl1, List.getElem?_eq_getElem hr0] at hseam
    exact Option.some.inj hseam
  have hne : ¬ sparse_bispace_1.operator_ne lhs.m_subspaces[lhs.N - 1] rhs.m_subspaces[0] =
      true := by
    rw [hsame]
    simp [sparse_bispace_1.operator_ne, sparse_bispace_1.operator_eq]
  have hfuse : fuse tf so lhs rhs = ctor_fuse tf so lhs rhs := by
    unfold fuse
    rw [hv, operator_index_eq rhs 0 hr0]
    simp only
    rw [if_neg hne]
  have hsubN : size_t_sub (lhs.N + rhs.N) 1 = lhs.N + rhs.N - 1 := size_t_sub_of_le (by omega)
  have hsub1 : size_t_sub lhs.N 1 = lhs.N - 1 := size_t_sub_of_le hN
  have hlen : (lhs.m_subspaces ++ rhs.m_subspaces.drop 1).length = lhs.N + rhs.N - 1 := by
    rw [List.length_append, List.length_drop, hl.1, hr.1]
    omega
  rw [hfuse, ctor_fuse_eq tf so lhs rhs hl hr, htest, hsubN, hsub1]
  cases b with
  | false =>
    simp only [Bool.false_eq_true, if_false]
    obtain ⟨F, hF, e1, e2, e3, e4, e5, e6⟩ := init_fields (before_init (lhs.N + rhs.N - 1)
      (lhs.m_subspaces ++ rhs.m_subspaces.drop 1)
      (lhs.m_sparse_indices_sets_offsets ++
        rhs.m_sparse_indices_sets_offsets.map (· + (lhs.N - 1)))
      (lhs.m_sparse_block_trees ++ rhs.m_sparse_block_trees)
      (lhs.m_sparse_block_tree_dimensions ++ rhs.m_sparse_block_tree_dimensions)) rfl
      ⟨hlen, by simp [before_init, hl.2.1, hr.2.1], by simp [before_init, hl.2.2, hr.2.2]⟩
    refine ⟨F, hF, e1, e2, ⟨?_, ?_, ?_⟩, fun _ => ⟨e3, e4, e5⟩, fun hlo hro => ?_⟩
    · rw [e2, e1]; exact hlen
    · rw [e3, e4]; simp [before_init, hl.2.1, hr.2.1]
    · rw [e5, e4]; simp [before_init, hl.2.2, hr.2.2]
    · have hdense := init_dims_loop_dense (before_init (lhs.N + rhs.N - 1)
        (lhs.m_subspaces ++ rhs.m_subspaces.drop 1)
        (lhs.m_sparse_indices_sets_offsets ++
          rhs.m_sparse_indices_sets_offsets.map (· + (lhs.N - 1)))
        (lhs.m_sparse_block_trees ++ rhs.m_sparse_block_trees)
        (lhs.m_sparse_block_tree_dimensions ++ rhs.m_sparse_block_tree_dimensions)) hlen
        (by simp [before_init, hlo, hro])
        (lhs.N + rhs.N - 1 + (lhs.m_sparse_indices_sets_offsets ++
          rhs.m_sparse_indices_sets_offsets.map (· + (lhs.N - 1))).length + 1) 0 0 []
        (by simp only [before_init]; omega)
      simp only [before_init] at e6 hdense
      rw [hdense] at e6
      simp only [List.nil_append, List.drop_zero, Option.some.injEq, Except.ok.injEq] at e6
      exact e6.symm
  | true =>
    simp only [if_true]
    obtain ⟨hlpos, hrpos⟩ := fuse_sparsity_test_true htest
    obtain ⟨S1, hS1, p1, p2, p3, p4, p5⟩ := fuse_patch_ok tf so lhs (before_init
      (lhs.N + rhs.N - 1) (lhs.m_subspaces ++ rhs.m_subspaces.drop 1)
      (lhs.m_sparse_indices_sets_offsets ++
        rhs.m_sparse_indices_sets_offsets.map (· + (lhs.N - 1)))
      (lhs.m_sparse_block_trees ++ rhs.m_sparse_block_trees)
      (lhs.m_sparse_block_tree_dimensions ++ rhs.m_sparse_block_tree_dimensions))
      (by rw [← hl.2.1]; exact hlpos)
      (by simp only [before_init, List.length_append]; have := hr.2.1; omega)
      (by simp [before_init, hl.2.1, hr.2.1]) (by simp [before_init, hl.2.2, hr.2.2])
    rw [hS1]
    simp only
    obtain ⟨F, hF, e1, e2, e3, e4, e5, _⟩ := init_fields S1 p3
      ⟨by rw [p2, p1]; exact hlen, p4, p5⟩
    refine ⟨F, hF, e1.trans p1, e2.trans p2, ⟨?_, ?_, ?_⟩, fun h => (by cases h),
      fun hlo _ => ?_⟩
    · rw [e2, e1, p2, p1]; exact hlen
    · rw [e3, e4]; exact p4
    · rw [e5, e4]; exact p5
    · rw [hlo] at hlpos
      simp at hlpos

end sparse_bispace

namespace sparse_bispace

/-- Claim C13: `this` is the order-2 space whose two subspaces form one sparse group
(ending at the seam) and `other` is a dense order-2 space whose first subspace equals
the last subspace of `this`. The fusing constructor evaluates
`rhs.m_sparse_indices_sets_offsets[0]` although `other` has no sparse group, an undefined
access, so `fuse(other)` returns no space, whatever the tree operations are. -/
theorem fuse_dense_other_undefined
    (tf : sparse_block_tree_any_order → sparse_block_tree_any_order →
      sparse_block_tree_any_order)
    (so : sparse_block_tree_any_order → List sparse_bispace_1 →
      sparse_block_tree_any_order) :
    sample_sparse_space.operator_index (sample_sparse_space.N - 1) =
        sample_dense_rhs.operator_index 0 ∧
      sample_sparse_space.well_formed ∧ sample_dense_rhs.well_formed ∧
      sample_dense_rhs.get_n_sparse_groups = 0 ∧
      fuse_sparsity_test sample_sparse_space sample_dense_rhs = .error .undefined ∧
      fuse tf so sample_sparse_space sample_dense_rhs = some (.error .undefined) :=
  ⟨by decide, by decide, by decide, by decide, by decide, rfl⟩

/-! ### Fusion followed by contraction -/

/-- Contraction of a dense space of order `N ≥ 3`: the result is dense, and its slot
dimensions are the dimensions of the remaining subspaces. -/
theorem contract_fields_dense
    (tc : sparse_block_tree_any_order → Nat → List sparse_bispace_1 →
      sparse_block_tree_any_order)
    (s : sparse_bispace) (idx : Nat) (hN : 3 ≤ s.N) (hidx : idx < s.N)
    (hwf : s.well_formed) (hd : s.m_sparse_indices_sets_offsets = []) :
    ∃ r, contract tc s idx = some (.ok (.order_n r)) ∧ r.N = s.N - 1 ∧
      r.m_subspaces = s.m_subspaces.eraseIdx idx ∧ r.well_formed ∧
      r.m_sparse_indices_sets_offsets = [] ∧
      r.m_dimensions = (s.m_subspaces.eraseIdx idx).map sparse_bispace_1.get_dim := by
  have hlen : s.m_subspaces.length = s.N := hwf.1
  have htrees : s.m_sparse_block_trees.length = 0 := by
    rw [← hwf.2.1, hd]; rfl
  have hsubs : contract_subspaces s.m_subspaces idx 0 (s.N - 1 + 1) =
      .ok (s.m_subspaces.eraseIdx idx) := by
    rw [contract_subspaces_eq s.m_subspaces idx (s.N - 1 + 1) 0 (by omega)]
    simp
  have hElen : (s.m_subspaces.eraseIdx idx).length = s.N - 1 := by
    rw [List.length_eraseIdx_of_lt (by omega), hlen]
  obtain ⟨r, hr, e1, e2, e3, e4, e5, e6⟩ := init_fields
    (before_init (s.N - 1) (s.m_subspaces.eraseIdx idx) [] [] []) rfl ⟨hElen, rfl, rfl⟩
  have hdense := init_dims_loop_dense
    (before_init (s.N - 1) (s.m_subspaces.eraseIdx idx) [] [] []) hElen rfl
    (s.N - 1 + 0 + 1) 0 0 [] (by simp only [before_init]; omega)
  simp only [before_init] at e6 hdense
  rw [show ([] : List Nat).length = 0 from rfl] at e6
  rw [hdense] at e6
  simp only [List.nil_append, List.drop_zero, Option.some.injEq, Except.ok.injEq] at e6
  refine ⟨r, ?_, e1, e2, ⟨by rw [e2, e1]; exact hElen, by rw [e3, e4]; rfl, by rw [e5, e4]; rfl⟩,
    e3, e6.symm⟩
  have hc : ¬ idx > size_t_sub s.N 1 := by
    rw [size_t_sub_of_le (by omega)]; omega
  have h1 : ¬ s.N - 1 = 1 := by omega
  simp only [contract, if_neg hc, if_neg h1, ctor_contract, hsubs, htrees, for_each_state]
  have hrec : ({ blank (s.N - 1) with m_subspaces := s.m_subspaces.eraseIdx idx } :
      sparse_bispace) = before_init (s.N - 1) (s.m_subspaces.eraseIdx idx) [] [] [] := rfl
  rw [hrec, hr]

/-- Claim C16: for dense spaces `A` of order `N ≥ 3` and `B` of order `L ≥ 3` whose last
and first subspace agree, every operation of `A.fuse(B).contract(N-1)` and of
`A.contract(N-1) | B.contract(0)` returns, and the two results have the same
`get_nnz()`. -/
theorem fuse_contract_get_nnz
    (tf : sparse_block_tree_any_order → sparse_block_tree_any_order →
      sparse_block_tree_any_order)
    (so : sparse_block_tree_any_order → List sparse_bispace_1 → sparse_block_tree_any_order)
    (tc : sparse_block_tree_any_order → Nat → List sparse_bispace_1 →
      sparse_block_tree_any_order)
    (A B : sparse_bispace) (hA : A.well_formed) (hB : B.well_formed)
    (hAd : A.m_sparse_indices_sets_offsets = []) (hBd : B.m_sparse_indices_sets_offsets = [])
    (hN : 3 ≤ A.N) (hL : 3 ≤ B.N) (hseam : A.m_subspaces[A.N - 1]? = B.m_subspaces[0]?) :
    ∃ F r a b c, fuse tf so A B = some (.ok F) ∧
      contract tc F (A.N - 1) = some (.ok (.order_n r)) ∧
      contract tc A (A.N - 1) = some (.ok (.order_n a)) ∧
      contract tc B 0 = some (.ok (.order_n b)) ∧
      operator_bar (.order_n a) (.order_n b) = some (.ok c) ∧
      r.get_nnz = c.get_nnz := by
  have htest : fuse_sparsity_test A B = .ok false := by
    simp [fuse_sparsity_test, hAd]
  obtain ⟨F, hF, hFN, hFS, hFwf, hFg, _⟩ :=
    fuse_fields tf so A B hA hB (by omega) (by omega) hseam false htest
  have hFo : F.m_sparse_indices_sets_offsets = [] := by
    rw [(hFg rfl).1, hAd, hBd]; rfl
  obtain ⟨r, hr, _, _, _, _, hrD⟩ :=
    contract_fields_dense tc F (A.N - 1) (by omega) (by omega) hFwf hFo
  obtain ⟨a, ha, _, haS, hawf, hao, _⟩ :=
    contract_fields_dense tc A (A.N - 1) hN (by omega) hA hAd
  obtain ⟨b, hb, _, hbS, hbwf, hbo, _⟩ :=
    contract_fields_dense tc B 0 hL (by omega) hB hBd
  obtain ⟨c, hc, _, _, _, _, _, hcD⟩ :=
    @ctor_compose_fields (.order_n a) (.order_n b) hawf hbwf
  refine ⟨F, r, a, b, c, hF, hr, ha, hb, hc, ?_⟩
  have hlists : F.m_subspaces.eraseIdx (A.N - 1) = a.m_subspaces ++ b.m_subspaces := by
    rw [hFS, haS, hbS, List.eraseIdx_append_of_lt_length (by rw [hA.1]; omega),
      List.eraseIdx_zero, List.drop_one]
  rw [get_nnz, get_nnz, hrD, hcD hao hbo, hlists]
  rfl

theorem fuse_contract_get_nnz_witness :
    sample_order_3_dense.well_formed ∧
      sample_order_3_dense.m_sparse_indices_sets_offsets = [] ∧ 3 ≤ sample_order_3_dense.N ∧
      sample_order_3_dense.m_subspaces[sample_order_3_dense.N - 1]? =
        sample_order_3_seam.m_subspaces[0]? ∧
      ∃ F r a b c,
        fuse sample_tree_fuse sample_set_offsets_sizes_nnz sample_order_3_dense
          sample_order_3_seam = some (.ok F) ∧
        contract sample_tree_contract F (sample_order_3_dense.N - 1) =
          some (.ok (.order_n r)) ∧
        contract sample_tree_contract sample_order_3_dense (sample_order_3_dense.N - 1) =
          some (.ok (.order_n a)) ∧
        contract sample_tree_contract sample_order_3_seam 0 = some (.ok (.order_n b)) ∧
        operator_bar (.order_n a) (.order_n b) = some (.ok c) ∧ r.get_nnz = c.get_nnz :=
  ⟨by decide, by decide, by decide, by decide,
    fuse_contract_get_nnz sample_tree_fuse sample_set_offsets_sizes_nnz sample_tree_contract
      sample_order_3_dense sample_order_3_seam (by decide) (by decide) (by decide) (by decide)
      (by decide) (by decide) (by decide)⟩

end sparse_bispace

/-! ### Permutation -/

theorem for_each_index_first_failure {α : Type} {f : Nat → Except Exn α}
    (fails : Nat → Prop) (E : Exn) (bound : Nat)
    (hfail : ∀ j, j < bound → fails j → f j = .error E)
    (hok : ∀ j, j < bound → ¬ fails j → ∃ x, f j = .ok x) :
    ∀ (n i : Nat), i + n ≤ bound →
      ((∃ k, k < n ∧ fails (i + k)) → for_each_index f i n = .error E) ∧
      ((¬ ∃ k, k < n ∧ fails (i + k)) → ∃ l, for_each_index f i n = .ok l)
  | 0, i, _ => by
    refine ⟨fun ⟨k, hk, _⟩ => by omega, fun _ => ⟨[], rfl⟩⟩
  | n + 1, i, hb => by
    obtain ⟨ih1, ih2⟩ := for_each_index_first_failure fails E bound hfail hok n (i + 1)
      (by omega)
    by_cases hi : fails i
    · have hfi := hfail i (by omega) hi
      refine ⟨fun _ => by simp [for_each_index, hfi], fun hno => ?_⟩
      exact absurd ⟨0, by omega, by simpa using hi⟩ hno
    · obtain ⟨x, hx⟩ := hok i (by omega) hi
      constructor
      · rintro ⟨k, hk, hfk⟩
        have hk0 : k ≠ 0 := by
          intro h0
          subst h0
          exact hi (by simpa using hfk)
        have := ih1 ⟨k - 1, by omega, by
          rw [show i + 1 + (k - 1) = i + k by omega]; exact hfk⟩
        simp [for_each_index, hx, this]
      · intro hno
        obtain ⟨l, hl⟩ := ih2 (fun ⟨k, hk, hfk⟩ => hno ⟨k + 1, by omega, by
          rw [show i + (k + 1) = i + 1 + k by omega]; exact hfk⟩)
        exact ⟨x :: l, by simp [for_each_index, hx, hl]⟩

theorem for_each_state_first_failure {σ : Type} {body : σ → Nat → Except Exn σ}
    (P : σ → Prop) (fails : Nat → Prop) (E : Exn) (bound : Nat)
    (hfail : ∀ st j, j < bound → P st → fails j → body st j = .error E)
    (hok : ∀ st j, j < bound → P st → ¬ fails j → ∃ st1, body st j = .ok st1 ∧ P st1) :
    ∀ (n i : Nat) (st : σ), i + n ≤ bound → P st →
      ((∃ k, k < n ∧ fails (i + k)) → for_each_state body i n st = .error E) ∧
      ((¬ ∃ k, k < n ∧ fails (i + k)) → ∃ st1, for_each_state body i n st = .ok st1 ∧ P st1)
  | 0, i, st, _, hP => by
    refine ⟨fun ⟨k, hk, _⟩ => by omega, fun _ => ⟨st, rfl, hP⟩⟩
  | n + 1, i, st, hb, hP => by
    by_cases hi : fails i
    · have hfi := hfail st i (by omega) hP hi
      refine ⟨fun _ => by simp [for_each_state, hfi], fun hno => ?_⟩
      exact absurd ⟨0, by omega, by simpa using hi⟩ hno
    · obtain ⟨st1, hx, hP1⟩ := hok st i (by omega) hP hi
      obtain ⟨ih1, ih2⟩ := for_each_state_first_failure P fails E bound hfail hok n (i + 1)
        st1 (by omega) hP1
      constructor
      · rintro ⟨k, hk, hfk⟩
        have hk0 : k ≠ 0 := by
          intro h0
          subst h0
          exact hi (by simpa using hfk)
        have := ih1 ⟨k - 1, by omega, by
          rw [show i + 1 + (k - 1) = i + k by omega]; exact hfk⟩
        simp [for_each_state, hx, this]
      · intro hno
        obtain ⟨st2, hl, hP2⟩ := ih2 (fun ⟨k, hk, hfk⟩ => hno ⟨k + 1, by omega, by
          rw [show i + (k + 1) = i + 1 + k by omega]; exact hfk⟩)
        exact ⟨st2, by simp [for_each_state, hx, hl], hP2⟩

namespace sparse_bispace

theorem permute_tree_entry_spec (s : sparse_bispace) (perm : List Nat)
    (hlen : s.m_subspaces.length = s.N) (hperm : perm.length = s.N)
    (offset order k : Nat) (hk : k < order) (hr : offset + order ≤ s.N) :
    ((∃ src, perm[offset + k]? = some src ∧ (src < offset ∨ offset + order ≤ src)) →
        permute_tree_entry s perm offset order k = .error .bad_parameter) ∧
      ((¬ ∃ src, perm[offset + k]? = some src ∧ (src < offset ∨ offset + order ≤ src)) →
        ∃ x, permute_tree_entry s perm offset order k = .ok x) := by
  have hd : offset + k < perm.length := by omega
  have hsub : size_t_sub (offset + order) 1 = offset + order - 1 := size_t_sub_of_le (by omega)
  unfold permute_tree_entry
  rw [vector_at_ok hd, hsub]
  simp only
  constructor
  · rintro ⟨src, hsrc, hout⟩
    rw [List.getElem?_eq_getElem hd] at hsrc
    cases hsrc
    rw [if_pos (by omega)]
  · intro hno
    have hin : ¬ (perm[offset + k] < offset ∨ perm[offset + k] > offset + order - 1) := by
      intro hout
      exact hno ⟨perm[offset + k], List.getElem?_eq_getElem hd, by omega⟩
    rw [if_neg hin, vector_at_ok (show perm[offset + k] < s.m_subspaces.length by omega)]
    exact ⟨_, rfl⟩

/-- Claim C14: for a space and a permutation of its `N` positions, `permute(perm)` throws
`bad_parameter` exactly when some destination position inside the footprint of a sparse
group has its source outside that footprint, and returns a space otherwise. The member
is `const`: it reads the object and writes only to the copy it returns. -/
theorem permute_bad_parameter_iff
    (tp : sparse_block_tree_any_order → List Nat → sparse_block_tree_any_order)
    (so : sparse_block_tree_any_order → List sparse_bispace_1 → sparse_block_tree_any_order)
    (s : sparse_bispace) (perm : List Nat) (hwf : s.well_formed) (hgr : s.groups_in_range)
    (hperm : perm.length = s.N) (hlt : ∀ x ∈ perm, x < s.N) :
    (permute tp so s perm = .error .bad_parameter ↔ breaks_group s perm) ∧
      (¬ breaks_group s perm → ∃ r, permute tp so s perm = .ok r) := by
  obtain ⟨hlen, ho, _⟩ := hwf
  -- the first loop
  obtain ⟨copy, hcopy, hc1, hc2⟩ := @for_each_state_ok _ (permute_subspace_step s perm)
    (fun c : sparse_bispace => c.m_subspaces.length = s.N ∧
      c.m_sparse_block_trees.length = s.m_sparse_block_trees.length) s.N
    (fun st i hi hP => by
      have hpi : i < perm.length := by omega
      have hsrc : perm[i] < s.m_subspaces.length := by
        rw [hlen]; exact hlt _ (List.getElem_mem hpi)
      refine ⟨{ st with m_subspaces := st.m_subspaces.set i s.m_subspaces[perm[i]] }, ?_, ?_, hP.2⟩
      · unfold permute_subspace_step
        rw [vector_at_ok hpi]
        simp only
        rw [vector_at_ok hsrc]
        simp only
        rw [if_pos (by omega)]
      · simp only [List.length_set]
        exact hP.1)
    s.N 0 s (by omega) ⟨hlen, rfl⟩
  -- the loop over the groups
  have hgroups := @for_each_state_first_failure _ (permute_group_step tp so s perm)
    (fun c : sparse_bispace =>
      c.m_sparse_block_trees.length = s.m_sparse_block_trees.length)
    (fun i => ∃ (offset : Nat) (tree : sparse_block_tree_any_order) (k src : Nat),
      s.m_sparse_indices_sets_offsets[i]? = some offset ∧
      s.m_sparse_block_trees[i]? = some tree ∧ k < tree.get_order ∧
      perm[offset + k]? = some src ∧ (src < offset ∨ offset + tree.get_order ≤ src))
    .bad_parameter s.m_sparse_indices_sets_offsets.length
    (fun st i hi hP hf => by
      obtain ⟨offset, tree, k, src, h1, h2, hk, hsrc, hout⟩ := hf
      have hrange : offset + tree.get_order ≤ s.N :=
        hgr (offset, tree) (List.mem_iff_getElem?.mpr ⟨i, List.getElem?_zip_eq_some.mpr ⟨h1, h2⟩⟩)
      have hinner := (for_each_index_first_failure
        (fun k => ∃ src, perm[offset + k]? = some src ∧
          (src < offset ∨ offset + tree.get_order ≤ src)) .bad_parameter tree.get_order
        (fun j hj hfj => (permute_tree_entry_spec s perm hlen hperm offset tree.get_order j hj
          hrange).1 hfj)
        (fun j hj hfj => (permute_tree_entry_spec s perm hlen hperm offset tree.get_order j hj
          hrange).2 hfj)
        tree.get_order 0 (by omega)).1 ⟨k, hk, src, by simpa using hsrc, hout⟩
      unfold permute_group_step
      simp only [vector_at, h1, h2, hinner])
    (fun st i hi hP hf => by
      have hit : i < s.m_sparse_block_trees.length := by omega
      have h1 := List.getElem?_eq_getElem hi
      have h2 := List.getElem?_eq_getElem hit
      have hrange : s.m_sparse_indices_sets_offsets[i] + s.m_sparse_block_trees[i].get_order ≤
          s.N :=
        hgr (_, _) (List.mem_iff_getElem?.mpr ⟨i, List.getElem?_zip_eq_some.mpr ⟨h1, h2⟩⟩)
      obtain ⟨entries, hentries⟩ := (for_each_index_first_failure
        (fun k => ∃ src, perm[s.m_sparse_indices_sets_offsets[i] + k]? = some src ∧
          (src < s.m_sparse_indices_sets_offsets[i] ∨
            s.m_sparse_indices_sets_offsets[i] + s.m_sparse_block_trees[i].get_order ≤ src))
        .bad_parameter s.m_sparse_block_trees[i].get_order
        (fun j hj hfj => (permute_tree_entry_spec s perm hlen hperm _ _ j hj hrange).1 hfj)
        (fun j hj hfj => (permute_tree_entry_spec s perm hlen hperm _ _ j hj hrange).2 hfj)
        s.m_sparse_block_trees[i].get_order 0 (by omega)).2
        (fun ⟨k, hk, src, hsrc, hout⟩ =>
          hf ⟨_, _, k, src, h1, h2, hk, by simpa using hsrc, hout⟩)
      unfold permute_group_step
      simp only [vector_at, h1, h2, hentries]
      by_cases hid : entries.map (fun p => p.1) ≠
          List.range s.m_sparse_block_trees[i].get_order
      · rw [if_pos hid, if_pos (by omega)]
        exact ⟨_, rfl, by simp only [List.length_set]; exact hP⟩
      · rw [if_neg hid]
        exact ⟨_, rfl, hP⟩)
    s.m_sparse_indices_sets_offsets.length 0 copy (by omega) hc2
  have hbreak : (∃ k, k < s.m_sparse_indices_sets_offsets.length ∧
      ∃ (offset : Nat) (tree : sparse_block_tree_any_order) (k1 src : Nat),
        s.m_sparse_indices_sets_offsets[0 + k]? = some offset ∧
        s.m_sparse_block_trees[0 + k]? = some tree ∧ k1 < tree.get_order ∧
        perm[offset + k1]? = some src ∧ (src < offset ∨ offset + tree.get_order ≤ src)) ↔
      breaks_group s perm := by
    constructor
    · rintro ⟨i, _, offset, tree, k, src, h1, h2, hk, hsrc, hout⟩
      rw [Nat.zero_add] at h1 h2
      exact ⟨i, offset, tree, offset + k, src, h1, h2, by omega, by omega, hsrc, hout⟩
    · rintro ⟨i, offset, tree, d, src, h1, h2, hd1, hd2, hsrc, hout⟩
      have hi : i < s.m_sparse_indices_sets_offsets.length := by
        by_contra hn
        rw [List.getElem?_eq_none (by omega)] at h1
        cases h1
      refine ⟨i, hi, offset, tree, d - offset, src, by rw [Nat.zero_add]; exact h1,
        by rw [Nat.zero_add]; exact h2, by omega, ?_, hout⟩
      rw [show offset + (d - offset) = d by omega]
      exact hsrc
  have hperm_eq : permute tp so s perm = for_each_state (permute_group_step tp so s perm) 0
      s.m_sparse_indices_sets_offsets.length copy := by
    unfold permute
    rw [hcopy]
  rw [hperm_eq]
  refine ⟨⟨fun h => ?_, fun h => hgroups.1 (hbreak.mpr h)⟩, fun h => ?_⟩
  · by_contra hno
    obtain ⟨r, hr, _⟩ := hgroups.2 (fun hex => hno (hbreak.mp hex))
    rw [hr] at h
    cases h
  · obtain ⟨r, hr, _⟩ := hgroups.2 (fun hex => h (hbreak.mp hex))
    exact ⟨r, hr⟩

theorem permute_bad_parameter_iff_witness :
    sample_order_3.well_formed ∧ sample_order_3.groups_in_range ∧
      [2, 1, 0].length = sample_order_3.N ∧ (∀ x ∈ [2, 1, 0], x < sample_order_3.N) ∧
      (permute sample_tree_permute sample_set_offsets_sizes_nnz sample_order_3 [2, 1, 0] =
          .error .bad_parameter ↔ breaks_group sample_order_3 [2, 1, 0]) ∧
      permute sample_tree_permute sample_set_offsets_sizes_nnz sample_order_3 [2, 1, 0] =
        .error .bad_parameter :=
  ⟨by decide, by decide, by decide, by decide,
    (permute_bad_parameter_iff sample_tree_permute sample_set_offsets_sizes_nnz sample_order_3
      [2, 1, 0] (by decide) (by decide) (by decide) (by decide)).1, by decide⟩

/-- A permutation inside the footprint of the group of `sample_order_3` is accepted: the
subspaces and the significant blocks of the tree are reordered. -/
theorem permute_sample_order_3 :
    (permute sample_tree_permute sample_set_offsets_sizes_nnz sample_order_3 [1, 0, 2]).map
      (fun r => (r.m_subspaces.map sparse_bispace_1.get_dim,
        r.m_sparse_block_trees.map (fun t => t.m_sig_blocks))) =
      .ok ([6, 10, 4], [[[0, 0], [1, 1]]]) := by
  decide

end sparse_bispace


/-! ### The contraction batch provider -/

namespace bispace_operand

theorem operator_index_ok {b : bispace_operand} (hwf : b.well_formed) {s : Nat}
    (hs : s < b.order) : ∃ sub, b.operator_index s = .ok sub := by
  cases b with
  | order_1 t =>
    simp only [order] at hs
    have h0 : s = 0 := by omega
    subst h0
    exact ⟨t, by simp [operator_index, sparse_bispace_1.operator_index]⟩
  | order_n t =>
    simp only [order] at hs
    have hlen : t.m_subspaces.length = t.N := hwf.1
    exact ⟨_, sparse_bispace.operator_index_eq t s (by omega)⟩

end bispace_operand

namespace contract2_batch_provider_factory

theorem must_fail_iff (f : contract2_batch_provider_factory) (C : gen_labeled_btensor) :
    must_fail f C ↔ (∃ a ∈ C.m_letter_expr, bad_output_letter f a) ∨
      (∃ a ∈ f.m_le, bad_contracted_letter f a) := by
  unfold must_fail bad_output_letter bad_contracted_letter
  constructor
  · rintro (⟨a, ha, h⟩ | ⟨a, ha, h⟩ | ⟨a, ha, h⟩ | h)
    · exact .inl ⟨a, ha, .inl h⟩
    · exact .inl ⟨a, ha, .inr (.inl h)⟩
    · exact .inl ⟨a, ha, .inr (.inr h)⟩
    · exact .inr h
  · rintro (⟨a, ha, h | h | h⟩ | h)
    · exact .inl ⟨a, ha, h⟩
    · exact .inr (.inl ⟨a, ha, h⟩)
    · exact .inr (.inr (.inl ⟨a, ha, h⟩))
    · exact .inr (.inr (.inr h))

theorem uncontracted_loop_error (f : contract2_batch_provider_factory)
    (bispaces : List bispace_operand) (i a : Nat) (h : bad_output_letter f a) :
    uncontracted_loop f bispaces i a = .error .bad_parameter := by
  unfold uncontracted_loop
  rcases h with h | ⟨hA, hB⟩ | ⟨hA, hB⟩
  · simp [h]
  · simp [hA, hB]
  · simp [hA, hB]

theorem uncontracted_loop_ok (f : contract2_batch_provider_factory)
    (b0 b1 b2 : bispace_operand) (i a : Nat) (h : ¬ bad_output_letter f a) :
    uncontracted_loop f [b0, b1, b2] i a =
      .ok { m_bispaces := [b0, b1, b2], m_subspaces_looped := uncontracted_looped f i a } := by
  unfold bad_output_letter at h
  simp only [not_or, not_and, not_not] at h
  obtain ⟨hle, hAB, hn⟩ := h
  unfold uncontracted_loop uncontracted_looped
  by_cases hA : a ∈ f.m_A_letter_expr
  · have hB := hAB hA
    simp [hle, hA, hB, block_loop.ctor, block_loop.set_subspace_looped]
  · have hB := hn hA
    simp [hle, hA, hB, block_loop.ctor, block_loop.set_subspace_looped]

theorem uncontracted_loops_error (f : contract2_batch_provider_factory)
    (b0 b1 b2 : bispace_operand) :
    ∀ (letters : List Nat) (i : Nat), (∃ a ∈ letters, bad_output_letter f a) →
      uncontracted_loops f [b0, b1, b2] i letters = .error .bad_parameter
  | [], _, h => by simp at h
  | a :: rest, i, h => by
    unfold uncontracted_loops
    by_cases ha : bad_output_letter f a
    · rw [uncontracted_loop_error f _ i a ha]
    · rw [uncontracted_loop_ok f b0 b1 b2 i a ha]
      have hrest : ∃ x ∈ rest, bad_output_letter f x := by
        obtain ⟨x, hx, hbad⟩ := h
        rcases List.mem_cons.mp hx with rfl | hx
        · exact absurd hbad ha
        · exact ⟨x, hx, hbad⟩
      simp only [uncontracted_loops_error f b0 b1 b2 rest (i + 1) hrest]

theorem uncontracted_loops_ok (f : contract2_batch_provider_factory)
    (b0 b1 b2 : bispace_operand) :
    ∀ (letters : List Nat) (i : Nat), (∀ a ∈ letters, ¬ bad_output_letter f a) →
      uncontracted_loops f [b0, b1, b2] i letters =
        .ok (uncontracted_built f [b0, b1, b2] i letters)
  | [], _, _ => rfl
  | a :: rest, i, h => by
    unfold uncontracted_loops
    rw [uncontracted_loop_ok f b0 b1 b2 i a (h a (List.mem_cons_self _ _))]
    simp only [uncontracted_loops_ok f b0 b1 b2 rest (i + 1)
      (fun x hx => h x (List.mem_cons_of_mem _ hx)), uncontracted_built]

theorem contracted_loop_error (f : contract2_batch_provider_factory)
    (bispaces : List bispace_operand) (a : Nat) (h : bad_contracted_letter f a) :
    contracted_loop f bispaces a = .error .bad_parameter := by
  unfold contracted_loop
  rcases h with h | h <;> simp [h]

theorem contracted_loop_ok (f : contract2_batch_provider_factory)
    (b0 b1 b2 : bispace_operand) (a : Nat) (h : ¬ bad_contracted_letter f a) :
    contracted_loop f [b0, b1, b2] a =
      .ok { m_bispaces := [b0, b1, b2],
            m_subspaces_looped :=
              [none, some (f.m_A_letter_expr.indexOf a), some (f.m_B_letter_expr.indexOf a)] } := by
  unfold bad_contracted_letter at h
  simp only [not_or, not_not] at h
  unfold contracted_loop
  simp [h.1, h.2, block_loop.ctor, block_loop.set_subspace_looped]

theorem contracted_loops_error (f : contract2_batch_provider_factory)
    (b0 b1 b2 : bispace_operand) :
    ∀ (letters : List Nat), (∃ a ∈ letters, bad_contracted_letter f a) →
      contracted_loops f [b0, b1, b2] letters = .error .bad_parameter
  | [], h => by simp at h
  | a :: rest, h => by
    unfold contracted_loops
    by_cases ha : bad_contracted_letter f a
    · rw [contracted_loop_error f _ a ha]
    · rw [contracted_loop_ok f b0 b1 b2 a ha]
      have hrest : ∃ x ∈ rest, bad_contracted_letter f x := by
        obtain ⟨x, hx, hbad⟩ := h
        rcases List.mem_cons.mp hx with rfl | hx
        · exact absurd hbad ha
        · exact ⟨x, hx, hbad⟩
      simp only [contracted_loops_error f b0 b1 b2 rest hrest]

theorem contracted_loops_ok (f : contract2_batch_provider_factory)
    (b0 b1 b2 : bispace_operand) :
    ∀ (letters : List Nat), (∀ a ∈ letters, ¬ bad_contracted_letter f a) →
      contracted_loops f [b0, b1, b2] letters = .ok (contracted_built f [b0, b1, b2] letters)
  | [], _ => rfl
  | a :: rest, h => by
    unfold contracted_loops
    rw [contracted_loop_ok f b0 b1 b2 a (h a (List.mem_cons_self _ _))]
    simp only [contracted_loops_ok f b0 b1 b2 rest
      (fun x hx => h x (List.mem_cons_of_mem _ hx)), contracted_built, List.map_cons]

end contract2_batch_provider_factory

namespace contract2_batch_provider_factory

theorem loop_dim_step_eq (bispaces : List bispace_operand) (loop : block_loop) (dim k : Nat)
    (b : bispace_operand) (x : Option Nat) (hb : bispaces[k]? = some b)
    (hx : loop.m_subspaces_looped[k]? = some x)
    (hv : ∀ s, x = some s → ∃ sub, b.operator_index s = .ok sub) :
    loop_dim_step bispaces loop dim k = .ok (mul_looped dim b x) := by
  unfold loop_dim_step block_loop.is_bispace_ignored block_loop.get_subspace_looped
  rw [hx]
  cases x with
  | none => rfl
  | some s =>
    obtain ⟨sub, hsub⟩ := hv s rfl
    simp only [vector_at, hb, hsub, mul_looped, bispace_operand.dim_at]

theorem loop_dim_eq (b0 b1 b2 : bispace_operand) (bs : List bispace_operand)
    (x0 x1 x2 : Option Nat) (dim : Nat)
    (h0 : ∀ s, x0 = some s → ∃ sub, b0.operator_index s = .ok sub)
    (h1 : ∀ s, x1 = some s → ∃ sub, b1.operator_index s = .ok sub)
    (h2 : ∀ s, x2 = some s → ∃ sub, b2.operator_index s = .ok sub) :
    for_each_state (loop_dim_step [b0, b1, b2]
        { m_bispaces := bs, m_subspaces_looped := [x0, x1, x2] }) 0 [b0, b1, b2].length dim =
      .ok (mul_looped (mul_looped (mul_looped dim b0 x0) b1 x1) b2 x2) := by
  have e0 := fun d => loop_dim_step_eq [b0, b1, b2]
    { m_bispaces := bs, m_subspaces_looped := [x0, x1, x2] } d 0 b0 x0 rfl rfl h0
  have e1 := fun d => loop_dim_step_eq [b0, b1, b2]
    { m_bispaces := bs, m_subspaces_looped := [x0, x1, x2] } d 1 b1 x1 rfl rfl h1
  have e2 := fun d => loop_dim_step_eq [b0, b1, b2]
    { m_bispaces := bs, m_subspaces_looped := [x0, x1, x2] } d 2 b2 x2 rfl rfl h2
  show for_each_state _ 0 (0 + 1 + 1 + 1) dim = _
  simp only [for_each_state, e0, Nat.zero_add, e1, Nat.reduceAdd, e2]

theorem size_t_mul_mul (dim x y : Nat) :
    size_t_mul (size_t_mul dim x) y = (dim * (x * y)) % SIZE_T_MOD := by
  rw [size_t_mul, size_t_mul, Nat.mod_mul_mod, Nat.mul_assoc]

theorem uncontracted_loops_dim (f : contract2_batch_provider_factory) (C : bispace_operand)
    (hC : C.well_formed) (hA : f.m_A_bispace.well_formed) (hB : f.m_B_bispace.well_formed)
    (hAo : f.m_A_bispace.order = f.m_A_letter_expr.length)
    (hBo : f.m_B_bispace.order = f.m_B_letter_expr.length) :
    ∀ (letters : List Nat) (i dim : Nat), i + letters.length ≤ C.order →
      (∀ a ∈ letters, ¬ bad_output_letter f a) → dim < SIZE_T_MOD →
      loops_dim [C, f.m_A_bispace, f.m_B_bispace]
          (uncontracted_built f [C, f.m_A_bispace, f.m_B_bispace] i letters) dim =
        .ok ((dim * uncontracted_estimate f C i letters) % SIZE_T_MOD)
  | [], i, dim, _, _, hdim => by
    simp [uncontracted_built, loops_dim, uncontracted_estimate, Nat.mod_eq_of_lt hdim]
  | a :: rest, i, dim, hi, hgood, _ => by
    have hlen : i + (rest.length + 1) ≤ C.order := by simpa using hi
    have ha := hgood a (List.mem_cons_self _ _)
    unfold bad_output_letter at ha
    simp only [not_or, not_and, not_not] at ha
    obtain ⟨_, hAB, hn⟩ := ha
    have hCi : ∀ s, some i = some s → ∃ sub, C.operator_index s = .ok sub := by
      intro s hs
      cases hs
      exact bispace_operand.operator_index_ok hC (by omega)
    have hnone : ∀ (b : bispace_operand) s, (none : Option Nat) = some s →
        ∃ sub, b.operator_index s = .ok sub := fun _ _ h => by cases h
    have hnext := fun d hd => uncontracted_loops_dim f C hC hA hB hAo hBo rest (i + 1) d
      (by omega) (fun x hx => hgood x (List.mem_cons_of_mem _ hx)) hd
    have hlt : ∀ n : Nat, n % SIZE_T_MOD < SIZE_T_MOD := fun n => Nat.mod_lt _ (by decide)
    by_cases hmA : a ∈ f.m_A_letter_expr
    · have hidx : ∀ s, some (f.m_A_letter_expr.indexOf a) = some s →
          ∃ sub, f.m_A_bispace.operator_index s = .ok sub := by
        intro s hs
        cases hs
        exact bispace_operand.operator_index_ok hA
          (by rw [hAo]; exact List.indexOf_lt_length.mpr hmA)
      have hl : uncontracted_looped f i a =
          [some i, some (f.m_A_letter_expr.indexOf a), none] := by
        simp [uncontracted_looped, hmA]
      have hbd : bound_input_dim f a = f.m_A_bispace.dim_at (f.m_A_letter_expr.indexOf a) := by
        simp [bound_input_dim, hmA]
      unfold uncontracted_built loops_dim
      rw [hl, loop_dim_eq C f.m_A_bispace f.m_B_bispace _ _ _ _ dim hCi hidx (hnone _)]
      simp only [mul_looped]
      rw [size_t_mul_mul, hnext _ (hlt _), uncontracted_estimate, uncontracted_estimate,
        List.enumFrom_cons, List.map_cons, List.prod_cons, hbd, Nat.mod_mul_mod,
        Nat.mul_assoc]
    · have hmB := hn hmA
      have hidx : ∀ s, some (f.m_B_letter_expr.indexOf a) = some s →
          ∃ sub, f.m_B_bispace.operator_index s = .ok sub := by
        intro s hs
        cases hs
        exact bispace_operand.operator_index_ok hB
          (by rw [hBo]; exact List.indexOf_lt_length.mpr hmB)
      have hl : uncontracted_looped f i a =
          [some i, none, some (f.m_B_letter_expr.indexOf a)] := by
        simp [uncontracted_looped, hmA]
      have hbd : bound_input_dim f a = f.m_B_bispace.dim_at (f.m_B_letter_expr.indexOf a) := by
        simp [bound_input_dim, hmA]
      unfold uncontracted_built loops_dim
      rw [hl, loop_dim_eq C f.m_A_bispace f.m_B_bispace _ _ _ _ dim hCi (hnone _) hidx]
      simp only [mul_looped]
      rw [size_t_mul_mul, hnext _ (hlt _), uncontracted_estimate, uncontracted_estimate,
        List.enumFrom_cons, List.map_cons, List.prod_cons, hbd, Nat.mod_mul_mod,
        Nat.mul_assoc]

theorem contracted_loops_dim (f : contract2_batch_provider_factory) (C : bispace_operand)
    (hA : f.m_A_bispace.well_formed) (hB : f.m_B_bispace.well_formed)
    (hAo : f.m_A_bispace.order = f.m_A_letter_expr.length)
    (hBo : f.m_B_bispace.order = f.m_B_letter_expr.length) :
    ∀ (letters : List Nat) (dim : Nat),
      (∀ a ∈ letters, ¬ bad_contracted_letter f a) → dim < SIZE_T_MOD →
      loops_dim [C, f.m_A_bispace, f.m_B_bispace]
          (contracted_built f [C, f.m_A_bispace, f.m_B_bispace] letters) dim =
        .ok ((dim * contracted_estimate f letters) % SIZE_T_MOD)
  | [], dim, _, hdim => by
    simp [contracted_built, loops_dim, contracted_estimate, Nat.mod_eq_of_lt hdim]
  | a :: rest, dim, hgood, _ => by
    have ha := hgood a (List.mem_cons_self _ _)
    unfold bad_contracted_letter at ha
    simp only [not_or, not_not] at ha
    have hnone : ∀ (b : bispace_operand) s, (none : Option Nat) = some s →
        ∃ sub, b.operator_index s = .ok sub := fun _ _ h => by cases h
    have hiA : ∀ s, some (f.m_A_letter_expr.indexOf a) = some s →
        ∃ sub, f.m_A_bispace.operator_index s = .ok sub := by
      intro s hs
      cases hs
      exact bispace_operand.operator_index_ok hA
        (by rw [hAo]; exact List.indexOf_lt_length.mpr ha.1)
    have hiB : ∀ s, some (f.m_B_letter_expr.indexOf a) = some s →
        ∃ sub, f.m_B_bispace.operator_index s = .ok sub := by
      intro s hs
      cases hs
      exact bispace_operand.operator_index_ok hB
        (by rw [hBo]; exact List.indexOf_lt_length.mpr ha.2)
    have hnext := fun d hd => contracted_loops_dim f C hA hB hAo hBo rest d
      (fun x hx => hgood x (List.mem_cons_of_mem _ hx)) hd
    have hlt : ∀ n : Nat, n % SIZE_T_MOD < SIZE_T_MOD := fun n => Nat.mod_lt _ (by decide)
    have hnext2 := hnext
    unfold contracted_built at hnext2 ⊢
    rw [List.map_cons]
    unfold loops_dim
    rw [loop_dim_eq C f.m_A_bispace f.m_B_bispace _ _ _ _ dim (hnone _) hiA hiB]
    simp only [mul_looped]
    rw [size_t_mul_mul, hnext2 _ (hlt _), contracted_estimate, contracted_estimate,
      List.map_cons, List.prod_cons, Nat.mod_mul_mod, Nat.mul_assoc]

end contract2_batch_provider_factory


namespace contract2_batch_provider_factory

theorem get_batch_provider_error (f : contract2_batch_provider_factory)
    (C : gen_labeled_btensor) (h : must_fail f C) :
    get_batch_provider f C = .error .bad_parameter := by
  unfold get_batch_provider
  rcases (must_fail_iff f C).mp h with hout | hcon
  · simp only [uncontracted_loops_error f _ _ _ C.m_letter_expr 0 hout]
  · by_cases hout : ∃ a ∈ C.m_letter_expr, bad_output_letter f a
    · simp only [uncontracted_loops_error f _ _ _ C.m_letter_expr 0 hout]
    · simp only [uncontracted_loops_ok f _ _ _ C.m_letter_expr 0
        (fun a ha hbad => hout ⟨a, ha, hbad⟩), contracted_loops_error f _ _ _ f.m_le hcon]

theorem get_batch_provider_ok (f : contract2_batch_provider_factory) (C : gen_labeled_btensor)
    (ht : well_typed f C) (hok : ¬ must_fail f C) :
    uncontracted_loops f [C.m_bispace, f.m_A_bispace, f.m_B_bispace] 0 C.m_letter_expr =
        .ok (uncontracted_built f [C.m_bispace, f.m_A_bispace, f.m_B_bispace] 0
          C.m_letter_expr) ∧
      contracted_loops f [C.m_bispace, f.m_A_bispace, f.m_B_bispace] f.m_le =
        .ok (contracted_built f [C.m_bispace, f.m_A_bispace, f.m_B_bispace] f.m_le) ∧
      get_batch_provider f C = .ok (contract2_batch_provider.ctor
        (if contracted_estimate f f.m_le % SIZE_T_MOD >
            size_t_mul (uncontracted_estimate f C.m_bispace 0 C.m_letter_expr % SIZE_T_MOD) 2
          then contracted_built f [C.m_bispace, f.m_A_bispace, f.m_B_bispace] f.m_le ++
            uncontracted_built f [C.m_bispace, f.m_A_bispace, f.m_B_bispace] 0 C.m_letter_expr
          else uncontracted_built f [C.m_bispace, f.m_A_bispace, f.m_B_bispace] 0
              C.m_letter_expr ++
            contracted_built f [C.m_bispace, f.m_A_bispace, f.m_B_bispace] f.m_le)
        (if C.m_data_ptr = none then [0] else [])
        [none, f.m_A_data_ptr, f.m_B_data_ptr]) := by
  obtain ⟨hC, hA, hB, hCo, hAo, hBo⟩ := ht
  rw [must_fail_iff, not_or] at hok
  have hout : ∀ a ∈ C.m_letter_expr, ¬ bad_output_letter f a :=
    fun a ha hbad => hok.1 ⟨a, ha, hbad⟩
  have hcon : ∀ a ∈ f.m_le, ¬ bad_contracted_letter f a :=
    fun a ha hbad => hok.2 ⟨a, ha, hbad⟩
  have h1 := uncontracted_loops_ok f C.m_bispace f.m_A_bispace f.m_B_bispace
    C.m_letter_expr 0 hout
  have h2 := contracted_loops_ok f C.m_bispace f.m_A_bispace f.m_B_bispace f.m_le hcon
  have h3 := uncontracted_loops_dim f C.m_bispace hC hA hB hAo hBo C.m_letter_expr 0 1
    (by omega) hout (by decide)
  have h4 := contracted_loops_dim f C.m_bispace hA hB hAo hBo f.m_le 1 hcon (by decide)
  rw [Nat.one_mul] at h3 h4
  refine ⟨h1, h2, ?_⟩
  unfold get_batch_provider
  simp only [h1, h2, h3, h4]

/-- Claim C17: for every contraction specification whose spaces have as many subspaces
as their tensors have letters, `get_batch_provider` throws `bad_parameter` exactly when
some output letter is a contracted letter, or occurs in both inputs, or occurs in
neither, or some contracted letter is missing from `A` or from `B`; otherwise it returns
a provider. -/
theorem get_batch_provider_bad_parameter_iff (f : contract2_batch_provider_factory)
    (C : gen_labeled_btensor) (ht : well_typed f C) :
    (get_batch_provider f C = .error .bad_parameter ↔ must_fail f C) ∧
      (¬ must_fail f C → ∃ p, get_batch_provider f C = .ok p) := by
  refine ⟨⟨fun h => ?_, get_batch_provider_error f C⟩,
    fun hok => ⟨_, (get_batch_provider_ok f C ht hok).2.2⟩⟩
  by_contra hok
  rw [(get_batch_provider_ok f C ht hok).2.2] at h
  cases h

theorem get_batch_provider_bad_parameter_iff_witness :
    well_typed sample_factory sample_C ∧ ¬ must_fail sample_factory sample_C ∧
      ∃ p, get_batch_provider sample_factory sample_C = .ok p :=
  ⟨by decide, by decide,
    (get_batch_provider_bad_parameter_iff sample_factory sample_C (by decide)).2 (by decide)⟩

theorem prod_map_mul_self {α : Type} (g h : α → Nat) :
    ∀ l : List α, (∀ p ∈ l, g p = h p) →
      (l.map (fun p => g p * h p)).prod = (l.map g).prod * (l.map g).prod
  | [], _ => rfl
  | p :: l, hl => by
    have ih := prod_map_mul_self g h l (fun q hq => hl q (List.mem_cons_of_mem _ hq))
    have hp := hl p (List.mem_cons_self _ _)
    simp only [List.map_cons, List.prod_cons, ih, ← hp]
    ring

theorem prod_map_pos {α : Type} (g : α → Nat) :
    ∀ l : List α, (∀ p ∈ l, 0 < g p) → 0 < (l.map g).prod
  | [], _ => by simp
  | p :: l, hl => by
    have ih := prod_map_pos g l (fun q hq => hl q (List.mem_cons_of_mem _ hq))
    have hp := hl p (List.mem_cons_self _ _)
    simp only [List.map_cons, List.prod_cons]
    exact Nat.mul_pos hp ih

/-- With one contracted letter of dimension `2 ^ 32` and two output letters of dimension
1, `K = 2 ^ 32` is at least `2 * U = 2`, yet `contracted_dim` is `2 ^ 32 * 2 ^ 32`, which
wraps to 0 in `size_t`, and the uncontracted loops are placed first. -/
theorem loop_order_overflow :
    well_typed sample_wide_factory sample_wide_C ∧
      ¬ must_fail sample_wide_factory sample_wide_C ∧
      dims_positive sample_wide_factory sample_wide_C ∧
      dims_agree sample_wide_factory sample_wide_C ∧
      uncontracted_volume sample_wide_C = 1 ∧
      contracted_volume sample_wide_factory = 2 ^ 32 ∧
      2 * uncontracted_volume sample_wide_C ≤ contracted_volume sample_wide_factory ∧
      ∃ unc con p,
        uncontracted_loops sample_wide_factory
            [sample_wide_C.m_bispace, sample_wide_factory.m_A_bispace,
              sample_wide_factory.m_B_bispace] 0 sample_wide_C.m_letter_expr = .ok unc ∧
          contracted_loops sample_wide_factory
            [sample_wide_C.m_bispace, sample_wide_factory.m_A_bispace,
              sample_wide_factory.m_B_bispace] sample_wide_factory.m_le = .ok con ∧
          get_batch_provider sample_wide_factory sample_wide_C = .ok p ∧
          p.m_loops = unc ++ con ∧ p.m_loops ≠ con ++ unc := by
  refine ⟨by decide, by decide, by decide, by decide, by decide, by decide, by decide,
    uncontracted_built sample_wide_factory
      [sample_wide_C.m_bispace, sample_wide_factory.m_A_bispace,
        sample_wide_factory.m_B_bispace] 0 sample_wide_C.m_letter_expr,
    contracted_built sample_wide_factory
      [sample_wide_C.m_bispace, sample_wide_factory.m_A_bispace,
        sample_wide_factory.m_B_bispace] sample_wide_factory.m_le,
    _, by decide, by decide, rfl, by decide, by decide⟩

/-- Claim C18, amended: let `U` be the product over the output positions of the
dimension of the output subspace and `K` the product over the contracted letters of the
dimension of the letter's subspace, all dimensions positive, every output subspace of
the dimension of the input subspace bound to the same loop and the two input subspaces
of a contracted letter of the same dimension. When moreover the products that the code
forms, `K * K` and `2 * (U * U)`, are below `2 ^ 64`, the call returns a provider whose
loop list is the contracted loops followed by the uncontracted ones whenever
`K ≥ 2 * U`, and the uncontracted loops followed by the contracted ones whenever
`U ≥ 2 * K`. -/
theorem loop_order_by_volume (f : contract2_batch_provider_factory) (C : gen_labeled_btensor)
    (ht : well_typed f C) (hok : ¬ must_fail f C) (hpos : dims_positive f C)
    (hagree : dims_agree f C)
    (hK : contracted_volume f * contracted_volume f < 2 ^ 64)
    (hU : 2 * (uncontracted_volume C * uncontracted_volume C) < 2 ^ 64) :
    ∃ unc con p,
      uncontracted_loops f [C.m_bispace, f.m_A_bispace, f.m_B_bispace] 0 C.m_letter_expr =
          .ok unc ∧
        contracted_loops f [C.m_bispace, f.m_A_bispace, f.m_B_bispace] f.m_le = .ok con ∧
        get_batch_provider f C = .ok p ∧
        (2 * uncontracted_volume C ≤ contracted_volume f → p.m_loops = con ++ unc) ∧
        (2 * contracted_volume f ≤ uncontracted_volume C → p.m_loops = unc ++ con) := by
  obtain ⟨h1, h2, h3⟩ := get_batch_provider_ok f C ht hok
  have hue : uncontracted_estimate f C.m_bispace 0 C.m_letter_expr =
      uncontracted_volume C * uncontracted_volume C :=
    prod_map_mul_self (fun p : Nat × Nat => C.m_bispace.dim_at p.1)
      (fun p : Nat × Nat => bound_input_dim f p.2) _ hagree.1
  have hce : contracted_estimate f f.m_le = contracted_volume f * contracted_volume f :=
    prod_map_mul_self (fun a => f.m_A_bispace.dim_at (f.m_A_letter_expr.indexOf a))
      (fun a => f.m_B_bispace.dim_at (f.m_B_letter_expr.indexOf a)) _ hagree.2
  have hUpos : 0 < uncontracted_volume C :=
    prod_map_pos (fun p : Nat × Nat => C.m_bispace.dim_at p.1) _ hpos.1
  have hU1 : uncontracted_volume C * uncontracted_volume C < 2 ^ 64 := by omega
  have hcmp : (contracted_estimate f f.m_le % SIZE_T_MOD >
      size_t_mul (uncontracted_estimate f C.m_bispace 0 C.m_letter_expr % SIZE_T_MOD) 2) ↔
      contracted_volume f * contracted_volume f >
        2 * (uncontracted_volume C * uncontracted_volume C) := by
    rw [hue, hce, size_t_mul, SIZE_T_MOD, Nat.mod_eq_of_lt hK, Nat.mod_eq_of_lt hU1,
      Nat.mul_comm _ 2, Nat.mod_eq_of_lt hU]
  refine ⟨_, _, _, h1, h2, h3, fun hge => ?_, fun hge => ?_⟩
  · have hgt : contracted_volume f * contracted_volume f >
        2 * (uncontracted_volume C * uncontracted_volume C) := by nlinarith
    simp only [contract2_batch_provider.ctor]
    rw [if_pos (hcmp.mpr hgt)]
  · have hle : ¬ contracted_volume f * contracted_volume f >
        2 * (uncontracted_volume C * uncontracted_volume C) := by nlinarith
    simp only [contract2_batch_provider.ctor]
    rw [if_neg (fun h => hle (hcmp.mp h))]

theorem loop_order_by_volume_witness :
    well_typed sample_factory sample_C ∧ ¬ must_fail sample_factory sample_C ∧
      dims_positive sample_factory sample_C ∧ dims_agree sample_factory sample_C ∧
      uncontracted_volume sample_C = 40 ∧ contracted_volume sample_factory = 6 ∧
      ∃ unc con p,
        uncontracted_loops sample_factory
            [sample_C.m_bispace, sample_factory.m_A_bispace, sample_factory.m_B_bispace] 0
            sample_C.m_letter_expr = .ok unc ∧
          contracted_loops sample_factory
            [sample_C.m_bispace, sample_factory.m_A_bispace, sample_factory.m_B_bispace]
            sample_factory.m_le = .ok con ∧
          get_batch_provider sample_factory sample_C = .ok p ∧
          (2 * uncontracted_volume sample_C ≤ contracted_volume sample_factory →
            p.m_loops = con ++ unc) ∧
          (2 * contracted_volume sample_factory ≤ uncontracted_volume sample_C →
            p.m_loops = unc ++ con) :=
  ⟨by decide, by decide, by decide, by decide, by decide, by decide,
    loop_order_by_volume sample_factory sample_C (by decide) (by decide) (by decide)
      (by decide) (by decide) (by decide)⟩

/-- Claim C19: for every successful `get_batch_provider` call the list of direct tensors
handed to the provider is `[0]` when the data pointer of the output is null and empty
otherwise; the inputs, tensors 1 and 2, are never in it. -/
theorem direct_tensors_of_provider (f : contract2_batch_provider_factory)
    (C : gen_labeled_btensor) (p : contract2_batch_provider)
    (h : get_batch_provider f C = .ok p) :
    p.m_sll.m_direct_tensors = (if C.m_data_ptr = none then [0] else []) ∧
      1 ∉ p.m_sll.m_direct_tensors ∧ 2 ∉ p.m_sll.m_direct_tensors := by
  have hd : p.m_sll.m_direct_tensors = (if C.m_data_ptr = none then [0] else []) := by
    unfold get_batch_provider at h
    simp only at h
    split at h
    · cases h
    · split at h
      · cases h
      · split at h
        · cases h
        · split at h
          · cases h
          · cases h
            rfl
  refine ⟨hd, ?_, ?_⟩ <;> rw [hd] <;> split <;> simp

theorem direct_tensors_of_provider_witness :
    ∃ p, get_batch_provider sample_factory sample_C = .ok p ∧
      p.m_sll.m_direct_tensors = [0] ∧ 1 ∉ p.m_sll.m_direct_tensors ∧
      2 ∉ p.m_sll.m_direct_tensors :=
  ⟨_, (get_batch_provider_ok sample_factory sample_C (by decide) (by decide)).2.2,
    direct_tensors_of_provider sample_factory sample_C _
      (get_batch_provider_ok sample_factory sample_C (by decide) (by decide)).2.2⟩

end contract2_batch_provider_factory


namespace contract2_batch_provider

theorem get_batch_loop_step_input
    (tr : bispace_operand → Nat → Nat × Nat → bispace_operand) (t s : Nat) (bounds : Nat × Nat)
    (n : Nat) (ht : t < n) (ht0 : t ≠ 0) (idx : Nat) (loop : block_loop) (st : batch_state)
    (hl : loop.m_subspaces_looped.length = n) (hst : st.bispaces.length = n) :
    ∃ st1, get_batch_loop_step tr t s bounds idx loop st = .ok st1 ∧
      st1.bispaces.length = n ∧ st1.bispaces[0]? = st.bispaces[0]? := by
  unfold get_batch_loop_step block_loop.is_bispace_ignored block_loop.get_subspace_looped
  rw [List.getElem?_eq_getElem (by omega : t < loop.m_subspaces_looped.length)]
  cases loop.m_subspaces_looped[t] with
  | none => exact ⟨st, rfl, hst, rfl⟩
  | some l =>
    dsimp only
    by_cases hs : s = l
    · rw [if_pos hs, sparse_bispace.vector_at_ok (by omega : t < st.bispaces.length)]
      refine ⟨_, rfl, by simpa using hst, ?_⟩
      exact List.getElem?_set_ne ht0
    · rw [if_neg hs]
      exact ⟨st, rfl, hst, rfl⟩

theorem get_batch_loops_input
    (tr : bispace_operand → Nat → Nat × Nat → bispace_operand) (t s : Nat) (bounds : Nat × Nat)
    (n : Nat) (ht : t < n) (ht0 : t ≠ 0) :
    ∀ (loops : List block_loop) (idx : Nat) (st : batch_state),
      (∀ loop ∈ loops, loop.m_subspaces_looped.length = n) → st.bispaces.length = n →
      ∃ st1, get_batch_loops tr t s bounds idx loops st = .ok st1 ∧
        st1.bispaces.length = n ∧ st1.bispaces[0]? = st.bispaces[0]?
  | [], _, st, _, hst => ⟨st, rfl, hst, rfl⟩
  | loop :: rest, idx, st, hl, hst => by
    obtain ⟨st1, h1, hn1, hb1⟩ := get_batch_loop_step_input tr t s bounds n ht ht0 idx loop st
      (hl loop (List.mem_cons_self _ _)) hst
    obtain ⟨st2, h2, hn2, hb2⟩ := get_batch_loops_input tr t s bounds n ht ht0 rest (idx + 1)
      st1 (fun x hx => hl x (List.mem_cons_of_mem _ hx)) hn1
    refine ⟨st2, ?_, hn2, hb2.trans hb1⟩
    unfold get_batch_loops
    rw [h1]
    exact h2

theorem get_batch_loop_step_output
    (tr : bispace_operand → Nat → Nat × Nat → bispace_operand) (s : Nat) (bounds : Nat × Nat)
    (n : Nat) (hn : 0 < n) (idx : Nat) (loop : block_loop) (st : batch_state)
    (b0 : bispace_operand) (hl : loop.m_subspaces_looped.length = n)
    (hst : st.bispaces.length = n) (hb : st.bispaces[0]? = some b0) :
    ∃ st1, get_batch_loop_step tr 0 s bounds idx loop st = .ok st1 ∧
      st1.bispaces.length = n ∧
      st1.bispaces[0]? = some (if iterates 0 s loop then tr b0 s bounds else b0) := by
  unfold get_batch_loop_step block_loop.is_bispace_ignored block_loop.get_subspace_looped
    iterates
  rw [List.getElem?_eq_getElem (by omega : 0 < loop.m_subspaces_looped.length)]
  cases loop.m_subspaces_looped[0] with
  | none => exact ⟨st, rfl, hst, by simpa using hb⟩
  | some l =>
    dsimp only
    by_cases hs : s = l
    · have hv : vector_at st.bispaces 0 = .ok b0 := by rw [vector_at, hb]
      rw [if_pos hs, hv]
      refine ⟨_, rfl, by simpa using hst, ?_⟩
      subst hs
      simp only [beq_self_eq_true, if_true]
      rw [List.getElem?_set_self (by omega)]
    · rw [if_neg hs]
      refine ⟨st, rfl, hst, ?_⟩
      have hne : (some (some l) == some (some s)) = false := by
        simp only [beq_eq_false_iff_ne, ne_eq, Option.some.injEq]
        exact fun h => hs h.symm
      rw [hne, hb]
      rfl

theorem get_batch_loops_output
    (tr : bispace_operand → Nat → Nat × Nat → bispace_operand) (s : Nat) (bounds : Nat × Nat)
    (n : Nat) (hn : 0 < n) :
    ∀ (loops : List block_loop) (idx : Nat) (st : batch_state) (b0 : bispace_operand),
      (∀ loop ∈ loops, loop.m_subspaces_looped.length = n) → st.bispaces.length = n →
      st.bispaces[0]? = some b0 →
      ∃ st1, get_batch_loops tr 0 s bounds idx loops st = .ok st1 ∧
        st1.bispaces.length = n ∧
        st1.bispaces[0]? =
          some ((fun b => tr b s bounds)^[loops.countP (iterates 0 s)] b0)
  | [], _, st, b0, _, hst, hb => ⟨st, rfl, hst, by simpa using hb⟩
  | loop :: rest, idx, st, b0, hl, hst, hb => by
    obtain ⟨st1, h1, hn1, hb1⟩ := get_batch_loop_step_output tr s bounds n hn idx loop st b0
      (hl loop (List.mem_cons_self _ _)) hst hb
    obtain ⟨st2, h2, hn2, hb2⟩ := get_batch_loops_output tr s bounds n hn rest (idx + 1)
      st1 _ (fun x hx => hl x (List.mem_cons_of_mem _ hx)) hn1 hb1
    refine ⟨st2, ?_, hn2, ?_⟩
    · unfold get_batch_loops
      rw [h1]
      exact h2
    · rw [hb2]
      by_cases hit : iterates 0 s loop = true
      · rw [List.countP_cons_of_pos _ _ hit, if_pos hit, Function.iterate_succ_apply]
      · rw [List.countP_cons_of_neg _ _ hit, if_neg hit]

theorem get_batch_entries_output
    (tr : bispace_operand → Nat → Nat × Nat → bispace_operand) (m_loops : List block_loop)
    (n : Nat) (hn : 0 < n) (hl : ∀ loop ∈ m_loops, loop.m_subspaces_looped.length = n) :
    ∀ (batches : List ((Nat × Nat) × (Nat × Nat))) (st : batch_state) (b0 : bispace_operand),
      (∀ e ∈ batches, e.1.1 < n) →
      (∀ e ∈ batches, e.1.1 = 0 → m_loops.countP (iterates 0 e.1.2) = 1) →
      st.bispaces.length = n → st.bispaces[0]? = some b0 →
      ∃ st1, get_batch_entries tr m_loops batches st = .ok st1 ∧
        st1.bispaces.length = n ∧
        st1.bispaces[0]? = some (truncated_output tr b0 batches)
  | [], st, b0, _, _, hst, hb => ⟨st, rfl, hst, hb⟩
  | (key, bounds) :: rest, st, b0, hk, hone, hst, hb => by
    have hk_rest : ∀ e ∈ rest, e.1.1 < n := fun e he => hk e (List.mem_cons_of_mem _ he)
    have hone_rest : ∀ e ∈ rest, e.1.1 = 0 → m_loops.countP (iterates 0 e.1.2) = 1 :=
      fun e he => hone e (List.mem_cons_of_mem _ he)
    have hkey := hk (key, bounds) (List.mem_cons_self _ _)
    by_cases h0 : key.1 = 0
    · have hc := hone (key, bounds) (List.mem_cons_self _ _) h0
      obtain ⟨st1, h1, hn1, hb1⟩ := get_batch_loops_output tr key.2 bounds n hn m_loops 0 st
        b0 hl hst hb
      rw [hc, Function.iterate_one] at hb1
      obtain ⟨st2, h2, hn2, hb2⟩ := get_batch_entries_output tr m_loops n hn hl rest st1 _
        hk_rest hone_rest hn1 hb1
      refine ⟨st2, ?_, hn2, ?_⟩
      · unfold get_batch_entries
        rw [h0, h1]
        exact h2
      · rw [hb2]
        simp [truncated_output, List.filter_cons, h0]
    · obtain ⟨st1, h1, hn1, hb1⟩ := get_batch_loops_input tr key.1 key.2 bounds n hkey h0
        m_loops 0 st hl hst
      obtain ⟨st2, h2, hn2, hb2⟩ := get_batch_entries_output tr m_loops n hn hl rest st1 b0
        hk_rest hone_rest hn1 (hb1.trans hb)
      refine ⟨st2, ?_, hn2, ?_⟩
      · unfold get_batch_entries
        rw [h1]
        exact h2
      · rw [hb2]
        simp [truncated_output, List.filter_cons, h0]

/-- A call of `get_batch` whose loop over the ranges returns and whose output space and
output pointer slot exist reaches the run of the sparse loop list; the record says what
the call has done by then and what the run leaves behind. -/
theorem get_batch_reaches_run
    (run : sparse_loop_list → block_contract2_kernel → List (Option Nat) →
      List (Nat × (Nat × Nat)) → run_outcome)
    (truncate_subspace : bispace_operand → Nat → Nat × Nat → bispace_operand)
    (get_nnz : bispace_operand → Nat) (sizeof_T : Nat) (self : contract2_batch_provider)
    (batch_ptr : Option Nat) (batches : List ((Nat × Nat) × (Nat × Nat)))
    (st : batch_state) (output : bispace_operand)
    (h1 : get_batch_entries truncate_subspace self.m_loops batches
      { loop_batches := [], bispaces := self.m_sll.get_bispaces } = .ok st)
    (hv : vector_at st.bispaces 0 = .ok output) (hlen : self.m_ptrs.length ≠ 0) :
    get_batch run truncate_subspace get_nnz sizeof_T self batch_ptr batches =
      .ok { batch_size := size_t_mul (get_nnz output) sizeof_T,
            provider :=
              { m_loops := self.m_loops,
                m_sll := (run self.m_sll self.m_bc2k (self.m_ptrs.set 0 batch_ptr)
                  st.loop_batches).m_sll,
                m_ptrs := (run self.m_sll self.m_bc2k (self.m_ptrs.set 0 batch_ptr)
                  st.loop_batches).m_ptrs,
                m_bc2k := (run self.m_sll self.m_bc2k (self.m_ptrs.set 0 batch_ptr)
                  st.loop_batches).m_bc2k },
            run_ptrs := self.m_ptrs.set 0 batch_ptr,
            loop_batches := st.loop_batches,
            thrown := (run self.m_sll self.m_bc2k (self.m_ptrs.set 0 batch_ptr)
              st.loop_batches).thrown } := by
  unfold get_batch
  rw [h1]
  dsimp only
  rw [hv]
  dsimp only
  rw [if_neg hlen]

/-- Claim C20: for every `get_batch` call the number of bytes zero-filled at `batch_ptr`
is `sizeof(T)` times the `get_nnz()` of the output space (tensor 0) truncated by exactly
the supplied ranges that are keyed on tensor 0, as `size_t` computes the product, hence
the product itself whenever that is representable; in particular ranges keyed on an
input tensor do not change it, and with no range keyed on the output the count is that
of the full output space. -/
theorem get_batch_zero_fill
    (run : sparse_loop_list → block_contract2_kernel → List (Option Nat) →
      List (Nat × (Nat × Nat)) → run_outcome)
    (truncate_subspace : bispace_operand → Nat → Nat × Nat → bispace_operand)
    (get_nnz : bispace_operand → Nat) (sizeof_T : Nat) (self : contract2_batch_provider)
    (batch_ptr : Option Nat) (batches : List ((Nat × Nat) × (Nat × Nat)))
    (output : bispace_operand) (hcall : batch_call_ok self batches)
    (hout : self.m_sll.get_bispaces[0]? = some output) :
    ∃ r, get_batch run truncate_subspace get_nnz sizeof_T self batch_ptr batches = .ok r ∧
      r.batch_size =
        (get_nnz (truncated_output truncate_subspace output batches) * sizeof_T) % 2 ^ 64 ∧
      (get_nnz (truncated_output truncate_subspace output batches) * sizeof_T < 2 ^ 64 →
        r.batch_size =
          sizeof_T * get_nnz (truncated_output truncate_subspace output batches)) ∧
      ((∀ e ∈ batches, e.1.1 ≠ 0) →
        r.batch_size = (get_nnz output * sizeof_T) % 2 ^ 64) ∧
      (∀ bounds, batches = [((0, 0), bounds)] →
        r.batch_size = (get_nnz (truncate_subspace output 0 bounds) * sizeof_T) % 2 ^ 64) := by
  obtain ⟨hl, hn, hp, hk, hone⟩ := hcall
  obtain ⟨st, h1, hn1, hb1⟩ := get_batch_entries_output truncate_subspace self.m_loops
    self.m_sll.m_bispaces.length hn hl batches
    { loop_batches := [], bispaces := self.m_sll.get_bispaces } output hk hone rfl hout
  have hv : vector_at st.bispaces 0 =
      .ok (truncated_output truncate_subspace output batches) := by
    rw [vector_at, hb1]
  have hsize : size_t_mul (get_nnz (truncated_output truncate_subspace output batches))
      sizeof_T =
      (get_nnz (truncated_output truncate_subspace output batches) * sizeof_T) % 2 ^ 64 := rfl
  have hget := get_batch_reaches_run run truncate_subspace get_nnz sizeof_T self batch_ptr
    batches st (truncated_output truncate_subspace output batches) h1 hv (by omega)
  refine ⟨_, hget, hsize, fun hlt => ?_, fun hin => ?_, fun bounds hb => ?_⟩
  rotate_left 2
  · subst hb
    rfl
  · dsimp only
    rw [hsize, Nat.mod_eq_of_lt hlt, Nat.mul_comm]
  · dsimp only
    have hnone : batches.filter (fun e => e.1.1 == 0) = [] := by
      rw [List.filter_eq_nil_iff]
      intro e he
      simpa using hin e he
    rw [hsize, truncated_output, hnone]
    rfl

theorem get_batch_zero_fill_witness :
    batch_call_ok sample_provider [((0, 0), (1, 2)), ((1, 1), (0, 1))] ∧
      sample_provider.m_sll.get_bispaces[0]? = some sample_C.m_bispace ∧
      sample_get_nnz sample_C.m_bispace = 40 ∧
      sample_get_nnz (truncated_output sample_truncate_subspace sample_C.m_bispace
        [((0, 0), (1, 2)), ((1, 1), (0, 1))]) = 16 ∧
      ∃ r, get_batch sample_run sample_truncate_subspace sample_get_nnz 8 sample_provider
          (some 5000) [((0, 0), (1, 2)), ((1, 1), (0, 1))] = .ok r ∧
        r.batch_size = 8 * 16 := by
  obtain ⟨r, hr, _, hexact, _, _⟩ := get_batch_zero_fill sample_run sample_truncate_subspace
    sample_get_nnz 8 sample_provider (some 5000) [((0, 0), (1, 2)), ((1, 1), (0, 1))]
    sample_C.m_bispace (by decide) (by decide)
  exact ⟨by decide, by decide, by decide, by decide, r, hr, hexact (by decide)⟩

end contract2_batch_provider

namespace contract2_batch_provider_factory

theorem uncontracted_looped_head (f : contract2_batch_provider_factory) (i a : Nat) :
    (uncontracted_looped f i a).length = 3 ∧ (uncontracted_looped f i a)[0]? = some (some i) := by
  unfold uncontracted_looped
  split <;> exact ⟨rfl, rfl⟩

theorem uncontracted_built_shape (f : contract2_batch_provider_factory)
    (bs : List bispace_operand) :
    ∀ (letters : List Nat) (i : Nat), ∀ loop ∈ uncontracted_built f bs i letters,
      loop.m_subspaces_looped.length = 3 ∧ loop.m_bispaces = bs
  | [], _, loop, h => by simp [uncontracted_built] at h
  | a :: rest, i, loop, h => by
    rw [uncontracted_built, List.mem_cons] at h
    rcases h with rfl | h
    · exact ⟨(uncontracted_looped_head f i a).1, rfl⟩
    · exact uncontracted_built_shape f bs rest (i + 1) loop h

theorem contracted_built_shape (f : contract2_batch_provider_factory)
    (bs : List bispace_operand) (letters : List Nat) :
    ∀ loop ∈ contracted_built f bs letters,
      loop.m_subspaces_looped.length = 3 ∧ loop.m_bispaces = bs ∧
        loop.m_subspaces_looped[0]? = some none := by
  intro loop h
  rw [contracted_built, List.mem_map] at h
  obtain ⟨a, _, rfl⟩ := h
  exact ⟨rfl, rfl, rfl⟩

theorem uncontracted_built_count (f : contract2_batch_provider_factory)
    (bs : List bispace_operand) (s : Nat) :
    ∀ (letters : List Nat) (i : Nat),
      (uncontracted_built f bs i letters).countP (contract2_batch_provider.iterates 0 s) =
        if i ≤ s ∧ s < i + letters.length then 1 else 0
  | [], i => by
    rw [uncontracted_built, List.countP_nil, if_neg]
    simp only [List.length_nil, Nat.add_zero]
    omega
  | a :: rest, i => by
    have ih := uncontracted_built_count f bs s rest (i + 1)
    have hhead : contract2_batch_provider.iterates 0 s
        { m_bispaces := bs, m_subspaces_looped := uncontracted_looped f i a } =
        decide (i = s) := by
      unfold contract2_batch_provider.iterates
      rw [(uncontracted_looped_head f i a).2]
      by_cases h : i = s
      · subst h
        simp
      · simp [h]
    rw [uncontracted_built, List.countP_cons, ih, hhead, List.length_cons]
    by_cases h : i = s
    · subst h
      rw [if_neg (by omega)]
      simp
    · simp only [h, decide_False, Bool.false_eq_true, if_false, Nat.add_zero]
      by_cases h2 : i + 1 ≤ s ∧ s < i + 1 + rest.length
      · rw [if_pos h2, if_pos (by omega)]
      · rw [if_neg h2, if_neg (by omega)]

theorem contracted_built_count (f : contract2_batch_provider_factory)
    (bs : List bispace_operand) (s : Nat) (letters : List Nat) :
    (contracted_built f bs letters).countP (contract2_batch_provider.iterates 0 s) = 0 := by
  rw [List.countP_eq_zero]
  intro loop h
  obtain ⟨_, _, h0⟩ := contracted_built_shape f bs letters loop h
  simp [contract2_batch_provider.iterates, h0]

theorem get_batch_provider_call_ok (f : contract2_batch_provider_factory)
    (C : gen_labeled_btensor) (p : contract2_batch_provider) (ht : well_typed f C)
    (hp : get_batch_provider f C = .ok p) (hne : C.m_letter_expr ≠ [] ∨ f.m_le ≠ [])
    (batches : List ((Nat × Nat) × (Nat × Nat))) (hk : ∀ e ∈ batches, e.1.1 < 3)
    (hs : ∀ e ∈ batches, e.1.1 = 0 → e.1.2 < C.m_letter_expr.length) :
    contract2_batch_provider.batch_call_ok p batches ∧
      p.m_sll.get_bispaces[0]? = some C.m_bispace := by
  have hok : ¬ must_fail f C := by
    intro hbad
    rw [get_batch_provider_error f C hbad] at hp
    cases hp
  obtain ⟨-, -, h3⟩ := get_batch_provider_ok f C ht hok
  rw [h3] at hp
  have hp1 := (Except.ok.inj hp).symm
  have hX := uncontracted_built_shape f [C.m_bispace, f.m_A_bispace, f.m_B_bispace]
    C.m_letter_expr 0
  have hY := contracted_built_shape f [C.m_bispace, f.m_A_bispace, f.m_B_bispace] f.m_le
  have hXne : C.m_letter_expr ≠ [] →
      ∃ x xs, uncontracted_built f [C.m_bispace, f.m_A_bispace, f.m_B_bispace] 0
        C.m_letter_expr = x :: xs := by
    intro h
    cases hC : C.m_letter_expr with
    | nil => exact absurd hC h
    | cons a rest => exact ⟨_, _, rfl⟩
  have hYne : f.m_le ≠ [] →
      ∃ y ys, contracted_built f [C.m_bispace, f.m_A_bispace, f.m_B_bispace] f.m_le =
        y :: ys := by
    intro h
    cases hC : f.m_le with
    | nil => exact absurd hC h
    | cons a rest => exact ⟨_, _, rfl⟩
  generalize hXd : uncontracted_built f [C.m_bispace, f.m_A_bispace, f.m_B_bispace] 0
    C.m_letter_expr = X at hp1 hX hXne
  generalize hYd : contracted_built f [C.m_bispace, f.m_A_bispace, f.m_B_bispace] f.m_le = Y
    at hp1 hY hYne
  have hcX : ∀ s, s < C.m_letter_expr.length →
      X.countP (contract2_batch_provider.iterates 0 s) = 1 := by
    intro s hlt
    rw [← hXd, uncontracted_built_count, if_pos ⟨Nat.zero_le _, by omega⟩]
  have hcY : ∀ s, Y.countP (contract2_batch_provider.iterates 0 s) = 0 := by
    intro s
    rw [← hYd, contracted_built_count]
  have hloops : p.m_loops = Y ++ X ∨ p.m_loops = X ++ Y := by
    rw [hp1]
    simp only [contract2_batch_provider.ctor]
    split
    · exact .inl rfl
    · exact .inr rfl
  have hmem : ∀ loop ∈ p.m_loops,
      loop.m_subspaces_looped.length = 3 ∧
        loop.m_bispaces = [C.m_bispace, f.m_A_bispace, f.m_B_bispace] := by
    intro loop hl
    rcases hloops with h | h <;> rw [h, List.mem_append] at hl <;> rcases hl with hl | hl
    · exact ⟨(hY loop hl).1, (hY loop hl).2.1⟩
    · exact hX loop hl
    · exact hX loop hl
    · exact ⟨(hY loop hl).1, (hY loop hl).2.1⟩
  have hloops_ne : ∃ x xs, p.m_loops = x :: xs := by
    rcases hne with h | h
    · obtain ⟨x, xs, hx⟩ := hXne h
      rcases hloops with hl | hl
      · cases Y with
        | nil => exact ⟨x, xs, by rw [hl, hx]; rfl⟩
        | cons y ys => exact ⟨y, ys ++ X, by rw [hl]; rfl⟩
      · exact ⟨x, xs ++ Y, by rw [hl, hx]; rfl⟩
    · obtain ⟨y, ys, hy⟩ := hYne h
      rcases hloops with hl | hl
      · exact ⟨y, ys ++ X, by rw [hl, hy]; rfl⟩
      · cases X with
        | nil => exact ⟨y, ys, by rw [hl, hy]; rfl⟩
        | cons x xs => exact ⟨x, xs ++ Y, by rw [hl]; rfl⟩
  have hbs : p.m_sll.m_bispaces = [C.m_bispace, f.m_A_bispace, f.m_B_bispace] := by
    obtain ⟨x, xs, hx⟩ := hloops_ne
    have hsll : p.m_sll = sparse_loop_list.ctor p.m_loops
        (if C.m_data_ptr = none then [0] else []) := by
      rw [hp1]
      rfl
    rw [hsll, hx]
    exact (hmem x (by rw [hx]; exact List.mem_cons_self _ _)).2
  have hptrs : p.m_ptrs = [none, f.m_A_data_ptr, f.m_B_data_ptr] := by
    rw [hp1]
    rfl
  refine ⟨⟨fun loop hl => ?_, ?_, ?_, fun e he => ?_, fun e he h0 => ?_⟩, ?_⟩
  · rw [hbs]
    exact (hmem loop hl).1
  · rw [hbs]
    simp
  · rw [hptrs]
    simp
  · rw [hbs]
    exact hk e he
  · have hlt := hs e he h0
    rcases hloops with h | h <;> rw [h, List.countP_append, hcX _ hlt, hcY]
  · rw [sparse_loop_list.get_bispaces, hbs]
    rfl

end contract2_batch_provider_factory

/-! ### Failed and repeated splits -/

namespace sparse_bispace_1

/-- Claim C21: on a fresh space of dimension 10, `split([3, 2])` throws `out_of_bounds`
at the second point, after the first point has been pushed: the space had one block
before the call and has two blocks, starting at 0 and 3, after it. -/
theorem split_failure_keeps_pushed_points :
    get_n_blocks (ctor 10) = 1 ∧
      split (ctor 10) [3, 2] = ({ m_dim := 10, m_abs_indices := [0, 3] }, some .out_of_bounds) ∧
      get_n_blocks (split (ctor 10) [3, 2]).1 = 2 ∧
      get_block_size (ctor 10) 0 = .ok 10 ∧
      get_block_size (split (ctor 10) [3, 2]).1 0 = .ok 3 ∧
      get_block_abs_index (split (ctor 10) [3, 2]).1 1 = .ok 3 := by
  decide

theorem pairwise_lt_getLast {back : Nat} :
    ∀ (abs : List Nat), abs.Pairwise (· < ·) → abs.getLast? = some back → ∀ x ∈ abs, x ≤ back
  | [], _, h, _, _ => by simp at h
  | [a], _, h, x, hx => by
    simp only [List.getLast?_singleton, Option.some.injEq] at h
    simp only [List.mem_singleton] at hx
    omega
  | a :: b :: rest, hpw, h, x, hx => by
    rw [List.getLast?_cons_cons] at h
    have ih := pairwise_lt_getLast (b :: rest) (List.Pairwise.of_cons hpw) h
    rcases List.mem_cons.mp hx with rfl | hx
    · have hab : x < b := List.rel_of_pairwise_cons hpw (List.mem_cons_self _ _)
      have := ih b (List.mem_cons_self _ _)
      omega
    · exact ih x hx

/-- The representation invariant behind `data_model_invariant`. -/
theorem reachable_abs_indices {dim : Nat} (hdim : 1 ≤ dim) {s : sparse_bispace_1}
    (h : reachable dim s) :
    s.m_dim = dim ∧ (∃ rest, s.m_abs_indices = 0 :: rest) ∧
      s.m_abs_indices.Pairwise (· < ·) ∧ ∀ x ∈ s.m_abs_indices, x < dim := by
  induction h with
  | ctor => exact ⟨rfl, ⟨[], rfl⟩, by simp [sparse_bispace_1.ctor], by
      intro x hx
      simp only [sparse_bispace_1.ctor, List.mem_singleton] at hx
      omega⟩
  | split s L _ hok ih =>
    obtain ⟨hd, ⟨rest, hrest⟩, hpw, hlt⟩ := ih
    unfold sparse_bispace_1.split at hok ⊢
    by_cases hsize : L.length < 1 ∨ L.length > size_t_sub s.m_dim 1
    · rw [if_pos hsize] at hok
      cases hok
    · rw [if_neg hsize] at hok ⊢
      simp only at hok ⊢
      have hne : s.m_abs_indices ≠ [] := by rw [hrest]; simp
      obtain ⟨back, hback⟩ : ∃ back, s.m_abs_indices.getLast? = some back :=
        ⟨s.m_abs_indices.getLast hne, List.getLast?_eq_getLast _ hne⟩
      obtain ⟨hle, hLpw, hgt⟩ := ((split_loop_result s.m_dim L s.m_abs_indices back hback).2).mp hok
      rw [split_loop_ok s.m_dim L s.m_abs_indices back hback hle hLpw hgt]
      have hsub : size_t_sub s.m_dim 1 = dim - 1 := by
        rw [hd, size_t_sub_of_le hdim]
      refine ⟨hd, ⟨rest ++ L, by simp [hrest]⟩, ?_, ?_⟩
      · simp only
        rw [List.pairwise_append]
        refine ⟨hpw, hLpw, fun a ha x hx => ?_⟩
        have := pairwise_lt_getLast s.m_abs_indices hpw hback a ha
        have := hgt x hx
        omega
      · intro x hx
        simp only [List.mem_append] at hx
        rcases hx with hx | hx
        · exact hlt x hx
        · have := hle x hx
          rw [hsub] at this
          omega

theorem pairwise_lt_length_le : ∀ (abs : List Nat) (lo dim : Nat),
    abs.Pairwise (· < ·) → (∀ x ∈ abs, lo ≤ x ∧ x < dim) → abs.length ≤ dim - lo
  | [], _, _, _, _ => by simp
  | a :: rest, lo, dim, hpw, hb => by
    have ha := hb a (List.mem_cons_self _ _)
    have ih := pairwise_lt_length_le rest (a + 1) dim (List.Pairwise.of_cons hpw)
      (fun x hx => ⟨List.rel_of_pairwise_cons hpw hx, (hb x (List.mem_cons_of_mem _ hx)).2⟩)
    simp only [List.length_cons]
    omega

theorem get_block_abs_index_eq (s : sparse_bispace_1) (i : Nat)
    (h : i < s.m_abs_indices.length) :
    get_block_abs_index s i = .ok (s.m_abs_indices.get ⟨i, h⟩) := by
  unfold get_block_abs_index
  rw [if_neg (by rw [size_t_sub_of_le (by omega)]; omega), vector_at,
    List.getElem?_eq_getElem h]
  rfl

theorem data_model_invariant_of_abs_indices (s : sparse_bispace_1) (rest : List Nat)
    (hrest : s.m_abs_indices = 0 :: rest) (hpw : s.m_abs_indices.Pairwise (· < ·))
    (hlt : ∀ x ∈ s.m_abs_indices, x < s.m_dim) : data_model_invariant s := by
  have hlen : s.m_abs_indices.length = rest.length + 1 := by rw [hrest]; rfl
  refine ⟨?_, fun i j hij hj => ?_, fun i hi => ?_, ?_, fun i hi => ?_⟩
  · rw [get_block_abs_index_eq s 0 (by omega)]
    simp [hrest]
  · have hj2 : j < s.m_abs_indices.length := hj
    refine ⟨_, _, get_block_abs_index_eq s i (by omega), get_block_abs_index_eq s j hj2, ?_⟩
    exact List.pairwise_iff_get.mp hpw ⟨i, by omega⟩ ⟨j, hj2⟩ hij
  · have hi2 : i < s.m_abs_indices.length := hi
    exact ⟨_, get_block_abs_index_eq s i hi2, hlt _ (List.get_mem _ _ _)⟩
  · have := pairwise_lt_length_le s.m_abs_indices 0 s.m_dim hpw
      (fun x hx => ⟨Nat.zero_le _, hlt x hx⟩)
    simpa [get_n_blocks, get_dim] using this
  · have hi2 : i < s.m_abs_indices.length := hi
    have hsz := get_block_size_eq_sizes_of s.m_dim s.m_abs_indices i hi2
    have hpw2 : (0 :: rest).Pairwise (· < ·) := hrest ▸ hpw
    have hle : ∀ x ∈ 0 :: rest, x ≤ s.m_dim := fun x hx =>
      Nat.le_of_lt (hlt x (hrest ▸ hx))
    have hget := sizes_of_getElem? s.m_dim rest 0 i hpw2 hle (by omega)
    rw [← hrest] at hget
    have hcur : s.m_abs_indices.getD i 0 = s.m_abs_indices.get ⟨i, hi2⟩ := by
      rw [List.getD_eq_getElem _ _ hi2]
      rfl
    have hval : get_block_size s i =
        .ok ((if i = rest.length then s.m_dim else rest.getD i 0) -
          s.m_abs_indices.getD i 0) := by
      show get_block_size ⟨s.m_dim, s.m_abs_indices⟩ i = _
      rw [hsz, vector_at, hget]
    refine ⟨_, hval, ?_⟩
    · rw [hcur]
      have hcurlt := hlt _ (List.get_mem s.m_abs_indices i hi2)
      by_cases hlast : i = rest.length
      · rw [if_pos hlast]
        omega
      · rw [if_neg hlast]
        have hi3 : i + 1 < s.m_abs_indices.length := by omega
        have hnext : rest.getD i 0 = s.m_abs_indices.get ⟨i + 1, hi3⟩ := by
          rw [List.getD_eq_getElem _ _ (by omega)]
          simp [hrest]
        rw [hnext]
        have := List.pairwise_iff_get.mp hpw ⟨i, hi2⟩ ⟨i + 1, hi3⟩ (by simp)
        omega

/-- The constructor accepts the dimension 0: the space it builds has one block, of size
0, starting at 0, which is not below the dimension. -/
theorem ctor_zero_breaks_invariant :
    reachable 0 (ctor 0) ∧ get_n_blocks (ctor 0) = 1 ∧ get_dim (ctor 0) = 0 ∧
      get_block_size (ctor 0) 0 = .ok 0 ∧ ¬ data_model_invariant (ctor 0) :=
  ⟨reachable.ctor, rfl, rfl, by decide, fun h => absurd h.2.2.2.1 (by decide)⟩

/-- Claim C22, amended: for every dimension `dim ≥ 1`, every one-dimensional space
reached by the public constructor followed by any number of `split` calls that returned
normally has dimension `dim` and satisfies the data-model invariant: block 0 starts at 0,
block starts are strictly increasing and lie in `[0, dim)`, `get_n_blocks() ≤ dim`, and
every block has size at least 1. -/
theorem reachable_data_model_invariant (dim : Nat) (hdim : 1 ≤ dim) (s : sparse_bispace_1)
    (h : reachable dim s) : get_dim s = dim ∧ data_model_invariant s := by
  obtain ⟨hd, ⟨rest, hrest⟩, hpw, hlt⟩ := reachable_abs_indices hdim h
  exact ⟨hd, data_model_invariant_of_abs_indices s rest hrest hpw (hd ▸ hlt)⟩

theorem reachable_data_model_invariant_witness :
    reachable 10 (split (split (ctor 10) [3]).1 [7]).1 ∧
      (split (split (ctor 10) [3]).1 [7]).1 = { m_dim := 10, m_abs_indices := [0, 3, 7] } ∧
      get_dim (split (split (ctor 10) [3]).1 [7]).1 = 10 ∧
      data_model_invariant (split (split (ctor 10) [3]).1 [7]).1 :=
  have hr : reachable 10 (split (split (ctor 10) [3]).1 [7]).1 :=
    reachable.split _ [7] (reachable.split _ [3] reachable.ctor (by decide)) (by decide)
  ⟨hr, by decide, (reachable_data_model_invariant 10 (by decide) _ hr).1,
    (reachable_data_model_invariant 10 (by decide) _ hr).2⟩

end sparse_bispace_1

/-! ### The loops of a provider and the ranges handed to the run -/

namespace contract2_batch_provider_factory

theorem uncontracted_built_getElem? (f : contract2_batch_provider_factory)
    (bs : List bispace_operand) :
    ∀ (letters : List Nat) (i0 k a : Nat), letters[k]? = some a →
      (uncontracted_built f bs i0 letters)[k]? =
        some { m_bispaces := bs, m_subspaces_looped := uncontracted_looped f (i0 + k) a }
  | [], _, _, _, h => by simp at h
  | b :: rest, i0, 0, a, h => by
    simp only [List.getElem?_cons_zero, Option.some.injEq] at h
    subst h
    simp [uncontracted_built]
  | b :: rest, i0, k + 1, a, h => by
    simp only [List.getElem?_cons_succ] at h
    rw [uncontracted_built, List.getElem?_cons_succ,
      uncontracted_built_getElem? f bs rest (i0 + 1) k a h]
    simp only [Option.some.injEq, block_loop.mk.injEq, true_and]
    congr 1
    omega

theorem uncontracted_built_length (f : contract2_batch_provider_factory)
    (bs : List bispace_operand) :
    ∀ (letters : List Nat) (i0 : Nat), (uncontracted_built f bs i0 letters).length = letters.length
  | [], _ => rfl
  | _ :: rest, i0 => by
    simp [uncontracted_built, uncontracted_built_length f bs rest (i0 + 1)]

theorem get_batch_provider_inv (f : contract2_batch_provider_factory) (C : gen_labeled_btensor)
    (p : contract2_batch_provider) (hp : get_batch_provider f C = .ok p) :
    (∀ a ∈ C.m_letter_expr, ¬ bad_output_letter f a) ∧
      (∀ a ∈ f.m_le, ¬ bad_contracted_letter f a) ∧
      (p.m_loops = contracted_built f [C.m_bispace, f.m_A_bispace, f.m_B_bispace] f.m_le ++
          uncontracted_built f [C.m_bispace, f.m_A_bispace, f.m_B_bispace] 0 C.m_letter_expr ∨
        p.m_loops = uncontracted_built f [C.m_bispace, f.m_A_bispace, f.m_B_bispace] 0
            C.m_letter_expr ++
          contracted_built f [C.m_bispace, f.m_A_bispace, f.m_B_bispace] f.m_le) ∧
      p.m_ptrs = [none, f.m_A_data_ptr, f.m_B_data_ptr] := by
  have hok : ¬ must_fail f C := by
    intro hbad
    rw [get_batch_provider_error f C hbad] at hp
    cases hp
  rw [must_fail_iff, not_or] at hok
  have hout : ∀ a ∈ C.m_letter_expr, ¬ bad_output_letter f a :=
    fun a ha hbad => hok.1 ⟨a, ha, hbad⟩
  have hcon : ∀ a ∈ f.m_le, ¬ bad_contracted_letter f a :=
    fun a ha hbad => hok.2 ⟨a, ha, hbad⟩
  have h1 := uncontracted_loops_ok f C.m_bispace f.m_A_bispace f.m_B_bispace
    C.m_letter_expr 0 hout
  have h2 := contracted_loops_ok f C.m_bispace f.m_A_bispace f.m_B_bispace f.m_le hcon
  refine ⟨hout, hcon, ?_⟩
  unfold get_batch_provider at hp
  simp only [h1, h2] at hp
  split at hp
  · cases hp
  · split at hp
    · cases hp
    · cases hp
      refine ⟨?_, rfl⟩
      simp only [contract2_batch_provider.ctor]
      split
      · exact .inl rfl
      · exact .inr rfl

end contract2_batch_provider_factory

namespace contract2_batch_provider_factory

/-- Claim C28: for every successful `get_batch_provider` call the loop list consists of
the loops of the first loop of the function and those of the second, one group after
the other. For each output position `i` there is one loop that advances over subspace
`i` of the output (tensor 0) and over the subspace `index_of(letter_i)` of exactly one
input, tensor 1 if `A` carries the letter and tensor 2 otherwise, and ignores the other
input; for each contracted letter there is one loop that ignores the output and advances
over the subspace of the letter in both `A` (tensor 1) and `B` (tensor 2). -/
theorem get_batch_provider_loops (f : contract2_batch_provider_factory)
    (C : gen_labeled_btensor) (p : contract2_batch_provider)
    (hp : get_batch_provider f C = .ok p) :
    ∃ unc con : List block_loop,
      uncontracted_loops f [C.m_bispace, f.m_A_bispace, f.m_B_bispace] 0 C.m_letter_expr =
          .ok unc ∧
        contracted_loops f [C.m_bispace, f.m_A_bispace, f.m_B_bispace] f.m_le = .ok con ∧
        (p.m_loops = con ++ unc ∨ p.m_loops = unc ++ con) ∧
        unc.length = C.m_letter_expr.length ∧ con.length = f.m_le.length ∧
        (∀ (i a : Nat), C.m_letter_expr[i]? = some a →
          ∃ l : block_loop, unc[i]? = some l ∧ l.is_bispace_ignored 0 = .ok false ∧
            l.get_subspace_looped 0 = .ok i ∧
            ((a ∈ f.m_A_letter_expr ∧ l.is_bispace_ignored 1 = .ok false ∧
                l.get_subspace_looped 1 = .ok (f.m_A_letter_expr.indexOf a) ∧
                l.is_bispace_ignored 2 = .ok true) ∨
              (a ∉ f.m_A_letter_expr ∧ a ∈ f.m_B_letter_expr ∧
                l.is_bispace_ignored 2 = .ok false ∧
                l.get_subspace_looped 2 = .ok (f.m_B_letter_expr.indexOf a) ∧
                l.is_bispace_ignored 1 = .ok true))) ∧
        (∀ (k a : Nat), f.m_le[k]? = some a →
          ∃ l : block_loop, con[k]? = some l ∧ l.is_bispace_ignored 0 = .ok true ∧
            l.is_bispace_ignored 1 = .ok false ∧
            l.get_subspace_looped 1 = .ok (f.m_A_letter_expr.indexOf a) ∧
            l.is_bispace_ignored 2 = .ok false ∧
            l.get_subspace_looped 2 = .ok (f.m_B_letter_expr.indexOf a)) := by
  obtain ⟨hout, hcon, hloops, -⟩ := get_batch_provider_inv f C p hp
  refine ⟨_, _, uncontracted_loops_ok f _ _ _ C.m_letter_expr 0 hout,
    contracted_loops_ok f _ _ _ f.m_le hcon, hloops, uncontracted_built_length f _ _ 0,
    by simp [contracted_built], fun i a hia => ?_, fun k a hka => ?_⟩
  · refine ⟨_, uncontracted_built_getElem? f _ C.m_letter_expr 0 i a hia, ?_⟩
    have hgood := hout a (List.mem_iff_getElem?.mpr ⟨i, hia⟩)
    unfold bad_output_letter at hgood
    simp only [not_or, not_and, not_not] at hgood
    rw [Nat.zero_add]
    by_cases hA : a ∈ f.m_A_letter_expr
    · have hl : uncontracted_looped f i a =
          [some i, some (f.m_A_letter_expr.indexOf a), none] := by
        simp [uncontracted_looped, hA]
      rw [hl]
      exact ⟨rfl, rfl, .inl ⟨hA, rfl, rfl, rfl⟩⟩
    · have hl : uncontracted_looped f i a =
          [some i, none, some (f.m_B_letter_expr.indexOf a)] := by
        simp [uncontracted_looped, hA]
      rw [hl]
      exact ⟨rfl, rfl, .inr ⟨hA, hgood.2.2 hA, rfl, rfl, rfl⟩⟩
  · refine ⟨{ m_bispaces := [C.m_bispace, f.m_A_bispace, f.m_B_bispace],
              m_subspaces_looped :=
                [none, some (f.m_A_letter_expr.indexOf a),
                  some (f.m_B_letter_expr.indexOf a)] },
      ?_, rfl, rfl, rfl, rfl, rfl⟩
    simp [contracted_built, hka]

theorem get_batch_provider_loops_witness :
    ∃ p, get_batch_provider sample_factory sample_C = .ok p ∧
      p.m_loops.map (fun l => l.m_subspaces_looped) =
        [[some 0, some 0, none], [some 1, none, some 1], [none, some 1, some 0]] ∧
      ∃ unc con,
        uncontracted_loops sample_factory
            [sample_C.m_bispace, sample_factory.m_A_bispace, sample_factory.m_B_bispace] 0
            sample_C.m_letter_expr = .ok unc ∧
          contracted_loops sample_factory
            [sample_C.m_bispace, sample_factory.m_A_bispace, sample_factory.m_B_bispace]
            sample_factory.m_le = .ok con ∧
          (p.m_loops = con ++ unc ∨ p.m_loops = unc ++ con) :=
  have hp := (get_batch_provider_ok sample_factory sample_C (by decide) (by decide)).2.2
  have h := get_batch_provider_loops sample_factory sample_C _ hp
  ⟨_, hp, by decide, h.choose, h.choose_spec.choose, h.choose_spec.choose_spec.1,
    h.choose_spec.choose_spec.2.1, h.choose_spec.choose_spec.2.2.1⟩

end contract2_batch_provider_factory

namespace contract2_batch_provider

theorem map_assign_lookup (key : Nat) (value : Nat × Nat) (j : Nat) :
    ∀ m : List (Nat × (Nat × Nat)),
      (map_assign m key value).lookup j = if j = key then some value else m.lookup j
  | [] => by
    by_cases h : j = key
    · simp [map_assign, List.lookup, h]
    · have : (j == key) = false := by simpa using h
      simp [map_assign, List.lookup, h, this]
  | (k, v) :: rest => by
    have ih := map_assign_lookup key value j rest
    unfold map_assign
    by_cases h1 : key < k
    · rw [if_pos h1]
      by_cases h : j = key
      · simp [List.lookup, h]
      · have : (j == key) = false := by simpa using h
        simp [List.lookup, h, this]
    · rw [if_neg h1]
      by_cases h2 : key = k
      · rw [if_pos h2]
        by_cases h : j = key
        · simp [List.lookup, h]
        · have hjk : (j == key) = false := by simpa using h
          have hjk2 : (j == k) = false := by rw [← h2]; exact hjk
          simp [List.lookup, h, hjk, hjk2]
      · rw [if_neg h2]
        by_cases h : j = key
        · have hjk : (j == k) = false := by
            simp only [beq_eq_false_iff_ne, ne_eq]
            omega
          simp only [List.lookup, hjk, ih, if_pos h]
        · cases hjk : (j == k) with
          | true => simp [List.lookup, hjk, h]
          | false => simp only [List.lookup, hjk, ih, if_neg h]

theorem get_batch_loop_step_ranges
    (tr : bispace_operand → Nat → Nat × Nat → bispace_operand) (t s : Nat) (bounds : Nat × Nat)
    (n : Nat) (ht : t < n) (idx : Nat) (loop : block_loop) (st : batch_state)
    (hl : loop.m_subspaces_looped.length = n) (hst : st.bispaces.length = n) :
    ∃ st1, get_batch_loop_step tr t s bounds idx loop st = .ok st1 ∧
      st1.bispaces.length = n ∧
      ∀ j, st1.loop_batches.lookup j =
        if j = idx ∧ iterates t s loop = true then some bounds else st.loop_batches.lookup j := by
  unfold get_batch_loop_step block_loop.is_bispace_ignored block_loop.get_subspace_looped
    iterates
  rw [List.getElem?_eq_getElem (by omega : t < loop.m_subspaces_looped.length)]
  cases loop.m_subspaces_looped[t] with
  | none => exact ⟨st, rfl, hst, fun j => by simp⟩
  | some l =>
    dsimp only
    by_cases hs : s = l
    · rw [if_pos hs, sparse_bispace.vector_at_ok (by omega : t < st.bispaces.length)]
      refine ⟨_, rfl, by simpa using hst, fun j => ?_⟩
      subst hs
      simp only [map_assign_lookup, beq_self_eq_true, and_true]
    · rw [if_neg hs]
      refine ⟨st, rfl, hst, fun j => ?_⟩
      have hne : (some (some l) == some (some s)) = false := by
        simp only [beq_eq_false_iff_ne, ne_eq, Option.some.injEq]
        exact fun h => hs h.symm
      simp [hne]

theorem get_batch_loops_ranges
    (tr : bispace_operand → Nat → Nat × Nat → bispace_operand) (t s : Nat) (bounds : Nat × Nat)
    (n : Nat) (ht : t < n) :
    ∀ (loops : List block_loop) (idx : Nat) (st : batch_state),
      (∀ loop ∈ loops, loop.m_subspaces_looped.length = n) → st.bispaces.length = n →
      ∃ st1, get_batch_loops tr t s bounds idx loops st = .ok st1 ∧
        st1.bispaces.length = n ∧
        (∀ j, j < idx → st1.loop_batches.lookup j = st.loop_batches.lookup j) ∧
        ∀ k l, loops[k]? = some l →
          st1.loop_batches.lookup (idx + k) =
            if iterates t s l = true then some bounds else st.loop_batches.lookup (idx + k)
  | [], _, st, _, hst => ⟨st, rfl, hst, fun _ _ => rfl, fun k l h => by simp at h⟩
  | loop :: rest, idx, st, hl, hst => by
    obtain ⟨st1, h1, hn1, hq1⟩ := get_batch_loop_step_ranges tr t s bounds n ht idx loop st
      (hl loop (List.mem_cons_self _ _)) hst
    obtain ⟨st2, h2, hn2, hlow2, hq2⟩ := get_batch_loops_ranges tr t s bounds n ht rest
      (idx + 1) st1 (fun x hx => hl x (List.mem_cons_of_mem _ hx)) hn1
    refine ⟨st2, ?_, hn2, fun j hj => ?_, fun k l hk => ?_⟩
    · unfold get_batch_loops
      rw [h1]
      exact h2
    · rw [hlow2 j (by omega), hq1 j]
      exact if_neg (fun h => absurd h.1 (by omega))
    · cases k with
      | zero =>
        simp only [List.getElem?_cons_zero, Option.some.injEq] at hk
        subst hk
        rw [Nat.add_zero, hlow2 idx (by omega), hq1 idx]
        simp
      | succ k =>
        simp only [List.getElem?_cons_succ] at hk
        have := hq2 k l hk
        rw [show idx + 1 + k = idx + (k + 1) by omega] at this
        have e : st1.loop_batches.lookup (idx + (k + 1)) =
            st.loop_batches.lookup (idx + (k + 1)) := by
          rw [hq1 (idx + (k + 1))]
          exact if_neg (fun h => absurd h.1 (by omega))
        rw [this, e]

theorem get_batch_entries_ranges
    (tr : bispace_operand → Nat → Nat × Nat → bispace_operand) (m_loops : List block_loop)
    (n : Nat) (hl : ∀ loop ∈ m_loops, loop.m_subspaces_looped.length = n) :
    ∀ (batches : List ((Nat × Nat) × (Nat × Nat))) (st : batch_state),
      (∀ e ∈ batches, e.1.1 < n) → st.bispaces.length = n →
      ∃ st1, get_batch_entries tr m_loops batches st = .ok st1 ∧
        st1.bispaces.length = n ∧
        ∀ k l, m_loops[k]? = some l →
          st1.loop_batches.lookup k =
            match (batches.filter (fun e => iterates e.1.1 e.1.2 l)).getLast? with
            | some e => some e.2
            | none => st.loop_batches.lookup k
  | [], st, _, hst => ⟨st, rfl, hst, fun _ _ _ => rfl⟩
  | (key, bounds) :: rest, st, hk, hst => by
    obtain ⟨st1, h1, hn1, -, hq1⟩ := get_batch_loops_ranges tr key.1 key.2 bounds n
      (hk (key, bounds) (List.mem_cons_self _ _)) m_loops 0 st hl hst
    obtain ⟨st2, h2, hn2, hq2⟩ := get_batch_entries_ranges tr m_loops n hl rest st1
      (fun e he => hk e (List.mem_cons_of_mem _ he)) hn1
    refine ⟨st2, ?_, hn2, fun k l hkl => ?_⟩
    · unfold get_batch_entries
      rw [h1]
      exact h2
    · have e1 := hq1 k l hkl
      rw [Nat.zero_add] at e1
      rw [hq2 k l hkl, List.filter_cons]
      by_cases hit : iterates key.1 key.2 l = true
      · rw [if_pos hit, List.getLast?_cons]
        cases hlast : (rest.filter (fun e => iterates e.1.1 e.1.2 l)).getLast? with
        | none => simp [e1, hit]
        | some e => simp
      · rw [if_neg hit]
        cases hlast : (rest.filter (fun e => iterates e.1.1 e.1.2 l)).getLast? with
        | none => simp [e1, hit]
        | some e => simp

/-- Claim C29: for every `get_batch` call whose accesses are defined and every loop `l`
of the provider, at position `loop_idx`: if exactly one entry `(t, s) → r` of `batches`
has `l` advancing over subspace `s` of tensor `t`, the map handed to the run of the loop
list holds `r` for `loop_idx`; if no entry has, the map has no entry for `loop_idx`. -/
theorem get_batch_loop_ranges
    (run : sparse_loop_list → block_contract2_kernel → List (Option Nat) →
      List (Nat × (Nat × Nat)) → run_outcome)
    (truncate_subspace : bispace_operand → Nat → Nat × Nat → bispace_operand)
    (get_nnz : bispace_operand → Nat) (sizeof_T : Nat) (self : contract2_batch_provider)
    (batch_ptr : Option Nat) (batches : List ((Nat × Nat) × (Nat × Nat)))
    (hcall : batch_call_defined self batches) :
    ∃ r, get_batch run truncate_subspace get_nnz sizeof_T self batch_ptr batches = .ok r ∧
      ∀ (loop_idx : Nat) (l : block_loop), self.m_loops[loop_idx]? = some l →
        (∀ e, batches.filter (fun e => iterates e.1.1 e.1.2 l) = [e] →
          r.loop_batches.lookup loop_idx = some e.2) ∧
        (batches.filter (fun e => iterates e.1.1 e.1.2 l) = [] →
          r.loop_batches.lookup loop_idx = none) := by
  obtain ⟨hl, hn, hp, hk⟩ := hcall
  obtain ⟨st, h1, hn1, hq⟩ := get_batch_entries_ranges truncate_subspace self.m_loops
    self.m_sll.m_bispaces.length hl batches
    { loop_batches := [], bispaces := self.m_sll.get_bispaces } hk rfl
  have hv : vector_at st.bispaces 0 = .ok (st.bispaces.get ⟨0, by omega⟩) := by
    rw [sparse_bispace.vector_at_ok (by omega : 0 < st.bispaces.length)]
    rfl
  have hget := get_batch_reaches_run run truncate_subspace get_nnz sizeof_T self batch_ptr
    batches st (st.bispaces.get ⟨0, by omega⟩) h1 hv (by omega)
  refine ⟨_, hget, fun loop_idx l hloop => ⟨fun e he => ?_, fun he => ?_⟩⟩
  · dsimp only
    rw [hq loop_idx l hloop, he]
    rfl
  · dsimp only
    rw [hq loop_idx l hloop, he]
    rfl

theorem get_batch_loop_ranges_witness :
    batch_call_defined sample_provider [((0, 0), (1, 2)), ((1, 1), (0, 1))] ∧
      sample_provider.m_loops.map (fun l => l.m_subspaces_looped) =
        [[some 0, some 0, none], [some 1, none, some 1], [none, some 1, some 0]] ∧
      ∃ r, get_batch sample_run sample_truncate_subspace sample_get_nnz 8 sample_provider
          (some 5000) [((0, 0), (1, 2)), ((1, 1), (0, 1))] = .ok r ∧
        r.loop_batches.lookup 0 = some (1, 2) ∧ r.loop_batches.lookup 1 = none ∧
        r.loop_batches.lookup 2 = some (0, 1) := by
  obtain ⟨r, hr, h⟩ := get_batch_loop_ranges sample_run sample_truncate_subspace sample_get_nnz
    8 sample_provider (some 5000) [((0, 0), (1, 2)), ((1, 1), (0, 1))] (by decide)
  exact ⟨by decide, by decide, r, hr,
    (h 0 { m_bispaces := [sample_C.m_bispace, sample_factory.m_A_bispace,
                sample_factory.m_B_bispace],
           m_subspaces_looped := [some 0, some 0, none] } (by decide)).1 ((0, 0), (1, 2))
      (by decide),
    (h 1 { m_bispaces := [sample_C.m_bispace, sample_factory.m_A_bispace,
                sample_factory.m_B_bispace],
           m_subspaces_looped := [some 1, none, some 1] } (by decide)).2 (by decide),
    (h 2 { m_bispaces := [sample_C.m_bispace, sample_factory.m_A_bispace,
                sample_factory.m_B_bispace],
           m_subspaces_looped := [none, some 1, some 0] } (by decide)).1 ((1, 1), (0, 1))
      (by decide)⟩

/-- With a run that keeps state, the provider after a `get_batch` call is not the provider
before it with slot 0 set: the call passes on what the run leaves behind. -/
theorem get_batch_passes_on_run_state :
    (get_batch sample_run_stateful sample_truncate_subspace sample_get_nnz 8 sample_provider
        (some 5000) [((0, 0), (1, 2))]).map (fun r => (r.provider.m_ptrs, r.provider.m_bc2k)) =
      .ok ([some 2000, some 1000, some 5000],
        { sample_provider.m_bc2k with m_state := [1] }) := by
  decide

end contract2_batch_provider

/-! ### The sparse groups of a contracted space -/

theorem for_each_index_drop_take {α : Type} (l : List α) (i n : Nat) (h : i + n ≤ l.length) :
    for_each_index (vector_at l) i n = .ok ((l.drop i).take n) := by
  apply for_each_index_eq
  · rw [List.length_take, List.length_drop]
    omega
  · intro k hk
    unfold vector_at
    rw [List.getElem?_take_of_lt hk, List.getElem?_drop]

theorem for_each_state_indexed {σ : Type} {body : σ → Nat → Except Exn σ}
    (P : Nat → σ → Prop) (bound : Nat)
    (hbody : ∀ st i, i < bound → P i st → ∃ st1, body st i = .ok st1 ∧ P (i + 1) st1) :
    ∀ (n i : Nat) (st : σ), i + n ≤ bound → P i st →
      ∃ st1, for_each_state body i n st = .ok st1 ∧ P (i + n) st1
  | 0, _, st, _, hst => ⟨st, rfl, hst⟩
  | n + 1, i, st, hb, hst => by
    obtain ⟨st1, h1, hP1⟩ := hbody st i (by omega) hst
    obtain ⟨st2, h2, hP2⟩ := for_each_state_indexed P bound hbody n (i + 1) st1 (by omega) hP1
    refine ⟨st2, by simp [for_each_state, h1, h2], ?_⟩
    rw [show i + (n + 1) = i + 1 + n by omega]
    exact hP2

namespace sparse_bispace

theorem contract_group_eq
    (tc : sparse_block_tree_any_order → Nat → List sparse_bispace_1 →
      sparse_block_tree_any_order)
    (parent : sparse_bispace) (idx : Nat) (self : sparse_bispace) (g : Nat)
    (offset : Nat) (tree : sparse_block_tree_any_order)
    (ho : parent.m_sparse_indices_sets_offsets[g]? = some offset)
    (ht : parent.m_sparse_block_trees[g]? = some tree)
    (hd : g < parent.m_sparse_block_tree_dimensions.length)
    (hrange : offset + tree.get_order ≤ self.m_subspaces.length + 1) :
    ∃ r, contract_group tc parent idx self g = .ok r ∧ r.N = self.N ∧
      r.m_subspaces = self.m_subspaces ∧ r.m_dimensions = self.m_dimensions ∧
      r.m_sparse_indices_sets_offsets = self.m_sparse_indices_sets_offsets ++
        ((contracted_group tc self.m_subspaces idx (offset, tree)).map (fun x => x.1)).toList ∧
      r.m_sparse_block_trees = self.m_sparse_block_trees ++
        ((contracted_group tc self.m_subspaces idx (offset, tree)).map (fun x => x.2)).toList ∧
      r.m_sparse_block_tree_dimensions.length = self.m_sparse_block_tree_dimensions.length +
        ((contracted_group tc self.m_subspaces idx (offset, tree)).map (fun x => x.2)).toList.length
      := by
  have hvt : vector_at parent.m_sparse_block_trees g = .ok tree := by rw [vector_at, ht]
  have hvo : vector_at parent.m_sparse_indices_sets_offsets g = .ok offset := by
    rw [vector_at, ho]
  have hvd : vector_at parent.m_sparse_block_tree_dimensions g =
      .ok parent.m_sparse_block_tree_dimensions[g] := vector_at_ok hd
  unfold contract_group contracted_group
  simp only [hvt, hvo, hvd]
  by_cases hin : offset ≤ idx ∧ idx < offset + tree.get_order
  · rw [if_pos hin, if_pos hin]
    by_cases h2 : tree.get_order = 2
    · rw [if_pos h2, if_pos h2]
      exact ⟨self, rfl, rfl, rfl, rfl, by simp, by simp, by simp⟩
    · rw [if_neg h2, if_neg h2]
      have hoff : ¬ offset > idx := by omega
      simp only [if_neg hoff]
      have hcount : size_t_sub (offset + tree.get_order) 1 - offset = tree.get_order - 1 := by
        rw [size_t_sub_of_le (by omega)]
        omega
      rw [hcount, for_each_index_drop_take self.m_subspaces offset (tree.get_order - 1)
        (by omega), size_t_sub_of_le hin.1]
      exact ⟨_, rfl, rfl, rfl, rfl, by simp, by simp, by simp⟩
  · rw [if_neg hin, if_neg hin]
    refine ⟨_, rfl, rfl, rfl, rfl, ?_, by simp, by simp⟩
    by_cases hgt : offset > idx
    · simp [if_pos hgt, size_t_sub_of_le (by omega : 1 ≤ offset)]
    · simp [if_neg hgt]

end sparse_bispace

namespace sparse_bispace

theorem zip_map_fst_snd {α β : Type} : ∀ l : List (α × β),
    List.zip (l.map (fun x => x.1)) (l.map (fun x => x.2)) = l
  | [] => rfl
  | x :: l => by simp [zip_map_fst_snd l]

theorem filterMap_singleton {α β : Type} (f : α → Option β) (a : α) :
    List.filterMap f [a] = (f a).toList := by
  rw [List.filterMap_cons]
  cases f a <;> rfl

/-- Claim C25: for a space of order `N ≥ 3` and `idx < N`, `contract(idx)` returns, and
the sparse groups of the result are those of the space taken in order, each treated as
`contracted_group` says: kept with its tree and its offset lowered by 1 exactly when
`offset > idx` if the footprint does not contain `idx`; dropped if it has order 2 and
contains `idx`; kept at its offset with the tree returned by the tree's `contract` at
relative position `idx - offset` otherwise. -/
theorem contract_groups
    (tc : sparse_block_tree_any_order → Nat → List sparse_bispace_1 →
      sparse_block_tree_any_order)
    (s : sparse_bispace) (idx : Nat) (hN : 3 ≤ s.N) (hidx : idx < s.N)
    (hwf : s.well_formed) (hgr : s.groups_in_range) :
    ∃ r, contract tc s idx = some (.ok (.order_n r)) ∧
      r.m_subspaces = s.m_subspaces.eraseIdx idx ∧
      List.zip r.m_sparse_indices_sets_offsets r.m_sparse_block_trees =
        (List.zip s.m_sparse_indices_sets_offsets s.m_sparse_block_trees).filterMap
          (contracted_group tc r.m_subspaces idx) ∧
      r.m_sparse_indices_sets_offsets.length = r.m_sparse_block_trees.length := by
  have hlen : s.m_subspaces.length = s.N := hwf.1
  have hsubs : contract_subspaces s.m_subspaces idx 0 (s.N - 1 + 1) =
      .ok (s.m_subspaces.eraseIdx idx) := by
    rw [contract_subspaces_eq s.m_subspaces idx (s.N - 1 + 1) 0 (by omega)]
    simp
  have hElen : (s.m_subspaces.eraseIdx idx).length = s.N - 1 := by
    rw [List.length_eraseIdx_of_lt (by omega), hlen]
  obtain ⟨st, hst, hstN, hstS, hstD, hstO, hstT, hstL⟩ := @for_each_state_indexed _
    (contract_group tc s idx)
    (fun g (st : sparse_bispace) => st.N = s.N - 1 ∧
      st.m_subspaces = s.m_subspaces.eraseIdx idx ∧ st.m_dimensions = [] ∧
      st.m_sparse_indices_sets_offsets =
        (((List.zip s.m_sparse_indices_sets_offsets s.m_sparse_block_trees).take g).filterMap
          (contracted_group tc (s.m_subspaces.eraseIdx idx) idx)).map (fun x => x.1) ∧
      st.m_sparse_block_trees =
        (((List.zip s.m_sparse_indices_sets_offsets s.m_sparse_block_trees).take g).filterMap
          (contracted_group tc (s.m_subspaces.eraseIdx idx) idx)).map (fun x => x.2) ∧
      st.m_sparse_block_tree_dimensions.length = st.m_sparse_block_trees.length)
    s.m_sparse_block_trees.length
    (fun st g hg hP => by
      obtain ⟨hPN, hPS, hPD, hPO, hPT, hPL⟩ := hP
      have hgo : g < s.m_sparse_indices_sets_offsets.length := by rw [hwf.2.1]; exact hg
      have ho : s.m_sparse_indices_sets_offsets[g]? =
          some s.m_sparse_indices_sets_offsets[g] := List.getElem?_eq_getElem hgo
      have ht : s.m_sparse_block_trees[g]? = some s.m_sparse_block_trees[g] :=
        List.getElem?_eq_getElem hg
      have hz : (List.zip s.m_sparse_indices_sets_offsets s.m_sparse_block_trees)[g]? =
          some (s.m_sparse_indices_sets_offsets[g], s.m_sparse_block_trees[g]) :=
        List.getElem?_zip_eq_some.mpr ⟨ho, ht⟩
      have hrange : s.m_sparse_indices_sets_offsets[g] + s.m_sparse_block_trees[g].get_order ≤
          s.N := hgr _ (List.mem_iff_getElem?.mpr ⟨g, hz⟩)
      obtain ⟨r, hr, e1, e2, e3, e4, e5, e6⟩ := contract_group_eq tc s idx st g _ _ ho ht
        (by rw [hwf.2.2]; exact hg) (by rw [hPS, hElen]; omega)
      rw [hPS] at e4 e5 e6
      refine ⟨r, hr, e1.trans hPN, e2.trans hPS, e3.trans hPD, ?_, ?_, ?_⟩
      · rw [e4, hPO, List.take_succ, hz, Option.toList, List.filterMap_append,
          List.map_append, filterMap_singleton]
        cases contracted_group tc (s.m_subspaces.eraseIdx idx) idx
            (s.m_sparse_indices_sets_offsets[g], s.m_sparse_block_trees[g]) <;> rfl
      · rw [e5, hPT, List.take_succ, hz, Option.toList, List.filterMap_append,
          List.map_append, filterMap_singleton]
        cases contracted_group tc (s.m_subspaces.eraseIdx idx) idx
            (s.m_sparse_indices_sets_offsets[g], s.m_sparse_block_trees[g]) <;> rfl
      · rw [e6, e5, hPL, List.length_append])
    s.m_sparse_block_trees.length 0
    { blank (s.N - 1) with m_subspaces := s.m_subspaces.eraseIdx idx } (by omega)
    ⟨rfl, rfl, rfl, rfl, rfl, rfl⟩
  rw [Nat.zero_add, List.take_of_length_le (by
    rw [List.length_zip, hwf.2.1]; omega)] at hstO hstT
  have hstOT : st.m_sparse_indices_sets_offsets.length = st.m_sparse_block_trees.length := by
    rw [hstO, hstT, List.length_map, List.length_map]
  obtain ⟨r, hr, hrN, hrS, hrO, hrT, hrD, _⟩ :=
    init_fields st hstD ⟨by rw [hstS, hElen, hstN], hstOT, hstL⟩
  have hrS2 : r.m_subspaces = s.m_subspaces.eraseIdx idx := hrS.trans hstS
  refine ⟨r, ?_, hrS2, ?_, ?_⟩
  · have hc : ¬ idx > size_t_sub s.N 1 := by
      rw [size_t_sub_of_le (by omega)]; omega
    have h1 : ¬ s.N - 1 = 1 := by omega
    simp only [contract, if_neg hc, if_neg h1, ctor_contract, hsubs, hst, hr]
  · rw [hrO, hrT, hstO, hstT, hrS2, zip_map_fst_snd]
  · rw [hrO, hrT, hstOT]

theorem contract_groups_witness :
    sample_order_3.well_formed ∧ sample_order_3.groups_in_range ∧
      List.zip sample_order_3.m_sparse_indices_sets_offsets
        sample_order_3.m_sparse_block_trees =
        [(0, { m_order := 2, m_nnz := 14, m_sig_blocks := [[0, 0], [1, 1]] })] ∧
      ∃ r, contract sample_tree_contract sample_order_3 2 = some (.ok (.order_n r)) ∧
        r.m_subspaces = sample_order_3.m_subspaces.eraseIdx 2 ∧
        List.zip r.m_sparse_indices_sets_offsets r.m_sparse_block_trees =
          (List.zip sample_order_3.m_sparse_indices_sets_offsets
            sample_order_3.m_sparse_block_trees).filterMap
            (contracted_group sample_tree_contract r.m_subspaces 2) ∧
        r.m_sparse_indices_sets_offsets.length = r.m_sparse_block_trees.length :=
  ⟨by decide, by decide, by decide,
    contract_groups sample_tree_contract sample_order_3 2 (by decide) (by decide) (by decide)
      (by decide)⟩

end sparse_bispace

/-! ### Fusion with a dense space, and the element count of a merged group -/

namespace sparse_bispace

theorem fuse_eq_ctor_fuse
    (tf : sparse_block_tree_any_order → sparse_block_tree_any_order →
      sparse_block_tree_any_order)
    (so : sparse_block_tree_any_order → List sparse_bispace_1 → sparse_block_tree_any_order)
    (lhs rhs : sparse_bispace) (hl : lhs.well_formed) (hr : rhs.well_formed)
    (hN : 1 ≤ lhs.N) (hL : 1 ≤ rhs.N)
    (hseam : lhs.m_subspaces[lhs.N - 1]? = rhs.m_subspaces[0]?) :
    fuse tf so lhs rhs = ctor_fuse tf so lhs rhs := by
  have hl1 : lhs.N - 1 < lhs.m_subspaces.length := by rw [hl.1]; omega
  have hr0 : 0 < rhs.m_subspaces.length := by rw [hr.1]; omega
  have hv : vector_at lhs.m_subspaces (size_t_sub lhs.N 1) =
      .ok lhs.m_subspaces[lhs.N - 1] := by
    rw [size_t_sub_of_le hN, vector_at_ok hl1]
  have hsame : lhs.m_subspaces[lhs.N - 1] = rhs.m_subspaces[0] := by
    rw [List.getElem?_eq_getElem hl1, List.getElem?_eq_getElem hr0] at hseam
    exact Option.some.inj hseam
  have hne : ¬ sparse_bispace_1.operator_ne lhs.m_subspaces[lhs.N - 1] rhs.m_subspaces[0] =
      true := by
    rw [hsame]
    simp [sparse_bispace_1.operator_ne, sparse_bispace_1.operator_eq]
  unfold fuse
  rw [hv, operator_index_eq rhs 0 hr0]
  simp only
  rw [if_neg hne]

/-- Claim C26: `this` and `other` have matching seam subspaces and `other` has no sparse
group. If the last sparse group of `this` ends exactly at the seam, the fusing
constructor reads `rhs.m_sparse_indices_sets_offsets[0]` of the empty vector, an
undefined access, and `fuse(other)` returns no space. In every other case `fuse(other)`
returns a space whose sparse groups are those of `this`, offsets and trees unchanged. -/
theorem fuse_dense_other_groups
    (tf : sparse_block_tree_any_order → sparse_block_tree_any_order →
      sparse_block_tree_any_order)
    (so : sparse_block_tree_any_order → List sparse_bispace_1 → sparse_block_tree_any_order)
    (self other : sparse_bispace) (hl : self.well_formed) (hr : other.well_formed)
    (hN : 1 ≤ self.N) (hL : 1 ≤ other.N)
    (hseam : self.m_subspaces[self.N - 1]? = other.m_subspaces[0]?)
    (hdense : other.m_sparse_indices_sets_offsets = []) :
    ((∃ offset tree, self.m_sparse_indices_sets_offsets.getLast? = some offset ∧
          self.m_sparse_block_trees.getLast? = some tree ∧
          offset + tree.get_order = self.N) →
        fuse_sparsity_test self other = .error .undefined ∧
          fuse tf so self other = some (.error .undefined)) ∧
      ((¬ ∃ offset tree, self.m_sparse_indices_sets_offsets.getLast? = some offset ∧
          self.m_sparse_block_trees.getLast? = some tree ∧
          offset + tree.get_order = self.N) →
        ∃ F, fuse tf so self other = some (.ok F) ∧
          F.m_sparse_indices_sets_offsets = self.m_sparse_indices_sets_offsets ∧
          F.m_sparse_block_trees = self.m_sparse_block_trees) := by
  have htrees : other.m_sparse_block_trees = [] := by
    have := hr.2.1
    rw [hdense] at this
    exact List.length_eq_zero.mp this.symm
  constructor
  · rintro ⟨offset, tree, ho, ht, hend⟩
    have hpos : self.m_sparse_indices_sets_offsets.length > 0 := by
      cases hs : self.m_sparse_indices_sets_offsets with
      | nil => rw [hs] at ho; simp at ho
      | cons a l => simp
    have htest : fuse_sparsity_test self other = .error .undefined := by
      unfold fuse_sparsity_test
      rw [if_pos hpos, ho, ht]
      simp only
      rw [if_pos hend, hdense]
      rfl
    refine ⟨htest, ?_⟩
    rw [fuse_eq_ctor_fuse tf so self other hl hr hN hL hseam,
      ctor_fuse_eq tf so self other hl hr, htest]
  · intro hno
    have htest : fuse_sparsity_test self other = .ok false := by
      unfold fuse_sparsity_test
      by_cases hpos : self.m_sparse_indices_sets_offsets.length > 0
      · rw [if_pos hpos]
        have hne1 : self.m_sparse_indices_sets_offsets ≠ [] := by
          intro h
          rw [h] at hpos
          simp at hpos
        have hne2 : self.m_sparse_block_trees ≠ [] := by
          intro h
          have := hl.2.1
          rw [h] at this
          simp only [List.length_nil] at this
          omega
        rw [List.getLast?_eq_getLast _ hne1, List.getLast?_eq_getLast _ hne2]
        simp only
        rw [if_neg]
        intro hend
        exact hno ⟨_, _, List.getLast?_eq_getLast _ hne1, List.getLast?_eq_getLast _ hne2, hend⟩
      · rw [if_neg hpos]
    obtain ⟨F, hF, _, _, _, hgroups, _⟩ :=
      fuse_fields tf so self other hl hr hN hL hseam false htest
    obtain ⟨e1, e2, _⟩ := hgroups rfl
    refine ⟨F, hF, ?_, ?_⟩
    · rw [e1, hdense]
      simp
    · rw [e2, htrees]
      simp

theorem fuse_dense_other_groups_witness :
    sample_order_3_tail_group.well_formed ∧ sample_dense_rhs.well_formed ∧
      sample_order_3_tail_group.m_subspaces[sample_order_3_tail_group.N - 1]? =
        sample_dense_rhs.m_subspaces[0]? ∧
      sample_dense_rhs.m_sparse_indices_sets_offsets = [] ∧
      sample_order_3_tail_group.m_sparse_indices_sets_offsets.getLast? = some 1 ∧
      fuse_sparsity_test sample_order_3_tail_group sample_dense_rhs = .error .undefined ∧
      fuse sample_tree_fuse sample_set_offsets_sizes_nnz sample_order_3_tail_group
        sample_dense_rhs = some (.error .undefined) :=
  have h := (fuse_dense_other_groups sample_tree_fuse sample_set_offsets_sizes_nnz
    sample_order_3_tail_group sample_dense_rhs (by decide) (by decide) (by decide) (by decide)
    (by decide) (by decide)).1
    ⟨1, { m_order := 2, m_nnz := 22, m_sig_blocks := [[0, 0], [1, 1]] }, by decide, by decide,
      by decide⟩
  ⟨by decide, by decide, by decide, by decide, by decide, h.1, h.2⟩

/-- Claim C27: `sample_fuse_lhs` couples `i` and `j` by a tree of 22 elements and
`sample_fuse_rhs` couples `j` and `k` by a tree of 24 elements; both groups abut at the
seam `j` and are merged. The merged tree has `3 * 2 * 4 + 4 * 4 * 4 = 88` elements, but
the fused space keeps the stored dimension 22 of the left tree for the merged group:
its only slot has dimension 22 and `get_nnz()` is 22. -/
theorem fuse_merged_group_get_nnz :
    fuse_sparsity_test sample_fuse_lhs sample_fuse_rhs = .ok true ∧
      sample_fuse_lhs.m_sparse_block_trees.map (fun t => t.get_nnz) = [22] ∧
      sample_fuse_rhs.m_sparse_block_trees.map (fun t => t.get_nnz) = [24] ∧
      (fuse sample_tree_fuse sample_set_offsets_sizes_nnz sample_fuse_lhs sample_fuse_rhs).map
          (fun res => res.map (fun F => F.m_sparse_block_trees.map (fun t => t.get_nnz))) =
        some (.ok [88]) ∧
      (fuse sample_tree_fuse sample_set_offsets_sizes_nnz sample_fuse_lhs sample_fuse_rhs).map
          (fun res => res.map (fun F => F.m_sparse_block_tree_dimensions)) =
        some (.ok [22]) ∧
      (fuse sample_tree_fuse sample_set_offsets_sizes_nnz sample_fuse_lhs sample_fuse_rhs).map
          (fun res => res.map (fun F => F.m_dimensions)) = some (.ok [22]) ∧
      (fuse sample_tree_fuse sample_set_offsets_sizes_nnz sample_fuse_lhs sample_fuse_rhs).map
          (fun res => res.map (fun F => F.get_nnz)) = some (.ok 22) :=
  ⟨by decide, by decide, by decide, by decide, by decide, by decide, by decide⟩

end sparse_bispace


/-! ### Block offsets of dense spaces -/

theorem block_offset_mod_step (o u a P z H M : Nat) :
    ((o + ((u * a) % M * (P % M)) % M) % M + (u * z) % M * H) % M =
      (o + u * (a * P + z * H)) % M := by
  have h1 : ((u * a) % M * (P % M)) % M = (u * a * P) % M := (Nat.mul_mod _ _ _).symm
  have h2 : ((u * z) % M * H) % M = (u * z * H) % M := Nat.mod_mul_mod
  have h3 : (o + u * (a * P + z * H)) = (o + u * a * P) + u * z * H := by ring
  rw [h1, Nat.add_mod_mod, h3, Nat.add_mod ((o + u * a * P) % M), Nat.mod_mod, h2,
    ← Nat.add_mod]

namespace sparse_bispace_1

theorem get_block_size_ok (s : sparse_bispace_1) (i : Nat) (h : i < s.m_abs_indices.length) :
    ∃ n, get_block_size s i = .ok n := by
  have hsz := get_block_size_eq_sizes_of s.m_dim s.m_abs_indices i h
  have hlt : i < (sizes_of s.m_dim s.m_abs_indices).length := by
    rw [sizes_of_length]
    exact h
  refine ⟨(sizes_of s.m_dim s.m_abs_indices).get ⟨i, hlt⟩, ?_⟩
  show get_block_size ⟨s.m_dim, s.m_abs_indices⟩ i = _
  rw [hsz, vector_at, List.getElem?_eq_getElem hlt]
  rfl

end sparse_bispace_1

namespace sparse_bispace

theorem init_inner_sizes (self r : sparse_bispace) (h : init self = some (.ok r)) :
    r.m_inner_sizes = (List.range r.m_dimensions.length).map (inner_size_of r.m_dimensions) := by
  unfold init at h
  split at h
  · cases h
  · split at h
    · cases h
    · cases h
    · cases h
      rfl

theorem ctor_compose_inner_sizes (lhs rhs : bispace_operand) (C : sparse_bispace)
    (h : ctor_compose lhs rhs = some (.ok C)) :
    C.m_inner_sizes = (List.range C.m_dimensions.length).map (inner_size_of C.m_dimensions) := by
  unfold ctor_compose at h
  split at h
  · dsimp only at h
    split at h
    · cases h
    · split at h
      · cases h
      · exact init_inner_sizes _ _ h
  · cases h
  · cases h

theorem slot_term_zero (sub : sparse_bispace_1) (later : List sparse_bispace_1) (b : Nat)
    (bs : List Nat) :
    slot_term (sub :: later) (b :: bs) 0 =
      block_abs_index_at sub b * (later.map sparse_bispace_1.get_dim).prod := by
  simp [slot_term]

theorem slot_term_succ (sub : sparse_bispace_1) (later : List sparse_bispace_1) (b : Nat)
    (bs : List Nat) (k : Nat) :
    slot_term (sub :: later) (b :: bs) (k + 1) = block_size_at sub b * slot_term later bs k := by
  simp only [slot_term, List.take_succ_cons, List.zipWith_cons_cons, List.prod_cons,
    List.drop_succ_cons]
  ring

theorem dense_block_offset_cons (sub : sparse_bispace_1) (later : List sparse_bispace_1)
    (b : Nat) (bs : List Nat) :
    dense_block_offset (sub :: later) (b :: bs) =
      block_abs_index_at sub b * (later.map sparse_bispace_1.get_dim).prod +
        block_size_at sub b * dense_block_offset later bs := by
  unfold dense_block_offset
  rw [List.length_cons, List.range_succ_eq_map, List.map_cons, List.sum_cons, slot_term_zero,
    List.map_map]
  congr 1
  rw [← List.sum_map_mul_left]
  congr 1
  apply List.map_congr_left
  intro k _
  exact slot_term_succ sub later b bs k

theorem dense_block_offset_nil (bs : List Nat) : dense_block_offset [] bs = 0 := rfl

end sparse_bispace

namespace sparse_bispace

theorem block_offset_loop_dense
    (ts : sparse_block_tree_any_order → List Nat → Except Exn Nat)
    (self : sparse_bispace) (b : List Nat)
    (ho : self.m_sparse_indices_sets_offsets = [])
    (hinner : self.m_inner_sizes = (List.range self.m_subspaces.length).map
      (inner_size_of (self.m_subspaces.map sparse_bispace_1.get_dim)))
    (hlen : b.length = self.m_subspaces.length) :
    ∀ (suffix : List sparse_bispace_1) (bs : List Nat) (i offset outer fuel : Nat)
      (kv : List (List Nat)),
      self.m_subspaces.drop i = suffix → b.drop i = bs → valid_block_tuple suffix bs →
      offset < SIZE_T_MOD → suffix.length < fuel →
      block_offset_loop ts self b fuel i i 0 offset outer kv =
        some (.ok ((offset + outer * dense_block_offset suffix bs) % SIZE_T_MOD, kv))
  | [], bs, i, offset, outer, 0, kv, _, _, _, _, hf => by simp at hf
  | [], bs, i, offset, outer, fuel + 1, kv, hdrop, _, _, hoff, _ => by
    have hi : ¬ i < b.length := by
      rw [hlen]
      have := List.drop_eq_nil_iff.mp hdrop
      omega
    rw [block_offset_loop, if_neg hi, dense_block_offset_nil, Nat.mul_zero, Nat.add_zero,
      Nat.mod_eq_of_lt hoff]
  | sub :: later, [], i, offset, outer, fuel, kv, _, _, hv, _, _ => by
    have := hv.1
    simp at this
  | sub :: later, bb :: bs, i, offset, outer, 0, kv, _, _, _, _, hf => by simp at hf
  | sub :: later, bb :: bs, i, offset, outer, fuel + 1, kv, hdrop, hbdrop, hv, _, hf => by
    have hi : i < self.m_subspaces.length := by
      by_contra hn
      rw [List.drop_eq_nil_of_le (by omega)] at hdrop
      cases hdrop
    have hib : i < b.length := by rw [hlen]; exact hi
    have hcons := List.drop_eq_getElem_cons hi
    rw [hdrop] at hcons
    have hsub : self.m_subspaces[i] = sub := (List.cons.inj hcons).1.symm
    have hlater : self.m_subspaces.drop (i + 1) = later := (List.cons.inj hcons).2.symm
    have hbcons := List.drop_eq_getElem_cons hib
    rw [hbdrop] at hbcons
    have hbb : b[i] = bb := (List.cons.inj hbcons).1.symm
    have hbs : b.drop (i + 1) = bs := (List.cons.inj hbcons).2.symm
    have hblk : bb < sub.m_abs_indices.length := hv.2 (sub, bb) (by simp)
    have hvs : vector_at self.m_subspaces i = .ok sub := by
      simp [vector_at, List.getElem?_eq_getElem hi, hsub]
    have hvb : vector_at b i = .ok bb := by
      simp [vector_at, List.getElem?_eq_getElem hib, hbb]
    have habs := sparse_bispace_1.get_block_abs_index_eq sub bb hblk
    obtain ⟨sz, hsz⟩ := sparse_bispace_1.get_block_size_ok sub bb hblk
    have habs_at : block_abs_index_at sub bb = sub.m_abs_indices.get ⟨bb, hblk⟩ := by
      rw [block_abs_index_at, habs]
    have hsz_at : block_size_at sub bb = sz := by
      rw [block_size_at, hsz]
    have hvi : vector_at self.m_inner_sizes i =
        .ok ((later.map sparse_bispace_1.get_dim).prod % SIZE_T_MOD) := by
      rw [hinner, vector_at, List.getElem?_map, List.getElem?_range hi]
      simp only [Option.map_some', inner_size_of, foldl_size_t_mul_one, ← List.map_drop, hlater]
    have hv2 : valid_block_tuple later bs := by
      refine ⟨by simpa using hv.1, fun p hp => hv.2 p ?_⟩
      simp [hp]
    have hlt : size_t_add offset (size_t_mul (size_t_mul outer
        (sub.m_abs_indices.get ⟨bb, hblk⟩))
        ((later.map sparse_bispace_1.get_dim).prod % SIZE_T_MOD)) < SIZE_T_MOD :=
      Nat.mod_lt _ (by decide)
    have hsparse : (match self.m_sparse_indices_sets_offsets[0]? with
        | some off => decide (i = off)
        | none => false) = false := by
      rw [ho]
      rfl
    rw [block_offset_loop, if_pos hib]
    simp only [hsparse, Bool.false_eq_true, if_false, hvb, hvs, habs, hsz, hvi]
    rw [block_offset_loop_dense ts self b ho hinner hlen later bs (i + 1) _ _ fuel kv hlater
      hbs hv2 hlt (by simpa using hf), dense_block_offset_cons, habs_at, hsz_at]
    simp only [size_t_add, size_t_mul, block_offset_mod_step]

theorem get_block_offset_dense
    (ts : sparse_block_tree_any_order → List Nat → Except Exn Nat)
    (self : sparse_bispace) (b : List Nat)
    (ho : self.m_sparse_indices_sets_offsets = [])
    (hinner : self.m_inner_sizes = (List.range self.m_subspaces.length).map
      (inner_size_of (self.m_subspaces.map sparse_bispace_1.get_dim)))
    (hv : valid_block_tuple self.m_subspaces b) :
    get_block_offset ts self b =
      some (.ok (dense_block_offset self.m_subspaces b % SIZE_T_MOD, self)) := by
  have h := block_offset_loop_dense ts self b ho hinner hv.1 self.m_subspaces b 0 0 1
    (b.length + self.m_sparse_indices_sets_offsets.length + 1) self.m_sparse_key_vecs
    rfl rfl hv (by decide) (by rw [hv.1]; omega)
  rw [get_block_offset, h]
  simp

end sparse_bispace

namespace bispace_expr

theorem eval_inner_sizes : ∀ (e : bispace_expr) (s : sparse_bispace),
    e.eval = some (.ok (.order_n s)) →
    s.m_inner_sizes =
      (List.range s.m_dimensions.length).map (sparse_bispace.inner_size_of s.m_dimensions)
  | space _, s, h => by
    simp only [eval, Option.some.injEq, Except.ok.injEq] at h
    cases h
  | bar lhs rhs, s, h => by
    unfold eval at h
    split at h
    · next a b _ _ =>
      split at h
      · next c hc =>
        simp only [Option.some.injEq, Except.ok.injEq, bispace_operand.order_n.injEq] at h
        subst h
        exact sparse_bispace.ctor_compose_inner_sizes a b c hc
      · cases h
      · cases h
    · cases h
    · cases h
    · cases h
    · cases h

/-- Claim C23: a space of order `N ≥ 2` built from one-dimensional spaces with `|` alone
has no sparse group, and for every valid block tuple `get_block_offset` returns the sum
over the slots `k` of (the product of `get_block_size_j(b_j)` for `j < k`) times
`get_block_abs_index_k(b_k)` times (the product of `get_dim()` of the subspaces
`j > k`), as `size_t` computes it: reduced modulo `2 ^ 64`, hence the sum itself
whenever that is representable. The call leaves the object as it was. -/
theorem dense_get_block_offset (e : bispace_expr) (h : 2 ≤ e.spaces.length) :
    ∃ s, e.eval = some (.ok (.order_n s)) ∧ s.m_subspaces = e.spaces ∧
      s.get_n_sparse_groups = 0 ∧
      ∀ (tree_search : sparse_block_tree_any_order → List Nat → Except Exn Nat)
        (b : List Nat), sparse_bispace.valid_block_tuple s.m_subspaces b →
        sparse_bispace.get_block_offset tree_search s b =
            some (.ok (sparse_bispace.dense_block_offset s.m_subspaces b % 2 ^ 64, s)) ∧
          (sparse_bispace.dense_block_offset s.m_subspaces b < 2 ^ 64 →
            sparse_bispace.get_block_offset tree_search s b =
              some (.ok (sparse_bispace.dense_block_offset s.m_subspaces b, s))) := by
  obtain ⟨a, ha, _, has, hao, hoff, hat, _, hdims⟩ := eval_dense e
  cases a with
  | order_1 s1 =>
    simp only [bispace_operand.order] at hao
    omega
  | order_n s =>
    have hinner := eval_inner_sizes e s ha
    have hsub : s.m_subspaces = e.spaces := has
    rw [hdims s rfl, List.length_map, ← hsub] at hinner
    refine ⟨s, ha, hsub, ?_, fun ts b hv => ?_⟩
    · simpa [sparse_bispace.get_n_sparse_groups, bispace_operand.sparse_trees] using hat
    · have hget := sparse_bispace.get_block_offset_dense ts s b hoff hinner hv
      refine ⟨hget, fun hlt => ?_⟩
      rw [hget, SIZE_T_MOD, Nat.mod_eq_of_lt hlt]

theorem dense_get_block_offset_witness :
    2 ≤ (bar (space (sparse_bispace_1.split (sparse_bispace_1.ctor 10) [3, 7]).1)
        (space (sparse_bispace_1.split (sparse_bispace_1.ctor 6) [2]).1)).spaces.length ∧
      ∃ s, (bar (space (sparse_bispace_1.split (sparse_bispace_1.ctor 10) [3, 7]).1)
          (space (sparse_bispace_1.split (sparse_bispace_1.ctor 6) [2]).1)).eval =
          some (.ok (.order_n s)) ∧
        sparse_bispace.get_block_offset (sparse_bispace.sample_tree_search []) s [1, 1] =
          some (.ok (3 * 6 + 4 * 2 * 1, s)) := by
  obtain ⟨s, hs, hsub, _, hall⟩ := dense_get_block_offset
    (bar (space (sparse_bispace_1.split (sparse_bispace_1.ctor 10) [3, 7]).1)
      (space (sparse_bispace_1.split (sparse_bispace_1.ctor 6) [2]).1)) (by decide)
  have hv : sparse_bispace.valid_block_tuple s.m_subspaces [1, 1] := by
    rw [hsub]
    decide
  have hval : sparse_bispace.dense_block_offset s.m_subspaces [1, 1] = 3 * 6 + 4 * 2 * 1 := by
    rw [hsub]
    decide
  have h := (hall (sparse_bispace.sample_tree_search []) [1, 1] hv).2
    (by rw [hval]; decide)
  rw [hval] at h
  exact ⟨by decide, s, hs, h⟩

end bispace_expr

/-! ### Block offsets of a permuted dense space -/

namespace sparse_bispace

/-- Claim C24: `sample_matrix_space` is `i | j` composed from one-dimensional spaces.
`permute` with the permutation `(1, 0)` returns a space whose subspaces are `j, i`, which
compares equal to the directly composed `j | i` and has the same `get_nnz()`. But
`permute` copies `m_inner_sizes` from the original: the inner size of slot 0 stays
`dim(j) = 6` where the composed space has `dim(i) = 10`, and for the valid block tuple
`(1, 0)`, whose first block starts at 2, `get_block_offset` returns `2 * 6 = 12` on the
permuted space and `2 * 10 = 20` on the composed one. -/
theorem permute_dense_keeps_inner_sizes
    (tree_permute : sparse_block_tree_any_order → List Nat → sparse_block_tree_any_order)
    (set_offsets_sizes_nnz : sparse_block_tree_any_order → List sparse_bispace_1 →
      sparse_block_tree_any_order)
    (tree_ne : sparse_block_tree_any_order → sparse_block_tree_any_order → Bool)
    (tree_search : sparse_block_tree_any_order → List Nat → Except Exn Nat) :
    operator_bar (.order_1 (sparse_bispace_1.split (sparse_bispace_1.ctor 10) [3, 7]).1)
        (.order_1 (sparse_bispace_1.split (sparse_bispace_1.ctor 6) [2]).1) =
        some (.ok sample_matrix_space) ∧
      permute tree_permute set_offsets_sizes_nnz sample_matrix_space [1, 0] =
        .ok sample_permuted_space ∧
      operator_bar (.order_1 (sparse_bispace_1.split (sparse_bispace_1.ctor 6) [2]).1)
        (.order_1 (sparse_bispace_1.split (sparse_bispace_1.ctor 10) [3, 7]).1) =
        some (.ok sample_transposed_space) ∧
      sample_permuted_space.m_subspaces = sample_transposed_space.m_subspaces ∧
      operator_eq tree_ne sample_permuted_space sample_transposed_space = .ok true ∧
      sample_permuted_space.get_nnz = sample_transposed_space.get_nnz ∧
      valid_block_tuple sample_transposed_space.m_subspaces [1, 0] ∧
      sample_permuted_space.m_inner_sizes = [6, 1] ∧
      sample_transposed_space.m_inner_sizes = [10, 1] ∧
      get_block_offset tree_search sample_permuted_space [1, 0] =
        some (.ok (12, sample_permuted_space)) ∧
      get_block_offset tree_search sample_transposed_space [1, 0] =
        some (.ok (20, sample_transposed_space)) :=
  ⟨by decide, rfl, by decide, rfl, rfl, by decide, by decide, rfl, rfl, rfl, rfl⟩

end sparse_bispace

/-! ### Group accessors and the sparsity-expression constructor -/

namespace sparse_bispace

/-- Claim C37: for `group_idx ≥ get_n_sparse_groups()`, a `size_t`, the two accessors
throw `bad_parameter` when the space has at least one sparse group. When it has none,
the test `group_idx > size() - 1` compares with the wrapped `2 ^ 64 - 1` and never
fires: both accessors go on to read element `group_idx` of an empty vector, an undefined
access, and throw nothing. -/
theorem get_sparse_group_out_of_range (s : sparse_bispace) (group_idx : Nat)
    (hidx : group_idx < 2 ^ 64) (hge : s.get_n_sparse_groups ≤ group_idx)
    (hwf : s.m_sparse_indices_sets_offsets.length = s.m_sparse_block_trees.length) :
    (0 < s.get_n_sparse_groups →
        s.get_sparse_group_tree group_idx = .error .bad_parameter ∧
          s.get_sparse_group_offset group_idx = .error .bad_parameter) ∧
      (s.get_n_sparse_groups = 0 →
        s.get_sparse_group_tree group_idx = .error .undefined ∧
          s.get_sparse_group_offset group_idx = .error .undefined) := by
  unfold get_n_sparse_groups at hge ⊢
  constructor
  · intro hpos
    have hgt : group_idx > size_t_sub s.m_sparse_block_trees.length 1 := by
      rw [size_t_sub_of_le hpos]
      omega
    simp only [get_sparse_group_tree, get_sparse_group_offset, if_pos hgt, and_self]
  · intro h0
    have hngt : ¬ group_idx > size_t_sub s.m_sparse_block_trees.length 1 := by
      rw [h0]
      have hw : size_t_sub 0 1 = 2 ^ 64 - 1 := by decide
      rw [hw]
      omega
    have ht : s.m_sparse_block_trees[group_idx]? = none :=
      List.getElem?_eq_none (by omega)
    have ho : s.m_sparse_indices_sets_offsets[group_idx]? = none :=
      List.getElem?_eq_none (by omega)
    simp only [get_sparse_group_tree, get_sparse_group_offset, if_neg hngt, vector_at, ht, ho,
      and_self]

theorem get_sparse_group_out_of_range_witness :
    sample_matrix_space.get_n_sparse_groups = 0 ∧
      sample_matrix_space.get_sparse_group_tree 0 = .error .undefined ∧
      sample_matrix_space.get_sparse_group_offset 0 = .error .undefined :=
  ⟨rfl, (get_sparse_group_out_of_range sample_matrix_space 0 (by decide) (by decide)
    (by decide)).2 rfl⟩

/-- Claim C38: the constructor behind the sparsity expressions, called with a parent of
order `N - L + 1` and `L - 1` further one-dimensional spaces, returns a space of order
`N` whose subspaces are those of the parent followed by the further spaces and which has
exactly one sparse group, at offset `N - L`, with the tree built from the block tuples:
no sparse group of the parent is carried over. -/
theorem ctor_sparsity_one_group
    (tree_ctor : List (List Nat) → List sparse_bispace_1 → sparse_block_tree_any_order)
    (N L : Nat) (lhs : bispace_operand) (rhs_subspaces : List sparse_bispace_1)
    (sig_blocks : List (List Nat)) (hwf : lhs.well_formed) (hL : 1 ≤ L) (hLN : L ≤ N)
    (hlhs : lhs.order = N - L + 1) (hrhs : rhs_subspaces.length = L - 1) :
    ∃ r, ctor_sparsity tree_ctor N L lhs rhs_subspaces sig_blocks = some (.ok r) ∧ r.N = N ∧
      r.m_subspaces = lhs.subspaces ++ rhs_subspaces ∧
      r.m_sparse_indices_sets_offsets = [N - L] ∧
      r.m_sparse_block_trees = [tree_ctor sig_blocks (lhs.subspaces ++ rhs_subspaces)] ∧
      r.get_n_sparse_groups = 1 := by
  have h1 : for_each_index lhs.operator_index 0 (size_t_sub N L + 1) = .ok lhs.subspaces := by
    rw [size_t_sub_of_le hLN, ← hlhs]
    exact bispace_operand.copy_subspaces hwf
  have h2 : for_each_index (vector_at rhs_subspaces) 0 (size_t_sub L 1) = .ok rhs_subspaces := by
    rw [size_t_sub_of_le hL, for_each_index_drop_take rhs_subspaces 0 (L - 1) (by omega),
      List.drop_zero, ← hrhs, List.take_length]
  have hlen : (lhs.subspaces ++ rhs_subspaces).length = N := by
    rw [List.length_append, bispace_operand.subspaces_length hwf, hlhs, hrhs]
    omega
  obtain ⟨r, hr, e1, e2, e3, e4, _, _⟩ := init_fields
    (before_init N (lhs.subspaces ++ rhs_subspaces) [size_t_sub N L]
      [tree_ctor sig_blocks (lhs.subspaces ++ rhs_subspaces)]
      [(tree_ctor sig_blocks (lhs.subspaces ++ rhs_subspaces)).get_nnz]) rfl
    ⟨hlen, rfl, rfl⟩
  refine ⟨r, ?_, e1, e2, ?_, e4, ?_⟩
  · unfold ctor_sparsity
    rw [h1, h2]
    exact hr
  · rw [e3]
    simp only [before_init, size_t_sub_of_le hLN]
  · rw [get_n_sparse_groups, e4]
    rfl

theorem ctor_sparsity_one_group_witness :
    (bispace_operand.order_n sample_sparse_space).well_formed ∧
      sample_sparse_space.get_n_sparse_groups = 1 ∧
      ∃ r, ctor_sparsity sample_tree_ctor 3 2 (.order_n sample_sparse_space)
          [sparse_bispace_1.ctor 4] [[0, 0], [1, 0]] = some (.ok r) ∧ r.N = 3 ∧
        r.m_subspaces = sample_sparse_space.m_subspaces ++ [sparse_bispace_1.ctor 4] ∧
        r.m_sparse_indices_sets_offsets = [1] ∧
        r.m_sparse_block_trees = [sample_tree_ctor [[0, 0], [1, 0]]
          (sample_sparse_space.m_subspaces ++ [sparse_bispace_1.ctor 4])] ∧
        r.get_n_sparse_groups = 1 :=
  ⟨by decide, rfl,
    ctor_sparsity_one_group sample_tree_ctor 3 2 (.order_n sample_sparse_space)
      [sparse_bispace_1.ctor 4] [[0, 0], [1, 0]] (by decide) (by decide) (by decide)
      (by decide) (by decide)⟩

end sparse_bispace

/-! ### The symmetrizing stream: `open` and `close` -/

namespace bto_aux_symmetrize

/-- An alternating list of stream calls stays alternating when the call that is due
next is appended. -/
theorem alternates_snoc (b : Bool) (l : List stream_call) (h : alternates b l) :
    alternates b
      (l ++ [if b = decide (l.length % 2 = 0) then stream_call.open else stream_call.close]) := by
  induction l generalizing b with
  | nil => cases b <;> simp [alternates]
  | cons x rest ih =>
    have hpar : ∀ c : Bool, (c = decide ((rest.length + 1) % 2 = 0)) ↔
        ((!c) = decide (rest.length % 2 = 0)) := by
      intro c
      rcases Nat.mod_two_eq_zero_or_one rest.length with h0 | h1
      · have : (rest.length + 1) % 2 = 1 := by omega
        cases c <;> simp [h0, this]
      · have : (rest.length + 1) % 2 = 0 := by omega
        cases c <;> simp [h1, this]
    cases b <;> cases x
    · exact absurd h (by simp [alternates])
    · have h2 : alternates true rest := by simpa [alternates] using h
      have := ih true h2
      simp only [List.cons_append, List.length_cons, alternates]
      by_cases hc : false = decide ((rest.length + 1) % 2 = 0)
      · rw [if_pos hc]
        rw [if_pos (by simpa using (hpar false).1 hc)] at this
        exact this
      · rw [if_neg hc]
        rw [if_neg (by
          intro h3
          exact hc ((hpar false).2 (by simpa using h3)))] at this
        exact this
    · have h2 : alternates false rest := by simpa [alternates] using h
      have := ih false h2
      simp only [List.cons_append, List.length_cons, alternates]
      by_cases hc : true = decide ((rest.length + 1) % 2 = 0)
      · rw [if_pos hc]
        rw [if_pos (by simpa using (hpar true).1 hc)] at this
        exact this
      · rw [if_neg hc]
        rw [if_neg (by
          intro h3
          exact hc ((hpar true).2 (by simpa using h3)))] at this
        exact this
    · exact absurd h (by simp [alternates])

/-- The invariant of the object: the calls made on the stream alternate beginning with
`open`, and `m_open` holds exactly when an odd number of them has been made. -/
theorem step_invariant {T : Type} (self : bto_aux_symmetrize T) (c : call T)
    (h : alternates true self.m_out ∧ self.m_open = decide (self.m_out.length % 2 = 1)) :
    alternates true (step self c).m_out ∧
      (step self c).m_open = decide ((step self c).m_out.length % 2 = 1) := by
  obtain ⟨halt, hopen⟩ := h
  have hsnoc := alternates_snoc true self.m_out halt
  cases c with
  | add_transf tr => exact ⟨halt, hopen⟩
  | «open» =>
    cases ho : self.m_open with
    | true =>
      have hsame : step self call.open = self := by simp [step, bto_aux_symmetrize.open, ho]
      rw [hsame, ho]
      exact ⟨halt, by rw [← ho]; exact hopen⟩
    | false =>
      rw [ho] at hopen
      have hpar : self.m_out.length % 2 = 0 := by
        have : ¬ self.m_out.length % 2 = 1 := by simpa using hopen.symm
        omega
      rw [if_pos (by simp [hpar])] at hsnoc
      have : (self.m_out.length + 1) % 2 = 1 := by omega
      simp [step, bto_aux_symmetrize.open, ho, hsnoc, this]
  | close =>
    cases ho : self.m_open with
    | false =>
      have hsame : step self call.close = self := by simp [step, bto_aux_symmetrize.close, ho]
      rw [hsame, ho]
      exact ⟨halt, by rw [← ho]; exact hopen⟩
    | true =>
      rw [ho] at hopen
      have hpar : self.m_out.length % 2 = 1 := by simpa using hopen.symm
      rw [if_neg (by simp [hpar])] at hsnoc
      have : (self.m_out.length + 1) % 2 = 0 := by omega
      simp [step, bto_aux_symmetrize.close, ho, hsnoc, this]

/-- The invariant holds after every sequence of calls that starts in a state with the
invariant. -/
theorem foldl_step_invariant {T : Type} (calls : List (call T)) (self : bto_aux_symmetrize T)
    (h : alternates true self.m_out ∧ self.m_open = decide (self.m_out.length % 2 = 1)) :
    alternates true (calls.foldl step self).m_out ∧
      (calls.foldl step self).m_open =
        decide ((calls.foldl step self).m_out.length % 2 = 1) := by
  induction calls generalizing self with
  | nil => exact h
  | cons c rest ih => exact ih (step self c) (step_invariant self c h)

/-- The object after one more call. -/
theorem stream_run_snoc {T : Type} (calls : List (call T)) (c : call T) :
    run (calls ++ [c]) = step (run calls) c := by
  simp [run, List.foldl_append]

/-- Claim C40: after every sequence of `open()`, `close()` and `add_transf()` calls on a
fresh `bto_aux_symmetrize`, the calls made on the output stream alternate beginning with
`open`, and `m_open` holds exactly when the number of these calls is odd, that is, when
the last one is an `open`. A further `open()` on an open object makes no call on the
stream; a further `close()` on an open object calls `close` on the stream once and
leaves the list of transformations empty; a further `close()` on an object that is not
open changes nothing, and a further `open()` on it calls `open` on the stream once. -/
theorem stream_calls_alternate {T : Type} (calls : List (call T)) :
    alternates true (run calls).m_out ∧
    (run calls).m_open = decide ((run calls).m_out.length % 2 = 1) ∧
    ((run calls).m_open = true →
      (run calls).m_out.getLast? = some stream_call.open ∧
      (run (calls ++ [call.open])) = run calls ∧
      (run (calls ++ [call.close])).m_out = (run calls).m_out ++ [stream_call.close] ∧
      (run (calls ++ [call.close])).m_trlst = [] ∧
      (run (calls ++ [call.close])).m_open = false) ∧
    ((run calls).m_open = false →
      (run calls).m_out.getLast? ≠ some stream_call.open ∧
      (run (calls ++ [call.close])) = run calls ∧
      (run (calls ++ [call.open])).m_out = (run calls).m_out ++ [stream_call.open] ∧
      (run (calls ++ [call.open])).m_trlst = (run calls).m_trlst ∧
      (run (calls ++ [call.open])).m_open = true) := by
  have hinv : alternates true (run calls).m_out ∧
      (run calls).m_open = decide ((run calls).m_out.length % 2 = 1) :=
    foldl_step_invariant calls (ctor : bto_aux_symmetrize T)
      ⟨by simp [ctor, alternates], by simp [ctor]⟩
  have hlast : ∀ (b : Bool) (l : List stream_call), alternates b l → (l = [] → b = true) →
      (l.getLast? = some stream_call.open ↔ (b = decide (l.length % 2 = 1))) := by
    intro b l
    induction l generalizing b with
    | nil => intro _ hb; simp [hb rfl]
    | cons x rest ih =>
      intro h _
      cases b <;> cases x
      · exact absurd h (by simp [alternates])
      · have h2 : alternates true rest := by simpa [alternates] using h
        have := ih true h2 (fun _ => rfl)
        cases rest with
        | nil => simp
        | cons y r2 =>
          rw [List.getLast?_cons_cons, this]
          simp only [List.length_cons]
          rcases Nat.mod_two_eq_zero_or_one r2.length with h0 | h1
          · have e1 : (r2.length + 1) % 2 = 1 := by omega
            have e2 : (r2.length + 1 + 1) % 2 = 0 := by omega
            simp [e1, e2]
          · have e1 : (r2.length + 1) % 2 = 0 := by omega
            have e2 : (r2.length + 1 + 1) % 2 = 1 := by omega
            simp [e1, e2]
      · have h2 : alternates false rest := by simpa [alternates] using h
        cases rest with
        | nil => simp
        | cons y r2 =>
          have := ih false h2 (fun hnil => absurd hnil (by simp))
          rw [List.getLast?_cons_cons, this]
          simp only [List.length_cons]
          rcases Nat.mod_two_eq_zero_or_one r2.length with h0 | h1
          · have e1 : (r2.length + 1) % 2 = 1 := by omega
            have e2 : (r2.length + 1 + 1) % 2 = 0 := by omega
            simp [e1, e2]
          · have e1 : (r2.length + 1) % 2 = 0 := by omega
            have e2 : (r2.length + 1 + 1) % 2 = 1 := by omega
            simp [e1, e2]
      · exact absurd h (by simp [alternates])
  have hl := hlast true (run calls).m_out hinv.1 (fun _ => rfl)
  refine ⟨hinv.1, hinv.2, ?_, ?_⟩
  · intro ho
    refine ⟨?_, ?_, ?_, ?_, ?_⟩
    · rw [hl, ← hinv.2, ho]
    · rw [stream_run_snoc]; simp [step, bto_aux_symmetrize.open, ho]
    · rw [stream_run_snoc]; simp [step, bto_aux_symmetrize.close, ho]
    · rw [stream_run_snoc]; simp [step, bto_aux_symmetrize.close, ho]
    · rw [stream_run_snoc]; simp [step, bto_aux_symmetrize.close, ho]
  · intro ho
    refine ⟨?_, ?_, ?_, ?_, ?_⟩
    · intro hopen
      have := hl.1 hopen
      rw [← hinv.2, ho] at this
      exact absurd this (by simp)
    · rw [stream_run_snoc]; simp [step, bto_aux_symmetrize.close, ho]
    · rw [stream_run_snoc]; simp [step, bto_aux_symmetrize.open, ho]
    · rw [stream_run_snoc]; simp [step, bto_aux_symmetrize.open, ho]
    · rw [stream_run_snoc]; simp [step, bto_aux_symmetrize.open, ho]

/-- The statement of `stream_calls_alternate` at the calls `open()`, `add_transf(7)`,
`open()`: the object is open, and a `close()` empties the list. -/
theorem stream_calls_alternate_witness :
    (run [call.open, call.add_transf 7, call.open]).m_out = [stream_call.open] ∧
    (run [call.open, call.add_transf 7, call.open]).m_trlst = [7] ∧
    (run ([call.open, call.add_transf 7, call.open] ++ [call.close])).m_trlst = [] ∧
    (run ([call.open, call.add_transf 7, call.open] ++ [call.close])).m_out =
      (run [call.open, call.add_transf 7, call.open]).m_out ++ [stream_call.close] :=
  ⟨by decide, by decide,
    ((stream_calls_alternate [call.open, call.add_transf 7, call.open]).2.2.1
      (by decide)).2.2.2.1,
    ((stream_calls_alternate [call.open, call.add_transf 7, call.open]).2.2.1
      (by decide)).2.2.1⟩

end bto_aux_symmetrize

/-! ### Global timings -/

namespace global_timings

/-- The history after one call. -/
theorem added_since_reset_append {D : Type} (calls : List (call D)) (c : call D) :
    added_since_reset (calls ++ [c]) =
      match c with
      | .add_to_timer id duration => added_since_reset calls ++ [(id, duration)]
      | .reset => [] := by
  simp [added_since_reset, List.foldl_append]

/-- The object after one more call. -/
theorem timings_run_snoc {D : Type} (add : D → D → D) (calls : List (call D)) (c : call D) :
    run add (calls ++ [c]) = step add (run add calls) c := by
  simp [run, List.foldl_append]

/-- The sum after one more duration. -/
theorem total_snoc {D : Type} (add : D → D → D) (l : List D) (d : D) :
    total add (l ++ [d]) =
      some (match total add l with
        | none => d
        | some t => add t d) := by
  cases l with
  | nil => rfl
  | cons first later => simp [total, List.foldl_append]

/-- No sum exactly for no duration. -/
theorem total_eq_none {D : Type} (add : D → D → D) (l : List D) :
    total add l = none ↔ l = [] := by
  cases l <;> simp [total]

/-- The durations under an id after one more timing. -/
theorem durations_under_snoc {D : Type} (h : List (String × D)) (id key : String) (d : D) :
    durations_under (h ++ [(key, d)]) id =
      durations_under h id ++ (if key = id then [d] else []) := by
  unfold durations_under
  by_cases hk : key = id <;> simp [List.filter_append, List.filter_cons, hk]

/-- No duration under an id exactly when no timing was added under it. -/
theorem durations_under_eq_nil {D : Type} (h : List (String × D)) (id : String) :
    durations_under h id = [] ↔ ∀ e ∈ h, e.1 ≠ id := by
  unfold durations_under
  simp [List.filter_eq_nil_iff]

/-- The call `find` reports `end()` exactly for an id that is not a key. -/
theorem find_eq_none {D : Type} (m : List (String × timing_t D)) (id : String) :
    find m id = none ↔ id ∉ m.map Prod.fst := by
  induction m with
  | nil => simp [find]
  | cons e rest ih =>
    obtain ⟨key, value⟩ := e
    by_cases hk : key = id
    · simp [find, hk]
    · have hk2 : ¬ id = key := fun h => hk h.symm
      simp [find, hk, hk2, ih]

/-- The call `find` after an insertion at the end. -/
theorem find_append {D : Type} (m : List (String × timing_t D)) (key id : String)
    (value : timing_t D) :
    find (m ++ [(key, value)]) id =
      match find m id with
      | some t => some t
      | none => if key = id then some value else none := by
  induction m with
  | nil => by_cases hk : key = id <;> simp [find, hk]
  | cons e rest ih =>
    obtain ⟨k, v⟩ := e
    by_cases hk : k = id
    · simp [find, hk]
    · simp [find, hk, ih]

/-- The call `find` after `+=` on the entry of `key`. -/
theorem find_map {D : Type} (m : List (String × timing_t D)) (key id : String)
    (f : timing_t D → timing_t D) :
    find (m.map (fun e => if e.1 = key then (e.1, f e.2) else e)) id =
      (find m id).map (fun t => if id = key then f t else t) := by
  induction m with
  | nil => simp [find]
  | cons e rest ih =>
    obtain ⟨k, v⟩ := e
    rw [List.map_cons]
    by_cases hkey : k = key
    · have e1 : (if (k, v).1 = key then ((k, v).1, f (k, v).2) else (k, v)) = (k, f v) :=
        if_pos hkey
      simp only [e1]
      by_cases hk : k = id
      · have hik : id = key := hk ▸ hkey
        simp [find, hk, hik]
      · simp [find, hk, ih]
    · have e1 : (if (k, v).1 = key then ((k, v).1, f (k, v).2) else (k, v)) = (k, v) :=
        if_neg hkey
      simp only [e1]
      by_cases hk : k = id
      · have hik : ¬ id = key := hk ▸ hkey
        simp [find, hk, hik]
      · simp [find, hk, ih]

/-- The keys after `+=` on one entry. -/
theorem map_keys {D : Type} (m : List (String × timing_t D)) (key : String)
    (f : timing_t D → timing_t D) :
    (m.map (fun e => if e.1 = key then (e.1, f e.2) else e)).map Prod.fst = m.map Prod.fst := by
  induction m with
  | nil => rfl
  | cons e rest ih =>
    obtain ⟨k, v⟩ := e
    by_cases hkey : k = key <;> simp [hkey] at ih ⊢ <;> exact ih

/-- The invariant holds after every sequence of calls. -/
theorem run_consistent {D : Type} (add : D → D → D) (calls : List (call D)) :
    consistent add (run add calls).m_times (added_since_reset calls) := by
  induction calls using List.reverseRecOn with
  | nil => exact ⟨by simp [run, ctor], fun id => by simp [run, ctor, find, added_since_reset, durations_under, total]⟩
  | append_singleton calls c ih =>
    rw [timings_run_snoc, added_since_reset_append]
    obtain ⟨hnd, hsum⟩ := ih
    cases c with
    | reset => exact ⟨by simp [step, reset], fun id => by simp [step, reset, find, durations_under, total]⟩
    | add_to_timer key d =>
      simp only [step, add_to_timer]
      cases hf : find (run add calls).m_times key with
      | none =>
        simp only
        refine ⟨?_, ?_⟩
        · rw [List.map_append, List.nodup_append]
          refine ⟨hnd, by simp, ?_⟩
          intro a ha hb
          simp at hb
          subst hb
          exact (find_eq_none _ _).1 hf ha
        · intro id
          rw [find_append, durations_under_snoc, ← List.append_nil (durations_under _ id)]
          by_cases hk : key = id
          · subst hk
            have h0 := hsum key
            rw [hf] at h0
            have hnil : durations_under (added_since_reset calls) key = [] :=
              (total_eq_none add _).1 h0.symm
            simp [hf, hnil, total, timing_t.ctor]
          · have h0 := hsum id
            cases hfi : find (run add calls).m_times id with
            | none => rw [hfi] at h0; simpa [hk, hfi] using h0
            | some t => rw [hfi] at h0; simpa [hk, hfi] using h0
      | some t =>
        simp only
        have hkeys := map_keys (run add calls).m_times key (fun t => t.add_assign add d)
        have hfind := fun id => find_map (run add calls).m_times key id
          (fun t => t.add_assign add d)
        simp only at hkeys hfind
        refine ⟨by rw [hkeys]; exact hnd, ?_⟩
        intro id
        rw [hfind, durations_under_snoc]
        by_cases hk : key = id
        · subst hk
          have h0 := hsum key
          rw [hf] at h0
          rw [if_pos rfl, total_snoc, ← h0, hf]
          simp [timing_t.add_assign]
        · have hk2 : ¬ id = key := fun h => hk h.symm
          have h0 := hsum id
          rw [if_neg hk, List.append_nil, ← h0]
          cases find (run add calls).m_times id <;> simp [hk2]

/-- Claim C39: after every sequence of `reset` and `add_to_timer` calls on a fresh
`global_timings`, `ntimings()` is the number of distinct ids added since the last
`reset`; `get_time(id)` returns the sum, formed with `+=` in the order of the calls, of
the durations added under `id` since the last `reset`, and throws when there is none;
it throws if and only if no timing was added under `id` since the last `reset`. -/
theorem timings_since_reset {D : Type} (add : D → D → D) (calls : List (call D))
    (id : String) :
    (run add calls).ntimings = ((added_since_reset calls).map Prod.fst).dedup.length ∧
    (run add calls).get_time id =
      (match total add (durations_under (added_since_reset calls) id) with
        | some t => Except.ok t
        | none => Except.error timings_exception.exception) ∧
    ((run add calls).get_time id = Except.error timings_exception.exception ↔
      ∀ e ∈ added_since_reset calls, e.1 ≠ id) := by
  obtain ⟨hnd, hsum⟩ := run_consistent add calls
  have hget : (run add calls).get_time id =
      (match total add (durations_under (added_since_reset calls) id) with
        | some t => Except.ok t
        | none => Except.error timings_exception.exception) := by
    rw [← hsum id]
    unfold get_time
    cases find (run add calls).m_times id <;> rfl
  refine ⟨?_, hget, ?_⟩
  · have hmem : ∀ key, key ∈ (run add calls).m_times.map Prod.fst ↔
        key ∈ (added_since_reset calls).map Prod.fst := by
      intro key
      have h1 := find_eq_none (run add calls).m_times key
      have h2 := hsum key
      have h3 := durations_under_eq_nil (added_since_reset calls) key
      have h4 := total_eq_none add (durations_under (added_since_reset calls) key)
      constructor
      · intro hin
        by_contra hout
        have : durations_under (added_since_reset calls) key = [] :=
          h3.2 (fun e he hk => hout (List.mem_map.2 ⟨e, he, hk⟩))
        rw [h4.2 this] at h2
        have : find (run add calls).m_times key = none := by
          cases hfk : find (run add calls).m_times key with
          | none => rfl
          | some t => rw [hfk] at h2; simp at h2
        exact h1.1 this hin
      · intro hin
        by_contra hout
        rw [h1.2 hout] at h2
        have hnil := h4.1 h2.symm
        obtain ⟨e, he, hk⟩ := List.mem_map.1 hin
        exact h3.1 hnil e he hk
    have hfin : ((run add calls).m_times.map Prod.fst).toFinset =
        ((added_since_reset calls).map Prod.fst).toFinset := by
      ext key
      simp only [List.mem_toFinset]
      exact hmem key
    calc (run add calls).ntimings
        = ((run add calls).m_times.map Prod.fst).length := by simp [ntimings]
      _ = ((run add calls).m_times.map Prod.fst).toFinset.card :=
          (List.toFinset_card_of_nodup hnd).symm
      _ = ((added_since_reset calls).map Prod.fst).toFinset.card := by rw [hfin]
      _ = ((added_since_reset calls).map Prod.fst).dedup.length := List.card_toFinset _
  · rw [hget, ← durations_under_eq_nil, ← total_eq_none add]
    cases total add (durations_under (added_since_reset calls) id) <;> simp

/-- The statement of `timings_since_reset` at the calls `add("a", 3)`, `add("b", 4)`,
`reset`, `add("a", 5)`, `add("c", 1)`, `add("a", 6)` with natural numbers for durations:
two timers, 11 under `"a"`, and an exception for `"b"`. -/
theorem timings_since_reset_witness :
    (∀ e ∈ added_since_reset [call.add_to_timer "a" 3, call.add_to_timer "b" 4, call.reset,
      call.add_to_timer "a" 5, call.add_to_timer "c" 1, call.add_to_timer "a" 6],
      e.1 ≠ "b") ∧
    (run Nat.add [call.add_to_timer "a" 3, call.add_to_timer "b" 4, call.reset,
      call.add_to_timer "a" 5, call.add_to_timer "c" 1, call.add_to_timer "a" 6]).get_time "b" =
      Except.error timings_exception.exception ∧
    (run Nat.add [call.add_to_timer "a" 3, call.add_to_timer "b" 4, call.reset,
      call.add_to_timer "a" 5, call.add_to_timer "c" 1, call.add_to_timer "a" 6]).get_time "a" =
      Except.ok 11 ∧
    (run Nat.add [call.add_to_timer "a" 3, call.add_to_timer "b" 4, call.reset,
      call.add_to_timer "a" 5, call.add_to_timer "c" 1, call.add_to_timer "a" 6]).ntimings = 2 :=
  ⟨by decide,
    (timings_since_reset Nat.add [call.add_to_timer "a" 3, call.add_to_timer "b" 4, call.reset,
      call.add_to_timer "a" 5, call.add_to_timer "c" 1, call.add_to_timer "a" 6] "b").2.2.2
      (by decide),
    (timings_since_reset Nat.add [call.add_to_timer "a" 3, call.add_to_timer "b" 4, call.reset,
      call.add_to_timer "a" 5, call.add_to_timer "c" 1, call.add_to_timer "a" 6] "a").2.1.trans
      (by decide),
    (timings_since_reset Nat.add [call.add_to_timer "a" 3, call.add_to_timer "b" 4, call.reset,
      call.add_to_timer "a" 5, call.add_to_timer "c" 1, call.add_to_timer "a" 6] "a").1.trans
      (by decide)⟩

end global_timings

/-! ### The order of the loop groups, and the positions the loops cover -/

namespace contract2_batch_provider_factory

/-- A successful call had no letter on which one of the two loops throws. -/
theorem not_must_fail_of_ok (f : contract2_batch_provider_factory) (C : gen_labeled_btensor)
    (p : contract2_batch_provider) (hp : get_batch_provider f C = .ok p) : ¬ must_fail f C := by
  intro hbad
  rw [get_batch_provider_error f C hbad] at hp
  cases hp

/-- Claim C36: for every successful `get_batch_provider` call on spaces that match their
letter lists, in exact arithmetic, that is, when the two products the code forms do not
wrap (the product over the contracted letters of the dimension of the letter's subspace
in `A` times that of its subspace in `B`, and twice the product over the output
positions of the dimension of the output subspace times that of the bound input
subspace), the loop list is the contracted loops followed by the uncontracted loops if
the first product is strictly greater than twice the second, and the uncontracted loops
followed by the contracted loops otherwise; when both groups are non-empty the loop list
is the contracted loops followed by the uncontracted ones if and only if the strict
inequality holds. Each group is in construction order: loop `i` of the uncontracted
group advances over output position `i`, and loop `k` of the contracted group over the
positions of the `k`-th contracted letter in `A` and `B`. -/
theorem loop_order_exact (f : contract2_batch_provider_factory) (C : gen_labeled_btensor)
    (p : contract2_batch_provider) (ht : well_typed f C)
    (hp : get_batch_provider f C = .ok p)
    (hK : contracted_estimate f f.m_le < 2 ^ 64)
    (hU : 2 * uncontracted_estimate f C.m_bispace 0 C.m_letter_expr < 2 ^ 64) :
    ∃ unc con : List block_loop,
      uncontracted_loops f [C.m_bispace, f.m_A_bispace, f.m_B_bispace] 0 C.m_letter_expr =
          .ok unc ∧
        contracted_loops f [C.m_bispace, f.m_A_bispace, f.m_B_bispace] f.m_le = .ok con ∧
        p.m_loops =
          (if contracted_estimate f f.m_le >
              2 * uncontracted_estimate f C.m_bispace 0 C.m_letter_expr
            then con ++ unc else unc ++ con) ∧
        (C.m_letter_expr ≠ [] → f.m_le ≠ [] →
          (p.m_loops = con ++ unc ↔
            contracted_estimate f f.m_le >
              2 * uncontracted_estimate f C.m_bispace 0 C.m_letter_expr)) ∧
        (∀ (i a : Nat), C.m_letter_expr[i]? = some a →
          ∃ l : block_loop, unc[i]? = some l ∧ l.get_subspace_looped 0 = .ok i) ∧
        (∀ (k a : Nat), f.m_le[k]? = some a →
          ∃ l : block_loop, con[k]? = some l ∧ l.is_bispace_ignored 0 = .ok true ∧
            l.get_subspace_looped 1 = .ok (f.m_A_letter_expr.indexOf a) ∧
            l.get_subspace_looped 2 = .ok (f.m_B_letter_expr.indexOf a)) := by
  have hok := not_must_fail_of_ok f C p hp
  obtain ⟨h1, h2, h3⟩ := get_batch_provider_ok f C ht hok
  have hU1 : uncontracted_estimate f C.m_bispace 0 C.m_letter_expr < 2 ^ 64 := by omega
  have hcmp : (contracted_estimate f f.m_le % SIZE_T_MOD >
      size_t_mul (uncontracted_estimate f C.m_bispace 0 C.m_letter_expr % SIZE_T_MOD) 2) ↔
      contracted_estimate f f.m_le >
        2 * uncontracted_estimate f C.m_bispace 0 C.m_letter_expr := by
    rw [size_t_mul, SIZE_T_MOD, Nat.mod_eq_of_lt hK, Nat.mod_eq_of_lt hU1,
      Nat.mul_comm _ 2, Nat.mod_eq_of_lt hU]
  rw [hp] at h3
  have hpe := Except.ok.inj h3
  have hloops : p.m_loops =
      (if contracted_estimate f f.m_le >
          2 * uncontracted_estimate f C.m_bispace 0 C.m_letter_expr
        then contracted_built f [C.m_bispace, f.m_A_bispace, f.m_B_bispace] f.m_le ++
          uncontracted_built f [C.m_bispace, f.m_A_bispace, f.m_B_bispace] 0 C.m_letter_expr
        else uncontracted_built f [C.m_bispace, f.m_A_bispace, f.m_B_bispace] 0
            C.m_letter_expr ++
          contracted_built f [C.m_bispace, f.m_A_bispace, f.m_B_bispace] f.m_le) := by
    rw [hpe]
    simp only [contract2_batch_provider.ctor]
    by_cases hc : contracted_estimate f f.m_le >
        2 * uncontracted_estimate f C.m_bispace 0 C.m_letter_expr
    · rw [if_pos hc, if_pos (hcmp.mpr hc)]
    · rw [if_neg hc, if_neg (fun h => hc (hcmp.mp h))]
  refine ⟨_, _, h1, h2, hloops, ?_, fun i a hia => ?_, fun k a hka => ?_⟩
  · intro hC hle
    constructor
    · intro heq
      by_contra hc
      rw [hloops, if_neg hc] at heq
      obtain ⟨c0, crest, hcl⟩ := List.exists_cons_of_ne_nil hC
      obtain ⟨a0, arest, hal⟩ := List.exists_cons_of_ne_nil hle
      rw [hcl, hal] at heq
      simp only [uncontracted_built, contracted_built, List.map_cons, List.cons_append,
        List.cons.injEq, block_loop.mk.injEq, true_and] at heq
      have h0 := congrArg (fun l : List (Option Nat) => l[0]?) heq.1
      simp [(uncontracted_looped_head f 0 c0).2] at h0
    · intro hc
      rw [hloops, if_pos hc]
  · refine ⟨_, uncontracted_built_getElem? f _ C.m_letter_expr 0 i a hia, ?_⟩
    rw [Nat.zero_add]
    unfold block_loop.get_subspace_looped
    simp only
    rw [(uncontracted_looped_head f i a).2]
  · refine ⟨{ m_bispaces := [C.m_bispace, f.m_A_bispace, f.m_B_bispace],
              m_subspaces_looped :=
                [none, some (f.m_A_letter_expr.indexOf a),
                  some (f.m_B_letter_expr.indexOf a)] },
      ?_, rfl, rfl, rfl⟩
    simp [contracted_built, hka]

/-- The statement of `loop_order_exact` at the contraction of `sample_A` with `sample_B`
into `sample_C`: the estimates are 36 and 1600, and the uncontracted loops come first. -/
theorem loop_order_exact_witness :
    well_typed sample_factory sample_C ∧
    contracted_estimate sample_factory sample_factory.m_le = 36 ∧
    uncontracted_estimate sample_factory sample_C.m_bispace 0 sample_C.m_letter_expr = 1600 ∧
    ∃ p, get_batch_provider sample_factory sample_C = .ok p ∧
      p.m_loops.map (fun l => l.m_subspaces_looped) =
        [[some 0, some 0, none], [some 1, none, some 1], [none, some 1, some 0]] ∧
      ∃ unc con : List block_loop,
        uncontracted_loops sample_factory
            [sample_C.m_bispace, sample_factory.m_A_bispace, sample_factory.m_B_bispace] 0
            sample_C.m_letter_expr = .ok unc ∧
          contracted_loops sample_factory
            [sample_C.m_bispace, sample_factory.m_A_bispace, sample_factory.m_B_bispace]
            sample_factory.m_le = .ok con ∧
          p.m_loops =
            (if contracted_estimate sample_factory sample_factory.m_le >
                2 * uncontracted_estimate sample_factory sample_C.m_bispace 0
                  sample_C.m_letter_expr
              then con ++ unc else unc ++ con) :=
  have hp := (get_batch_provider_ok sample_factory sample_C (by decide) (by decide)).2.2
  have h := loop_order_exact sample_factory sample_C _ (by decide) hp (by decide) (by decide)
  ⟨by decide, by decide, by decide, _, hp, by decide, h.choose, h.choose_spec.choose,
    h.choose_spec.choose_spec.1, h.choose_spec.choose_spec.2.1,
    h.choose_spec.choose_spec.2.2.1⟩


/-- With distinct letters `index_of(a)` is `s` exactly for the letter at position `s`. -/
theorem indexOf_eq_iff (l : List Nat) (hnd : l.Nodup) (s : Nat) (hs : s < l.length) (a : Nat)
    (ha : a ∈ l) : l.indexOf a = s ↔ a = l[s] := by
  constructor
  · intro h
    subst h
    exact (List.getElem_indexOf (List.indexOf_lt_length.2 ha)).symm
  · intro h
    subst h
    exact List.indexOf_getElem hnd s hs

/-- The uncontracted loops that advance over position `s` of `A` are those of the output
letters that `A` carries at position `s`. -/
theorem uncontracted_built_count_A (f : contract2_batch_provider_factory)
    (bs : List bispace_operand) (s : Nat) :
    ∀ (letters : List Nat) (i : Nat),
      (uncontracted_built f bs i letters).countP (contract2_batch_provider.iterates 1 s) =
        letters.countP (fun a =>
          decide (a ∈ f.m_A_letter_expr ∧ f.m_A_letter_expr.indexOf a = s))
  | [], _ => rfl
  | a :: rest, i => by
    have ih := uncontracted_built_count_A f bs s rest (i + 1)
    have hhead : contract2_batch_provider.iterates 1 s
        { m_bispaces := bs, m_subspaces_looped := uncontracted_looped f i a } =
        decide (a ∈ f.m_A_letter_expr ∧ f.m_A_letter_expr.indexOf a = s) := by
      unfold contract2_batch_provider.iterates uncontracted_looped
      by_cases hA : a ∈ f.m_A_letter_expr
      · by_cases hs : f.m_A_letter_expr.indexOf a = s <;> simp [hA, hs]
      · simp [hA]
    rw [uncontracted_built, List.countP_cons, List.countP_cons, ih, hhead]

/-- The uncontracted loops that advance over position `s` of `B` are those of the output
letters that `A` does not carry and `B` carries at position `s`. -/
theorem uncontracted_built_count_B (f : contract2_batch_provider_factory)
    (bs : List bispace_operand) (s : Nat) :
    ∀ (letters : List Nat) (i : Nat),
      (uncontracted_built f bs i letters).countP (contract2_batch_provider.iterates 2 s) =
        letters.countP (fun a =>
          decide (a ∉ f.m_A_letter_expr ∧ f.m_B_letter_expr.indexOf a = s))
  | [], _ => rfl
  | a :: rest, i => by
    have ih := uncontracted_built_count_B f bs s rest (i + 1)
    have hhead : contract2_batch_provider.iterates 2 s
        { m_bispaces := bs, m_subspaces_looped := uncontracted_looped f i a } =
        decide (a ∉ f.m_A_letter_expr ∧ f.m_B_letter_expr.indexOf a = s) := by
      unfold contract2_batch_provider.iterates uncontracted_looped
      by_cases hA : a ∈ f.m_A_letter_expr
      · simp [hA]
      · by_cases hs : f.m_B_letter_expr.indexOf a = s <;> simp [hA, hs]
    rw [uncontracted_built, List.countP_cons, List.countP_cons, ih, hhead]

/-- The contracted loops that advance over position `s` of `A`, and of `B`. -/
theorem contracted_built_count_AB (f : contract2_batch_provider_factory)
    (bs : List bispace_operand) (s : Nat) (letters : List Nat) :
    (contracted_built f bs letters).countP (contract2_batch_provider.iterates 1 s) =
        letters.countP (fun a => decide (f.m_A_letter_expr.indexOf a = s)) ∧
      (contracted_built f bs letters).countP (contract2_batch_provider.iterates 2 s) =
        letters.countP (fun a => decide (f.m_B_letter_expr.indexOf a = s)) := by
  unfold contracted_built
  rw [List.countP_map, List.countP_map]
  constructor
  · apply List.countP_congr
    intro a _
    simp [contract2_batch_provider.iterates]
  · apply List.countP_congr
    intro a _
    simp [contract2_batch_provider.iterates]

/-- A letter that occurs in exactly one of two lists of distinct letters is counted
once. -/
theorem count_add_count_eq_one (x : Nat) (l1 l2 : List Nat) (h1 : l1.Nodup) (h2 : l2.Nodup)
    (hor : x ∈ l1 ∨ x ∈ l2) (hnot : x ∈ l1 → x ∉ l2) : l1.count x + l2.count x = 1 := by
  rcases hor with h | h
  · rw [List.count_eq_one_of_mem h1 h, List.count_eq_zero_of_not_mem (hnot h)]
  · have : x ∉ l1 := fun h3 => hnot h3 h
    rw [List.count_eq_one_of_mem h2 h, List.count_eq_zero_of_not_mem this]

/-- When the output has `M + N - 2K` letters and the letters of each list are distinct,
every letter of `A` and every letter of `B` is an output letter or a contracted
letter. -/
theorem input_letters_covered (f : contract2_batch_provider_factory) (C : gen_labeled_btensor)
    (hout : ∀ a ∈ C.m_letter_expr, ¬ bad_output_letter f a)
    (hcon : ∀ a ∈ f.m_le, ¬ bad_contracted_letter f a)
    (hA : f.m_A_letter_expr.Nodup) (hB : f.m_B_letter_expr.Nodup)
    (hC : C.m_letter_expr.Nodup) (hle : f.m_le.Nodup)
    (hlen : C.m_letter_expr.length + 2 * f.m_le.length =
      f.m_A_letter_expr.length + f.m_B_letter_expr.length) :
    (∀ x ∈ f.m_A_letter_expr, x ∈ C.m_letter_expr ∨ x ∈ f.m_le) ∧
      (∀ x ∈ f.m_B_letter_expr, x ∈ C.m_letter_expr ∨ x ∈ f.m_le) := by
  have hout2 : ∀ a ∈ C.m_letter_expr, a ∉ f.m_le ∧
      ¬ (a ∈ f.m_A_letter_expr ∧ a ∈ f.m_B_letter_expr) ∧
      ¬ (a ∉ f.m_A_letter_expr ∧ a ∉ f.m_B_letter_expr) := by
    intro a ha
    have := hout a ha
    unfold bad_output_letter at this
    simpa only [not_or] using this
  have hcon2 : ∀ a ∈ f.m_le, a ∈ f.m_A_letter_expr ∧ a ∈ f.m_B_letter_expr := by
    intro a ha
    have := hcon a ha
    unfold bad_contracted_letter at this
    simpa only [not_or, not_not] using this
  let SC := C.m_letter_expr.toFinset
  let SL := f.m_le.toFinset
  let CA := SC.filter (fun a => a ∈ f.m_A_letter_expr)
  let CB := SC.filter (fun a => ¬ a ∈ f.m_A_letter_expr)
  have hcardA : f.m_A_letter_expr.toFinset.card = f.m_A_letter_expr.length :=
    List.toFinset_card_of_nodup hA
  have hcardB : f.m_B_letter_expr.toFinset.card = f.m_B_letter_expr.length :=
    List.toFinset_card_of_nodup hB
  have hcardC : SC.card = C.m_letter_expr.length := List.toFinset_card_of_nodup hC
  have hcardL : SL.card = f.m_le.length := List.toFinset_card_of_nodup hle
  have hsplit : CA.card + CB.card = SC.card :=
    Finset.filter_card_add_filter_neg_card_eq_card _
  have hdA : Disjoint CA SL := by
    rw [Finset.disjoint_left]
    intro a ha hl
    have hac : a ∈ C.m_letter_expr := List.mem_toFinset.1 (Finset.mem_filter.1 ha).1
    exact (hout2 a hac).1 (List.mem_toFinset.1 hl)
  have hdB : Disjoint CB SL := by
    rw [Finset.disjoint_left]
    intro a ha hl
    have hac : a ∈ C.m_letter_expr := List.mem_toFinset.1 (Finset.mem_filter.1 ha).1
    exact (hout2 a hac).1 (List.mem_toFinset.1 hl)
  have hsubA : CA ∪ SL ⊆ f.m_A_letter_expr.toFinset := by
    intro a ha
    rw [List.mem_toFinset]
    rcases Finset.mem_union.1 ha with h | h
    · exact (Finset.mem_filter.1 h).2
    · exact (hcon2 a (List.mem_toFinset.1 h)).1
  have hsubB : CB ∪ SL ⊆ f.m_B_letter_expr.toFinset := by
    intro a ha
    rw [List.mem_toFinset]
    rcases Finset.mem_union.1 ha with h | h
    · have hac : a ∈ C.m_letter_expr := List.mem_toFinset.1 (Finset.mem_filter.1 h).1
      have hna : a ∉ f.m_A_letter_expr := (Finset.mem_filter.1 h).2
      by_contra hb
      exact (hout2 a hac).2.2 ⟨hna, hb⟩
    · exact (hcon2 a (List.mem_toFinset.1 h)).2
  have hcA : (CA ∪ SL).card = CA.card + SL.card := Finset.card_union_of_disjoint hdA
  have hcB : (CB ∪ SL).card = CB.card + SL.card := Finset.card_union_of_disjoint hdB
  have hleA := Finset.card_le_card hsubA
  have hleB := Finset.card_le_card hsubB
  have heqA : CA ∪ SL = f.m_A_letter_expr.toFinset :=
    Finset.eq_of_subset_of_card_le hsubA (by omega)
  have heqB : CB ∪ SL = f.m_B_letter_expr.toFinset :=
    Finset.eq_of_subset_of_card_le hsubB (by omega)
  constructor
  · intro x hx
    have : x ∈ CA ∪ SL := by rw [heqA]; exact List.mem_toFinset.2 hx
    rcases Finset.mem_union.1 this with h | h
    · exact .inl (List.mem_toFinset.1 (Finset.mem_filter.1 h).1)
    · exact .inr (List.mem_toFinset.1 h)
  · intro x hx
    have : x ∈ CB ∪ SL := by rw [heqB]; exact List.mem_toFinset.2 hx
    rcases Finset.mem_union.1 this with h | h
    · exact .inl (List.mem_toFinset.1 (Finset.mem_filter.1 h).1)
    · exact .inr (List.mem_toFinset.1 h)

/-- Claim C35: for every successful `get_batch_provider` call in which the letters of
`A`, of `B`, of `C` and of the contraction list are pairwise distinct within each list,
where `A` has `M` letters, `B` has `N`, the contraction list `K` and the output
`M + N - 2K`, the loop list has exactly `(M + N - 2K) + K` loops, and every position of
`A` (tensor 1), of `B` (tensor 2) and of `C` (tensor 0) is advanced over by exactly one
loop of the list. -/
theorem loops_cover_positions (f : contract2_batch_provider_factory) (C : gen_labeled_btensor)
    (p : contract2_batch_provider) (hp : get_batch_provider f C = .ok p)
    (hA : f.m_A_letter_expr.Nodup) (hB : f.m_B_letter_expr.Nodup)
    (hC : C.m_letter_expr.Nodup) (hle : f.m_le.Nodup)
    (hlen : C.m_letter_expr.length + 2 * f.m_le.length =
      f.m_A_letter_expr.length + f.m_B_letter_expr.length) :
    p.m_loops.length =
        (f.m_A_letter_expr.length + f.m_B_letter_expr.length - 2 * f.m_le.length) +
          f.m_le.length ∧
      (∀ s, s < f.m_A_letter_expr.length →
        p.m_loops.countP (contract2_batch_provider.iterates 1 s) = 1) ∧
      (∀ s, s < f.m_B_letter_expr.length →
        p.m_loops.countP (contract2_batch_provider.iterates 2 s) = 1) ∧
      (∀ s, s < f.m_A_letter_expr.length + f.m_B_letter_expr.length - 2 * f.m_le.length →
        p.m_loops.countP (contract2_batch_provider.iterates 0 s) = 1) := by
  obtain ⟨hout, hcon, hloops, -⟩ := get_batch_provider_inv f C p hp
  obtain ⟨hcovA, hcovB⟩ := input_letters_covered f C hout hcon hA hB hC hle hlen
  have hout2 : ∀ a ∈ C.m_letter_expr, a ∉ f.m_le ∧
      ¬ (a ∈ f.m_A_letter_expr ∧ a ∈ f.m_B_letter_expr) ∧
      ¬ (a ∉ f.m_A_letter_expr ∧ a ∉ f.m_B_letter_expr) := by
    intro a ha
    have := hout a ha
    unfold bad_output_letter at this
    simpa only [not_or] using this
  have hcon2 : ∀ a ∈ f.m_le, a ∈ f.m_A_letter_expr ∧ a ∈ f.m_B_letter_expr := by
    intro a ha
    have := hcon a ha
    unfold bad_contracted_letter at this
    simpa only [not_or, not_not] using this
  have hcount : ∀ (t s : Nat),
      p.m_loops.countP (contract2_batch_provider.iterates t s) =
        (uncontracted_built f [C.m_bispace, f.m_A_bispace, f.m_B_bispace] 0
          C.m_letter_expr).countP (contract2_batch_provider.iterates t s) +
        (contracted_built f [C.m_bispace, f.m_A_bispace, f.m_B_bispace]
          f.m_le).countP (contract2_batch_provider.iterates t s) := by
    intro t s
    rcases hloops with h | h
    · rw [h, List.countP_append, Nat.add_comm]
    · rw [h, List.countP_append]
  refine ⟨?_, fun s hs => ?_, fun s hs => ?_, fun s hs => ?_⟩
  · have hl1 := uncontracted_built_length f [C.m_bispace, f.m_A_bispace, f.m_B_bispace]
      C.m_letter_expr 0
    have hl2 : (contracted_built f [C.m_bispace, f.m_A_bispace, f.m_B_bispace]
        f.m_le).length = f.m_le.length := by simp [contracted_built]
    rcases hloops with h | h
    · rw [h, List.length_append, hl1, hl2]; omega
    · rw [h, List.length_append, hl1, hl2]; omega
  · have hx : f.m_A_letter_expr[s] ∈ f.m_A_letter_expr := List.getElem_mem hs
    rw [hcount, uncontracted_built_count_A, (contracted_built_count_AB f _ s f.m_le).1]
    have e1 : C.m_letter_expr.countP (fun a =>
        decide (a ∈ f.m_A_letter_expr ∧ f.m_A_letter_expr.indexOf a = s)) =
        C.m_letter_expr.count f.m_A_letter_expr[s] := by
      unfold List.count
      apply List.countP_congr
      intro a _
      simp only [decide_eq_true_eq, beq_iff_eq]
      constructor
      · intro h
        exact (indexOf_eq_iff _ hA s hs a h.1).1 h.2
      · intro h
        have ha : a ∈ f.m_A_letter_expr := h ▸ hx
        exact ⟨ha, (indexOf_eq_iff _ hA s hs a ha).2 h⟩
    have e2 : f.m_le.countP (fun a => decide (f.m_A_letter_expr.indexOf a = s)) =
        f.m_le.count f.m_A_letter_expr[s] := by
      unfold List.count
      apply List.countP_congr
      intro a ha
      simp only [decide_eq_true_eq, beq_iff_eq]
      exact indexOf_eq_iff _ hA s hs a (hcon2 a ha).1
    rw [e1, e2]
    exact count_add_count_eq_one _ _ _ hC hle (hcovA _ hx) (fun h => (hout2 _ h).1)
  · have hx : f.m_B_letter_expr[s] ∈ f.m_B_letter_expr := List.getElem_mem hs
    rw [hcount, uncontracted_built_count_B, (contracted_built_count_AB f _ s f.m_le).2]
    have e1 : C.m_letter_expr.countP (fun a =>
        decide (a ∉ f.m_A_letter_expr ∧ f.m_B_letter_expr.indexOf a = s)) =
        C.m_letter_expr.count f.m_B_letter_expr[s] := by
      unfold List.count
      apply List.countP_congr
      intro a hac
      simp only [decide_eq_true_eq, beq_iff_eq]
      constructor
      · intro h
        have hb : a ∈ f.m_B_letter_expr := by
          by_contra hb
          exact (hout2 a hac).2.2 ⟨h.1, hb⟩
        exact (indexOf_eq_iff _ hB s hs a hb).1 h.2
      · intro h
        have hb : a ∈ f.m_B_letter_expr := h ▸ hx
        exact ⟨fun ha => (hout2 a hac).2.1 ⟨ha, hb⟩, (indexOf_eq_iff _ hB s hs a hb).2 h⟩
    have e2 : f.m_le.countP (fun a => decide (f.m_B_letter_expr.indexOf a = s)) =
        f.m_le.count f.m_B_letter_expr[s] := by
      unfold List.count
      apply List.countP_congr
      intro a ha
      simp only [decide_eq_true_eq, beq_iff_eq]
      exact indexOf_eq_iff _ hB s hs a (hcon2 a ha).2
    rw [e1, e2]
    exact count_add_count_eq_one _ _ _ hC hle (hcovB _ hx) (fun h => (hout2 _ h).1)
  · rw [hcount, uncontracted_built_count, contracted_built_count, if_pos (by omega)]

/-- The statement of `loops_cover_positions` at the contraction of `sample_A(i,k)` with
`sample_B(k,j)` into `sample_C(i,j)`: three loops, and each of the two positions of each
tensor is advanced over by exactly one of them. -/
theorem loops_cover_positions_witness :
    ∃ p, get_batch_provider sample_factory sample_C = .ok p ∧
      p.m_loops.map (fun l => l.m_subspaces_looped) =
        [[some 0, some 0, none], [some 1, none, some 1], [none, some 1, some 0]] ∧
      p.m_loops.length = (2 + 2 - 2 * 1) + 1 ∧
      (∀ s, s < 2 → p.m_loops.countP (contract2_batch_provider.iterates 1 s) = 1) ∧
      (∀ s, s < 2 → p.m_loops.countP (contract2_batch_provider.iterates 2 s) = 1) ∧
      (∀ s, s < 2 + 2 - 2 * 1 →
        p.m_loops.countP (contract2_batch_provider.iterates 0 s) = 1) :=
  have hp := (get_batch_provider_ok sample_factory sample_C (by decide) (by decide)).2.2
  ⟨_, hp, by decide,
    loops_cover_positions sample_factory sample_C _ hp (by decide) (by decide) (by decide)
      (by decide) (by decide)⟩

end contract2_batch_provider_factory

/-! ### Canonical offsets against block-major offsets -/

namespace sparse_bispace

/-- For a block of the subspace, `block_abs_index_at` is the stored start. -/
theorem block_abs_index_at_eq (sub : sparse_bispace_1) (b : Nat)
    (h : b < sub.get_n_blocks) : block_abs_index_at sub b = sub.m_abs_indices.getD b 0 := by
  have h2 : b < sub.m_abs_indices.length := h
  unfold block_abs_index_at
  rw [sparse_bispace_1.get_block_abs_index_eq sub b h2, List.getD_eq_getElem _ _ h2]
  rfl

/-- A block tuple whose blocks all start at 0 has offset 0 in both layouts. -/
theorem offsets_zero_of_starts_zero : ∀ (subs : List sparse_bispace_1) (bs : List Nat),
    valid_block_tuple subs bs →
    (∀ p ∈ List.zip subs bs, block_abs_index_at p.1 p.2 = 0) →
    dense_block_offset subs bs = 0 ∧ row_major_offset subs bs = 0
  | [], _, _, _ => ⟨rfl, by simp [row_major_offset]⟩
  | _ :: _, [], hv, _ => by
    have := hv.1
    simp at this
  | sub :: later, b :: bs, hv, h0 => by
    have hv2 : valid_block_tuple later bs := by
      refine ⟨by simpa using hv.1, fun p hp => hv.2 p ?_⟩
      simp [hp]
    have hb : b < sub.get_n_blocks := hv.2 (sub, b) (by simp)
    have ih := offsets_zero_of_starts_zero later bs hv2 (fun p hp => h0 p (by simp [hp]))
    have ha : block_abs_index_at sub b = 0 := h0 (sub, b) (by simp)
    rw [dense_block_offset_cons, row_major_offset, ← block_abs_index_at_eq sub b hb, ha,
      ih.1, ih.2]
    simp

/-- The two layouts give the same offset when every block before the last slot has
size 1. -/
theorem offsets_eq_of_sizes_one : ∀ (subs : List sparse_bispace_1) (bs : List Nat),
    valid_block_tuple subs bs →
    (∀ p ∈ (List.zip subs bs).dropLast, block_size_at p.1 p.2 = 1) →
    dense_block_offset subs bs = row_major_offset subs bs
  | [], _, _, _ => by simp [dense_block_offset_nil, row_major_offset]
  | _ :: _, [], hv, _ => by
    have := hv.1
    simp at this
  | [sub], [b], hv, _ => by
    have hb : b < sub.get_n_blocks := hv.2 (sub, b) (by simp)
    rw [dense_block_offset_cons, row_major_offset, ← block_abs_index_at_eq sub b hb,
      dense_block_offset_nil]
    simp [row_major_offset]
  | [_], _ :: _ :: _, hv, _ => by
    have := hv.1
    simp at this
  | _ :: _ :: _, [_], hv, _ => by
    have := hv.1
    simp at this
  | sub :: s2 :: later, b :: b2 :: bs, hv, h1 => by
    have hv2 : valid_block_tuple (s2 :: later) (b2 :: bs) := by
      refine ⟨by simpa using hv.1, fun p hp => hv.2 p ?_⟩
      simp only [List.zip_cons_cons, List.mem_cons] at hp ⊢
      exact .inr hp
    have hb : b < sub.get_n_blocks := hv.2 (sub, b) (by simp)
    have hsz : block_size_at sub b = 1 := h1 (sub, b) (by simp [List.dropLast])
    have ih := offsets_eq_of_sizes_one (s2 :: later) (b2 :: bs) hv2 (fun p hp => h1 p (by
      simp only [List.zip_cons_cons, List.dropLast_cons₂, List.mem_cons] at hp ⊢
      exact .inr hp))
    rw [dense_block_offset_cons, row_major_offset, ← block_abs_index_at_eq sub b hb, hsz, ih]
    simp

/-- The counterexample to claim C31: on the dense space `i | j` with `i` of dimension
10 split at `[3, 7]` and `j` of dimension 6 split at `[2]`, which is what `i | j`
returns, the valid block tuple `(1, 1)` has the canonical offset `3 * 6 + 2 = 20` and
the block-major offset `3 * 6 + 4 * 2 = 26`. -/
theorem canonical_offset_differs :
    operator_bar (.order_1 (sparse_bispace_1.split (sparse_bispace_1.ctor 10) [3, 7]).1)
        (.order_1 (sparse_bispace_1.split (sparse_bispace_1.ctor 6) [2]).1) =
      some (.ok sample_matrix_space) ∧
    sample_matrix_space.get_n_sparse_groups = 0 ∧
    valid_block_tuple sample_matrix_space.m_subspaces [1, 1] ∧
    sample_matrix_space.get_block_offset_canonical [1, 1] = .ok 20 ∧
    get_block_offset (sample_tree_search []) sample_matrix_space [1, 1] =
      some (.ok (26, sample_matrix_space)) := by
  refine ⟨by decide, by decide, by decide, by decide, by decide⟩

end sparse_bispace

namespace bispace_expr

/-- Claim C31, amended: for a space of order `N ≥ 2` built from one-dimensional spaces
with `|` alone and a valid block tuple in which every component after the first names a
block that starts at 0, or in which every component before the last names a block of
size 1, `get_block_offset_canonical` and `get_block_offset` return the same offset. -/
theorem canonical_offset_agrees (e : bispace_expr) (h : 2 ≤ e.spaces.length) :
    ∃ s, e.eval = some (.ok (.order_n s)) ∧ s.m_subspaces = e.spaces ∧
      s.get_n_sparse_groups = 0 ∧
      ∀ (tree_search : sparse_block_tree_any_order → List Nat → Except Exn Nat)
        (b : List Nat), sparse_bispace.valid_block_tuple s.m_subspaces b →
        ((∀ p ∈ (List.zip s.m_subspaces b).tail,
            sparse_bispace.block_abs_index_at p.1 p.2 = 0) ∨
          (∀ p ∈ (List.zip s.m_subspaces b).dropLast,
            sparse_bispace.block_size_at p.1 p.2 = 1)) →
        ∃ offset, s.get_block_offset_canonical b = .ok offset ∧
          sparse_bispace.get_block_offset tree_search s b = some (.ok (offset, s)) := by
  obtain ⟨a, ha, hwf, has, hao, hoff, hat, _, hdims⟩ := eval_dense e
  cases a with
  | order_1 s1 =>
    simp only [bispace_operand.order] at hao
    omega
  | order_n s =>
    have hinner := eval_inner_sizes e s ha
    have hsub : s.m_subspaces = e.spaces := has
    rw [hdims s rfl, List.length_map, ← hsub] at hinner
    refine ⟨s, ha, hsub, ?_, fun ts b hv hcond => ?_⟩
    · simpa [sparse_bispace.get_n_sparse_groups, bispace_operand.sparse_trees] using hat
    · have hget := sparse_bispace.get_block_offset_dense ts s b hoff hinner hv
      have hcan := sparse_bispace.canonical_loop_eq s hwf.1 b s.m_subspaces 0 0 rfl hv
        (by decide)
      rw [Nat.zero_add] at hcan
      have heq : sparse_bispace.dense_block_offset s.m_subspaces b =
          sparse_bispace.row_major_offset s.m_subspaces b := by
        rcases hcond with h0 | h1
        · cases hsubs : s.m_subspaces with
          | nil =>
            rw [hsubs] at hv
            have hb : b = [] := List.length_eq_zero.mp hv.1
            subst hb
            simp [sparse_bispace.dense_block_offset_nil, sparse_bispace.row_major_offset]
          | cons sub later =>
            rw [hsubs] at hv h0
            cases b with
            | nil =>
              have := hv.1
              simp at this
            | cons b0 bs =>
              have hv2 : sparse_bispace.valid_block_tuple later bs := by
                refine ⟨by simpa using hv.1, fun p hp => hv.2 p ?_⟩
                simp [hp]
              have hb0 : b0 < sub.get_n_blocks := hv.2 (sub, b0) (by simp)
              have hz := sparse_bispace.offsets_zero_of_starts_zero later bs hv2
                (fun p hp => h0 p (by simpa using hp))
              rw [sparse_bispace.dense_block_offset_cons, sparse_bispace.row_major_offset,
                ← sparse_bispace.block_abs_index_at_eq sub b0 hb0, hz.1, hz.2]
              simp
        · exact sparse_bispace.offsets_eq_of_sizes_one s.m_subspaces b hv h1
      refine ⟨sparse_bispace.row_major_offset s.m_subspaces b % SIZE_T_MOD, hcan, ?_⟩
      rw [hget, heq]

/-- The statement of `canonical_offset_agrees` at `i | j` with `i` of dimension 10 split
at `[3, 7]` and `j` of dimension 6 split at `[2]`, and the block tuple `(2, 0)`: both
members return `7 * 6 = 42`. -/
theorem canonical_offset_agrees_witness :
    ∃ s, (bar (space (sparse_bispace_1.split (sparse_bispace_1.ctor 10) [3, 7]).1)
          (space (sparse_bispace_1.split (sparse_bispace_1.ctor 6) [2]).1)).eval =
          some (.ok (.order_n s)) ∧
      s.get_block_offset_canonical [2, 0] = .ok 42 ∧
      sparse_bispace.get_block_offset (sparse_bispace.sample_tree_search []) s [2, 0] =
        some (.ok (42, s)) := by
  obtain ⟨s, hs, hsub, _, hall⟩ := canonical_offset_agrees
    (bar (space (sparse_bispace_1.split (sparse_bispace_1.ctor 10) [3, 7]).1)
      (space (sparse_bispace_1.split (sparse_bispace_1.ctor 6) [2]).1)) (by decide)
  have hv : sparse_bispace.valid_block_tuple s.m_subspaces [2, 0] := by
    rw [hsub]
    decide
  obtain ⟨offset, h1, h2⟩ := hall (sparse_bispace.sample_tree_search []) [2, 0] hv
    (.inl (by rw [hsub]; decide))
  have hs2 : s = sparse_bispace.sample_matrix_space := by
    have hev : (bar (space (sparse_bispace_1.split (sparse_bispace_1.ctor 10) [3, 7]).1)
        (space (sparse_bispace_1.split (sparse_bispace_1.ctor 6) [2]).1)).eval =
        some (.ok (.order_n sparse_bispace.sample_matrix_space)) := by decide
    rw [hev] at hs
    simp only [Option.some.injEq, Except.ok.injEq, bispace_operand.order_n.injEq] at hs
    exact hs.symm
  have hoff : offset = 42 := by
    rw [hs2] at h1
    have hc : sparse_bispace.sample_matrix_space.get_block_offset_canonical [2, 0] = .ok 42 := by
      decide
    rw [hc] at h1
    exact (Except.ok.inj h1).symm
  subst hoff
  exact ⟨s, hs, h1, h2⟩

end bispace_expr

/-! ### An absent key in `get_block_offset` -/

theorem for_each_state_undefined {σ : Type} {body : σ → Nat → Except Exn σ}
    (P : Nat → σ → Prop) (bound : Nat)
    (hbody : ∀ st i, i < bound → P i st →
      body st i = .error .undefined ∨ ∃ st1, body st i = .ok st1 ∧ P (i + 1) st1) :
    ∀ (n i : Nat) (st : σ), i + n ≤ bound → P i st →
      for_each_state body i n st = .error .undefined ∨
        ∃ st1, for_each_state body i n st = .ok st1 ∧ P (i + n) st1
  | 0, _, st, _, hst => .inr ⟨st, rfl, hst⟩
  | n + 1, i, st, hb, hst => by
    rcases hbody st i (by omega) hst with h1 | ⟨st1, h1, hP1⟩
    · exact .inl (by simp [for_each_state, h1])
    · rcases for_each_state_undefined P bound hbody n (i + 1) st1 (by omega) hP1 with
        h2 | ⟨st2, h2, hP2⟩
      · exact .inl (by simp [for_each_state, h1, h2])
      · refine .inr ⟨st2, by simp [for_each_state, h1, h2], ?_⟩
        rw [show i + (n + 1) = i + 1 + n by omega]
        exact hP2

namespace sparse_bispace

theorem valid_block_tuple_at (subspaces : List sparse_bispace_1) (b : List Nat)
    (hv : valid_block_tuple subspaces b) (i : Nat) (hi : i < b.length) :
    ∃ sub block_idx, subspaces[i]? = some sub ∧ b[i]? = some block_idx ∧
      block_idx < sub.m_abs_indices.length := by
  have his : i < subspaces.length := by rw [← hv.1]; exact hi
  refine ⟨subspaces[i], b[i], List.getElem?_eq_getElem his, List.getElem?_eq_getElem hi, ?_⟩
  exact hv.2 (subspaces[i], b[i]) (by
    rw [List.mem_iff_getElem?]
    exact ⟨i, by simp [List.getElem?_zip_eq_some, List.getElem?_eq_getElem his,
      List.getElem?_eq_getElem hi]⟩)

/-- The loop that copies the block indices of a sparse group into its key vector either
runs past the end of the key vector or leaves the block indices of the group in its
first `order` elements. -/
theorem copy_key_loop_at (b key_vec : List Nat) (subspace_idx order : Nat)
    (hb : subspace_idx + order ≤ b.length) :
    for_each_state (copy_key_step b subspace_idx) 0 order key_vec = .error .undefined ∨
      ∃ cur_key, for_each_state (copy_key_step b subspace_idx) 0 order key_vec = .ok cur_key ∧
        cur_key.length = key_vec.length ∧
        ∀ i, i < order → cur_key[i]? = b[subspace_idx + i]? := by
  rcases @for_each_state_undefined _ (copy_key_step b subspace_idx)
    (fun i (st : List Nat) => st.length = key_vec.length ∧
      ∀ j, j < i → st[j]? = b[subspace_idx + j]?) order
    (fun st i hi hP => by
      obtain ⟨hl, ht⟩ := hP
      have hib : subspace_idx + i < b.length := by omega
      unfold copy_key_step
      rw [vector_at, List.getElem?_eq_getElem hib]
      simp only
      by_cases hlen : i < st.length
      · rw [if_pos hlen]
        refine .inr ⟨_, rfl, by simpa using hl, fun j hj => ?_⟩
        by_cases hji : j = i
        · subst hji
          rw [List.getElem?_set_self hlen, List.getElem?_eq_getElem hib]
        · rw [List.getElem?_set_ne (by omega)]
          exact ht j (by omega)
      · rw [if_neg hlen]
        exact .inl rfl)
    order 0 key_vec (by omega) ⟨rfl, fun j hj => absurd hj (Nat.not_lt_zero j)⟩ with h | h
  · exact .inl h
  · obtain ⟨ck, h1, hl, ht⟩ := h
    rw [Nat.zero_add] at ht
    exact .inr ⟨ck, h1, hl, ht⟩

/-- The loop that multiplies the block sizes of a sparse group returns when the key holds
the block indices of a valid tuple. -/
theorem scale_fac_loop_at (self : sparse_bispace) (b cur_key : List Nat)
    (subspace_idx order : Nat)
    (hv : valid_block_tuple self.m_subspaces b) (hb : subspace_idx + order ≤ b.length)
    (hkey : ∀ i, i < order → cur_key[i]? = b[subspace_idx + i]?) :
    ∃ fac, for_each_state (scale_fac_step self subspace_idx cur_key) 0 order 1 = .ok fac := by
  obtain ⟨fac, h, -⟩ := @for_each_state_ok _ (scale_fac_step self subspace_idx cur_key)
    (fun _ : Nat => True) order
    (fun st i hi _ => by
      obtain ⟨sub, block_idx, hsub, hblk, hlt⟩ :=
        valid_block_tuple_at self.m_subspaces b hv (subspace_idx + i) (by omega)
      obtain ⟨n, hn⟩ := sparse_bispace_1.get_block_size_ok sub block_idx hlt
      refine ⟨size_t_mul st n, ?_, trivial⟩
      unfold scale_fac_step
      rw [vector_at, vector_at, hsub, hkey i hi, hblk]
      simp only [hn])
    order 0 1 (by omega) trivial
  exact ⟨fac, h⟩

/-- When every group before group `g` ends at or before the start of the next, no group
up to `g` starts behind group `g`. -/
theorem offsets_le_of_chain (s : sparse_bispace) (g off : Nat)
    (hoff : s.m_sparse_indices_sets_offsets[g]? = some off)
    (hg : g < s.m_sparse_block_trees.length)
    (hchain : ∀ k o t o2, k < g → s.m_sparse_indices_sets_offsets[k]? = some o →
      s.m_sparse_block_trees[k]? = some t →
      s.m_sparse_indices_sets_offsets[k + 1]? = some o2 → o + t.get_order ≤ o2) :
    ∀ (d k o : Nat), k + d = g → s.m_sparse_indices_sets_offsets[k]? = some o → o ≤ off
  | 0, k, o, hk, ho => by
    rw [Nat.add_zero] at hk
    subst hk
    rw [hoff] at ho
    cases ho
    exact Nat.le_refl _
  | d + 1, k, o, hk, ho => by
    have hgl : g < s.m_sparse_indices_sets_offsets.length := by
      by_contra hn
      rw [List.getElem?_eq_none (by omega)] at hoff
      cases hoff
    have h1 : k + 1 < s.m_sparse_indices_sets_offsets.length := by omega
    have ht : k < s.m_sparse_block_trees.length := by omega
    have hc := hchain k o s.m_sparse_block_trees[k] s.m_sparse_indices_sets_offsets[k + 1]
      (by omega) ho (List.getElem?_eq_getElem ht) (List.getElem?_eq_getElem h1)
    have hrec := offsets_le_of_chain s g off hoff hg hchain d (k + 1)
      s.m_sparse_indices_sets_offsets[k + 1] (by omega) (List.getElem?_eq_getElem h1)
    omega

/-- The loop of `get_block_offset`, started before a sparse group whose key the search
does not find, reaches that group and reads through the result of the search. -/
theorem block_offset_loop_absent
    (search : sparse_block_tree_any_order → List Nat → Option Nat)
    (s : sparse_bispace) (b : List Nat) (g off : Nat) (sbt : sparse_block_tree_any_order)
    (key_vec : List Nat)
    (hv : valid_block_tuple s.m_subspaces b)
    (hoff : s.m_sparse_indices_sets_offsets[g]? = some off)
    (htree : s.m_sparse_block_trees[g]? = some sbt)
    (hklen : key_vec.length = sbt.get_order)
    (hchain : ∀ k o t o2, k < g → s.m_sparse_indices_sets_offsets[k]? = some o →
      s.m_sparse_block_trees[k]? = some t →
      s.m_sparse_indices_sets_offsets[k + 1]? = some o2 → o + t.get_order ≤ o2)
    (hpos : off < b.length) (hin : off + sbt.get_order ≤ b.length)
    (habsent : search sbt ((b.drop off).take sbt.get_order) = none) :
    ∀ (fuel subspace_idx cur_group_idx k offset outer_size : Nat)
      (key_vecs : List (List Nat)), k ≤ g →
      (∀ o, s.m_sparse_indices_sets_offsets[k]? = some o → subspace_idx ≤ o) →
      b.length - subspace_idx + (g - k) < fuel → key_vecs[g]? = some key_vec →
      block_offset_loop (deref_search search) s b fuel subspace_idx cur_group_idx k offset
        outer_size key_vecs = some (.error .undefined)
  | 0, _, _, _, _, _, _, _, _, hfuel, _ => absurd hfuel (Nat.not_lt_zero _)
  | fuel + 1, subspace_idx, cur_group_idx, k, offset, outer_size, key_vecs, hkg, hle, hfuel,
      hkv => by
    have hgt : g < s.m_sparse_block_trees.length := by
      by_contra hn
      rw [List.getElem?_eq_none (by omega)] at htree
      cases htree
    have hgl : g < s.m_sparse_indices_sets_offsets.length := by
      by_contra hn
      rw [List.getElem?_eq_none (by omega)] at hoff
      cases hoff
    have hkl : k < s.m_sparse_indices_sets_offsets.length := by omega
    have hok : s.m_sparse_indices_sets_offsets[k]? =
        some s.m_sparse_indices_sets_offsets[k] := List.getElem?_eq_getElem hkl
    have hmono := offsets_le_of_chain s g off hoff hgt hchain (g - k) k
      s.m_sparse_indices_sets_offsets[k] (by omega) hok
    have hsle := hle _ hok
    have hlt : subspace_idx < b.length := by omega
    unfold block_offset_loop
    rw [if_pos hlt]
    simp only [hok]
    by_cases heq : subspace_idx = s.m_sparse_indices_sets_offsets[k]
    · have hdec : decide (subspace_idx = s.m_sparse_indices_sets_offsets[k]) = true := by
        simpa using heq
      simp only [hdec, if_true]
      by_cases hk : k = g
      · subst hk
        have hoffk : s.m_sparse_indices_sets_offsets[k] = off := by
          rw [hok] at hoff
          exact Option.some.inj hoff
        have hsub : subspace_idx = off := by omega
        subst hsub
        have hderef : ∀ ck, ck = (b.drop subspace_idx).take sbt.get_order →
            deref_search search sbt ck = .error .undefined := by
          intro ck hck
          subst hck
          simp [deref_search, habsent]
        rcases copy_key_loop_at b key_vec subspace_idx sbt.get_order hin with hc | hc
        · simp only [vector_at, htree, hkv, hc]
        · obtain ⟨ck, hc, hl, hget⟩ := hc
          obtain ⟨fac, hfac⟩ := scale_fac_loop_at s b ck subspace_idx sbt.get_order hv hin hget
          have hck : ck = (b.drop subspace_idx).take sbt.get_order := by
            apply List.ext_getElem?
            intro i
            by_cases hi : i < sbt.get_order
            · rw [hget i hi, List.getElem?_take_of_lt hi, List.getElem?_drop]
            · rw [List.getElem?_eq_none (by omega), List.getElem?_eq_none]
              rw [List.length_take]
              omega
          simp only [vector_at, htree, hkv, hc, hfac, hderef ck hck]
      · have hklt : k < g := by omega
        have hkt : k < s.m_sparse_block_trees.length := by omega
        have htk : s.m_sparse_block_trees[k]? = some s.m_sparse_block_trees[k] :=
          List.getElem?_eq_getElem hkt
        have h1 : k + 1 < s.m_sparse_indices_sets_offsets.length := by omega
        have hnext : s.m_sparse_indices_sets_offsets[k + 1]? =
            some s.m_sparse_indices_sets_offsets[k + 1] := List.getElem?_eq_getElem h1
        have hc1 := hchain k _ _ _ hklt hok htk hnext
        have hmono1 := offsets_le_of_chain s g off hoff hgt hchain (g - (k + 1)) (k + 1)
          s.m_sparse_indices_sets_offsets[k + 1] (by omega) hnext
        have hb : subspace_idx + s.m_sparse_block_trees[k].get_order ≤ b.length := by omega
        cases hkvk : key_vecs[k]? with
        | none => simp only [vector_at, htk, hkvk]
        | some kv =>
          rcases copy_key_loop_at b kv subspace_idx s.m_sparse_block_trees[k].get_order hb with
            hc | hc
          · simp only [vector_at, htk, hkvk, hc]
          · obtain ⟨ck, hc, hl, hget⟩ := hc
            obtain ⟨fac, hfac⟩ := scale_fac_loop_at s b ck subspace_idx
              s.m_sparse_block_trees[k].get_order hv hb hget
            cases hs : search s.m_sparse_block_trees[k] ck with
            | none =>
              have hd : deref_search search s.m_sparse_block_trees[k] ck =
                  .error .undefined := by simp [deref_search, hs]
              simp only [vector_at, htk, hkvk, hc, hfac, hd]
            | some abs_index =>
              have hd : deref_search search s.m_sparse_block_trees[k] ck = .ok abs_index := by
                simp [deref_search, hs]
              cases hin2 : s.m_inner_sizes[cur_group_idx]? with
              | none => simp only [vector_at, htk, hkvk, hc, hfac, hd, hin2]
              | some inner_size =>
                simp only [vector_at, htk, hkvk, hc, hfac, hd, hin2]
                apply block_offset_loop_absent search s b g off sbt key_vec hv hoff htree hklen
                  hchain hpos hin habsent fuel
                · omega
                · intro o ho
                  rw [hnext] at ho
                  cases ho
                  omega
                · omega
                · rw [List.getElem?_set_ne (by omega)]
                  exact hkv
    · have hdec : decide (subspace_idx = s.m_sparse_indices_sets_offsets[k]) = false := by
        simpa using heq
      simp only [hdec]
      obtain ⟨sub, block_idx, hsub, hblk, hblt⟩ :=
        valid_block_tuple_at s.m_subspaces b hv subspace_idx hlt
      obtain ⟨n, hn⟩ := sparse_bispace_1.get_block_size_ok sub block_idx hblt
      have habs := sparse_bispace_1.get_block_abs_index_eq sub block_idx hblt
      cases hin2 : s.m_inner_sizes[cur_group_idx]? with
      | none => simp [vector_at, hsub, hblk, hn, habs, hin2]
      | some inner_size =>
        simp only [vector_at, hsub, hblk, hn, habs, hin2]
        apply block_offset_loop_absent search s b g off sbt key_vec hv hoff htree hklen
          hchain hpos hin habsent fuel
        · exact hkg
        · intro o ho
          rw [hok] at ho
          cases ho
          omega
        · omega
        · exact hkv

/-- Claim C32, amended: for every space, every sparse group `g` of it such that each
group before it ends at or before the start of the next, and every valid block tuple
whose components at the positions of group `g` form a key that the tree search does not
find, `get_block_offset` neither returns an offset nor throws an exception: it goes
through the groups and subspaces before group `g`, copies the key, multiplies the block
sizes and then reads through the result of the search without a test, in
`(*sbt.search(cur_key))[0].first`, an access that the language does not define for an
absent key (or it meets such an access at an earlier group). Passing only tuples
whose keys the trees hold is left to the caller. -/
theorem get_block_offset_absent_key
    (search : sparse_block_tree_any_order → List Nat → Option Nat)
    (s : sparse_bispace) (g off : Nat) (sbt : sparse_block_tree_any_order)
    (key_vec b : List Nat)
    (hoff : s.m_sparse_indices_sets_offsets[g]? = some off)
    (htree : s.m_sparse_block_trees[g]? = some sbt)
    (hkey : s.m_sparse_key_vecs[g]? = some key_vec)
    (hklen : key_vec.length = sbt.get_order)
    (hchain : ∀ k o t o2, k < g → s.m_sparse_indices_sets_offsets[k]? = some o →
      s.m_sparse_block_trees[k]? = some t →
      s.m_sparse_indices_sets_offsets[k + 1]? = some o2 → o + t.get_order ≤ o2)
    (hv : valid_block_tuple s.m_subspaces b)
    (hpos : off < b.length) (hin : off + sbt.get_order ≤ b.length)
    (habsent : search sbt ((b.drop off).take sbt.get_order) = none) :
    get_block_offset (deref_search search) s b = some (.error .undefined) ∧
      ¬ signals_error (get_block_offset (deref_search search) s b) := by
  have hgl : g < s.m_sparse_indices_sets_offsets.length := by
    by_contra hn
    rw [List.getElem?_eq_none (by omega)] at hoff
    cases hoff
  have hloop := block_offset_loop_absent search s b g off sbt key_vec hv hoff htree hklen
    hchain hpos hin habsent (b.length + s.m_sparse_indices_sets_offsets.length + 1) 0 0 0 0 1
    s.m_sparse_key_vecs (Nat.zero_le g) (fun _ _ => Nat.zero_le _) (by omega) hkey
  have hget : get_block_offset (deref_search search) s b = some (.error .undefined) := by
    unfold get_block_offset
    rw [hloop]
  refine ⟨hget, ?_⟩
  rw [hget]
  unfold signals_error
  simp

/-- The statement of `get_block_offset_absent_key` at two spaces whose trees hold the
blocks `(0, 0)` and `(1, 1)`, with a search that returns the position of the key in the
list of blocks. In `sample_order_3_tail_group` the group follows a dense subspace; the
tuple `(0, 0, 1)` has the absent key `(0, 1)`. The space `sample_two_groups` is
`sample_sparse_space | sample_sparse_space`; the tuple `(1, 1, 0, 1)` has the key
`(1, 1)`, which the first tree holds, and the key `(0, 1)`, which the second does not;
for the tuple `(1, 1, 1, 1)`, whose keys both trees hold, the call returns. -/
theorem get_block_offset_absent_key_witness :
    valid_block_tuple sample_order_3_tail_group.m_subspaces [0, 0, 1] ∧
    sample_tree_find { m_order := 2, m_nnz := 22, m_sig_blocks := [[0, 0], [1, 1]] } [0, 1] =
      none ∧
    get_block_offset (deref_search sample_tree_find) sample_order_3_tail_group [0, 0, 1] =
      some (.error .undefined) ∧
    operator_bar (.order_n sample_sparse_space) (.order_n sample_sparse_space) =
      some (.ok sample_two_groups) ∧
    valid_block_tuple sample_two_groups.m_subspaces [1, 1, 0, 1] ∧
    get_block_offset (deref_search sample_tree_find) sample_two_groups [1, 1, 0, 1] =
      some (.error .undefined) ∧
    (get_block_offset (deref_search sample_tree_find) sample_two_groups [1, 1, 1, 1]).map
      (fun r => r.map Prod.fst) = some (.ok (1 * 14 + 16 * 1)) :=
  ⟨by decide, by decide,
    (get_block_offset_absent_key sample_tree_find sample_order_3_tail_group 0 1
      { m_order := 2, m_nnz := 22, m_sig_blocks := [[0, 0], [1, 1]] } [0, 0] [0, 0, 1]
      rfl rfl rfl rfl (fun k _ _ _ hk => absurd hk (Nat.not_lt_zero k)) (by decide)
      (by decide) (by decide) (by decide)).1,
    by decide, by decide,
    (get_block_offset_absent_key sample_tree_find sample_two_groups 1 2
      { m_order := 2, m_nnz := 14, m_sig_blocks := [[0, 0], [1, 1]] } [0, 0] [1, 1, 0, 1]
      rfl rfl rfl rfl
      (fun k o t o2 hk ho ht ho2 => by
        have hk0 : k = 0 := by omega
        subst hk0
        cases ho
        cases ht
        cases ho2
        decide)
      (by decide) (by decide) (by decide) (by decide)).1,
    by decide⟩

/-- The claim fails at `sample_sparse_space`, whose tree holds the blocks `(0, 0)` and
`(1, 1)`, and the valid block tuple `(0, 1)`: the search does not find the key `(0, 1)`,
and `get_block_offset` does not end in an exception of the library. -/
theorem absent_key_not_signalled :
    valid_block_tuple sample_sparse_space.m_subspaces [0, 1] ∧
    sample_sparse_space.m_sparse_indices_sets_offsets = [0] ∧
    sample_sparse_space.m_sparse_block_trees =
      [{ m_order := 2, m_nnz := 14, m_sig_blocks := [[0, 0], [1, 1]] }] ∧
    sample_tree_find { m_order := 2, m_nnz := 14, m_sig_blocks := [[0, 0], [1, 1]] } [0, 1] =
      none ∧
    get_block_offset (deref_search sample_tree_find) sample_sparse_space [0, 1] =
      some (.error .undefined) ∧
    ¬ signals_error (get_block_offset (deref_search sample_tree_find) sample_sparse_space
      [0, 1]) := by
  have h : get_block_offset (deref_search sample_tree_find) sample_sparse_space [0, 1] =
      some (.error .undefined) := by decide
  refine ⟨by decide, rfl, rfl, by decide, h, ?_⟩
  rw [h]
  unfold signals_error
  simp

end sparse_bispace

/-! ### The per-slot dimensions of a composed space -/

namespace sparse_bispace

/-- The loop of `init()` on a composed object, started behind the subspaces and groups
of the left operand, does what the loop does on the right operand. -/
theorem init_dims_loop_shift (B C : sparse_bispace) (n g0 : Nat)
    (hN : C.N = n + B.N)
    (hsub : ∀ k, C.m_subspaces[n + k]? = B.m_subspaces[k]?)
    (hoff : ∀ g, C.m_sparse_indices_sets_offsets[g0 + g]? =
      (B.m_sparse_indices_sets_offsets[g]?).map (· + n))
    (htree : ∀ g, C.m_sparse_block_trees[g0 + g]? = B.m_sparse_block_trees[g]?)
    (htd : ∀ g, C.m_sparse_block_tree_dimensions[g0 + g]? =
      B.m_sparse_block_tree_dimensions[g]?) :
    ∀ (fuelB fuelC s g : Nat) (x acc r : List Nat),
      init_dims_loop B fuelB s g x = some (.ok r) → fuelB ≤ fuelC →
      init_dims_loop C fuelC (n + s) (g0 + g) (acc ++ x) = some (.ok (acc ++ r))
  | 0, _, _, _, _, _, _, h, _ => by simp [init_dims_loop] at h
  | _ + 1, 0, _, _, _, _, _, _, hle => by omega
  | fuelB + 1, fuelC + 1, s, g, x, acc, r, h, hle => by
    have ih := init_dims_loop_shift B C n g0 hN hsub hoff htree htd fuelB fuelC
    unfold init_dims_loop at h ⊢
    by_cases hlt : s < B.N
    · rw [if_pos hlt] at h
      rw [if_pos (by omega), hoff g]
      cases ho : B.m_sparse_indices_sets_offsets[g]? with
      | none =>
        rw [ho] at h
        simp only [Option.map_none', Bool.false_eq_true, if_false, vector_at, hsub] at h ⊢
        cases hs : B.m_subspaces[s]? with
        | none => rw [hs] at h; simp at h
        | some sub =>
          rw [hs] at h
          simp only at h ⊢
          have := ih (s + 1) g (x ++ [sub.get_dim]) acc r h (by omega)
          rw [← List.append_assoc] at this
          exact this
      | some off =>
        rw [ho] at h
        simp only [Option.map_some'] at h ⊢
        by_cases heq : s = off
        · have hd : decide (n + s = off + n) = true := by
            simp only [decide_eq_true_eq]; omega
          simp only [heq, decide_True, if_true, vector_at, htd, htree] at h ⊢
          rw [← heq] at hd
          simp only [heq] at hd
          simp only [hd, if_true]
          cases hdim : B.m_sparse_block_tree_dimensions[g]? with
          | none => rw [hdim] at h; simp at h
          | some d =>
            cases htr : B.m_sparse_block_trees[g]? with
            | none => rw [hdim, htr] at h; simp at h
            | some tree =>
              rw [hdim, htr] at h
              simp only at h ⊢
              have := ih (off + tree.get_order) (g + 1) (x ++ [d]) acc r h (by omega)
              rw [← List.append_assoc, ← Nat.add_assoc] at this
              exact this
        · have hd : decide (n + s = off + n) = false := by
            simp only [decide_eq_false_iff_not]; omega
          simp only [heq, decide_False, hd, Bool.false_eq_true, if_false, vector_at,
            hsub] at h ⊢
          cases hs : B.m_subspaces[s]? with
          | none => rw [hs] at h; simp at h
          | some sub =>
            rw [hs] at h
            simp only at h ⊢
            have := ih (s + 1) g (x ++ [sub.get_dim]) acc r h (by omega)
            rw [← List.append_assoc] at this
            exact this
    · rw [if_neg hlt] at h
      rw [if_neg (by omega)]
      simp only [Option.some.injEq, Except.ok.injEq] at h
      rw [h]


/-- The ordering of the groups by index: a group ends at or before the start of every
later group. -/
theorem groups_ordered_getElem? (s : sparse_bispace) (h : s.groups_ordered)
    (i j off_i off_j : Nat) (tree : sparse_block_tree_any_order) (hij : i < j)
    (hi : s.m_sparse_indices_sets_offsets[i]? = some off_i)
    (ht : s.m_sparse_block_trees[i]? = some tree)
    (hj : s.m_sparse_indices_sets_offsets[j]? = some off_j)
    (hwf : s.m_sparse_indices_sets_offsets.length = s.m_sparse_block_trees.length) :
    off_i + tree.get_order ≤ off_j := by
  have hjl : j < s.m_sparse_indices_sets_offsets.length := by
    by_contra hn
    rw [List.getElem?_eq_none (by omega)] at hj
    cases hj
  have hjt : j < s.m_sparse_block_trees.length := by omega
  have hzi : (List.zip s.m_sparse_indices_sets_offsets s.m_sparse_block_trees)[i]? =
      some (off_i, tree) := by
    simp [List.getElem?_zip_eq_some, hi, ht]
  have hzj : (List.zip s.m_sparse_indices_sets_offsets s.m_sparse_block_trees)[j]? =
      some (off_j, s.m_sparse_block_trees[j]) := by
    simp [List.getElem?_zip_eq_some, hj, List.getElem?_eq_getElem hjt]
  have hlen : j < (List.zip s.m_sparse_indices_sets_offsets s.m_sparse_block_trees).length := by
    simp [List.length_zip]
    omega
  have hp := List.pairwise_iff_getElem.mp h.1 i j (by omega) hlen hij
  rw [List.getElem?_eq_getElem (by omega)] at hzi
  rw [List.getElem?_eq_getElem hlen] at hzj
  simp only [Option.some.injEq] at hzi hzj
  rw [hzi, hzj] at hp
  exact hp

/-- The loop of `init()` on a composed object does, over the subspaces and groups of the
left operand, what the loop does on the left operand, and then goes on behind them. -/
theorem init_dims_loop_prefix (A C : sparse_bispace) (dB : List Nat)
    (hwf : A.well_formed) (hord : A.groups_ordered) (hrange : A.groups_in_range)
    (hN : A.N ≤ C.N)
    (hsub : ∀ k, k < A.N → C.m_subspaces[k]? = A.m_subspaces[k]?)
    (hoff : ∀ g, g < A.m_sparse_indices_sets_offsets.length →
      C.m_sparse_indices_sets_offsets[g]? = A.m_sparse_indices_sets_offsets[g]?)
    (htree : ∀ g, g < A.m_sparse_indices_sets_offsets.length →
      C.m_sparse_block_trees[g]? = A.m_sparse_block_trees[g]?)
    (htd : ∀ g, g < A.m_sparse_indices_sets_offsets.length →
      C.m_sparse_block_tree_dimensions[g]? = A.m_sparse_block_tree_dimensions[g]?)
    (hnext : ∀ off, C.m_sparse_indices_sets_offsets[A.m_sparse_indices_sets_offsets.length]? =
      some off → A.N ≤ off)
    (htail : ∀ (fuel : Nat) (acc : List Nat),
      (C.N - A.N) + (C.m_sparse_indices_sets_offsets.length -
        A.m_sparse_indices_sets_offsets.length) < fuel →
      init_dims_loop C fuel A.N A.m_sparse_indices_sets_offsets.length acc =
        some (.ok (acc ++ dB))) :
    ∀ (fuelA fuelC s g : Nat) (acc r : List Nat),
      s ≤ A.N → g ≤ A.m_sparse_indices_sets_offsets.length →
      (∀ j off, g ≤ j → A.m_sparse_indices_sets_offsets[j]? = some off → s ≤ off) →
      init_dims_loop A fuelA s g acc = some (.ok r) →
      (C.N - s) + (C.m_sparse_indices_sets_offsets.length - g) < fuelC →
      init_dims_loop C fuelC s g acc = some (.ok (r ++ dB))
  | 0, _, _, _, _, _, _, _, _, h, _ => by simp [init_dims_loop] at h
  | _ + 1, 0, _, _, _, _, _, _, _, _, hf => by omega
  | fuelA + 1, fuelC + 1, s, g, acc, r, hs, hg, hinv, h, hf => by
    have ih := init_dims_loop_prefix A C dB hwf hord hrange hN hsub hoff htree htd hnext htail
      fuelA fuelC
    obtain ⟨hsubs, hlen1, hlen2⟩ := hwf
    by_cases hlt : s < A.N
    · unfold init_dims_loop at h ⊢
      rw [if_pos hlt] at h
      rw [if_pos (by omega)]
      cases ho : A.m_sparse_indices_sets_offsets[g]? with
      | none =>
        have hgeq : g = A.m_sparse_indices_sets_offsets.length := by
          by_contra hne
          rw [List.getElem?_eq_getElem (by omega)] at ho
          cases ho
        rw [ho] at h
        simp only [Bool.false_eq_true, if_false, vector_at] at h
        cases hsb : A.m_subspaces[s]? with
        | none => rw [hsb] at h; simp at h
        | some sub =>
          rw [hsb] at h
          simp only at h
          have hrec := ih (s + 1) g _ r (by omega) hg
            (fun j off hj hjo => by
              rw [List.getElem?_eq_none (by omega)] at hjo
              cases hjo) h (by omega)
          cases hco : C.m_sparse_indices_sets_offsets[g]? with
          | none =>
            simp only [Bool.false_eq_true, if_false, vector_at, hsub s hlt, hsb]
            exact hrec
          | some offc =>
            have hge := hnext offc (hgeq ▸ hco)
            have hd : decide (s = offc) = false := by
              simp only [decide_eq_false_iff_not]
              omega
            simp only [hd, Bool.false_eq_true, if_false, vector_at, hsub s hlt, hsb]
            exact hrec
      | some off =>
        have hgl : g < A.m_sparse_indices_sets_offsets.length := by
          by_contra hn
          rw [List.getElem?_eq_none (by omega)] at ho
          cases ho
        have hgt : g < A.m_sparse_block_trees.length := by omega
        have htg : A.m_sparse_block_trees[g]? = some A.m_sparse_block_trees[g] :=
          List.getElem?_eq_getElem hgt
        have hcl : g < C.m_sparse_indices_sets_offsets.length := by
          by_contra hn
          have := hoff g hgl
          rw [List.getElem?_eq_none (by omega), ho] at this
          cases this
        rw [ho] at h
        rw [hoff g hgl, ho]
        by_cases heq : s = off
        · subst heq
          have hdec : decide (s = s) = true := by simp
          simp only [hdec, if_true, vector_at] at h ⊢
          rw [htd g hgl, htree g hgl]
          cases hdim : A.m_sparse_block_tree_dimensions[g]? with
          | none => rw [hdim] at h; simp at h
          | some d =>
            rw [hdim, htg] at h
            rw [htg]
            simp only at h ⊢
            have hin : s + A.m_sparse_block_trees[g].get_order ≤ A.N :=
              hrange (s, A.m_sparse_block_trees[g]) (by
                rw [List.mem_iff_getElem?]
                exact ⟨g, by simp [List.getElem?_zip_eq_some, ho, htg]⟩)
            exact ih (s + A.m_sparse_block_trees[g].get_order) (g + 1) _ r hin (by omega)
              (fun j offj hj hjo =>
                groups_ordered_getElem? A hord g j s offj _ (by omega) ho htg hjo hlen1)
              h (by omega)
        · have hdec : decide (s = off) = false := by simpa using heq
          simp only [hdec, Bool.false_eq_true, if_false, vector_at] at h ⊢
          rw [hsub s hlt]
          cases hsb : A.m_subspaces[s]? with
          | none => rw [hsb] at h; simp at h
          | some sub =>
            rw [hsb] at h
            simp only at h ⊢
            exact ih (s + 1) g _ r (by omega) hg
              (fun j offj hj hjo => by
                rcases Nat.eq_or_lt_of_le hj with hjg | hjg
                · subst hjg
                  rw [ho] at hjo
                  cases hjo
                  have := hinv g off (Nat.le_refl _) ho
                  omega
                · have := groups_ordered_getElem? A hord g j off offj _ hjg ho htg hjo hlen1
                  have := hinv g off (Nat.le_refl _) ho
                  omega) h (by omega)
    · have hsN : s = A.N := by omega
      have hgeq : g = A.m_sparse_indices_sets_offsets.length := by
        by_contra hne
        have hgl : g < A.m_sparse_indices_sets_offsets.length := by omega
        have hgt : g < A.m_sparse_block_trees.length := by omega
        have ho : A.m_sparse_indices_sets_offsets[g]? =
            some A.m_sparse_indices_sets_offsets[g] := List.getElem?_eq_getElem hgl
        have htg : A.m_sparse_block_trees[g]? = some A.m_sparse_block_trees[g] :=
          List.getElem?_eq_getElem hgt
        have h1 := hinv g _ (Nat.le_refl _) ho
        have h2 : A.m_sparse_indices_sets_offsets[g] + A.m_sparse_block_trees[g].get_order ≤
            A.N :=
          hrange (_, A.m_sparse_block_trees[g]) (by
            rw [List.mem_iff_getElem?]
            exact ⟨g, by simp [List.getElem?_zip_eq_some, ho, htg]⟩)
        have h3 := hord.2 A.m_sparse_block_trees[g] (List.getElem_mem hgt)
        omega
      unfold init_dims_loop at h
      rw [if_neg hlt] at h
      simp only [Option.some.injEq, Except.ok.injEq] at h
      subst hsN hgeq
      rw [← h]
      exact htail (fuelC + 1) acc hf


/-- The composition of two spaces that satisfy the class invariant, the left one with
ordered groups inside the space: its per-slot dimensions are those that `init()` computes
for the left operand followed by those it computes for the right operand. -/
theorem compose_slot_dimensions (A B : sparse_bispace) (dA dB : List Nat)
    (hA : A.well_formed) (hB : B.well_formed) (hord : A.groups_ordered)
    (hrange : A.groups_in_range) (hdA : A.slot_dimensions = some (.ok dA))
    (hdB : B.slot_dimensions = some (.ok dB)) :
    ∃ C, operator_bar (.order_n A) (.order_n B) = some (.ok C) ∧
      C.m_dimensions = dA ++ dB := by
  have hA' : (bispace_operand.order_n A).well_formed := hA
  have hs1 : A.m_subspaces.length = A.N := hA.1
  have hs2 : A.m_sparse_indices_sets_offsets.length = A.m_sparse_block_trees.length := hA.2.1
  have hs3 : A.m_sparse_block_tree_dimensions.length = A.m_sparse_block_trees.length :=
    hA.2.2
  have hB' : (bispace_operand.order_n B).well_formed := hB
  have hlen : (A.m_subspaces ++ B.m_subspaces).length = A.N + B.N := by
    rw [List.length_append, hA.1, hB.1]
  obtain ⟨C, hC, -, -, -, -, -, hloop⟩ := init_fields (before_init (A.N + B.N)
      (A.m_subspaces ++ B.m_subspaces)
      (A.m_sparse_indices_sets_offsets ++ B.m_sparse_indices_sets_offsets.map (· + A.N))
      (A.m_sparse_block_trees ++ B.m_sparse_block_trees)
      (A.m_sparse_block_tree_dimensions ++ B.m_sparse_block_tree_dimensions)) rfl
    ⟨hlen, by simp [before_init, hA.2.1, hB.2.1], by simp [before_init, hA.2.2, hB.2.2]⟩
  refine ⟨C, ?_, ?_⟩
  · unfold operator_bar
    rw [ctor_compose_eq_init hA' hB']
    exact hC
  · have htail : ∀ (fuel : Nat) (acc : List Nat),
        ((before_init (A.N + B.N) (A.m_subspaces ++ B.m_subspaces)
          (A.m_sparse_indices_sets_offsets ++ B.m_sparse_indices_sets_offsets.map (· + A.N))
          (A.m_sparse_block_trees ++ B.m_sparse_block_trees)
          (A.m_sparse_block_tree_dimensions ++ B.m_sparse_block_tree_dimensions)).N - A.N) +
          ((before_init (A.N + B.N) (A.m_subspaces ++ B.m_subspaces)
            (A.m_sparse_indices_sets_offsets ++
              B.m_sparse_indices_sets_offsets.map (· + A.N))
            (A.m_sparse_block_trees ++ B.m_sparse_block_trees)
            (A.m_sparse_block_tree_dimensions ++
              B.m_sparse_block_tree_dimensions)).m_sparse_indices_sets_offsets.length -
            A.m_sparse_indices_sets_offsets.length) < fuel →
        init_dims_loop (before_init (A.N + B.N) (A.m_subspaces ++ B.m_subspaces)
          (A.m_sparse_indices_sets_offsets ++ B.m_sparse_indices_sets_offsets.map (· + A.N))
          (A.m_sparse_block_trees ++ B.m_sparse_block_trees)
          (A.m_sparse_block_tree_dimensions ++ B.m_sparse_block_tree_dimensions)) fuel A.N
          A.m_sparse_indices_sets_offsets.length acc = some (.ok (acc ++ dB)) := by
      intro fuel acc hfuel
      have hsh := init_dims_loop_shift B (before_init (A.N + B.N)
          (A.m_subspaces ++ B.m_subspaces)
          (A.m_sparse_indices_sets_offsets ++ B.m_sparse_indices_sets_offsets.map (· + A.N))
          (A.m_sparse_block_trees ++ B.m_sparse_block_trees)
          (A.m_sparse_block_tree_dimensions ++ B.m_sparse_block_tree_dimensions))
        A.N A.m_sparse_indices_sets_offsets.length rfl
        (fun k => by
          simp only [before_init]
          rw [List.getElem?_append_right (by omega)]
          congr 1
          omega)
        (fun g => by
          simp only [before_init]
          rw [List.getElem?_append_right (by omega), List.getElem?_map]
          congr 2
          omega)
        (fun g => by
          simp only [before_init]
          rw [List.getElem?_append_right (by omega)]
          congr 1
          omega)
        (fun g => by
          simp only [before_init]
          rw [List.getElem?_append_right (by omega)]
          congr 1
          omega)
        (B.N + B.m_sparse_indices_sets_offsets.length + 1) fuel 0 0 [] acc dB hdB (by
          simp only [before_init, List.length_append, List.length_map] at hfuel
          omega)
      simpa using hsh
    have hpre := init_dims_loop_prefix A (before_init (A.N + B.N)
        (A.m_subspaces ++ B.m_subspaces)
        (A.m_sparse_indices_sets_offsets ++ B.m_sparse_indices_sets_offsets.map (· + A.N))
        (A.m_sparse_block_trees ++ B.m_sparse_block_trees)
        (A.m_sparse_block_tree_dimensions ++ B.m_sparse_block_tree_dimensions)) dB hA hord
      hrange (by simp [before_init])
      (fun k hk => by
        simp only [before_init]
        rw [List.getElem?_append_left (by omega)])
      (fun g hg => by
        simp only [before_init]
        rw [List.getElem?_append_left hg])
      (fun g hg => by
        simp only [before_init]
        rw [List.getElem?_append_left (by omega)])
      (fun g hg => by
        simp only [before_init]
        rw [List.getElem?_append_left (by omega)])
      (fun off hoff => by
        simp only [before_init] at hoff
        rw [List.getElem?_append_right (Nat.le_refl _), Nat.sub_self, List.getElem?_map] at hoff
        cases hb : B.m_sparse_indices_sets_offsets[0]? with
        | none => rw [hb] at hoff; cases hoff
        | some x =>
          rw [hb] at hoff
          simp only [Option.map_some', Option.some.injEq] at hoff
          omega)
      htail (A.N + A.m_sparse_indices_sets_offsets.length + 1)
      ((A.N + B.N) + (A.m_sparse_indices_sets_offsets ++
        B.m_sparse_indices_sets_offsets.map (· + A.N)).length + 1) 0 0 [] dA
      (Nat.zero_le _) (Nat.zero_le _) (fun _ _ _ _ => Nat.zero_le _) hdA (by
        simp only [before_init]
        omega)
    have hloop2 : init_dims_loop (before_init (A.N + B.N) (A.m_subspaces ++ B.m_subspaces)
        (A.m_sparse_indices_sets_offsets ++ B.m_sparse_indices_sets_offsets.map (· + A.N))
        (A.m_sparse_block_trees ++ B.m_sparse_block_trees)
        (A.m_sparse_block_tree_dimensions ++ B.m_sparse_block_tree_dimensions))
        ((A.N + B.N) + (A.m_sparse_indices_sets_offsets ++
          B.m_sparse_indices_sets_offsets.map (· + A.N)).length + 1) 0 0 [] =
        some (.ok C.m_dimensions) := hloop
    rw [hpre] at hloop2
    simp only [Option.some.injEq, Except.ok.injEq] at hloop2
    exact hloop2.symm


/-- Claim C34: for spaces `A` and `B` of the general class (order at least 2) that satisfy
the class invariant, `A` with sparse groups that are disjoint, contiguous, in increasing
offset order and inside the space, `A | B` exists and its per-slot dimension list is the
per-slot dimension list of `A` followed by that of `B`, where the per-slot list of a
space is the one `init()` computes from its subspaces and groups: the dimension of the
block space for a dense slot, the stored count of the tree for a group. When the cached
list of each operand is a rearrangement of its per-slot list, as every constructor and
the permutation of a dense space leave it, `get_nnz(A | B)` is `get_nnz(A) * get_nnz(B)`
as `size_t` computes it, hence the product itself when that is representable. -/
theorem compose_dimensions (A B : sparse_bispace) (hA : A.well_formed) (hB : B.well_formed)
    (hord : A.groups_ordered) (hrange : A.groups_in_range) :
    ∃ (C : sparse_bispace) (dA dB : List Nat),
      A.slot_dimensions = some (.ok dA) ∧ B.slot_dimensions = some (.ok dB) ∧
      operator_bar (.order_n A) (.order_n B) = some (.ok C) ∧
      C.m_dimensions = dA ++ dB ∧
      (A.m_dimensions.Perm dA → B.m_dimensions.Perm dB →
        C.get_nnz = (A.get_nnz * B.get_nnz) % 2 ^ 64 ∧
        (A.get_nnz * B.get_nnz < 2 ^ 64 → C.get_nnz = A.get_nnz * B.get_nnz)) := by
  obtain ⟨dA, hdA⟩ := init_dims_loop_ok A hA
    (A.N + A.m_sparse_indices_sets_offsets.length + 1) 0 0 [] (by omega)
  obtain ⟨dB, hdB⟩ := init_dims_loop_ok B hB
    (B.N + B.m_sparse_indices_sets_offsets.length + 1) 0 0 [] (by omega)
  obtain ⟨C, hC, hdims⟩ := compose_slot_dimensions A B dA dB hA hB hord hrange hdA hdB
  refine ⟨C, dA, dB, hdA, hdB, hC, hdims, fun hpA hpB => ?_⟩
  have hnnz : C.get_nnz = (A.get_nnz * B.get_nnz) % 2 ^ 64 := by
    unfold get_nnz
    rw [hdims, foldl_size_t_mul_one, foldl_size_t_mul_one, foldl_size_t_mul_one,
      List.prod_append, hpA.prod_eq, hpB.prod_eq, SIZE_T_MOD, ← Nat.mul_mod]
  exact ⟨hnnz, fun hlt => by rw [hnnz, Nat.mod_eq_of_lt hlt]⟩

/-- The statement of `compose_dimensions` at two compositions. The space
`sample_order_3` has a sparse group over its subspaces 0 and 1 and the per-slot list
`[14, 4]`; composed with `sample_matrix_space`, of list `[10, 6]`, it gives the list
`[14, 4, 10, 6]` and `56 * 60` elements. The space `sample_permuted_space` is what
`permute` returns for `i | j` and `(1, 0)`: its subspaces are `j, i`, its per-slot list
is `[6, 10]` and its cached list is the rearrangement `[10, 6]`; composed with
`sample_dense_rhs` it gives the list `[6, 10, 6, 4]` and `60 * 24` elements. -/
theorem compose_dimensions_witness :
    sample_order_3.groups_ordered ∧ sample_order_3.groups_in_range ∧
    sample_order_3.get_n_sparse_groups = 1 ∧
    (∃ C, operator_bar (.order_n sample_order_3) (.order_n sample_matrix_space) =
        some (.ok C) ∧
      C.m_dimensions = [14, 4] ++ [10, 6] ∧ C.get_nnz = 56 * 60) ∧
    (∀ (tree_permute : sparse_block_tree_any_order → List Nat → sparse_block_tree_any_order)
      (set_offsets_sizes_nnz : sparse_block_tree_any_order → List sparse_bispace_1 →
        sparse_block_tree_any_order),
      permute tree_permute set_offsets_sizes_nnz sample_matrix_space [1, 0] =
        .ok sample_permuted_space) ∧
    sample_permuted_space.m_dimensions = [10, 6] ∧
    ∃ C, operator_bar (.order_n sample_permuted_space) (.order_n sample_dense_rhs) =
        some (.ok C) ∧
      C.m_dimensions = [6, 10] ++ [6, 4] ∧ C.get_nnz = 60 * 24 := by
  obtain ⟨C1, dA1, dB1, hdA1, hdB1, hC1, hdims1, hn1⟩ :=
    compose_dimensions sample_order_3 sample_matrix_space (by decide) (by decide) (by decide)
      (by decide)
  obtain ⟨C2, dA2, dB2, hdA2, hdB2, hC2, hdims2, hn2⟩ :=
    compose_dimensions sample_permuted_space sample_dense_rhs (by decide) (by decide)
      (by decide) (by decide)
  have e1 : dA1 = [14, 4] := by
    have h : sample_order_3.slot_dimensions = some (.ok [14, 4]) := by decide
    rw [h] at hdA1
    simp only [Option.some.injEq, Except.ok.injEq] at hdA1
    exact hdA1.symm
  have e2 : dB1 = [10, 6] := by
    have h : sample_matrix_space.slot_dimensions = some (.ok [10, 6]) := by decide
    rw [h] at hdB1
    simp only [Option.some.injEq, Except.ok.injEq] at hdB1
    exact hdB1.symm
  have e3 : dA2 = [6, 10] := by
    have h : sample_permuted_space.slot_dimensions = some (.ok [6, 10]) := by decide
    rw [h] at hdA2
    simp only [Option.some.injEq, Except.ok.injEq] at hdA2
    exact hdA2.symm
  have e4 : dB2 = [6, 4] := by
    have h : sample_dense_rhs.slot_dimensions = some (.ok [6, 4]) := by decide
    rw [h] at hdB2
    simp only [Option.some.injEq, Except.ok.injEq] at hdB2
    exact hdB2.symm
  subst e1 e2 e3 e4
  refine ⟨by decide, by decide, rfl, ⟨C1, hC1, hdims1, ?_⟩, fun _ _ => rfl, rfl,
    C2, hC2, hdims2, ?_⟩
  · exact (hn1 (by decide) (by decide)).2 (by decide)
  · exact (hn2 (by decide) (by decide)).2 (by decide)

end sparse_bispace

/-! ### The block-major layout of a dense space is a tiling -/

namespace sparse_bispace

/-- The elements before block `b + 1` are those before block `b` and those of block
`b`. -/
theorem elements_before_succ (sub : sparse_bispace_1) (b : Nat) :
    elements_before sub (b + 1) = elements_before sub b + block_size_at sub b := by
  simp [elements_before, List.range_succ]

/-- The number of elements before a block does not decrease with the block index. -/
theorem elements_before_mono (sub : sparse_bispace_1) (a b : Nat) (h : a ≤ b) :
    elements_before sub a ≤ elements_before sub b := by
  induction b with
  | zero =>
    have : a = 0 := by omega
    subst this
    exact Nat.le_refl _
  | succ n ih =>
    rcases Nat.eq_or_lt_of_le h with heq | hlt
    · subst heq
      exact Nat.le_refl _
    · have := ih (by omega)
      rw [elements_before_succ]
      omega

/-- In a validly split one-dimensional space every block starts where the blocks before
it end, and the blocks together have `get_dim()` elements. -/
theorem elements_before_eq (sub : sparse_bispace_1) (rest : List Nat)
    (hrest : sub.m_abs_indices = 0 :: rest) (hpw : sub.m_abs_indices.Pairwise (· < ·))
    (hlt : ∀ x ∈ sub.m_abs_indices, x < sub.m_dim) :
    (∀ b, b < sub.get_n_blocks → elements_before sub b = block_abs_index_at sub b) ∧
      elements_before sub sub.get_n_blocks = sub.get_dim := by
  have hpw2 : (0 :: rest).Pairwise (· < ·) := hrest ▸ hpw
  have hle : ∀ x ∈ 0 :: rest, x ≤ sub.m_dim := fun x hx => Nat.le_of_lt (hlt x (hrest ▸ hx))
  have hn : sub.get_n_blocks = rest.length + 1 := by
    simp [sparse_bispace_1.get_n_blocks, hrest]
  have hsize : ∀ i, i < rest.length + 1 → block_size_at sub i =
      (if i = rest.length then sub.m_dim else rest.getD i 0) - (0 :: rest).getD i 0 := by
    intro i hi
    have hi2 : i < sub.m_abs_indices.length := by rw [hrest]; simpa using hi
    have hsz := sparse_bispace_1.get_block_size_eq_sizes_of sub.m_dim sub.m_abs_indices i hi2
    have hget := sparse_bispace_1.sizes_of_getElem? sub.m_dim rest 0 i hpw2 hle hi
    unfold block_size_at
    show (match sparse_bispace_1.get_block_size ⟨sub.m_dim, sub.m_abs_indices⟩ i with
      | .ok n => n
      | .error _ => 0) = _
    rw [hsz, vector_at, hrest, hget]
  have habs : ∀ i, i < rest.length + 1 → block_abs_index_at sub i = (0 :: rest).getD i 0 := by
    intro i hi
    rw [block_abs_index_at_eq sub i (by rw [hn]; exact hi), hrest]
  have hmono : ∀ i, i < rest.length → (0 :: rest).getD i 0 < rest.getD i 0 := by
    intro i hi
    have h1 : i < (0 :: rest).length := by simp; omega
    have h2 : i + 1 < (0 :: rest).length := by simp; omega
    have := List.pairwise_iff_getElem.mp hpw2 i (i + 1) h1 h2 (by omega)
    rw [List.getD_eq_getElem _ _ h1, List.getD_eq_getElem _ _ hi]
    simpa using this
  have hbound : ∀ i, i < rest.length + 1 → (0 :: rest).getD i 0 ≤ sub.m_dim := by
    intro i hi
    have h1 : i < (0 :: rest).length := by simpa using hi
    rw [List.getD_eq_getElem _ _ h1]
    exact hle _ (List.getElem_mem h1)
  have hpre : ∀ b, b < rest.length + 1 → elements_before sub b = (0 :: rest).getD b 0 := by
    intro b
    induction b with
    | zero => intro _; simp [elements_before]
    | succ n ih =>
      intro hb
      rw [elements_before_succ, ih (by omega), hsize n (by omega), if_neg (by omega)]
      have := hmono n (by omega)
      simp only [List.getD_cons_succ]
      omega
  refine ⟨fun b hb => ?_, ?_⟩
  · rw [hn] at hb
    rw [hpre b hb, habs b hb]
  · rw [hn, elements_before_succ, hpre rest.length (by omega), hsize rest.length (by omega),
      if_pos rfl]
    have := hbound rest.length (by omega)
    simp only [sparse_bispace_1.get_dim]
    omega


/-- The volume of a block tuple, slot by slot. -/
theorem block_volume_cons (sub : sparse_bispace_1) (later : List sparse_bispace_1) (b : Nat)
    (bs : List Nat) :
    block_volume (sub :: later) (b :: bs) = block_size_at sub b * block_volume later bs := by
  simp [block_volume]

/-- A sum over the selected members of concatenated lists, list by list. -/
theorem sum_filter_flatMap (F : Nat → List (List Nat)) (p : List Nat → Bool)
    (g : List Nat → Nat) : ∀ l : List Nat,
    (((l.flatMap F).filter p).map g).sum =
      (l.map (fun c => (((F c).filter p).map g).sum)).sum
  | [] => rfl
  | c :: rest => by
    rw [List.flatMap_cons, List.filter_append, List.map_append, List.sum_append,
      sum_filter_flatMap F p g rest, List.map_cons, List.sum_cons]

/-- The sum of the volumes of the selected tuples that begin with block `c`. -/
theorem sum_filter_map_cons (sub : sparse_bispace_1) (later : List sparse_bispace_1) (c : Nat)
    (p : List Nat → Bool) : ∀ ts : List (List Nat),
    (((ts.map (fun bs => c :: bs)).filter p).map (block_volume (sub :: later))).sum =
      block_size_at sub c *
        ((ts.filter (fun t => p (c :: t))).map (block_volume later)).sum
  | [] => by simp
  | t :: ts => by
    have ih := sum_filter_map_cons sub later c p ts
    by_cases hp : p (c :: t) = true
    · simp only [List.map_cons, List.filter_cons, hp, if_true, List.sum_cons, ih,
        block_volume_cons, Nat.mul_add]
    · simp only [List.map_cons, List.filter_cons, hp, if_false, ih, Bool.false_eq_true]

/-- The volumes of all block tuples add up to the product of the element counts of the
subspaces. -/
theorem total_volume : ∀ subs : List sparse_bispace_1,
    ((block_tuples subs).map (block_volume subs)).sum =
      (subs.map (fun sub => elements_before sub sub.get_n_blocks)).prod
  | [] => by simp [block_tuples, block_volume]
  | sub :: later => by
    have h1 := sum_filter_flatMap (fun b => (block_tuples later).map (fun bs => b :: bs))
      (fun _ => true) (block_volume (sub :: later)) (List.range sub.get_n_blocks)
    simp only [List.filter_true] at h1
    have h2 : ∀ c, (((block_tuples later).map (fun bs => c :: bs)).map
        (block_volume (sub :: later))).sum =
        block_size_at sub c * ((block_tuples later).map (block_volume later)).sum := by
      intro c
      have := sum_filter_map_cons sub later c (fun _ => true) (block_tuples later)
      simpa only [List.filter_true] using this
    rw [block_tuples, h1]
    simp only [h2, total_volume later]
    rw [List.sum_map_mul_right, List.map_cons, List.prod_cons, elements_before]

/-- A sum over `0 .. n - 1` of terms that are `f c * total` below `b0`, `last` at `b0`
and 0 above. -/
theorem sum_range_split (f : Nat → Nat) (total last b0 : Nat) (h : Nat → Nat)
    (hlt : ∀ c, c < b0 → h c = f c * total) (heq : h b0 = last)
    (hgt : ∀ c, b0 < c → h c = 0) : ∀ n : Nat,
    ((List.range n).map h).sum =
      if n ≤ b0 then ((List.range n).map f).sum * total
      else ((List.range b0).map f).sum * total + last
  | 0 => by simp
  | n + 1 => by
    have ih := sum_range_split f total last b0 h hlt heq hgt n
    rw [List.range_succ, List.map_append, List.sum_append, ih]
    simp only [List.map_cons, List.map_nil, List.sum_cons, List.sum_nil, Nat.add_zero]
    by_cases h1 : n + 1 ≤ b0
    · rw [if_pos (by omega), if_pos h1, hlt n (by omega), List.map_append, List.sum_append]
      simp only [List.map_cons, List.map_nil, List.sum_cons, List.sum_nil, Nat.add_zero]
      rw [Nat.add_mul]
    · rw [if_neg h1]
      by_cases h2 : n = b0
      · subst h2
        rw [if_pos (Nat.le_refl _), heq]
      · rw [if_neg (by omega), hgt n (by omega)]
        rfl

/-- The tiling offset, slot by slot: the blocks before `b0` in the first subspace, each
with every tuple of the later subspaces, and then the tuples before `bs` inside block
`b0`. -/
theorem tiling_offset_cons (sub : sparse_bispace_1) (later : List sparse_bispace_1)
    (b0 : Nat) (bs : List Nat) (hb : b0 < sub.get_n_blocks) :
    tiling_offset (sub :: later) (b0 :: bs) =
      elements_before sub b0 * ((block_tuples later).map (block_volume later)).sum +
        block_size_at sub b0 * tiling_offset later bs := by
  unfold tiling_offset
  rw [block_tuples, sum_filter_flatMap]
  simp only [sum_filter_map_cons, lex_below]
  have hlt : ∀ c, c < b0 →
      block_size_at sub c * (((block_tuples later).filter (fun t =>
        decide (c < b0) || (decide (c = b0) && lex_below t bs))).map (block_volume later)).sum =
      block_size_at sub c * ((block_tuples later).map (block_volume later)).sum := by
    intro c hc
    have : decide (c < b0) = true := by simpa using hc
    simp only [this, Bool.true_or, List.filter_true]
  have heq : block_size_at sub b0 * (((block_tuples later).filter (fun t =>
        decide (b0 < b0) || (decide (b0 = b0) && lex_below t bs))).map
        (block_volume later)).sum =
      block_size_at sub b0 *
        (((block_tuples later).filter (fun b => lex_below b bs)).map
          (block_volume later)).sum := by
    simp
  have hgt : ∀ c, b0 < c →
      block_size_at sub c * (((block_tuples later).filter (fun t =>
        decide (c < b0) || (decide (c = b0) && lex_below t bs))).map (block_volume later)).sum =
      0 := by
    intro c hc
    have h1 : decide (c < b0) = false := by simp only [decide_eq_false_iff_not]; omega
    have h2 : decide (c = b0) = false := by simp only [decide_eq_false_iff_not]; omega
    simp [h1, h2]
  rw [sum_range_split (block_size_at sub) ((block_tuples later).map (block_volume later)).sum
    (block_size_at sub b0 *
      (((block_tuples later).filter (fun b => lex_below b bs)).map (block_volume later)).sum)
    b0 _ hlt heq hgt sub.get_n_blocks, if_neg (by omega), elements_before]


/-- A one-dimensional space produced by the constructor and successful `split` calls,
of dimension at least 1, tiles `[0, get_dim())`. -/
theorem reachable_tiles {dim : Nat} (hdim : 1 ≤ dim) {sub : sparse_bispace_1}
    (h : sub.reachable dim) : sub.tiles := by
  obtain ⟨hd, ⟨rest, hrest⟩, hpw, hlt⟩ := sparse_bispace_1.reachable_abs_indices hdim h
  obtain ⟨h1, h2⟩ := elements_before_eq sub rest hrest hpw (fun x hx => hd ▸ hlt x hx)
  exact ⟨by simp [sparse_bispace_1.get_n_blocks, hrest], h1, h2⟩

/-- The volumes of all block tuples of tiled subspaces add up to the product of the
dimensions. -/
theorem total_volume_dims (subs : List sparse_bispace_1) (ht : ∀ sub ∈ subs, sub.tiles) :
    ((block_tuples subs).map (block_volume subs)).sum =
      (subs.map sparse_bispace_1.get_dim).prod := by
  rw [total_volume]
  congr 1
  exact List.map_congr_left (fun sub hs => (ht sub hs).2.2)

/-- For tiled subspaces the tiling offset of a valid block tuple is the block-major
offset of `dense_block_offset`. -/
theorem tiling_offset_eq_dense : ∀ (subs : List sparse_bispace_1) (bs : List Nat),
    valid_block_tuple subs bs → (∀ sub ∈ subs, sub.tiles) →
    tiling_offset subs bs = dense_block_offset subs bs
  | [], bs, hv, _ => by
    have hb : bs = [] := List.length_eq_zero.mp hv.1
    subst hb
    simp [tiling_offset, block_tuples, lex_below, dense_block_offset_nil]
  | _ :: _, [], hv, _ => by
    have := hv.1
    simp at this
  | sub :: later, b :: bs, hv, ht => by
    have hv2 : valid_block_tuple later bs := by
      refine ⟨by simpa using hv.1, fun p hp => hv.2 p ?_⟩
      simp [hp]
    have hb : b < sub.get_n_blocks := hv.2 (sub, b) (by simp)
    have ht2 : ∀ s ∈ later, s.tiles := fun s hs => ht s (List.mem_cons_of_mem _ hs)
    rw [tiling_offset_cons sub later b bs hb, total_volume_dims later ht2,
      tiling_offset_eq_dense later bs hv2 ht2, dense_block_offset_cons,
      (ht sub (List.mem_cons_self _ _)).2.1 b hb]

/-- Every block of a dense space of tiled subspaces ends at or before the product of the
dimensions. -/
theorem dense_block_end_le : ∀ (subs : List sparse_bispace_1) (bs : List Nat),
    valid_block_tuple subs bs → (∀ sub ∈ subs, sub.tiles) →
    dense_block_offset subs bs + block_volume subs bs ≤
      (subs.map sparse_bispace_1.get_dim).prod
  | [], bs, hv, _ => by
    have hb : bs = [] := List.length_eq_zero.mp hv.1
    subst hb
    simp [dense_block_offset_nil, block_volume]
  | _ :: _, [], hv, _ => by
    have := hv.1
    simp at this
  | sub :: later, b :: bs, hv, ht => by
    have hv2 : valid_block_tuple later bs := by
      refine ⟨by simpa using hv.1, fun p hp => hv.2 p ?_⟩
      simp [hp]
    have hb : b < sub.get_n_blocks := hv.2 (sub, b) (by simp)
    have ht2 : ∀ s ∈ later, s.tiles := fun s hs => ht s (List.mem_cons_of_mem _ hs)
    obtain ⟨_, hstart, hall⟩ := ht sub (List.mem_cons_self _ _)
    have ih := dense_block_end_le later bs hv2 ht2
    have hend : block_abs_index_at sub b + block_size_at sub b ≤ sub.get_dim := by
      rw [← hstart b hb, ← elements_before_succ, ← hall]
      exact elements_before_mono sub (b + 1) sub.get_n_blocks hb
    rw [dense_block_offset_cons, block_volume_cons, List.map_cons, List.prod_cons]
    calc block_abs_index_at sub b * (later.map sparse_bispace_1.get_dim).prod +
          block_size_at sub b * dense_block_offset later bs +
          block_size_at sub b * block_volume later bs
        = block_abs_index_at sub b * (later.map sparse_bispace_1.get_dim).prod +
          block_size_at sub b * (dense_block_offset later bs + block_volume later bs) := by
          rw [Nat.mul_add, Nat.add_assoc]
      _ ≤ block_abs_index_at sub b * (later.map sparse_bispace_1.get_dim).prod +
          block_size_at sub b * (later.map sparse_bispace_1.get_dim).prod :=
          Nat.add_le_add_left (Nat.mul_le_mul_left _ ih) _
      _ = (block_abs_index_at sub b + block_size_at sub b) *
          (later.map sparse_bispace_1.get_dim).prod := by rw [Nat.add_mul]
      _ ≤ sub.get_dim * (later.map sparse_bispace_1.get_dim).prod :=
          Nat.mul_le_mul_right _ hend

/-- In a dense space of tiled subspaces a block ends at or before the start of every
block that comes after it in lexicographic order. -/
theorem dense_block_end_le_of_lex_below : ∀ (subs : List sparse_bispace_1)
    (as bs : List Nat), valid_block_tuple subs as → valid_block_tuple subs bs →
    (∀ sub ∈ subs, sub.tiles) → lex_below as bs = true →
    dense_block_offset subs as + block_volume subs as ≤ dense_block_offset subs bs
  | [], as, _, hva, _, _, hlex => by
    have ha : as = [] := List.length_eq_zero.mp hva.1
    subst ha
    simp [lex_below] at hlex
  | _ :: _, [], _, hva, _, _, _ => by
    have := hva.1
    simp at this
  | _ :: _, _ :: _, [], _, hvb, _, _ => by
    have := hvb.1
    simp at this
  | sub :: later, a :: as, b :: bs, hva, hvb, ht, hlex => by
    have hva2 : valid_block_tuple later as := by
      refine ⟨by simpa using hva.1, fun p hp => hva.2 p ?_⟩
      simp [hp]
    have hvb2 : valid_block_tuple later bs := by
      refine ⟨by simpa using hvb.1, fun p hp => hvb.2 p ?_⟩
      simp [hp]
    have ha : a < sub.get_n_blocks := hva.2 (sub, a) (by simp)
    have hb : b < sub.get_n_blocks := hvb.2 (sub, b) (by simp)
    have ht2 : ∀ s ∈ later, s.tiles := fun s hs => ht s (List.mem_cons_of_mem _ hs)
    obtain ⟨_, hstart, _⟩ := ht sub (List.mem_cons_self _ _)
    rw [dense_block_offset_cons, dense_block_offset_cons, block_volume_cons]
    simp only [lex_below, Bool.or_eq_true, Bool.and_eq_true, decide_eq_true_eq] at hlex
    rcases hlex with hlt | ⟨heq, hrec⟩
    · have hend := dense_block_end_le later as hva2 ht2
      have hstep : block_abs_index_at sub a + block_size_at sub a ≤
          block_abs_index_at sub b := by
        rw [← hstart a ha, ← hstart b hb, ← elements_before_succ]
        exact elements_before_mono sub (a + 1) b hlt
      calc block_abs_index_at sub a * (later.map sparse_bispace_1.get_dim).prod +
            block_size_at sub a * dense_block_offset later as +
            block_size_at sub a * block_volume later as
          = block_abs_index_at sub a * (later.map sparse_bispace_1.get_dim).prod +
            block_size_at sub a * (dense_block_offset later as + block_volume later as) := by
            rw [Nat.mul_add, Nat.add_assoc]
        _ ≤ block_abs_index_at sub a * (later.map sparse_bispace_1.get_dim).prod +
            block_size_at sub a * (later.map sparse_bispace_1.get_dim).prod :=
            Nat.add_le_add_left (Nat.mul_le_mul_left _ hend) _
        _ = (block_abs_index_at sub a + block_size_at sub a) *
            (later.map sparse_bispace_1.get_dim).prod := by rw [Nat.add_mul]
        _ ≤ block_abs_index_at sub b * (later.map sparse_bispace_1.get_dim).prod :=
            Nat.mul_le_mul_right _ hstep
        _ ≤ _ := Nat.le_add_right _ _
    · subst heq
      have ih := dense_block_end_le_of_lex_below later as bs hva2 hvb2 ht2 hrec
      calc block_abs_index_at sub a * (later.map sparse_bispace_1.get_dim).prod +
            block_size_at sub a * dense_block_offset later as +
            block_size_at sub a * block_volume later as
          = block_abs_index_at sub a * (later.map sparse_bispace_1.get_dim).prod +
            block_size_at sub a * (dense_block_offset later as + block_volume later as) := by
            rw [Nat.mul_add, Nat.add_assoc]
        _ ≤ _ := Nat.add_le_add_left (Nat.mul_le_mul_left _ ih) _

/-- Two different block tuples of the same length are ordered one way or the other. -/
theorem lex_below_total : ∀ (as bs : List Nat), as.length = bs.length → as ≠ bs →
    lex_below as bs = true ∨ lex_below bs as = true
  | [], [], _, hne => absurd rfl hne
  | [], _ :: _, hl, _ => by simp at hl
  | _ :: _, [], hl, _ => by simp at hl
  | a :: as, b :: bs, hl, hne => by
    simp only [lex_below, Bool.or_eq_true, Bool.and_eq_true, decide_eq_true_eq]
    rcases Nat.lt_trichotomy a b with h | h | h
    · exact .inl (.inl h)
    · subst h
      have hne2 : as ≠ bs := fun h2 => hne (by rw [h2])
      rcases lex_below_total as bs (by simpa using hl) hne2 with h3 | h3
      · exact .inl (.inr ⟨rfl, h3⟩)
      · exact .inr (.inr ⟨rfl, h3⟩)
    · exact .inr (.inl h)

/-- The last block tuple of tiled subspaces is valid, and its block ends at the product
of the dimensions. -/
theorem last_block_end : ∀ (subs : List sparse_bispace_1), (∀ sub ∈ subs, sub.tiles) →
    valid_block_tuple subs (last_block_tuple subs) ∧
      dense_block_offset subs (last_block_tuple subs) +
        block_volume subs (last_block_tuple subs) =
        (subs.map sparse_bispace_1.get_dim).prod
  | [], _ => by
    refine ⟨⟨rfl, by simp [last_block_tuple]⟩, ?_⟩
    simp [last_block_tuple, dense_block_offset_nil, block_volume]
  | sub :: later, ht => by
    have ht2 : ∀ s ∈ later, s.tiles := fun s hs => ht s (List.mem_cons_of_mem _ hs)
    obtain ⟨hn, hstart, hall⟩ := ht sub (List.mem_cons_self _ _)
    obtain ⟨hv, hend⟩ := last_block_end later ht2
    have hb : sub.get_n_blocks - 1 < sub.get_n_blocks := by omega
    have hlast : last_block_tuple (sub :: later) =
        (sub.get_n_blocks - 1) :: last_block_tuple later := rfl
    have hsum : block_abs_index_at sub (sub.get_n_blocks - 1) +
        block_size_at sub (sub.get_n_blocks - 1) = sub.get_dim := by
      rw [← hstart _ hb, ← elements_before_succ, ← hall]
      congr 1
      omega
    refine ⟨⟨by simp [last_block_tuple], ?_⟩, ?_⟩
    · intro p hp
      rw [hlast, List.zip_cons_cons, List.mem_cons] at hp
      rcases hp with rfl | hp
      · exact hb
      · exact hv.2 p hp
    · rw [hlast, dense_block_offset_cons, block_volume_cons, List.map_cons, List.prod_cons,
        Nat.add_assoc, ← Nat.mul_add, hend, ← hsum, Nat.add_mul]

/-- The all-zero block tuple of tiled subspaces is valid and has offset 0. -/
theorem zero_block_offset (subs : List sparse_bispace_1) (ht : ∀ sub ∈ subs, sub.tiles) :
    valid_block_tuple subs (List.replicate subs.length 0) ∧
      dense_block_offset subs (List.replicate subs.length 0) = 0 := by
  have hmem : ∀ p ∈ List.zip subs (List.replicate subs.length 0), p.1 ∈ subs ∧ p.2 = 0 := by
    intro p hp
    obtain ⟨h1, h2⟩ := List.of_mem_zip hp
    exact ⟨h1, (List.mem_replicate.mp h2).2⟩
  have hv : valid_block_tuple subs (List.replicate subs.length 0) := by
    refine ⟨by simp, fun p hp => ?_⟩
    obtain ⟨h1, h2⟩ := hmem p hp
    rw [h2]
    exact (ht p.1 h1).1
  refine ⟨hv, (offsets_zero_of_starts_zero subs _ hv (fun p hp => ?_)).1⟩
  obtain ⟨h1, h2⟩ := hmem p hp
  obtain ⟨hn, hstart, _⟩ := ht p.1 h1
  rw [h2, ← hstart 0 (by omega)]
  simp [elements_before]

end sparse_bispace

namespace bispace_expr

/-- Claim C33: for a space of order `N ≥ 2` built with `|` alone from one-dimensional
spaces that the constructor and successful `split` calls produced, each of dimension at
least 1, the block-major layout is a gap-free tiling in lexicographic block order.
`get_block_offset` of the all-zero block tuple is 0; for every valid block tuple it
returns the sum, over all valid block tuples that are lexicographically smaller, of the
block volume (the product of the member block sizes), as `size_t` computes it; every
block ends at or before the product of the dimensions, distinct blocks occupy disjoint
ranges, and the last block ends at the product of the dimensions, which is `get_nnz()`.
When that product is representable all these values are exact. -/
theorem dense_layout_tiling (e : bispace_expr) (h : 2 ≤ e.spaces.length)
    (hsplit : ∀ sub ∈ e.spaces, ∃ dim, 1 ≤ dim ∧ sub.reachable dim) :
    ∃ s, e.eval = some (.ok (.order_n s)) ∧ s.m_subspaces = e.spaces ∧
      s.get_n_sparse_groups = 0 ∧
      (∀ tree_search : sparse_block_tree_any_order → List Nat → Except Exn Nat,
        sparse_bispace.get_block_offset tree_search s (List.replicate s.N 0) =
          some (.ok (0, s))) ∧
      (∀ (tree_search : sparse_block_tree_any_order → List Nat → Except Exn Nat)
        (b : List Nat), sparse_bispace.valid_block_tuple s.m_subspaces b →
        sparse_bispace.get_block_offset tree_search s b =
            some (.ok (sparse_bispace.tiling_offset s.m_subspaces b % 2 ^ 64, s)) ∧
          sparse_bispace.tiling_offset s.m_subspaces b +
              sparse_bispace.block_volume s.m_subspaces b ≤
            (s.m_subspaces.map sparse_bispace_1.get_dim).prod) ∧
      (∀ b c : List Nat, sparse_bispace.valid_block_tuple s.m_subspaces b →
        sparse_bispace.valid_block_tuple s.m_subspaces c → b ≠ c →
        sparse_bispace.tiling_offset s.m_subspaces b +
              sparse_bispace.block_volume s.m_subspaces b ≤
            sparse_bispace.tiling_offset s.m_subspaces c ∨
          sparse_bispace.tiling_offset s.m_subspaces c +
              sparse_bispace.block_volume s.m_subspaces c ≤
            sparse_bispace.tiling_offset s.m_subspaces b) ∧
      (sparse_bispace.valid_block_tuple s.m_subspaces
          (sparse_bispace.last_block_tuple s.m_subspaces) ∧
        sparse_bispace.tiling_offset s.m_subspaces
            (sparse_bispace.last_block_tuple s.m_subspaces) +
          sparse_bispace.block_volume s.m_subspaces
            (sparse_bispace.last_block_tuple s.m_subspaces) =
          (s.m_subspaces.map sparse_bispace_1.get_dim).prod) ∧
      s.get_nnz = (s.m_subspaces.map sparse_bispace_1.get_dim).prod % 2 ^ 64 ∧
      ((s.m_subspaces.map sparse_bispace_1.get_dim).prod < 2 ^ 64 →
        s.get_nnz = (s.m_subspaces.map sparse_bispace_1.get_dim).prod ∧
        ∀ (tree_search : sparse_block_tree_any_order → List Nat → Except Exn Nat)
          (b : List Nat), sparse_bispace.valid_block_tuple s.m_subspaces b →
          sparse_bispace.get_block_offset tree_search s b =
            some (.ok (sparse_bispace.tiling_offset s.m_subspaces b, s))) := by
  obtain ⟨a, ha, hwf, has, hao, hoff, hat, _, hdims⟩ := eval_dense e
  cases a with
  | order_1 s1 =>
    simp only [bispace_operand.order] at hao
    omega
  | order_n s =>
    have hinner := eval_inner_sizes e s ha
    have hsub : s.m_subspaces = e.spaces := has
    rw [hdims s rfl, List.length_map, ← hsub] at hinner
    have ht : ∀ sub ∈ s.m_subspaces, sub.tiles := by
      intro sub hs
      rw [hsub] at hs
      obtain ⟨dim, hdim, hr⟩ := hsplit sub hs
      exact sparse_bispace.reachable_tiles hdim hr
    have hnnz : s.get_nnz = (s.m_subspaces.map sparse_bispace_1.get_dim).prod % 2 ^ 64 := by
      rw [sparse_bispace.get_nnz, hdims s rfl, foldl_size_t_mul_one, hsub]
      rfl
    have hget : ∀ (ts : sparse_block_tree_any_order → List Nat → Except Exn Nat)
        (b : List Nat), sparse_bispace.valid_block_tuple s.m_subspaces b →
        sparse_bispace.get_block_offset ts s b =
          some (.ok (sparse_bispace.tiling_offset s.m_subspaces b % 2 ^ 64, s)) := by
      intro ts b hv
      rw [sparse_bispace.tiling_offset_eq_dense _ _ hv ht]
      exact sparse_bispace.get_block_offset_dense ts s b hoff hinner hv
    have hend : ∀ b : List Nat, sparse_bispace.valid_block_tuple s.m_subspaces b →
        sparse_bispace.tiling_offset s.m_subspaces b +
            sparse_bispace.block_volume s.m_subspaces b ≤
          (s.m_subspaces.map sparse_bispace_1.get_dim).prod := by
      intro b hv
      rw [sparse_bispace.tiling_offset_eq_dense _ _ hv ht]
      exact sparse_bispace.dense_block_end_le _ _ hv ht
    obtain ⟨hvz, hz⟩ := sparse_bispace.zero_block_offset s.m_subspaces ht
    obtain ⟨hvl, hl⟩ := sparse_bispace.last_block_end s.m_subspaces ht
    have hsN : s.m_subspaces.length = s.N := hwf.1
    refine ⟨s, ha, hsub, ?_, fun ts => ?_, fun ts b hv => ⟨hget ts b hv, hend b hv⟩,
      fun b c hvb hvc hne => ?_, ⟨hvl, ?_⟩, hnnz, fun hlt => ⟨?_, fun ts b hv => ?_⟩⟩
    · simpa [sparse_bispace.get_n_sparse_groups, bispace_operand.sparse_trees] using hat
    · rw [← hsN, hget ts _ hvz, sparse_bispace.tiling_offset_eq_dense _ _ hvz ht, hz]
      rfl
    · rw [sparse_bispace.tiling_offset_eq_dense _ _ hvb ht,
        sparse_bispace.tiling_offset_eq_dense _ _ hvc ht]
      rcases sparse_bispace.lex_below_total b c (by rw [hvb.1, hvc.1]) hne with hlex | hlex
      · exact .inl (sparse_bispace.dense_block_end_le_of_lex_below _ b c hvb hvc ht hlex)
      · exact .inr (sparse_bispace.dense_block_end_le_of_lex_below _ c b hvc hvb ht hlex)
    · rw [sparse_bispace.tiling_offset_eq_dense _ _ hvl ht]
      exact hl
    · rw [hnnz, Nat.mod_eq_of_lt hlt]
    · have hle := hend b hv
      rw [hget ts b hv, Nat.mod_eq_of_lt (by omega)]

/-- The statement of `dense_layout_tiling` at `i | j` with `i` of dimension 10 split at
`[3, 7]` and `j` of dimension 6 split at `[2]`: the block `(1, 1)` starts at
`3 * 2 + 3 * 4 + 4 * 2 = 26`, after the blocks `(0, 0)`, `(0, 1)` and `(1, 0)`, and the
last block `(2, 1)` ends at `60 = get_nnz()`. -/
theorem dense_layout_tiling_witness :
    ∃ s, (bar (space (sparse_bispace_1.split (sparse_bispace_1.ctor 10) [3, 7]).1)
          (space (sparse_bispace_1.split (sparse_bispace_1.ctor 6) [2]).1)).eval =
          some (.ok (.order_n s)) ∧
      sparse_bispace.tiling_offset s.m_subspaces [1, 1] = 3 * 2 + 3 * 4 + 4 * 2 ∧
      sparse_bispace.get_block_offset (sparse_bispace.sample_tree_search []) s [1, 1] =
        some (.ok (26, s)) ∧
      sparse_bispace.last_block_tuple s.m_subspaces = [2, 1] ∧
      sparse_bispace.tiling_offset s.m_subspaces [2, 1] +
        sparse_bispace.block_volume s.m_subspaces [2, 1] = 60 ∧
      s.get_nnz = 60 := by
  obtain ⟨s, hs, hsub, _, _, _, _, _, _, hexact⟩ := dense_layout_tiling
    (bar (space (sparse_bispace_1.split (sparse_bispace_1.ctor 10) [3, 7]).1)
      (space (sparse_bispace_1.split (sparse_bispace_1.ctor 6) [2]).1)) (by decide)
    (fun sub hsub => by
      simp only [spaces, List.cons_append, List.nil_append, List.mem_cons,
        List.mem_singleton, List.not_mem_nil, or_false] at hsub
      rcases hsub with rfl | rfl
      · exact ⟨10, by decide, .split _ _ .ctor (by decide)⟩
      · exact ⟨6, by decide, .split _ _ .ctor (by decide)⟩)
  have hspaces : s.m_subspaces =
      [(sparse_bispace_1.split (sparse_bispace_1.ctor 10) [3, 7]).1,
        (sparse_bispace_1.split (sparse_bispace_1.ctor 6) [2]).1] := hsub
  obtain ⟨hnnz, hget⟩ := hexact (by rw [hspaces]; decide)
  have hv : sparse_bispace.valid_block_tuple s.m_subspaces [1, 1] := by
    rw [hspaces]
    decide
  have h26 : sparse_bispace.tiling_offset s.m_subspaces [1, 1] = 26 := by
    rw [hspaces]
    decide
  have hg := hget (sparse_bispace.sample_tree_search []) [1, 1] hv
  rw [h26] at hg
  refine ⟨s, hs, h26, hg, ?_, ?_, ?_⟩
  · rw [hspaces]
    decide
  · rw [hspaces]
    decide
  · rw [hnnz, hspaces]
    decide

end bispace_expr

/-! ### Evaluations -/

/-- Scenario A: a space of dimension 10 split at `[3, 7]` has block starts `0, 3, 7` and
block sizes adding up to 10. -/
theorem scenario_A_blocks :
    (sparse_bispace_1.split (sparse_bispace_1.ctor 10) [3, 7]).1.m_abs_indices = [0, 3, 7] ∧
      sparse_bispace_1.sum_block_sizes
        (sparse_bispace_1.split (sparse_bispace_1.ctor 10) [3, 7]).1 = .ok 10 := by
  decide

/-- Contracting the dense subspace of `sample_order_3` keeps the sparse group; contracting
a member of the order-2 group drops the group. -/
theorem contract_sample_order_3 :
    (sparse_bispace.contract sparse_bispace.sample_tree_contract
        sparse_bispace.sample_order_3 2).map
      (fun r => r.map (fun x => (x.subspaces.map sparse_bispace_1.get_dim, x.sparse_offsets)))
      = some (.ok ([10, 6], [0])) ∧
    (sparse_bispace.contract sparse_bispace.sample_tree_contract
        sparse_bispace.sample_order_3 0).map
      (fun r => r.map (fun x => (x.subspaces.map sparse_bispace_1.get_dim, x.sparse_offsets)))
      = some (.ok ([6, 4], [])) := by
  decide

end libtensor
